import Mathlib

/-!
# YM07 chess engine: position model, move generator and attack query

A shallow embedding of `utils.h`, `utils.cpp`, `board.cpp` and `moves.cpp`.

* `u64` words are natural numbers below `2 ^ 64`; every operation that can leave
  that range in the source is reduced modulo `2 ^ 64` here.
* `int` values (squares, piece codes, castle rights, clocks) are integers.
* The C arrays `pieces[13]`, `occupancies[3]` and the attack and Zobrist tables are
  total maps from the index to the stored word.  Indexing outside the declared
  bounds, and shifting a 64-bit word by a count outside `0..63`, is undefined in
  the source; the embedding makes the shifted word `0` there and every statement
  that depends on such an access carries the range as a hypothesis.
-/

namespace YM07

/-! ## utils.h -/

/-- The type `enum Color { WHITE = 0, BLACK = 1 }`. -/
inductive Color where
  | WHITE
  | BLACK
  deriving DecidableEq, Repr

/-- Numeric value of a colour, as used to index per-colour arrays. -/
def Color.toInt : Color → Int
  | .WHITE => 0
  | .BLACK => 1

/-- The cast `(Color)(!c)`. -/
def Color.other : Color → Color
  | .WHITE => .BLACK
  | .BLACK => .WHITE

def EMPTY : Int := 0
def WHITE_PAWN : Int := 1
def WHITE_KNIGHT : Int := 2
def WHITE_BISHOP : Int := 3
def WHITE_ROOK : Int := 4
def WHITE_QUEEN : Int := 5
def WHITE_KING : Int := 6
def BLACK_PAWN : Int := 7
def BLACK_KNIGHT : Int := 8
def BLACK_BISHOP : Int := 9
def BLACK_ROOK : Int := 10
def BLACK_QUEEN : Int := 11
def BLACK_KING : Int := 12

def SQ_NONE : Int := -1

/-- The modulus of `u64` arithmetic. -/
def TWO64 : Nat := 18446744073709551616

/-- The word with all 64 bits set. -/
def MASK64 : Nat := 18446744073709551615

/-- Bitwise complement `~x` of a `u64`. -/
def not64 (x : Nat) : Nat := MASK64 ^^^ x

/-- The word `1ULL << s` for an `int` shift count `s`. -/
def sqbit (s : Int) : Nat := if 0 ≤ s ∧ s < 64 then 2 ^ s.toNat else 0

/-- Array store `a[i] = v`. -/
def setAt (a : Int → Nat) (i : Int) (v : Nat) : Int → Nat :=
  fun j => if j = i then v else a j

def index64 : List Int :=
  [0, 1, 48, 2, 57, 49, 28, 3,
   61, 58, 50, 42, 38, 29, 17, 4,
   62, 55, 59, 36, 53, 51, 43, 22,
   45, 39, 33, 30, 24, 18, 12, 5,
   63, 47, 56, 27, 60, 41, 37, 16,
   54, 35, 52, 21, 44, 32, 23, 11,
   46, 26, 40, 15, 34, 20, 31, 10,
   25, 14, 19, 9, 13, 8, 7, 6]

def debruijn64 : Nat := 0x03f79d71b4cb0a89

/-- The word `b & (~b + 1ULL)`, the lowest set bit of `b`. -/
def lsb (b : Nat) : Nat := b &&& ((not64 b + 1) % TWO64)

/-- De Bruijn bit scan: `index64[((b & (~b + 1)) * debruijn64) >> 58]`. -/
def bit_scan_forward (b : Nat) : Int :=
  if b = 0 then 64
  else index64.getD (((lsb b * debruijn64) % TWO64) >>> 58) 0

/-- Kernighan population count; the loop runs at most 64 times on a `u64`. -/
def popcountLoop : Nat → Nat → Int → Int
  | 0, _, count => count
  | fuel + 1, b, count =>
    if b = 0 then count else popcountLoop fuel (b &&& (b - 1)) (count + 1)

def popcount (b : Nat) : Int := popcountLoop 64 b 0

def sq_index (rank file : Int) : Int := rank * 8 + file

/-- The shift `sq >> 3` on `int` (arithmetic shift, floor division by 8). -/
def rank_of (sq : Int) : Int := sq / 8

/-- The mask `sq & 7` on `int` (two's complement, the residue modulo 8). -/
def file_of (sq : Int) : Int := sq % 8

/-! ## utils.cpp -/

def char_to_piece (c : Char) : Int :=
  if c = 'P' then WHITE_PAWN
  else if c = 'N' then WHITE_KNIGHT
  else if c = 'B' then WHITE_BISHOP
  else if c = 'R' then WHITE_ROOK
  else if c = 'Q' then WHITE_QUEEN
  else if c = 'K' then WHITE_KING
  else if c = 'p' then BLACK_PAWN
  else if c = 'n' then BLACK_KNIGHT
  else if c = 'b' then BLACK_BISHOP
  else if c = 'r' then BLACK_ROOK
  else if c = 'q' then BLACK_QUEEN
  else if c = 'k' then BLACK_KING
  else EMPTY

def piece_to_char (piece : Int) : Char :=
  if piece = WHITE_PAWN then 'P'
  else if piece = WHITE_KNIGHT then 'N'
  else if piece = WHITE_BISHOP then 'B'
  else if piece = WHITE_ROOK then 'R'
  else if piece = WHITE_QUEEN then 'Q'
  else if piece = WHITE_KING then 'K'
  else if piece = BLACK_PAWN then 'p'
  else if piece = BLACK_KNIGHT then 'n'
  else if piece = BLACK_BISHOP then 'b'
  else if piece = BLACK_ROOK then 'r'
  else if piece = BLACK_QUEEN then 'q'
  else if piece = BLACK_KING then 'k'
  else '.'

/-- The Zobrist words `zobrist_piece[13][64]`, `zobrist_castle[16]`,
`zobrist_enpassant[64]` and `zobrist_side`.  The source fills them from a seeded
`std::mt19937_64`; the embedding takes the filled tables as given. -/
structure Zobrist where
  zobrist_piece : Int → Int → Nat
  zobrist_castle : Int → Nat
  zobrist_enpassant : Int → Nat
  zobrist_side : Nat

/-! ## board.h -/

/-- The class `Board`. -/
structure Board where
  pieces : Int → Nat
  occupancies : Int → Nat
  side_to_move : Color
  castle_rights : Int
  enpassant_square : Int
  halfmove_clock : Int
  fullmove_number : Int
  zobrist_key : Nat

/-- The struct `Move` of `moves.h`; its fields `from` and `to` are `from_` and `to_`. -/
structure Move where
  from_ : Int
  to_ : Int
  piece : Int
  captured : Int
  promotion : Int
  isEnPassant : Bool
  isCastle : Bool
  deriving DecidableEq, Repr

/-- The struct `Board::UndoInfo`. -/
structure UndoInfo where
  from_ : Int
  to_ : Int
  piece : Int
  captured : Int
  promotion : Int
  isEnPassant : Bool
  isCastle : Bool
  castle_rights : Int
  enpassant : Int
  halfmove : Int
  zobrist_key : Nat
  deriving DecidableEq, Repr

/-- The squares visited by `while (bb) { sq = bit_scan_forward(bb); bb &= bb - 1; ... }`,
in order.  A `u64` has at most 64 set bits, so 64 rounds exhaust it. -/
def scanLoop : Nat → Nat → List Int
  | 0, _ => []
  | fuel + 1, bb =>
    if bb = 0 then [] else bit_scan_forward bb :: scanLoop fuel (bb &&& (bb - 1))

def scanBits (bb : Nat) : List Int := scanLoop 64 bb

/-- The inner loop of `compute_zobrist_key` for one piece kind. -/
def zobristPieceLoop (z : Zobrist) (p : Int) (bb : Nat) (h : Nat) : Nat :=
  (scanBits bb).foldl (fun acc sq => acc ^^^ z.zobrist_piece p sq) h

/-- The pieces `1..12` in loop order. -/
def pieceRange : List Int := [1, 2, 3, 4, 5, 6, 7, 8, 9, 10, 11, 12]

def compute_zobrist_key (z : Zobrist) (b : Board) : Nat :=
  let h := pieceRange.foldl (fun acc p => zobristPieceLoop z p (b.pieces p) acc) 0
  let h := if b.enpassant_square ≠ SQ_NONE then h ^^^ z.zobrist_enpassant b.enpassant_square else h
  let h := h ^^^ z.zobrist_castle b.castle_rights
  if b.side_to_move = Color.BLACK then h ^^^ z.zobrist_side else h

/-! ## board.cpp -/

def Board.clear (_b : Board) : Board :=
  { pieces := fun _ => 0
    occupancies := fun _ => 0
    side_to_move := Color.WHITE
    castle_rights := 0
    enpassant_square := SQ_NONE
    halfmove_clock := 0
    fullmove_number := 1
    zobrist_key := 0 }

/-- The OR of `pieces[lo]` .. as listed. -/
def orPieces (pieces : Int → Nat) (ps : List Int) : Nat :=
  ps.foldl (fun acc p => acc ||| pieces p) 0

def Board.update_occupancies (b : Board) : Board :=
  let w := orPieces b.pieces [1, 2, 3, 4, 5, 6]
  let k := orPieces b.pieces [7, 8, 9, 10, 11, 12]
  { b with occupancies := setAt (setAt (setAt b.occupancies 0 w) 1 k) 2 (w ||| k) }

/-- The statement `pieces[p] &= ~(1ULL << s)`. -/
def clearBit (pieces : Int → Nat) (p s : Int) : Int → Nat :=
  setAt pieces p (pieces p &&& not64 (sqbit s))

/-- The statement `pieces[p] |= (1ULL << s)`. -/
def setBit (pieces : Int → Nat) (p s : Int) : Int → Nat :=
  setAt pieces p (pieces p ||| sqbit s)

/-- The rook relocation shared by `make_move` and `undo_move`: for a castle move to
`to`, clear the rook bit at `off` and set it at `on`. -/
def castleRook (pieces : Int → Nat) (to_ : Int) (undo : Bool) : Int → Nat :=
  if to_ = 62 then
    if undo then setBit (clearBit pieces WHITE_ROOK 61) WHITE_ROOK 63
    else setBit (clearBit pieces WHITE_ROOK 63) WHITE_ROOK 61
  else if to_ = 58 then
    if undo then setBit (clearBit pieces WHITE_ROOK 59) WHITE_ROOK 56
    else setBit (clearBit pieces WHITE_ROOK 56) WHITE_ROOK 59
  else if to_ = 6 then
    if undo then setBit (clearBit pieces BLACK_ROOK 5) BLACK_ROOK 7
    else setBit (clearBit pieces BLACK_ROOK 7) BLACK_ROOK 5
  else if to_ = 2 then
    if undo then setBit (clearBit pieces BLACK_ROOK 3) BLACK_ROOK 0
    else setBit (clearBit pieces BLACK_ROOK 0) BLACK_ROOK 3
  else pieces

/-- The two's-complement image of an `int` in 32 bits. -/
def toU32 (a : Int) : Nat := (a % 4294967296).toNat

/-- The `int` whose two's-complement image is the 32-bit word `n`. -/
def ofU32 (n : Nat) : Int := if n < 2147483648 then (n : Int) else (n : Int) - 4294967296

/-- The `int` operation `a & b`. -/
def intAnd (a b : Int) : Int := ofU32 (toU32 a &&& toU32 b)

/-- The `int` operation `a | b`. -/
def intOr (a b : Int) : Int := ofU32 (toU32 a ||| toU32 b)

/-- The `int` operation `~a`. -/
def intNot (a : Int) : Int := ofU32 (4294967295 ^^^ toU32 a)

/-- The `int` operation `r & ~m`. -/
def andNot (r m : Int) : Int := intAnd r (intNot m)

/-- The king clause of the castle-rights update of `make_move` (lines 214-218). -/
def rightsAfterKing (r piece : Int) : Int :=
  if piece = WHITE_KING then andNot r (intOr 1 2)
  else if piece = BLACK_KING then andNot r (intOr 4 8)
  else r

/-- The clause for a rook leaving a corner (lines 220-226), shared with the clause
for a rook captured on a corner (lines 228-234): `rook` is the moving or captured
piece and `sq` the square it leaves or is captured on. -/
def rightsAfterRook (r rook sq : Int) : Int :=
  if rook = WHITE_ROOK then
    let r := if sq = 63 then andNot r 1 else r
    if sq = 56 then andNot r 2 else r
  else if rook = BLACK_ROOK then
    let r := if sq = 7 then andNot r 4 else r
    if sq = 0 then andNot r 8 else r
  else r

/-- The castle-rights update of `make_move` (lines 214-234). -/
def updateCastleRights (r : Int) (move : Move) : Int :=
  rightsAfterRook (rightsAfterRook (rightsAfterKing r move.piece) move.piece move.from_)
    move.captured move.to_

/-- The piece-bitboard part of `Board::make_move` (lines 181-210). -/
def makePieces (b : Board) (move : Move) : Int → Nat :=
  let ps := clearBit b.pieces move.piece move.from_
  let ps :=
    if move.isEnPassant then
      let capture_square := if b.side_to_move = Color.WHITE then move.to_ - 8 else move.to_ + 8
      clearBit ps move.captured capture_square
    else if move.captured ≠ EMPTY then clearBit ps move.captured move.to_
    else ps
  let ps :=
    if move.promotion ≠ EMPTY then setBit ps move.promotion move.to_
    else setBit ps move.piece move.to_
  if move.isCastle then castleRook ps move.to_ false else ps

/-- The undo record filled in at the top of `Board::make_move`. -/
def Board.undoInfo (b : Board) (move : Move) : UndoInfo :=
  { from_ := move.from_
    to_ := move.to_
    piece := move.piece
    captured := move.captured
    promotion := move.promotion
    isEnPassant := move.isEnPassant
    isCastle := move.isCastle
    castle_rights := b.castle_rights
    enpassant := b.enpassant_square
    halfmove := b.halfmove_clock
    zobrist_key := b.zobrist_key }

/-- The board left by `Board::make_move`. -/
def Board.make_move (z : Zobrist) (b : Board) (move : Move) : Board :=
  let b1 := Board.update_occupancies { b with pieces := makePieces b move }
  let ep :=
    if move.piece = WHITE_PAWN ∧ move.to_ - move.from_ = 16 then move.from_ + 8
    else if move.piece = BLACK_PAWN ∧ move.from_ - move.to_ = 16 then move.from_ - 8
    else SQ_NONE
  let hm :=
    if move.piece = WHITE_PAWN ∨ move.piece = BLACK_PAWN ∨ move.captured ≠ EMPTY then 0
    else b.halfmove_clock + 1
  let fm := if b.side_to_move = Color.BLACK then b.fullmove_number + 1 else b.fullmove_number
  let b2 : Board :=
    { b1 with
      castle_rights := updateCastleRights b.castle_rights move
      enpassant_square := ep
      halfmove_clock := hm
      fullmove_number := fm
      side_to_move := if b.side_to_move = Color.WHITE then Color.BLACK else Color.WHITE }
  { b2 with zobrist_key := compute_zobrist_key z b2 }

/-- The piece-bitboard part of `Board::undo_move` (lines 271-299); `stm` is the side
to move after it has been switched back. -/
def undoPieces (pieces : Int → Nat) (stm : Color) (undo : UndoInfo) : Int → Nat :=
  let ps :=
    if undo.promotion ≠ EMPTY then clearBit pieces undo.promotion undo.to_
    else clearBit pieces undo.piece undo.to_
  let ps := setBit ps undo.piece undo.from_
  let ps :=
    if undo.isEnPassant then
      let capture_square := if stm = Color.WHITE then undo.to_ - 8 else undo.to_ + 8
      setBit ps undo.captured capture_square
    else if undo.captured ≠ EMPTY then setBit ps undo.captured undo.to_
    else ps
  if undo.isCastle then castleRook ps undo.to_ true else ps

def Board.undo_move (b : Board) (undo : UndoInfo) : Board :=
  let stm := if b.side_to_move = Color.WHITE then Color.BLACK else Color.WHITE
  let fm := if stm = Color.BLACK then b.fullmove_number - 1 else b.fullmove_number
  let b1 : Board :=
    { b with
      side_to_move := stm
      halfmove_clock := undo.halfmove
      fullmove_number := fm
      castle_rights := undo.castle_rights
      enpassant_square := undo.enpassant
      pieces := undoPieces b.pieces stm undo }
  { Board.update_occupancies b1 with zobrist_key := undo.zobrist_key }

/-! ## moves.cpp: attack tables -/

/-- The globals `knight_moves[64]`, `king_moves[64]` and `pawn_attacks[2][64]`. -/
structure MoveTables where
  knight_moves : Int → Nat
  king_moves : Int → Nat
  pawn_attacks : Int → Int → Nat

/-- The tables as the C++ runtime zero-initialises them before `init_move_tables`
has run. -/
def MoveTables.static_init : MoveTables :=
  { knight_moves := fun _ => 0
    king_moves := fun _ => 0
    pawn_attacks := fun _ _ => 0 }

def knight_dx : List Int := [1, 2, 2, 1, -1, -2, -2, -1]
def knight_dy : List Int := [2, 1, -1, -2, -2, -1, 1, 2]
def king_dx : List Int := [1, 1, 0, -1, -1, -1, 0, 1]
def king_dy : List Int := [0, 1, 1, 1, 0, -1, -1, -1]

/-- The inner loop of `init_move_tables` for one square and one pattern of steps. -/
def stepMask (dx dy : List Int) (sq : Int) : Nat :=
  let r := rank_of sq
  let f := file_of sq
  (List.zip dy dx).foldl
    (fun acc d =>
      let rr := r + d.1
      let ff := f + d.2
      if 0 ≤ rr ∧ rr < 8 ∧ 0 ≤ ff ∧ ff < 8 then acc ||| sqbit (rr * 8 + ff) else acc)
    0

/-- The pawn part of `init_move_tables` for colour index `c` and square `sq`. -/
def pawnMask (c sq : Int) : Nat :=
  let r := rank_of sq
  let f := file_of sq
  if c = 0 then
    if r < 7 then
      let m := if f > 0 then sqbit (sq + 7) else 0
      if f < 7 then m ||| sqbit (sq + 9) else m
    else 0
  else
    if r > 0 then
      let m := if f > 0 then sqbit (sq - 9) else 0
      if f < 7 then m ||| sqbit (sq - 7) else m
    else 0

/-- The tables after `init_move_tables()`; the loops write entries `0..63` only. -/
def init_move_tables : MoveTables :=
  { knight_moves := fun sq => if 0 ≤ sq ∧ sq < 64 then stepMask knight_dx knight_dy sq else 0
    king_moves := fun sq => if 0 ≤ sq ∧ sq < 64 then stepMask king_dx king_dy sq else 0
    pawn_attacks := fun c sq =>
      if (c = 0 ∨ c = 1) ∧ 0 ≤ sq ∧ sq < 64 then pawnMask c sq else 0 }

def dirsR : List (Int × Int) := [(1, 0), (-1, 0), (0, 1), (0, -1)]
def dirsB : List (Int × Int) := [(1, 1), (1, -1), (-1, 1), (-1, -1)]

/-- The ray walk of `get_slider_attacks` in one direction; a ray has at most 7
squares, so 8 rounds always reach the exit of the `while`. -/
def rayLoop (occ : Nat) (dr df : Int) : Nat → Int → Int → Nat → Nat
  | 0, _, _, attacks => attacks
  | fuel + 1, rr, ff, attacks =>
    if 0 ≤ rr ∧ rr < 8 ∧ 0 ≤ ff ∧ ff < 8 then
      let s := rr * 8 + ff
      let attacks := attacks ||| sqbit s
      if occ &&& sqbit s ≠ 0 then attacks
      else rayLoop occ dr df fuel (rr + dr) (ff + df) attacks
    else attacks

/-- The directions walked: `dirsB` then `dirsR` for a queen, `dirsB` for
`bishop` alone, `dirsR` otherwise. -/
def sliderDirs (bishop rook : Bool) : List (Int × Int) :=
  if bishop && rook then dirsB ++ dirsR
  else if bishop then dirsB
  else dirsR

def get_slider_attacks (square : Int) (board : Board) (bishop rook : Bool) : Nat :=
  let r := rank_of square
  let f := file_of square
  (sliderDirs bishop rook).foldl
    (fun attacks d => rayLoop (board.occupancies 2) d.1 d.2 8 (r + d.1) (f + d.2) attacks)
    0

/-! ## board.cpp: attack queries -/

def Board.is_square_attacked (t : MoveTables) (b : Board) (square : Int) (attacker : Color) :
    Bool :=
  let pawnHit : Bool :=
    if attacker = Color.WHITE then
      (decide (file_of square > 0 ∧ rank_of square < 7 ∧
          b.pieces WHITE_PAWN &&& sqbit (square + 7) ≠ 0)) ||
      (decide (file_of square < 7 ∧ rank_of square < 7 ∧
          b.pieces WHITE_PAWN &&& sqbit (square + 9) ≠ 0))
    else
      (decide (file_of square > 0 ∧ rank_of square > 0 ∧
          b.pieces BLACK_PAWN &&& sqbit (square - 9) ≠ 0)) ||
      (decide (file_of square < 7 ∧ rank_of square > 0 ∧
          b.pieces BLACK_PAWN &&& sqbit (square - 7) ≠ 0))
  if pawnHit then true
  else
    let attacker_knights :=
      if attacker = Color.WHITE then b.pieces WHITE_KNIGHT else b.pieces BLACK_KNIGHT
    if t.knight_moves square &&& attacker_knights ≠ 0 then true
    else
      let attacker_king :=
        if attacker = Color.WHITE then b.pieces WHITE_KING else b.pieces BLACK_KING
      if t.king_moves square &&& attacker_king ≠ 0 then true
      else
        let attacker_bishops_queens :=
          if attacker = Color.WHITE then b.pieces WHITE_BISHOP ||| b.pieces WHITE_QUEEN
          else b.pieces BLACK_BISHOP ||| b.pieces BLACK_QUEEN
        if get_slider_attacks square b true false &&& attacker_bishops_queens ≠ 0 then true
        else
          let attacker_rooks_queens :=
            if attacker = Color.WHITE then b.pieces WHITE_ROOK ||| b.pieces WHITE_QUEEN
            else b.pieces BLACK_ROOK ||| b.pieces BLACK_QUEEN
          decide (get_slider_attacks square b false true &&& attacker_rooks_queens ≠ 0)

def Board.in_check (t : MoveTables) (b : Board) (side : Color) : Bool :=
  let kings := if side = Color.WHITE then b.pieces WHITE_KING else b.pieces BLACK_KING
  let king_square := if kings ≠ 0 then bit_scan_forward kings else SQ_NONE
  if king_square = SQ_NONE then true
  else b.is_square_attacked t king_square side.other

/-! ## moves.cpp: move generator -/

/-- The scan `cap = 0; for (p = lo; p <= hi; p++) if (pieces[p] & (1ULL << s)) { cap = p; break; }`
over the listed piece codes. -/
def firstPieceAt (pieces : Int → Nat) (ps : List Int) (s : Int) : Int :=
  (ps.find? (fun p => decide (pieces p &&& sqbit s ≠ 0))).getD 0

def whitePieces : List Int := [1, 2, 3, 4, 5, 6]
def blackPieces : List Int := [7, 8, 9, 10, 11, 12]

/-- The piece codes of the side `c`, in loop order. -/
def piecesOf (c : Color) : List Int := if c = Color.WHITE then whitePieces else blackPieces

def whitePromos : List Int := [WHITE_QUEEN, WHITE_ROOK, WHITE_BISHOP, WHITE_KNIGHT]
def blackPromos : List Int := [BLACK_QUEEN, BLACK_ROOK, BLACK_BISHOP, BLACK_KNIGHT]

/-- One capture direction of a White pawn on `sq` towards `t` (`toL` or `toR`),
once the file guard has passed. -/
def whitePawnCapture (board : Board) (sq r t : Int) : List Move :=
  if r < 7 then
    (if board.occupancies 1 &&& sqbit t ≠ 0 then
      let cap := firstPieceAt board.pieces blackPieces t
      if r = 6 then whitePromos.map (fun promo => Move.mk sq t WHITE_PAWN cap promo false false)
      else [Move.mk sq t WHITE_PAWN cap 0 false false]
    else []) ++
    (if board.enpassant_square = t then [Move.mk sq t WHITE_PAWN BLACK_PAWN 0 true false]
    else [])
  else []

/-- One capture direction of a Black pawn on `sq` towards `t`. -/
def blackPawnCapture (board : Board) (sq r t : Int) : List Move :=
  if r > 0 then
    (if board.occupancies 0 &&& sqbit t ≠ 0 then
      let cap := firstPieceAt board.pieces whitePieces t
      if r = 1 then blackPromos.map (fun promo => Move.mk sq t BLACK_PAWN cap promo false false)
      else [Move.mk sq t BLACK_PAWN cap 0 false false]
    else []) ++
    (if board.enpassant_square = t then [Move.mk sq t BLACK_PAWN WHITE_PAWN 0 true false]
    else [])
  else []

/-- The body of the `while (pawns)` loop of `generate_pawn_moves` for the pawn on `sq`. -/
def pawnMovesFrom (board : Board) (sq : Int) : List Move :=
  let r := rank_of sq
  let f := file_of sq
  if board.side_to_move = Color.WHITE then
    let to_ := sq + 8
    (if r < 7 ∧ ¬ (board.occupancies 2 &&& sqbit to_ ≠ 0) then
      if r = 6 then whitePromos.map (fun promo => Move.mk sq to_ WHITE_PAWN 0 promo false false)
      else
        Move.mk sq to_ WHITE_PAWN 0 0 false false ::
          (if r = 1 ∧ ¬ (board.occupancies 2 &&& sqbit (sq + 16) ≠ 0) then
            [Move.mk sq (sq + 16) WHITE_PAWN 0 0 false false]
          else [])
    else []) ++
    (if f > 0 then whitePawnCapture board sq r (sq + 7) else []) ++
    (if f < 7 then whitePawnCapture board sq r (sq + 9) else [])
  else
    let to_ := sq - 8
    (if r > 0 ∧ ¬ (board.occupancies 2 &&& sqbit to_ ≠ 0) then
      if r = 1 then blackPromos.map (fun promo => Move.mk sq to_ BLACK_PAWN 0 promo false false)
      else
        Move.mk sq to_ BLACK_PAWN 0 0 false false ::
          (if r = 6 ∧ ¬ (board.occupancies 2 &&& sqbit (sq - 16) ≠ 0) then
            [Move.mk sq (sq - 16) BLACK_PAWN 0 0 false false]
          else [])
    else []) ++
    (if f > 0 then blackPawnCapture board sq r (sq - 9) else []) ++
    (if f < 7 then blackPawnCapture board sq r (sq - 7) else [])

def MoveGenerator.generate_pawn_moves (board : Board) : List Move :=
  let stm := board.side_to_move
  let pawns := board.pieces (if stm = Color.WHITE then WHITE_PAWN else BLACK_PAWN)
  (scanBits pawns).flatMap (pawnMovesFrom board)

/-- The loop nest shared by the knight, bishop, rook, queen and king generators:
for every square `sq` of `piece`, for every square `to` of `targets sq & ~own`,
push the move with the captured piece resolved among the opponent's pieces. -/
def pieceMoves (board : Board) (piece : Int) (attacks : Int → Nat) : List Move :=
  let stm := board.side_to_move
  (scanBits (board.pieces piece)).flatMap (fun sq =>
    let targets := attacks sq &&& not64 (board.occupancies stm.toInt)
    (scanBits targets).map (fun to_ =>
      Move.mk sq to_ piece (firstPieceAt board.pieces (piecesOf stm.other) to_) 0 false false))

def MoveGenerator.generate_knight_moves (t : MoveTables) (board : Board) : List Move :=
  pieceMoves board (if board.side_to_move = Color.WHITE then WHITE_KNIGHT else BLACK_KNIGHT)
    t.knight_moves

def MoveGenerator.generate_bishop_moves (board : Board) : List Move :=
  pieceMoves board (if board.side_to_move = Color.WHITE then WHITE_BISHOP else BLACK_BISHOP)
    (fun sq => get_slider_attacks sq board true false)

def MoveGenerator.generate_rook_moves (board : Board) : List Move :=
  pieceMoves board (if board.side_to_move = Color.WHITE then WHITE_ROOK else BLACK_ROOK)
    (fun sq => get_slider_attacks sq board false true)

def MoveGenerator.generate_queen_moves (board : Board) : List Move :=
  pieceMoves board (if board.side_to_move = Color.WHITE then WHITE_QUEEN else BLACK_QUEEN)
    (fun sq => get_slider_attacks sq board true true)

def MoveGenerator.generate_king_moves (t : MoveTables) (board : Board) : List Move :=
  pieceMoves board (if board.side_to_move = Color.WHITE then WHITE_KING else BLACK_KING)
    t.king_moves

/-- One `if` of `generate_castling_moves`: right bit `right`, between-squares mask
`mask`, king code `king` required on `k`, squares `k`, `s`, `d` tested against
`attacker`, move `k -> d` pushed. -/
def castleIf (t : MoveTables) (board : Board) (right : Int) (mask : Nat) (king k s d : Int)
    (attacker : Color) : List Move :=
  if intAnd board.castle_rights right ≠ 0 ∧
      ¬ (board.occupancies 2 &&& mask ≠ 0) ∧
      board.pieces king &&& sqbit k ≠ 0 ∧
      board.is_square_attacked t k attacker = false ∧
      board.is_square_attacked t s attacker = false ∧
      board.is_square_attacked t d attacker = false then
    [Move.mk k d king 0 0 false true]
  else []

def MoveGenerator.generate_castling_moves (t : MoveTables) (board : Board) : List Move :=
  if board.side_to_move = Color.WHITE then
    castleIf t board 1 0x60 WHITE_KING 60 61 62 Color.BLACK ++
    castleIf t board 2 0xE WHITE_KING 60 59 58 Color.BLACK
  else
    castleIf t board 4 0x6000000000000000 BLACK_KING 4 5 6 Color.WHITE ++
    castleIf t board 8 0xE00000000000000 BLACK_KING 4 3 2 Color.WHITE

/-- The contents of `moves` after `MoveGenerator::generate_moves(board, moves)`. -/
def MoveGenerator.generate_moves (t : MoveTables) (board : Board) : List Move :=
  MoveGenerator.generate_pawn_moves board ++
  MoveGenerator.generate_knight_moves t board ++
  MoveGenerator.generate_bishop_moves board ++
  MoveGenerator.generate_rook_moves board ++
  MoveGenerator.generate_queen_moves board ++
  MoveGenerator.generate_king_moves t board ++
  MoveGenerator.generate_castling_moves t board

/-- The contents of `moves` after `MoveGenerator::generate_captures(board, moves)`. -/
def MoveGenerator.generate_captures (t : MoveTables) (board : Board) : List Move :=
  (MoveGenerator.generate_moves t board).filter
    (fun m => ! (decide (m.captured = 0) && decide (m.promotion = 0)))

/-- The value returned by `MoveGenerator::is_move_legal`: make the move and test
that the side that moved is not in check. -/
def MoveGenerator.is_move_legal (z : Zobrist) (t : MoveTables) (board : Board) (move : Move) :
    Bool :=
  let b1 := board.make_move z move
  ! b1.in_check t b1.side_to_move.other

/-! ## moves.cpp: algebraic move text

A `std::string` is the list of its characters, one per byte. -/

/-- The value of a `char` in arithmetic. -/
def charVal (c : Char) : Int := (c.toNat : Int)

/-- The `char` stored by `push_back` of an `int` value. -/
def charOfInt (v : Int) : Char := Char.ofNat (v % 256).toNat

/-- The lambda `sq_name` of `Move::to_uci`. -/
def sq_name (s : Int) : List Char :=
  [charOfInt (charVal 'a' + file_of s), charOfInt (charVal '1' + rank_of s)]

def Move.to_uci (m : Move) : List Char :=
  let s := sq_name m.from_ ++ sq_name m.to_
  if m.promotion ≠ 0 then
    let pc :=
      if m.promotion = WHITE_ROOK ∨ m.promotion = BLACK_ROOK then 'r'
      else if m.promotion = WHITE_KNIGHT ∨ m.promotion = BLACK_KNIGHT then 'n'
      else if m.promotion = WHITE_BISHOP ∨ m.promotion = BLACK_BISHOP then 'b'
      else 'q'
    s ++ [pc]
  else s

/-- The function `uci_to_move`.  The local `Move move` is not initialised, so
`move.piece` keeps whatever the stack held when no piece stands on `from`; that
value is the parameter `stale`. -/
def uci_to_move (stale : Int) (uci : List Char) (board : Board) : Move :=
  if uci.length < 4 then Move.mk (-1) (-1) 0 0 0 false false
  else
    let c0 := uci.getD 0 ' '
    let c1 := uci.getD 1 ' '
    let c2 := uci.getD 2 ' '
    let c3 := uci.getD 3 ' '
    let from_ := (charVal c0 - charVal 'a') + (charVal c1 - charVal '1') * 8
    let to_ := (charVal c2 - charVal 'a') + (charVal c3 - charVal '1') * 8
    let piece :=
      (pieceRange.find? (fun p => decide (board.pieces p &&& sqbit from_ ≠ 0))).getD stale
    let captured :=
      (pieceRange.find? (fun p => decide (p ≠ piece ∧ board.pieces p &&& sqbit to_ ≠ 0))).getD 0
    let promotion :=
      if uci.length = 5 then
        let pc := uci.getD 4 ' '
        if piece = WHITE_PAWN then
          if pc = 'q' then WHITE_QUEEN
          else if pc = 'r' then WHITE_ROOK
          else if pc = 'n' then WHITE_KNIGHT
          else if pc = 'b' then WHITE_BISHOP
          else 0
        else if piece = BLACK_PAWN then
          if pc = 'q' then BLACK_QUEEN
          else if pc = 'r' then BLACK_ROOK
          else if pc = 'n' then BLACK_KNIGHT
          else if pc = 'b' then BLACK_BISHOP
          else 0
        else 0
      else 0
    let isCastle :=
      decide ((piece = WHITE_KING ∨ piece = BLACK_KING) ∧ (from_ - to_).natAbs = 2)
    let ep :=
      decide ((piece = WHITE_PAWN ∨ piece = BLACK_PAWN) ∧ file_of from_ ≠ file_of to_ ∧
        captured = 0)
    let captured := if ep then (if piece = WHITE_PAWN then BLACK_PAWN else WHITE_PAWN) else captured
    Move.mk from_ to_ piece captured promotion ep isCastle

/-! ## board.cpp: FEN text -/

/-- The whitespace skipped by `operator>>`. -/
def isSpace (c : Char) : Bool :=
  c = ' ' || c = '\t' || c = '\n' || c = '\r' || c.toNat = 11 || c.toNat = 12

/-- The library call `std::isdigit`. -/
def isDigit (c : Char) : Bool := decide ('0'.toNat ≤ c.toNat ∧ c.toNat ≤ '9'.toNat)

/-- The extraction `ss >> token`: the next whitespace-delimited word and the rest of
the stream.  The word is empty exactly when the extraction fails, and then the
rest is empty too, so every later extraction fails as well. -/
def nextToken (s : List Char) : List Char × List Char :=
  let s1 := s.dropWhile isSpace
  (s1.takeWhile (fun c => ! isSpace c), s1.dropWhile (fun c => ! isSpace c))

/-- The two exceptions of `std::stoi`. -/
inductive StoiError where
  | invalid_argument
  | out_of_range
  deriving DecidableEq, Repr

/-- The library call `std::stoi(s)`: optional sign, then decimal digits, trailing
text ignored; no digit is `invalid_argument`, a value outside `int` is
`out_of_range`. -/
def stoi (s : List Char) : Except StoiError Int :=
  let s := s.dropWhile isSpace
  let neg := decide (s.head? = some '-')
  let s := if s.head? = some '-' ∨ s.head? = some '+' then s.tail else s
  let ds := s.takeWhile isDigit
  if ds = [] then Except.error StoiError.invalid_argument
  else
    let v : Int := ds.foldl (fun acc c => acc * 10 + (charVal c - charVal '0')) 0
    let v := if neg then -v else v
    if v < -2147483648 ∨ 2147483647 < v then Except.error StoiError.out_of_range
    else Except.ok v

/-- The state of the placement loop of `set_from_fen`. -/
structure PlacementState where
  rank : Int
  file : Int
  pieces : Int → Nat

/-- One round of the placement loop. -/
def placementStep (st : PlacementState) (c : Char) : PlacementState :=
  if c = '/' then { st with rank := st.rank - 1, file := 0 }
  else if isDigit c then { st with file := st.file + (charVal c - charVal '0') }
  else
    let piece := char_to_piece c
    let ps := if piece ≠ EMPTY then setBit st.pieces piece (st.rank * 8 + st.file) else st.pieces
    { st with pieces := ps, file := st.file + 1 }

/-- The castling field: the loop over its characters with the `switch`. -/
def parseCastling (castling : List Char) : Int :=
  if castling = ['-'] then 0
  else castling.foldl
    (fun r c =>
      if c = 'K' then intOr r 1
      else if c = 'Q' then intOr r 2
      else if c = 'k' then intOr r 4
      else if c = 'q' then intOr r 8
      else r)
    0

/-- The en-passant field. -/
def parseEp (ep : List Char) : Int :=
  if ep = ['-'] then SQ_NONE
  else
    let e0 := ep.getD 0 ' '
    let e1 := ep.getD 1 ' '
    if ep.length = 2 ∧ 'a'.toNat ≤ e0.toNat ∧ e0.toNat ≤ 'h'.toNat ∧
        '1'.toNat ≤ e1.toNat ∧ e1.toNat ≤ '8'.toNat then
      (charVal e1 - charVal '1') * 8 + (charVal e0 - charVal 'a')
    else SQ_NONE

/-- What a call of `Board::set_from_fen` leaves behind: the Board, and the exception
that ended the call if one did. -/
structure FenOutcome where
  board : Board
  thrown : Option StoiError

/-- The method `Board::set_from_fen`.  The Board before the call is `b`; the first
statement clears it. -/
def Board.set_from_fen (z : Zobrist) (b : Board) (fen : List Char) : FenOutcome :=
  let b := b.clear
  let (board_str, ss) := nextToken fen
  let st := board_str.foldl placementStep { rank := 7, file := 0, pieces := b.pieces }
  let b := Board.update_occupancies { b with pieces := st.pieces }
  let (color, ss) := nextToken ss
  let b := { b with side_to_move := if color = ['w'] then Color.WHITE else Color.BLACK }
  let (castling, ss) := nextToken ss
  let b := { b with castle_rights := parseCastling castling }
  let (ep, ss) := nextToken ss
  let b := { b with enpassant_square := parseEp ep }
  let (halfmove, ss) := nextToken ss
  match (if halfmove = [] then Except.ok b.halfmove_clock else stoi halfmove) with
  | Except.error e => { board := b, thrown := some e }
  | Except.ok hm =>
    let b := { b with halfmove_clock := hm }
    let (fullmove, _) := nextToken ss
    match (if fullmove = [] then Except.ok b.fullmove_number else stoi fullmove) with
    | Except.error e => { board := b, thrown := some e }
    | Except.ok fm =>
      let b := { b with fullmove_number := fm }
      { board := { b with zobrist_key := compute_zobrist_key z b }, thrown := none }

/-- Decimal digits of a natural number, most significant first, as `operator<<`
prints them; `fuel` bounds the number of digits. -/
def decimalLoop : Nat → Nat → List Char → List Char
  | 0, _, acc => acc
  | fuel + 1, n, acc =>
    let acc := Char.ofNat (48 + n % 10) :: acc
    if n / 10 = 0 then acc else decimalLoop fuel (n / 10) acc

/-- The text `operator<<` writes for an `int`. -/
def showInt (v : Int) : List Char :=
  if v < 0 then '-' :: decimalLoop (v.natAbs + 1) v.natAbs []
  else decimalLoop (v.natAbs + 1) v.natAbs []

/-- The state of the file loop of `to_fen` within one rank. -/
structure RankState where
  empty_count : Int
  out : List Char

/-- One round of the file loop of `to_fen`. -/
def fenFileStep (pieces : Int → Nat) (rank : Int) (st : RankState) (file : Int) : RankState :=
  let square := rank * 8 + file
  let piece_char :=
    match pieceRange.find? (fun p => decide (pieces p &&& sqbit square ≠ 0)) with
    | some p => piece_to_char p
    | none => '.'
  if piece_char = '.' then { st with empty_count := st.empty_count + 1 }
  else
    let out := if st.empty_count > 0 then st.out ++ showInt st.empty_count else st.out
    { empty_count := 0, out := out ++ [piece_char] }

def fileRange : List Int := [0, 1, 2, 3, 4, 5, 6, 7]
def rankRange : List Int := [7, 6, 5, 4, 3, 2, 1, 0]

/-- One round of the rank loop of `to_fen`. -/
def fenRankStep (pieces : Int → Nat) (out : List Char) (rank : Int) : List Char :=
  let st := fileRange.foldl (fenFileStep pieces rank) { empty_count := 0, out := out }
  let out := if st.empty_count > 0 then st.out ++ showInt st.empty_count else st.out
  if rank > 0 then out ++ ['/'] else out

/-- The placement field written by the rank loop of `to_fen`. -/
def fenPlacement (pieces : Int → Nat) : List Char :=
  rankRange.foldl (fenRankStep pieces) []

/-- The castling field written by `to_fen`. -/
def fenCastling (castle_rights : Int) : List Char :=
  if castle_rights = 0 then ['-']
  else
    (if intAnd castle_rights 1 ≠ 0 then ['K'] else []) ++
    (if intAnd castle_rights 2 ≠ 0 then ['Q'] else []) ++
    (if intAnd castle_rights 4 ≠ 0 then ['k'] else []) ++
    (if intAnd castle_rights 8 ≠ 0 then ['q'] else [])

/-- The en-passant field written by `to_fen`. -/
def fenEp (enpassant_square : Int) : List Char :=
  if enpassant_square = SQ_NONE then ['-']
  else [charOfInt (charVal 'a' + file_of enpassant_square),
        charOfInt (charVal '1' + rank_of enpassant_square)]

/-- The method `Board::to_fen`: the fields in the order they are written to the
stream. -/
def Board.to_fen (b : Board) : List Char :=
  fenPlacement b.pieces ++
  (if b.side_to_move = Color.WHITE then [' ', 'w', ' '] else [' ', 'b', ' ']) ++
  fenCastling b.castle_rights ++ [' '] ++
  fenEp b.enpassant_square ++ [' '] ++
  showInt b.halfmove_clock ++ [' '] ++
  showInt b.fullmove_number

/-- The standard starting position, the string `handle_ucinewgame` loads. -/
def startFen : List Char :=
  "rnbqkbnr/pppppppp/8/8/8/8/PPPPPPPP/RNBQKBNR w KQkq - 0 1".toList

/-! ## Sample data and predicates used in the statements -/

/-- The Board made by the constructor `Board::Board()`. -/
def Board.init : Board :=
  Board.clear
    { pieces := fun _ => 0
      occupancies := fun _ => 0
      side_to_move := Color.WHITE
      castle_rights := 0
      enpassant_square := 0
      halfmove_clock := 0
      fullmove_number := 0
      zobrist_key := 0 }

/-- A concrete filling of the Zobrist tables, used where a statement is evaluated on
a concrete position. -/
def zSample : Zobrist :=
  { zobrist_piece := fun p s => (p * 64 + s).toNat + 1
    zobrist_castle := fun r => r.toNat + 1000
    zobrist_enpassant := fun s => s.toNat + 2000
    zobrist_side := 4096 }

/-- The Board a fresh engine holds after `set_from_fen(fen)`. -/
def loadFen (z : Zobrist) (fen : String) : Board :=
  (Board.set_from_fen z Board.init fen.toList).board

/-- The occupancies equal the values derived from the piece bitboards. -/
def OccupanciesDerived (b : Board) : Prop :=
  b.occupancies 0 =
      b.pieces 1 ||| b.pieces 2 ||| b.pieces 3 ||| b.pieces 4 ||| b.pieces 5 ||| b.pieces 6 ∧
  b.occupancies 1 =
      b.pieces 7 ||| b.pieces 8 ||| b.pieces 9 ||| b.pieces 10 ||| b.pieces 11 ||| b.pieces 12 ∧
  b.occupancies 2 = b.occupancies 0 ||| b.occupancies 1

/-- The twelve piece bitboards `pieces[1..12]` are pairwise disjoint. -/
def PairwiseDisjoint (b : Board) : Prop :=
  ∀ p ∈ pieceRange, ∀ q ∈ pieceRange, p ≠ q → b.pieces p &&& b.pieces q = 0

/-- Two Boards agree on piece placement, side to move, castling rights and
en-passant square. -/
def SameLogicalPosition (b1 b2 : Board) : Prop :=
  (∀ p ∈ pieceRange, b1.pieces p = b2.pieces p) ∧
  b1.side_to_move = b2.side_to_move ∧
  b1.castle_rights = b2.castle_rights ∧
  b1.enpassant_square = b2.enpassant_square

/-- A Board left by a completed `set_from_fen` or by a `make_move`. -/
inductive Produced (z : Zobrist) : Board → Prop where
  | fen (b : Board) (s : List Char) (h : (Board.set_from_fen z b s).thrown = none) :
      Produced z (Board.set_from_fen z b s).board
  | move (b : Board) (m : Move) : Produced z (Board.make_move z b m)

/-- The `n`-th whitespace-delimited field of a string, counted from 0, as successive
extractions `ss >> token` deliver them; empty when the string has no such field. -/
def fenField : Nat → List Char → List Char
  | 0, s => (nextToken s).1
  | n + 1, s => fenField n (nextToken s).2

/-- The exception `std::stoi` raises on a clock field, if the field is present and
is rejected. -/
def stoiFailure (tok : List Char) : Option StoiError :=
  if tok = [] then none
  else
    match stoi tok with
    | Except.error e => some e
    | Except.ok _ => none

instance (b1 b2 : Board) : Decidable (SameLogicalPosition b1 b2) := by
  unfold SameLogicalPosition
  infer_instance

/-- The start position after the knight moves g1f3, g8f6, f3g1 up to the last move f6g8. -/
def knightDanceBefore : Board :=
  (((loadFen zSample "rnbqkbnr/pppppppp/8/8/8/8/PPPPPPPP/RNBQKBNR w KQkq - 0 1").make_move zSample
    ⟨6, 21, 2, 0, 0, false, false⟩).make_move zSample
    ⟨62, 45, 8, 0, 0, false, false⟩).make_move zSample
    ⟨21, 6, 2, 0, 0, false, false⟩

/-- The test `x & (1ULL << s)` is non-zero: bit `s` of the word `x` is set. -/
def hasBit (x : Nat) (s : Int) : Prop := x &&& sqbit s ≠ 0

instance (x : Nat) (s : Int) : Decidable (hasBit x s) := by
  unfold hasBit
  infer_instance

/-- The position invariants: every piece bitboard is a `u64`, the twelve piece
bitboards are pairwise disjoint, and the occupancies are the derived values. -/
structure WellFormed (b : Board) : Prop where
  bound : ∀ p ∈ pieceRange, b.pieces p < TWO64
  disjoint : PairwiseDisjoint b
  occ : OccupanciesDerived b

/-- The pawn code of a side. -/
def pawnOf (c : Color) : Int := if c = Color.WHITE then WHITE_PAWN else BLACK_PAWN

/-- The square of the pawn removed by an en-passant capture landing on `to_`, as
`make_move` and `undo_move` compute it for the mover `c`. -/
def captureSquare (c : Color) (to_ : Int) : Int := if c = Color.WHITE then to_ - 8 else to_ + 8

/-- The en-passant square of the Board is usable: it is empty and a pawn of the side
not to move stands on the square behind it. -/
def EpSquareValid (b : Board) : Prop :=
  ¬ hasBit (b.occupancies 2) b.enpassant_square ∧
  hasBit (b.pieces (pawnOf b.side_to_move.other))
    (captureSquare b.side_to_move b.enpassant_square)

/-- The shape shared by every move the generator emits outside
`generate_castling_moves`. -/
structure GenOK (b : Board) (m : Move) : Prop where
  piece_own : m.piece ∈ piecesOf b.side_to_move
  from_has : hasBit (b.pieces m.piece) m.from_
  to_range : 0 ≤ m.to_ ∧ m.to_ < 64
  not_castle : m.isCastle = false
  promo : m.promotion = 0 ∨
    (m.promotion ∈ piecesOf b.side_to_move ∧ m.promotion ≠ WHITE_KING ∧
      m.promotion ≠ BLACK_KING)
  target :
    (m.isEnPassant = true ∧ m.to_ = b.enpassant_square ∧
      m.captured = pawnOf b.side_to_move.other ∧ m.promotion = 0 ∧
      m.piece = pawnOf b.side_to_move) ∨
    (m.isEnPassant = false ∧ m.captured = 0 ∧ ¬ hasBit (b.occupancies 2) m.to_) ∨
    (m.isEnPassant = false ∧ m.captured ∈ piecesOf b.side_to_move.other ∧
      hasBit (b.pieces m.captured) m.to_)
  white_double : m.piece = WHITE_PAWN → m.to_ - m.from_ = 16 →
    8 ≤ m.from_ ∧ m.from_ < 16 ∧ ¬ hasBit (b.occupancies 2) (m.from_ + 8) ∧
      m.captured = 0 ∧ m.isEnPassant = false ∧ m.promotion = 0
  black_double : m.piece = BLACK_PAWN → m.from_ - m.to_ = 16 →
    48 ≤ m.from_ ∧ m.from_ < 56 ∧ ¬ hasBit (b.occupancies 2) (m.from_ - 8) ∧
      m.captured = 0 ∧ m.isEnPassant = false ∧ m.promotion = 0

/-- The invariant kept by play from the starting position. -/
structure Inv (b : Board) : Prop where
  wf : WellFormed b
  rights : 0 ≤ b.castle_rights ∧ b.castle_rights < 16
  white_king : intAnd b.castle_rights 1 ≠ 0 ∨ intAnd b.castle_rights 2 ≠ 0 →
    ¬ hasBit (b.pieces WHITE_KING) 60
  black_king : intAnd b.castle_rights 4 ≠ 0 ∨ intAnd b.castle_rights 8 ≠ 0 →
    ¬ hasBit (b.pieces BLACK_KING) 4
  ep : b.enpassant_square = SQ_NONE ∨ EpSquareValid b

/-- The Boards reached from the standard starting position by moves that
`generate_moves` emits and that pass the king-not-in-check test of
`is_move_legal`. -/
inductive Reachable (z : Zobrist) (t : MoveTables) : Board → Prop where
  | start : Reachable z t (Board.set_from_fen z Board.init startFen).board
  | step (b : Board) (m : Move) (hb : Reachable z t b)
      (hm : m ∈ MoveGenerator.generate_moves t b)
      (hl : MoveGenerator.is_move_legal z t b m = true) :
      Reachable z t (b.make_move z m)

/-- The piece `make_move` puts on the destination square. -/
def landingPiece (m : Move) : Int := if m.promotion ≠ EMPTY then m.promotion else m.piece

/-- The square from which `make_move` removes the captured piece. -/
def removalSquare (b : Board) (m : Move) : Int :=
  if m.isEnPassant then captureSquare b.side_to_move m.to_ else m.to_

/-- The move removes a captured piece: `make_move` takes one of its two capture
branches. -/
def Removes (m : Move) : Prop := m.isEnPassant = true ∨ m.captured ≠ EMPTY

/-- An en-passant move is applicable: its destination is empty and the pawn it
captures stands on the square behind the destination. -/
def EpOK (b : Board) (m : Move) : Prop :=
  m.isEnPassant = true →
    ¬ hasBit (b.occupancies 2) m.to_ ∧
    hasBit (b.pieces m.captured) (captureSquare b.side_to_move m.to_)

/-- The rights `r1` are in `0..15` and contain no right that `r` lacks. -/
def RightsLe (r1 r : Int) : Prop :=
  (0 ≤ r1 ∧ r1 < 16) ∧
  (intAnd r1 1 ≠ 0 → intAnd r 1 ≠ 0) ∧ (intAnd r1 2 ≠ 0 → intAnd r 2 ≠ 0) ∧
  (intAnd r1 4 ≠ 0 → intAnd r 4 ≠ 0) ∧ (intAnd r1 8 ≠ 0 → intAnd r 8 ≠ 0)

/-- A word without whitespace, as `operator>>` extracts it whole. -/
def NoSpace (tok : List Char) : Prop := ∀ c ∈ tok, isSpace c = false

/-- The accumulation of decimal digits done by `std::stoi`. -/
def digitsValue (ds : List Char) (acc : Int) : Int :=
  ds.foldl (fun acc c => acc * 10 + (charVal c - charVal '0')) acc

/-- The first piece code, in loop order, whose bitboard has bit `s` set: the scan of
`to_fen` and `print_board`. -/
def pieceAt (pieces : Int → Nat) (s : Int) : Option Int :=
  pieceRange.find? (fun p => decide (pieces p &&& sqbit s ≠ 0))

/-- Two Boards hold the same data: the arrays `pieces[13]` and `occupancies[3]`
compared over their declared bounds, and every scalar field. -/
def BoardEq (b1 b2 : Board) : Prop :=
  (∀ p : Int, 0 ≤ p → p ≤ 12 → b1.pieces p = b2.pieces p) ∧
  (∀ i : Int, 0 ≤ i → i ≤ 2 → b1.occupancies i = b2.occupancies i) ∧
  b1.side_to_move = b2.side_to_move ∧
  b1.castle_rights = b2.castle_rights ∧
  b1.enpassant_square = b2.enpassant_square ∧
  b1.halfmove_clock = b2.halfmove_clock ∧
  b1.fullmove_number = b2.fullmove_number ∧
  b1.zobrist_key = b2.zobrist_key

/-- The state of the placement loop of `set_from_fen` after the characters `s`, from
the cleared Board. -/
def parsePlacement (s : List Char) : PlacementState :=
  s.foldl placementStep { rank := 7, file := 0, pieces := fun _ => 0 }

/-- The squares `to_fen` has written once it stands in rank `r` before file `f`: the
ranks above `r`, and the files below `f` of rank `r`. -/
def Written (r f s : Int) : Prop :=
  ((r + 1) * 8 ≤ s ∧ s < 64) ∨ (r * 8 ≤ s ∧ s < r * 8 + f)

/-- The link between the text written so far by `to_fen` for the bitboards `P` and
the state the placement loop of `set_from_fen` reaches on that text. -/
structure FileInv (P : Int → Nat) (r f : Int) (st : RankState) : Prop where
  rank : (parsePlacement st.out).rank = r
  file : (parsePlacement st.out).file = f - st.empty_count
  count : 0 ≤ st.empty_count ∧ st.empty_count ≤ f
  bound : ∀ q, (parsePlacement st.out).pieces q < TWO64
  bits : ∀ q s, hasBit ((parsePlacement st.out).pieces q) s ↔ Written r f s ∧ pieceAt P s = some q
  text : NoSpace st.out

/-- The body of `set_from_fen` once the six fields have been extracted from the
stream: the placement loop, the side, castling and en-passant fields, then the
two clocks through `std::stoi`. -/
def fenLoad (z : Zobrist) (board_str color castling ep halfmove fullmove : List Char) :
    FenOutcome :=
  let b := Board.update_occupancies { Board.init with pieces := (parsePlacement board_str).pieces }
  let b := { b with side_to_move := if color = ['w'] then Color.WHITE else Color.BLACK }
  let b := { b with castle_rights := parseCastling castling }
  let b := { b with enpassant_square := parseEp ep }
  match (if halfmove = [] then Except.ok b.halfmove_clock else stoi halfmove) with
  | Except.error e => { board := b, thrown := some e }
  | Except.ok hm =>
    let b := { b with halfmove_clock := hm }
    match (if fullmove = [] then Except.ok b.fullmove_number else stoi fullmove) with
    | Except.error e => { board := b, thrown := some e }
    | Except.ok fm =>
      let b := { b with fullmove_number := fm }
      { board := { b with zobrist_key := compute_zobrist_key z b }, thrown := none }

/-! ## search.h, search.cpp: transposition table -/

/-- The type `enum TTFlag { TT_EXACT, TT_ALPHA, TT_BETA }`. -/
inductive TTFlag where
  | TT_EXACT
  | TT_ALPHA
  | TT_BETA
  deriving DecidableEq, Repr

/-- The struct `TTEntry`. -/
structure TTEntry where
  key : Nat
  depth : Int
  value : Int
  flag : TTFlag
  best_move : Move
  age : Int
  deriving DecidableEq, Repr

/-- The class `TranspositionTable`: the `std::unordered_map<u64, TTEntry>` is the
partial map from a key to the entry stored under it. -/
structure TranspositionTable where
  table : Nat → Option TTEntry
  current_age : Int

def TranspositionTable.store (tt : TranspositionTable) (key : Nat) (depth value : Int)
    (flag : TTFlag) (best_move : Move) : TranspositionTable :=
  let entry : TTEntry :=
    { key := key, depth := depth, value := value, flag := flag, best_move := best_move,
      age := tt.current_age }
  { tt with table := fun k => if k = key then some entry else tt.table k }

/-- What a call of `TranspositionTable::probe` leaves behind: the returned `bool`
and the three reference parameters. -/
structure ProbeResult where
  hit : Bool
  value : Int
  flag : TTFlag
  best_move : Move
  deriving DecidableEq, Repr

/-- The method `TranspositionTable::probe`; `value`, `flag` and `best_move` are the
contents of the reference parameters before the call. -/
def TranspositionTable.probe (tt : TranspositionTable) (key : Nat) (depth : Int)
    (value : Int) (flag : TTFlag) (best_move : Move) : ProbeResult :=
  match tt.table key with
  | none => { hit := false, value := value, flag := flag, best_move := best_move }
  | some entry =>
    if entry.depth ≥ depth then
      { hit := true, value := entry.value, flag := entry.flag, best_move := entry.best_move }
    else { hit := false, value := value, flag := flag, best_move := best_move }

def TranspositionTable.clear (_tt : TranspositionTable) : TranspositionTable :=
  { table := fun _ => none, current_age := 0 }

/-! ## search.cpp: perft and divide

The Board is passed by reference and mutated in place, so both functions return the
Board they leave together with their `u64` result.  The `int depth` is taken
non-negative; a call with a negative depth never reaches `depth == 0`. -/

/-- One round of the move loop of `Searcher::perft`; `sub` is the recursive call
`perft(board, depth - 1)`. -/
def perftStep (z : Zobrist) (t : MoveTables) (sub : Board → Board × Nat)
    (acc : Board × Nat) (move : Move) : Board × Nat :=
  let undo := acc.1.undoInfo move
  let b1 := acc.1.make_move z move
  if b1.in_check t b1.side_to_move.other = false then
    let r := sub b1
    (r.1.undo_move undo, (acc.2 + r.2) % TWO64)
  else (b1.undo_move undo, acc.2)

def Searcher.perft (z : Zobrist) (t : MoveTables) : Nat → Board → Board × Nat
  | 0, board => (board, 1)
  | d + 1, board =>
    (MoveGenerator.generate_moves t board).foldl (perftStep z t (Searcher.perft z t d))
      (board, 0)

/-- One round of the move loop of `Searcher::divide` at depth `d + 1`: the count of
a legal move is `1` when `depth == 1` and `perft(board, depth - 1)` otherwise. -/
def divideStep (z : Zobrist) (t : MoveTables) (d : Nat) (acc : Board × Nat) (move : Move) :
    Board × Nat :=
  let undo := acc.1.undoInfo move
  let b1 := acc.1.make_move z move
  if b1.in_check t b1.side_to_move.other = false then
    let r := if d + 1 = 1 then (b1, 1) else Searcher.perft z t d b1
    (r.1.undo_move undo, (acc.2 + r.2) % TWO64)
  else (b1.undo_move undo, acc.2)

/-- The method `Searcher::divide` for a depth of at least 1; at depth 0 it calls
`perft(board, -1)`, which is outside the model. -/
def Searcher.divide (z : Zobrist) (t : MoveTables) : Nat → Board → Option (Board × Nat)
  | 0, _ => none
  | d + 1, board =>
    some ((MoveGenerator.generate_moves t board).foldl (divideStep z t d) (board, 0))

/-- The moves of `generate_moves` that do not leave the mover's king in check. -/
def legalMoves (z : Zobrist) (t : MoveTables) (b : Board) : List Move :=
  (MoveGenerator.generate_moves t b).filter (fun m => MoveGenerator.is_move_legal z t b m)

/-- The node count as the specification defines it: 1 at depth 0, else the sum over
the legal children. -/
def perftSpec (z : Zobrist) (t : MoveTables) : Nat → Board → Nat
  | 0, _ => 1
  | d + 1, b => ((legalMoves z t b).map (fun m => perftSpec z t d (b.make_move z m))).sum

/-! ## main.cpp: start-up -/

/-- The global tables of the program. -/
structure Globals where
  tables : MoveTables
  zobrist : Zobrist

/-- The globals as the C++ runtime zero-initialises them before `main` runs. -/
def Globals.static_init : Globals :=
  { tables := MoveTables.static_init
    zobrist :=
      { zobrist_piece := fun _ _ => 0
        zobrist_castle := fun _ => 0
        zobrist_enpassant := fun _ => 0
        zobrist_side := 0 } }

/-- The function `init_zobrist`: the Zobrist tables receive the words `words` drawn
from the seeded generator. -/
def init_zobrist (words : Zobrist) (g : Globals) : Globals := { g with zobrist := words }

/-- The function `init_engine` of `main.cpp`: its only call is `init_zobrist()`. -/
def init_engine (words : Zobrist) (g : Globals) : Globals := init_zobrist words g

/-- The globals when `main` has run `init_engine()`. -/
def programStart (words : Zobrist) : Globals := init_engine words Globals.static_init

/-- The list `generate_captures` must produce according to the specification: the
moves of `generate_moves` with `captured != EMPTY` or `promotion != EMPTY`, in order. -/
def capturesSpec (t : MoveTables) (board : Board) : List Move :=
  (MoveGenerator.generate_moves t board).filter
    (fun m => decide (m.captured ≠ EMPTY ∨ m.promotion ≠ EMPTY))

/-- Two Boards agree on everything the move generator, `in_check` and the piece part
of `make_move` and `undo_move` read: they may differ in the clocks and in the key. -/
def SameRules (b1 b2 : Board) : Prop :=
  b1.pieces = b2.pieces ∧ b1.occupancies = b2.occupancies ∧
  b1.side_to_move = b2.side_to_move ∧ b1.castle_rights = b2.castle_rights ∧
  b1.enpassant_square = b2.enpassant_square

/-- No piece stands on the square `s`. -/
def SquareEmpty (b : Board) (s : Int) : Prop := ∀ p ∈ pieceRange, ¬ hasBit (b.pieces p) s

/-- The step of a pawn of the side `c` to the square straight ahead. -/
def forward (c : Color) : Int := if c = Color.WHITE then 8 else -8

/-- The rank index on which the pawns of the side `c` start. -/
def startRank (c : Color) : Int := if c = Color.WHITE then 1 else 6

/-- The rank index one step before the last rank of the pawns of the side `c`. -/
def seventhRank (c : Color) : Int := if c = Color.WHITE then 6 else 1

/-- The promotion pieces of the side `c`, in the order of the generator's loop. -/
def promosOf (c : Color) : List Int := if c = Color.WHITE then whitePromos else blackPromos

/-- The move is a pawn move of two squares straight ahead: the test `make_move` applies
before it sets the en-passant square. -/
def IsDoublePush (m : Move) : Prop :=
  (m.piece = WHITE_PAWN ∧ m.to_ - m.from_ = 16) ∨ (m.piece = BLACK_PAWN ∧ m.from_ - m.to_ = 16)

/-- The move is a pawn move whose squares lie exactly two ranks apart. -/
def PawnTwoRanks (m : Move) : Prop :=
  (m.piece = WHITE_PAWN ∨ m.piece = BLACK_PAWN) ∧
  (rank_of m.to_ - rank_of m.from_ = 2 ∨ rank_of m.from_ - rank_of m.to_ = 2)

/-- The square `tgt` is one the pawn of the side to move on `s` can move to, and `cap` is what
it captures there: the square straight ahead when it is empty, or a capture diagonal that holds
the enemy piece `cap` and is not the en-passant square. -/
def PromoTarget (b : Board) (s tgt cap : Int) : Prop :=
  (tgt = s + forward b.side_to_move ∧ SquareEmpty b tgt ∧ cap = 0) ∨
  (((tgt = s + forward b.side_to_move - 1 ∧ file_of s > 0) ∨
      (tgt = s + forward b.side_to_move + 1 ∧ file_of s < 7)) ∧
    cap ∈ piecesOf b.side_to_move.other ∧ hasBit (b.pieces cap) tgt ∧
    b.enpassant_square ≠ tgt)

/-! ## evaluation.cpp -/

/-- The read `table[i]` of a C array of `int` given by its initialiser; an index
outside the array (undefined behaviour in the source) reads 0. -/
def tableAt (l : List Int) (i : Int) : Int := if 0 ≤ i then l.getD i.toNat 0 else 0

/-- The array `PIECE_VALUES[13]`. -/
def PIECE_VALUES (p : Int) : Int :=
  tableAt [0, 100, 320, 330, 500, 900, 20000, -100, -320, -330, -500, -900, -20000] p

def mg_pawn_table (i : Int) : Int :=
  tableAt [
    0, 0, 0, 0, 0, 0, 0, 0,
    50, 50, 50, 50, 50, 50, 50, 50,
    10, 10, 20, 30, 30, 20, 10, 10,
    5, 5, 10, 25, 25, 10, 5, 5,
    0, 0, 0, 20, 20, 0, 0, 0,
    5, -5, -10, 0, 0, -10, -5, 5,
    5, 10, 10, -20, -20, 10, 10, 5,
    0, 0, 0, 0, 0, 0, 0, 0] i

def mg_knight_table (i : Int) : Int :=
  tableAt [
    -50, -40, -30, -30, -30, -30, -40, -50,
    -40, -20, 0, 0, 0, 0, -20, -40,
    -30, 0, 10, 15, 15, 10, 0, -30,
    -30, 5, 15, 20, 20, 15, 5, -30,
    -30, 0, 15, 20, 20, 15, 0, -30,
    -30, 5, 10, 15, 15, 10, 5, -30,
    -40, -20, 0, 5, 5, 0, -20, -40,
    -50, -40, -30, -30, -30, -30, -40, -50] i

def mg_bishop_table (i : Int) : Int :=
  tableAt [
    -20, -10, -10, -10, -10, -10, -10, -20,
    -10, 0, 0, 0, 0, 0, 0, -10,
    -10, 0, 5, 10, 10, 5, 0, -10,
    -10, 5, 5, 10, 10, 5, 5, -10,
    -10, 0, 10, 10, 10, 10, 0, -10,
    -10, 10, 10, 10, 10, 10, 10, -10,
    -10, 5, 0, 0, 0, 0, 5, -10,
    -20, -10, -10, -10, -10, -10, -10, -20] i

def mg_rook_table (i : Int) : Int :=
  tableAt [
    0, 0, 0, 0, 0, 0, 0, 0,
    5, 10, 10, 10, 10, 10, 10, 5,
    -5, 0, 0, 0, 0, 0, 0, -5,
    -5, 0, 0, 0, 0, 0, 0, -5,
    -5, 0, 0, 0, 0, 0, 0, -5,
    -5, 0, 0, 0, 0, 0, 0, -5,
    -5, 0, 0, 0, 0, 0, 0, -5,
    0, 0, 0, 5, 5, 0, 0, 0] i

def mg_queen_table (i : Int) : Int :=
  tableAt [
    -20, -10, -10, -5, -5, -10, -10, -20,
    -10, 0, 0, 0, 0, 0, 0, -10,
    -10, 0, 5, 5, 5, 5, 0, -10,
    -5, 0, 5, 5, 5, 5, 0, -5,
    0, 0, 5, 5, 5, 5, 0, -5,
    -10, 5, 5, 5, 5, 5, 0, -10,
    -10, 0, 5, 0, 0, 0, 0, -10,
    -20, -10, -10, -5, -5, -10, -10, -20] i

def mg_king_table (i : Int) : Int :=
  tableAt [
    -30, -40, -40, -50, -50, -40, -40, -30,
    -30, -40, -40, -50, -50, -40, -40, -30,
    -30, -40, -40, -50, -50, -40, -40, -30,
    -30, -40, -40, -50, -50, -40, -40, -30,
    -20, -30, -30, -40, -40, -30, -30, -20,
    -10, -20, -20, -20, -20, -20, -20, -10,
    20, 20, 0, 0, 0, 0, 20, 20,
    20, 30, 10, 0, 0, 10, 30, 20] i

/-- The end-game arrays `eg_pawn_table[64]` ... `eg_king_table[64]`, which are not
constant: they hold zeros until `init_evaluation_tables` fills them. -/
structure EvalTables where
  eg_pawn_table : Int → Int
  eg_knight_table : Int → Int
  eg_bishop_table : Int → Int
  eg_rook_table : Int → Int
  eg_queen_table : Int → Int
  eg_king_table : Int → Int

/-- The end-game arrays as the C++ runtime zero-initialises them. -/
def EvalTables.static_init : EvalTables :=
  { eg_pawn_table := fun _ => 0
    eg_knight_table := fun _ => 0
    eg_bishop_table := fun _ => 0
    eg_rook_table := fun _ => 0
    eg_queen_table := fun _ => 0
    eg_king_table := fun _ => 0 }

/-- The function `init_evaluation_tables`: entries `0..63` of every end-game array
receive the middle-game entry. -/
def init_evaluation_tables (e : EvalTables) : EvalTables :=
  { eg_pawn_table := fun i => if 0 ≤ i ∧ i < 64 then mg_pawn_table i else e.eg_pawn_table i
    eg_knight_table := fun i => if 0 ≤ i ∧ i < 64 then mg_knight_table i else e.eg_knight_table i
    eg_bishop_table := fun i => if 0 ≤ i ∧ i < 64 then mg_bishop_table i else e.eg_bishop_table i
    eg_rook_table := fun i => if 0 ≤ i ∧ i < 64 then mg_rook_table i else e.eg_rook_table i
    eg_queen_table := fun i => if 0 ≤ i ∧ i < 64 then mg_queen_table i else e.eg_queen_table i
    eg_king_table := fun i => if 0 ≤ i ∧ i < 64 then mg_king_table i else e.eg_king_table i }

/-- The middle-game array the `switch (p)` of `evaluate_positional` selects. -/
def mgTable (p : Int) : Int → Int :=
  if p = WHITE_PAWN ∨ p = BLACK_PAWN then mg_pawn_table
  else if p = WHITE_KNIGHT ∨ p = BLACK_KNIGHT then mg_knight_table
  else if p = WHITE_BISHOP ∨ p = BLACK_BISHOP then mg_bishop_table
  else if p = WHITE_ROOK ∨ p = BLACK_ROOK then mg_rook_table
  else if p = WHITE_QUEEN ∨ p = BLACK_QUEEN then mg_queen_table
  else if p = WHITE_KING ∨ p = BLACK_KING then mg_king_table
  else fun _ => 0

/-- The end-game array the `switch (p)` of `evaluate_positional` selects. -/
def egTable (e : EvalTables) (p : Int) : Int → Int :=
  if p = WHITE_PAWN ∨ p = BLACK_PAWN then e.eg_pawn_table
  else if p = WHITE_KNIGHT ∨ p = BLACK_KNIGHT then e.eg_knight_table
  else if p = WHITE_BISHOP ∨ p = BLACK_BISHOP then e.eg_bishop_table
  else if p = WHITE_ROOK ∨ p = BLACK_ROOK then e.eg_rook_table
  else if p = WHITE_QUEEN ∨ p = BLACK_QUEEN then e.eg_queen_table
  else if p = WHITE_KING ∨ p = BLACK_KING then e.eg_king_table
  else fun _ => 0

/-- One round of the `while (bb)` loop of `evaluate_positional` for the piece `p` on
`sq`; the pair is `(mg_score, eg_score)`. -/
def pstStep (e : EvalTables) (p : Int) (acc : Int × Int) (sq : Int) : Int × Int :=
  let is_white := decide (p ≤ 6)
  let eval_sq := if is_white then sq else 63 - sq
  (acc.1 + mgTable p eval_sq, acc.2 + egTable e p eval_sq)

/-- The pair `(mg_score, eg_score)` after the loop nest of `evaluate_positional`. -/
def pstScores (e : EvalTables) (board : Board) : Int × Int :=
  pieceRange.foldl (fun acc p => (scanBits (board.pieces p)).foldl (pstStep e p) acc) (0, 0)

/-- The method `Evaluator::get_game_phase`; `/` of C++ on `int` is `Int.tdiv`. -/
def Evaluator.get_game_phase (board : Board) : Int :=
  let phase : Int := 0
  let phase := phase + popcount (board.pieces WHITE_QUEEN ||| board.pieces BLACK_QUEEN) * 4
  let phase := phase + popcount (board.pieces WHITE_ROOK ||| board.pieces BLACK_ROOK) * 2
  let phase := phase + popcount (board.pieces WHITE_BISHOP ||| board.pieces BLACK_BISHOP |||
    board.pieces WHITE_KNIGHT ||| board.pieces BLACK_KNIGHT)
  Int.tdiv (min 24 phase * 256) 24

def Evaluator.interpolate (mg_score eg_score phase : Int) : Int :=
  Int.tdiv (mg_score * phase + eg_score * (256 - phase)) 256

def Evaluator.evaluate_positional (e : EvalTables) (board : Board) : Int :=
  let scores := pstScores e board
  let phase := Evaluator.get_game_phase board
  Evaluator.interpolate scores.1 scores.2 phase

def Evaluator.evaluate_material (board : Board) : Int :=
  pieceRange.foldl (fun score p => score + PIECE_VALUES p * popcount (board.pieces p)) 0

/-- The method `Evaluator::evaluate`; `int` arithmetic is taken without overflow. -/
def Evaluator.evaluate (e : EvalTables) (board : Board) : Int :=
  let score := Evaluator.evaluate_material board + Evaluator.evaluate_positional e board
  if board.side_to_move = Color.WHITE then score else -score

/-! ## search.h, search.cpp: the search -/

/-- The `operator==` of `Move`: it compares `from`, `to`, `piece` and `promotion`
only. -/
def Move.equals (a b : Move) : Bool :=
  decide (a.from_ = b.from_) && decide (a.to_ = b.to_) && decide (a.piece = b.piece) &&
    decide (a.promotion = b.promotion)

/-- The struct `SearchStats`. -/
structure SearchStats where
  nodes : Int
  qnodes : Int
  tthits : Int
  depth : Int
  score : Int
  best_move : Move

/-- The value `SearchStats()`. -/
def SearchStats.init : SearchStats :=
  { nodes := 0, qnodes := 0, tthits := 0, depth := 0, score := 0,
    best_move := Move.mk 0 0 0 0 0 false false }

/-- The class `Searcher`; the array `history`, which nothing reads or writes, is left
out.  `killer_moves[100][2]` is a total map. -/
structure Searcher where
  tt : TranspositionTable
  stats : SearchStats
  killer_moves : Int → Int → Move
  stop_search : Bool

/-- The Searcher object `searcher` of `main.cpp` before any command: static storage is
zero-initialised. -/
def Searcher.init : Searcher :=
  { tt := { table := fun _ => none, current_age := 0 }
    stats := SearchStats.init
    killer_moves := fun _ _ => Move.mk 0 0 0 0 0 false false
    stop_search := false }

/-- The method `Searcher::score_move`; `/` of C++ on `int` is `Int.tdiv`. -/
def Searcher.score_move (s : Searcher) (move tt_move : Move) (depth : Int) : Int :=
  if move.equals tt_move then 10000
  else if move.captured ≠ 0 then
    9000 + PIECE_VALUES move.captured - Int.tdiv (PIECE_VALUES move.piece) 10
  else if move.equals (s.killer_moves depth 0) then 8000 - 0
  else if move.equals (s.killer_moves depth 1) then 8000 - 1
  else if move.promotion ≠ 0 then 7000 + PIECE_VALUES move.promotion
  else 0

/-- What the search reads besides the Searcher and the Board: the Zobrist words, the
attack tables, the end-game tables, the library routine `std::sort` (its order among
moves of equal score is not specified by the language), and `stale`, the content of the
uninitialised local `Move tt_move` of `alpha_beta`. -/
structure SearchEnv where
  z : Zobrist
  t : MoveTables
  e : EvalTables
  sort : (Move → Move → Bool) → List Move → List Move
  stale : Move

/-- The method `Searcher::order_moves`. -/
def Searcher.order_moves (env : SearchEnv) (s : Searcher) (moves : List Move) (tt_move : Move)
    (depth : Int) : List Move :=
  env.sort (fun a b => decide (s.score_move a tt_move depth > s.score_move b tt_move depth))
    moves

/-- What a call of `quiescence` or `alpha_beta` leaves behind: the returned value, the
Searcher and the Board, which is passed by reference. -/
structure SearchResult where
  value : Int
  s : Searcher
  board : Board

/-- The state of the move loop of `quiescence`; `ret` is the value of a `return` taken
inside the loop. -/
structure QLoop where
  s : Searcher
  board : Board
  alpha : Int
  ret : Option Int

/-- One round of the move loop of `quiescence`; `sub` is the recursive call
`quiescence(board, ., ., depth + 1)`. -/
def quiescenceStep (env : SearchEnv) (sub : Searcher → Board → Int → Int → SearchResult)
    (beta : Int) (st : QLoop) (move : Move) : QLoop :=
  match st.ret with
  | some _ => st
  | none =>
    let undo := st.board.undoInfo move
    let b1 := st.board.make_move env.z move
    if b1.in_check env.t b1.side_to_move.other = true then
      { st with board := b1.undo_move undo }
    else
      let r := sub st.s b1 (-beta) (-st.alpha)
      let score := -r.value
      let b2 := r.board.undo_move undo
      if score ≥ beta then { s := r.s, board := b2, alpha := st.alpha, ret := some beta }
      else
        { s := r.s, board := b2, alpha := if score > st.alpha then score else st.alpha,
          ret := none }

/-- The body of `quiescence`; `sub` is `none` when `depth >= 8` and the recursive call
otherwise. -/
def quiescenceBody (env : SearchEnv)
    (sub : Option (Searcher → Board → Int → Int → SearchResult))
    (s : Searcher) (board : Board) (alpha beta : Int) : SearchResult :=
  let s := { s with stats := { s.stats with qnodes := s.stats.qnodes + 1 } }
  let stand_pat := Evaluator.evaluate env.e board
  if stand_pat ≥ beta then { value := beta, s := s, board := board }
  else
    let alpha := if alpha < stand_pat then stand_pat else alpha
    match sub with
    | none => { value := stand_pat, s := s, board := board }
    | some q =>
      let moves := MoveGenerator.generate_captures env.t board
      let st := moves.foldl (quiescenceStep env q beta)
        { s := s, board := board, alpha := alpha, ret := none }
      { value := st.ret.getD st.alpha, s := st.s, board := st.board }

/-- The method `quiescence` with `rem` levels left before `depth >= 8`. -/
def quiescenceRem (env : SearchEnv) : Nat → Searcher → Board → Int → Int → SearchResult
  | 0 => quiescenceBody env none
  | rem + 1 => quiescenceBody env (some (quiescenceRem env rem))

/-- The method `Searcher::quiescence`: the test `depth >= 8` holds exactly when
`8 - depth` is not positive, and the recursive call passes `depth + 1`. -/
def Searcher.quiescence (env : SearchEnv) (s : Searcher) (board : Board) (alpha beta depth : Int) :
    SearchResult :=
  quiescenceRem env (8 - depth).toNat s board alpha beta

/-- The state of the move loop of `alpha_beta`; `done` records the `break`. -/
structure ABLoop where
  s : Searcher
  board : Board
  alpha : Int
  best_value : Int
  best_move : Move
  moves_searched : Int
  done : Bool

/-- The two assignments `killer_moves[depth][1] = killer_moves[depth][0];
killer_moves[depth][0] = move;`. -/
def killerUpdate (k : Int → Int → Move) (depth : Int) (move : Move) : Int → Int → Move :=
  fun d i => if d = depth then (if i = 0 then move else if i = 1 then k depth 0 else k d i)
    else k d i

/-- Lines 128-138 of `alpha_beta`: the search of one legal move on the Board `b1`
reached by it; `sub d` is the recursive call `alpha_beta(board, d, ., ., .)`.  The
`value` of the result is `score`. -/
def alphaBetaScore
    (sub : Int → Searcher → Board → Int → Int → Bool → SearchResult) (depth beta : Int)
    (st : ABLoop) (b1 : Board) : SearchResult :=
  if st.moves_searched = 0 then
    let r0 := sub (depth - 1) st.s b1 (-beta) (-st.alpha) true
    { r0 with value := -r0.value }
  else
    let reduction : Int := if depth ≥ 3 ∧ st.moves_searched ≥ 4 then 1 else 0
    let r1 := sub (depth - 1 - reduction) st.s b1 (-st.alpha - 1) (-st.alpha) true
    if -r1.value > st.alpha then
      let r2 := sub (depth - 1) r1.s r1.board (-beta) (-st.alpha) true
      { r2 with value := -r2.value }
    else { r1 with value := -r1.value }

/-- Lines 140-158 of `alpha_beta`: undo the move and update `moves_searched`,
`best_value`, `best_move`, `alpha` and, on a cutoff, the killer moves; `r` is the
outcome of the search of the move. -/
def alphaBetaUpdate (depth beta : Int) (st : ABLoop) (move : Move) (undo : UndoInfo)
    (r : SearchResult) : ABLoop :=
  let score := r.value
  let board := r.board.undo_move undo
  let moves_searched := st.moves_searched + 1
  let best_value := if score > st.best_value then score else st.best_value
  let best_move := if score > st.best_value then move else st.best_move
  let alpha := if score > st.alpha then score else st.alpha
  if alpha ≥ beta then
    { s := if move.captured = 0 then
             { r.s with killer_moves := killerUpdate r.s.killer_moves depth move }
           else r.s
      board := board, alpha := alpha, best_value := best_value, best_move := best_move,
      moves_searched := moves_searched, done := true }
  else
    { s := r.s, board := board, alpha := alpha, best_value := best_value,
      best_move := best_move, moves_searched := moves_searched, done := false }

/-- One round of the move loop of `alpha_beta`. -/
def alphaBetaStep (env : SearchEnv)
    (sub : Int → Searcher → Board → Int → Int → Bool → SearchResult) (depth beta : Int)
    (st : ABLoop) (move : Move) : ABLoop :=
  if st.done = true then st
  else
    let undo := st.board.undoInfo move
    let b1 := st.board.make_move env.z move
    if b1.in_check env.t b1.side_to_move.other = true then
      { st with board := b1.undo_move undo }
    else alphaBetaUpdate depth beta st move undo (alphaBetaScore sub depth beta st b1)

/-- The flag chosen at the end of `alpha_beta` (lines 161-163); `alpha` is the value
the variable holds there. -/
def ttFlagOf (best_value alpha beta : Int) : TTFlag :=
  if best_value ≤ alpha then TTFlag.TT_ALPHA
  else if best_value ≥ beta then TTFlag.TT_BETA
  else TTFlag.TT_EXACT

/-- Lines 114-167 of `alpha_beta`: order the moves, run the move loop, store the
transposition-table entry and return. -/
def alphaBetaMoves (env : SearchEnv)
    (sub : Int → Searcher → Board → Int → Int → Bool → SearchResult)
    (s : Searcher) (board : Board) (depth alpha beta : Int) (moves : List Move)
    (tt_move : Move) : SearchResult :=
  let moves := Searcher.order_moves env s moves tt_move depth
  let st := moves.foldl (alphaBetaStep env sub depth beta)
    { s := s, board := board, alpha := alpha, best_value := -1000000,
      best_move := moves.headD (Move.mk 0 0 0 0 0 false false), moves_searched := 0,
      done := false }
  let flag := ttFlagOf st.best_value st.alpha beta
  { value := st.best_value
    s := { st.s with
      tt := st.s.tt.store st.board.zobrist_key depth st.best_value flag st.best_move }
    board := st.board }

/-- Lines 103-167 of `alpha_beta`: generate the moves, score the position without
moves, otherwise search the moves. -/
def alphaBetaTail (env : SearchEnv)
    (sub : Int → Searcher → Board → Int → Int → Bool → SearchResult)
    (s : Searcher) (board : Board) (depth alpha beta : Int) (tt_move : Move) : SearchResult :=
  let moves := MoveGenerator.generate_moves env.t board
  if moves = [] then
    if board.in_check env.t board.side_to_move = true then
      { value := -1000000 + (100 - depth), s := s, board := board }
    else { value := 0, s := s, board := board }
  else alphaBetaMoves env sub s board depth alpha beta moves tt_move

/-- The body of `alpha_beta`; `sub d` is the recursive call at depth `d`.
`is_repetition` always returns false.  The locals `tt_value` and `tt_flag` are read
only after a hit has written them. -/
def alphaBetaBody (env : SearchEnv)
    (sub : Int → Searcher → Board → Int → Int → Bool → SearchResult)
    (depth : Int) (s : Searcher) (board : Board) (alpha beta : Int) (do_null : Bool) :
    SearchResult :=
  let s := { s with stats := { s.stats with nodes := s.stats.nodes + 1 } }
  let pr := s.tt.probe board.zobrist_key depth 0 TTFlag.TT_EXACT env.stale
  let s := if pr.hit = true then { s with stats := { s.stats with tthits := s.stats.tthits + 1 } }
    else s
  if pr.hit = true ∧ pr.flag = TTFlag.TT_EXACT then { value := pr.value, s := s, board := board }
  else if pr.hit = true ∧ pr.flag = TTFlag.TT_ALPHA ∧ pr.value ≤ alpha then
    { value := alpha, s := s, board := board }
  else if pr.hit = true ∧ pr.flag = TTFlag.TT_BETA ∧ pr.value ≥ beta then
    { value := beta, s := s, board := board }
  else if depth ≤ 0 then Searcher.quiescence env s board alpha beta 0
  else if do_null = true ∧ depth ≥ 3 ∧ board.in_check env.t board.side_to_move = false then
    let null_move := Move.mk 0 0 0 0 0 false false
    let undo := board.undoInfo null_move
    let r := sub (depth - 3) s (board.make_move env.z null_move) (-beta) (-beta + 1) false
    let null_score := -r.value
    let board := r.board.undo_move undo
    if null_score ≥ beta then { value := beta, s := r.s, board := board }
    else alphaBetaTail env sub r.s board depth alpha beta pr.best_move
  else alphaBetaTail env sub s board depth alpha beta pr.best_move

/-- The recursion of `alpha_beta` with a bound on its nesting; every recursive call
lowers `depth`, so `depth + 1` levels suffice (see `alphaBetaFuel_enough`). -/
def alphaBetaFuel (env : SearchEnv) :
    Nat → Int → Searcher → Board → Int → Int → Bool → SearchResult
  | 0 => fun _ s board _ _ _ => { value := 0, s := s, board := board }
  | fuel + 1 => alphaBetaBody env (alphaBetaFuel env fuel)

/-- The method `Searcher::alpha_beta`. -/
def Searcher.alpha_beta (env : SearchEnv) (s : Searcher) (board : Board)
    (depth alpha beta : Int) (do_null : Bool) : SearchResult :=
  alphaBetaFuel env (depth.toNat + 1) depth s board alpha beta do_null

/-- Insertion of `m` into a list kept in order: `m` passes the elements that come strictly
before it under `cmp` and stops in front of the first element that does not. -/
def insertSorted (cmp : Move → Move → Bool) (m : Move) : List Move → List Move
  | [] => [m]
  | x :: xs => if cmp x m then x :: insertSorted cmp m xs else m :: x :: xs

/-- A sorting routine for the parameter `sort`: insertion sort, the routine `std::sort`
runs on short ranges.  The elements are inserted from the last to the first, each in front of
the elements it ties with, so that moves of equal score keep their order. -/
def insertionSort (cmp : Move → Move → Bool) (l : List Move) : List Move :=
  l.foldr (insertSorted cmp) []

/-! ## uci.cpp -/

/-- The class `UCI`: the Board and the Searcher it refers to, and `is_running`.
What the handlers print is left out. -/
structure UCI where
  board : Board
  searcher : Searcher
  is_running : Bool

/-- What a handler leaves behind: the state and the exception of `std::stoi` that
ended it, if one did. -/
structure UCIOutcome where
  uci : UCI
  thrown : Option StoiError

/-- The loop `while (ss >> token) { Move move = uci_to_move(token, board);
if (move.from != -1) board.make_move(move); }`; every successful extraction consumes
at least one character, so `fuel` above the length of the stream is never used up. -/
def applyMoves (z : Zobrist) (stale : Int) : Nat → List Char → Board → Board
  | 0, _, board => board
  | fuel + 1, ss, board =>
    let (token, rest) := nextToken ss
    if token = [] then board
    else
      let move := uci_to_move stale token board
      applyMoves z stale fuel rest (if move.from_ ≠ -1 then board.make_move z move else board)

/-- The method `UCI::handle_position`; `ss` is what is left of the command line after
the word `position`. -/
def UCI.handle_position (z : Zobrist) (stale : Int) (u : UCI) (ss : List Char) : UCIOutcome :=
  let (token, ss) := nextToken ss
  if token = "startpos".toList then
    let o := Board.set_from_fen z u.board
      "rnbqkbnr/pppppppp/8/8/8/8/PPPPPPPP/RNBQKBNR w KQkq - 0 1".toList
    { uci := { u with board := o.board }, thrown := o.thrown }
  else if token = "fen".toList then
    let (fen, _) := nextToken ss
    let o := Board.set_from_fen z u.board fen
    { uci := { u with board := o.board }, thrown := o.thrown }
  else if token = "moves".toList then
    { uci := { u with board := applyMoves z stale (ss.length + 1) ss u.board }, thrown := none }
  else { uci := u, thrown := none }

/-- The method `UCI::handle_ucinewgame`: `searcher.clear()` then the starting
position. -/
def UCI.handle_ucinewgame (z : Zobrist) (u : UCI) : UCIOutcome :=
  let searcher := { u.searcher with tt := u.searcher.tt.clear, stats := SearchStats.init }
  let o := Board.set_from_fen z u.board
    "rnbqkbnr/pppppppp/8/8/8/8/PPPPPPPP/RNBQKBNR w KQkq - 0 1".toList
  { uci := { u with board := o.board, searcher := searcher }, thrown := o.thrown }

/-- The method `UCI::process_command`.  The handler of `go` (the search under its
clock) is outside this model: the result is `none` for that command. -/
def UCI.process_command (z : Zobrist) (stale : Int) (u : UCI) (command : List Char) :
    Option UCIOutcome :=
  let (token, ss) := nextToken command
  if token = "uci".toList then some { uci := u, thrown := none }
  else if token = "isready".toList then some { uci := u, thrown := none }
  else if token = "ucinewgame".toList then some (UCI.handle_ucinewgame z u)
  else if token = "position".toList then some (UCI.handle_position z stale u ss)
  else if token = "go".toList then none
  else if token = "stop".toList then
    some { uci := { u with searcher := { u.searcher with stop_search := true } }, thrown := none }
  else if token = "quit".toList then some { uci := { u with is_running := false }, thrown := none }
  else if token = "setoption".toList then some { uci := u, thrown := none }
  else if token = "debug".toList then some { uci := u, thrown := none }
  else if token = "print".toList then some { uci := u, thrown := none }
  else if token = "eval".toList then some { uci := u, thrown := none }
  else some { uci := u, thrown := none }

/-- A sample environment for the search: sample Zobrist words, the tables of
`init_move_tables` and `init_evaluation_tables`, insertion sort, and the all-zero Move
as the stale `tt_move`. -/
def envSample : SearchEnv :=
  { z := zSample, t := init_move_tables, e := init_evaluation_tables EvalTables.static_init,
    sort := insertionSort, stale := Move.mk 0 0 0 0 0 false false }

/-- The squares `0..63` whose bit is set in the bitboard `bb`, in increasing order. -/
def squaresOf (bb : Nat) : List Int :=
  ((List.range 64).map (fun i : Nat => (i : Int))).filter (fun s => decide (hasBit bb s))

/-- The number of squares of the bitboard `bb`. -/
def countBits (bb : Nat) : Int := (squaresOf bb).length

/-- The kind of the piece code `p`: 0 pawn, 1 knight, 2 bishop, 3 rook, 4 queen,
5 king, for either colour. -/
def kindOf (p : Int) : Int := (p - 1) % 6

/-- The middle-game table of a kind. -/
def mgOfKind (k : Int) : Int → Int :=
  if k = 0 then mg_pawn_table else if k = 1 then mg_knight_table
  else if k = 2 then mg_bishop_table else if k = 3 then mg_rook_table
  else if k = 4 then mg_queen_table else mg_king_table

/-- The end-game table of a kind. -/
def egOfKind (e : EvalTables) (k : Int) : Int → Int :=
  if k = 0 then e.eg_pawn_table else if k = 1 then e.eg_knight_table
  else if k = 2 then e.eg_bishop_table else if k = 3 then e.eg_rook_table
  else if k = 4 then e.eg_queen_table else e.eg_king_table

/-- The sum the specification describes: over every piece `p` and every square `sq` it
occupies, the entry of the table of `p`'s kind at `sq` for a White piece and at `63 - sq`
for a Black piece. -/
def pstSum (tbl : Int → Int → Int) (board : Board) : Int :=
  (pieceRange.map (fun p =>
    ((squaresOf (board.pieces p)).map
      (fun sq => tbl (kindOf p) (if p ≤ 6 then sq else 63 - sq))).sum)).sum

/-- The interpolation the specification describes, with truncating division. -/
def interpolateSpec (mg eg phase : Int) : Int := Int.tdiv (mg * phase + eg * (256 - phase)) 256

/-- The weighted count `4*Q + 2*R + (B + N)` over both colours. -/
def phaseWeight (board : Board) : Int :=
  4 * (countBits (board.pieces WHITE_QUEEN) + countBits (board.pieces BLACK_QUEEN)) +
  2 * (countBits (board.pieces WHITE_ROOK) + countBits (board.pieces BLACK_ROOK)) +
  ((countBits (board.pieces WHITE_BISHOP) + countBits (board.pieces BLACK_BISHOP)) +
    (countBits (board.pieces WHITE_KNIGHT) + countBits (board.pieces BLACK_KNIGHT)))

/-- The game phase the specification describes. -/
def phaseSpec (board : Board) : Int := min 24 (phaseWeight board) * 256 / 24

/-- The state in which `UCI::run` reads its first command: `main` has loaded the
starting position, the Searcher is untouched, `is_running` is true. -/
def UCI.atStart (z : Zobrist) : UCI :=
  { board := (Board.set_from_fen z Board.init startFen).board
    searcher := Searcher.init
    is_running := true }

/-! ## The adapter, the ray walk and the search: what the statements need -/

/-- The form of a move in algebraic coordinates as the specification describes it: a
file `a..h`, a rank `1..8`, a file, a rank, and possibly one promotion letter among
`q`, `r`, `b`, `n`. -/
def IsCoordinateToken (tok : List Char) : Prop :=
  (tok.length = 4 ∨ (tok.length = 5 ∧ tok.getD 4 ' ' ∈ ['q', 'r', 'b', 'n'])) ∧
  ('a' ≤ tok.getD 0 ' ' ∧ tok.getD 0 ' ' ≤ 'h') ∧ ('1' ≤ tok.getD 1 ' ' ∧ tok.getD 1 ' ' ≤ '8') ∧
  ('a' ≤ tok.getD 2 ' ' ∧ tok.getD 2 ' ' ≤ 'h') ∧ ('1' ≤ tok.getD 3 ' ' ∧ tok.getD 3 ' ' ≤ '8')

instance (tok : List Char) : Decidable (IsCoordinateToken tok) := by
  unfold IsCoordinateToken
  infer_instance

/-- The directions the specification gives a slider: the four diagonal ones for a
bishop, the four orthogonal ones for a rook, all eight for both. -/
def walkDirs (bishop rook : Bool) : List (Int × Int) :=
  (if bishop then [(1, 1), (1, -1), (-1, 1), (-1, -1)] else []) ++
  (if rook then [(1, 0), (-1, 0), (0, 1), (0, -1)] else [])

/-- The square `k` steps away from `sq` in the direction `(dr, df)`. -/
def walkSquare (sq dr df : Int) (k : Nat) : Int :=
  (rank_of sq + k * dr) * 8 + (file_of sq + k * df)

/-- The square `t` is reached by the walk from `sq` in the direction `(dr, df)` over
the occupancy `occ`: it lies `k >= 1` steps away, on the board, and none of the squares
passed before it is occupied; the walk stops at the board edge or on the first occupied
square, which is reached. -/
def RayReaches (occ : Nat) (sq dr df t : Int) : Prop :=
  ∃ k : Nat, k < 8 ∧ 1 ≤ k ∧
    (0 ≤ rank_of sq + k * dr ∧ rank_of sq + k * dr < 8 ∧
      0 ≤ file_of sq + k * df ∧ file_of sq + k * df < 8) ∧
    t = walkSquare sq dr df k ∧
    ∀ j : Nat, j < k → 1 ≤ j → ¬ hasBit occ (walkSquare sq dr df j)

instance (occ : Nat) (sq dr df t : Int) : Decidable (RayReaches occ sq dr df t) := by
  unfold RayReaches
  infer_instance

/-- The set of squares the specification describes for `get_slider_attacks`. -/
def SliderReaches (occ : Nat) (sq : Int) (bishop rook : Bool) (t : Int) : Prop :=
  ∃ d ∈ walkDirs bishop rook, RayReaches occ sq d.1 d.2 t

instance (occ : Nat) (sq : Int) (bishop rook : Bool) (t : Int) :
    Decidable (SliderReaches occ sq bishop rook t) := by
  unfold SliderReaches
  infer_instance

/-- The squares added by `n` rounds of the ray walk that starts on `(rr, ff)`: the square
`k < n` steps further is added when it is on the board and every square before it is on the
board and empty. -/
def WalkHits (occ : Nat) (dr df : Int) (n : Nat) (rr ff t : Int) : Prop :=
  ∃ k : Nat, k < n ∧
    (0 ≤ rr + k * dr ∧ rr + k * dr < 8 ∧ 0 ≤ ff + k * df ∧ ff + k * df < 8) ∧
    t = (rr + k * dr) * 8 + (ff + k * df) ∧
    ∀ j : Nat, j < k →
      (0 ≤ rr + j * dr ∧ rr + j * dr < 8 ∧ 0 ≤ ff + j * df ∧ ff + j * df < 8) ∧
      ¬ hasBit occ ((rr + j * dr) * 8 + (ff + j * df))

/-- The struct `SearchLimits`; the field `start_time` is left out: the time elapsed since
it is a parameter of `stop_condition`. -/
structure SearchLimits where
  depth : Int
  movetime : Int
  nodes : Int
  infinite : Bool

/-- A default-constructed `SearchLimits`. -/
def SearchLimits.init : SearchLimits :=
  { depth := 6, movetime := 0, nodes := 0, infinite := false }

/-- The method `Searcher::stop_condition`; `elapsed` is the count of the duration
`now - limits.start_time` in milliseconds. -/
def Searcher.stop_condition (s : Searcher) (limits : SearchLimits) (elapsed : Int) : Bool :=
  if s.stop_search = true then true
  else if limits.movetime > 0 ∧ elapsed ≥ limits.movetime then true
  else if limits.nodes > 0 ∧ s.stats.nodes ≥ limits.nodes then true
  else false

/-- The state of the loop of `search`: the Searcher, the Board, the locals `best_move` and
`best_score`; `done` records the `break`. -/
structure SearchLoop where
  s : Searcher
  board : Board
  best_move : Move
  best_score : Int
  done : Bool

/-- Lines 49-60 of `search`: what follows the call of `alpha_beta` at the root in the
iteration `depth`; `r` is the outcome of that call. -/
def searchUpdate (env : SearchEnv) (st : SearchLoop) (depth : Int) (r : SearchResult) :
    SearchLoop :=
  let score := r.value
  if r.s.stop_search = false ∧ score > st.best_score then
    let s1 := { r.s with stats := { r.s.stats with score := score } }
    let pr := s1.tt.probe r.board.zobrist_key depth 0 TTFlag.TT_EXACT env.stale
    if pr.hit = true then
      { s := { s1 with stats := { s1.stats with best_move := pr.best_move } }, board := r.board,
        best_move := pr.best_move, best_score := score, done := false }
    else
      { s := s1, board := r.board, best_move := st.best_move, best_score := score,
        done := false }
  else
    { s := r.s, board := r.board, best_move := st.best_move, best_score := st.best_score,
      done := false }

/-- One round of the loop of `search` for the iteration `depth`; `clock depth` is the
time elapsed when the round calls `stop_condition`.  What is written to `std::cerr` is left
out. -/
def searchStep (env : SearchEnv) (clock : Int → Int) (limits : SearchLimits) (st : SearchLoop)
    (depth : Int) : SearchLoop :=
  if st.done = true ∨ st.s.stop_search = true then { st with done := true }
  else
    let s := { st.s with stats := { st.s.stats with depth := depth } }
    let r := Searcher.alpha_beta env s st.board depth (-1000000) 1000000 true
    let st1 := searchUpdate env st depth r
    { st1 with done := Searcher.stop_condition st1.s limits (clock depth) }

/-- The depths `1..limit` of the iterations of `search`. -/
def searchDepths (limit : Int) : List Int :=
  (List.range limit.toNat).map (fun i : Nat => (i : Int) + 1)

/-- What `search` leaves behind: the returned `SearchStats`, the Searcher and the Board. -/
structure SearchOutcome where
  stats : SearchStats
  s : Searcher
  board : Board

/-- The method `Searcher::search`.  The local `Move best_move` is not initialised; it
starts as `env.stale`. -/
def Searcher.search (env : SearchEnv) (clock : Int → Int) (s : Searcher) (board : Board)
    (limits : SearchLimits) : SearchOutcome :=
  let s := { s with
    stats := SearchStats.init, stop_search := false,
    tt := { s.tt with current_age := s.tt.current_age + 1 } }
  let st := (searchDepths limits.depth).foldl (searchStep env clock limits)
    { s := s, board := board, best_move := env.stale, best_score := -1000000, done := false }
  { stats := st.s.stats, s := st.s, board := st.board }

/-- The state of the loop of `search` before the first iteration: `stats = SearchStats()`,
`stop_search = false`, the age of the table raised, `best_score = -1000000`. -/
def searchStart (env : SearchEnv) (s : Searcher) (board : Board) : SearchLoop :=
  { s := { s with
      stats := SearchStats.init, stop_search := false,
      tt := { s.tt with current_age := s.tt.current_age + 1 } }
    board := board, best_move := env.stale, best_score := -1000000, done := false }

/-- The state of the loop of `search` after the iterations `1..k`. -/
def searchAfter (env : SearchEnv) (clock : Int → Int) (limits : SearchLimits) (s : Searcher)
    (board : Board) (k : Nat) : SearchLoop :=
  (searchDepths (k : Int)).foldl (searchStep env clock limits) (searchStart env s board)

/-- The call `alpha_beta(board, d, -1000000, 1000000, true)` of the iteration `d >= 1` of
`search`, made in the state the iterations `1..d-1` left. -/
def rootCall (env : SearchEnv) (clock : Int → Int) (limits : SearchLimits) (s : Searcher)
    (board : Board) (d : Nat) : SearchResult :=
  Searcher.alpha_beta env
    { (searchAfter env clock limits s board (d - 1)).s with
      stats := { (searchAfter env clock limits s board (d - 1)).s.stats with depth := (d : Int) } }
    (searchAfter env clock limits s board (d - 1)).board (d : Int) (-1000000) 1000000 true

/-- The Searcher with `n` added to `stats.qnodes`. -/
def Searcher.addQnodes (s : Searcher) (n : Int) : Searcher :=
  { s with stats := { s.stats with qnodes := s.stats.qnodes + n } }

/-- The entry `killer_moves[d][i]` belongs to a row `1..D` and a column `0..1`. -/
def KillerSlot (D d i : Int) : Prop := (1 ≤ d ∧ d ≤ D) ∧ (i = 0 ∨ i = 1)

/-- The Searcher `s1` has what `s` has in `stop_search`, in the fields `depth`, `score` and
`best_move` of `stats`, and in every entry of `killer_moves` outside the rows `1..D` and
the columns `0..1`. -/
def SearchFrame (D : Int) (s s1 : Searcher) : Prop :=
  s1.stop_search = s.stop_search ∧ s1.stats.depth = s.stats.depth ∧
  s1.stats.score = s.stats.score ∧ s1.stats.best_move = s.stats.best_move ∧
  ∀ d i, ¬ KillerSlot D d i → s1.killer_moves d i = s.killer_moves d i

/-- Two Searchers agree on the transposition table, on `stats`, on `stop_search` and on the
entries of `killer_moves` in the rows `1..D` and the columns `0..1`. -/
def AgreeOnSlots (D : Int) (s1 s2 : Searcher) : Prop :=
  s1.tt = s2.tt ∧ s1.stats = s2.stats ∧ s1.stop_search = s2.stop_search ∧
  ∀ d i, KillerSlot D d i → s1.killer_moves d i = s2.killer_moves d i

/-- Two outcomes of a search agree on the value and on the Board, and their Searchers
agree in the sense of `AgreeOnSlots`. -/
def ResultsAgree (D : Int) (r1 r2 : SearchResult) : Prop :=
  r1.value = r2.value ∧ r1.board = r2.board ∧ AgreeOnSlots D r1.s r2.s

/-- Two states of the move loop of `alpha_beta` agree on every field but the Searcher, and
their Searchers agree in the sense of `AgreeOnSlots`. -/
def LoopsAgree (D : Int) (st1 st2 : ABLoop) : Prop :=
  AgreeOnSlots D st1.s st2.s ∧ st1.board = st2.board ∧ st1.alpha = st2.alpha ∧
  st1.best_value = st2.best_value ∧ st1.best_move = st2.best_move ∧
  st1.moves_searched = st2.moves_searched ∧ st1.done = st2.done

/-- Lines 88-167 of `alpha_beta`: what follows the probe of the transposition table when
the probe does not end the call; `s` is the Searcher after the probe and `tt_move` the
local it may have written. -/
def alphaBetaRest (env : SearchEnv)
    (sub : Int → Searcher → Board → Int → Int → Bool → SearchResult)
    (depth : Int) (s : Searcher) (board : Board) (alpha beta : Int) (do_null : Bool)
    (tt_move : Move) : SearchResult :=
  if depth ≤ 0 then Searcher.quiescence env s board alpha beta 0
  else if do_null = true ∧ depth ≥ 3 ∧ board.in_check env.t board.side_to_move = false then
    let null_move := Move.mk 0 0 0 0 0 false false
    let undo := board.undoInfo null_move
    let r := sub (depth - 3) s (board.make_move env.z null_move) (-beta) (-beta + 1) false
    let null_score := -r.value
    let board := r.board.undo_move undo
    if null_score ≥ beta then { value := beta, s := r.s, board := board }
    else alphaBetaTail env sub r.s board depth alpha beta tt_move
  else alphaBetaTail env sub s board depth alpha beta tt_move

/-- Two states of the loop of `search` agree on every field but the Searcher, and their
Searchers agree in the sense of `AgreeOnSlots`. -/
def SearchLoopsAgree (D : Int) (st1 st2 : SearchLoop) : Prop :=
  AgreeOnSlots D st1.s st2.s ∧ st1.board = st2.board ∧ st1.best_move = st2.best_move ∧
  st1.best_score = st2.best_score ∧ st1.done = st2.done

/-- A call of `quiescence` reads nothing of the Searcher and only adds to
`stats.qnodes`. -/
def QUniform (sub : Searcher → Board → Int → Int → SearchResult) : Prop :=
  ∀ (b : Board) (alpha beta : Int), ∃ (v n : Int) (b1 : Board),
    ∀ s : Searcher, sub s b alpha beta = { value := v, s := s.addQnodes n, board := b1 }

/-! # Theorems -/

theorem update_occupancies_derived (b : Board) : OccupanciesDerived b.update_occupancies := by
  simp [OccupanciesDerived, Board.update_occupancies, setAt, orPieces]

theorem update_occupancies_pieces (b : Board) : b.update_occupancies.pieces = b.pieces := rfl

theorem set_from_fen_derived (z : Zobrist) (b : Board) (fen : List Char) :
    OccupanciesDerived (Board.set_from_fen z b fen).board := by
  unfold Board.set_from_fen
  simp only []
  split
  · exact update_occupancies_derived _
  · split
    · exact update_occupancies_derived _
    · exact update_occupancies_derived _

/-- C6: after `set_from_fen`, after `make_move` of any move and after `undo_move` of any undo
record, the three occupancies equal the values derived from the piece bitboards. -/
theorem C6_occupancies_derived (z : Zobrist) (b : Board) :
    (∀ fen : List Char, OccupanciesDerived (Board.set_from_fen z b fen).board) ∧
    (∀ m : Move, OccupanciesDerived (b.make_move z m)) ∧
    (∀ u : UndoInfo, OccupanciesDerived (b.undo_move u)) :=
  ⟨fun fen => set_from_fen_derived z b fen,
   fun _ => update_occupancies_derived _,
   fun _ => update_occupancies_derived _⟩

theorem compute_zobrist_key_congr (z : Zobrist) (b1 b2 : Board)
    (h : SameLogicalPosition b1 b2) : compute_zobrist_key z b1 = compute_zobrist_key z b2 := by
  obtain ⟨hp, hs, hc, he⟩ := h
  simp only [pieceRange, List.mem_cons, List.mem_singleton, forall_eq_or_imp, forall_eq,
    List.not_mem_nil, false_implies, implies_true, and_true] at hp
  obtain ⟨h1, h2, h3, h4, h5, h6, h7, h8, h9, h10, h11, h12⟩ := hp
  simp only [compute_zobrist_key, pieceRange, List.foldl, h1, h2, h3, h4, h5, h6, h7, h8, h9,
    h10, h11, h12, hs, hc, he]

theorem set_from_fen_key (z : Zobrist) (b : Board) (fen : List Char)
    (h : (Board.set_from_fen z b fen).thrown = none) :
    (Board.set_from_fen z b fen).board.zobrist_key =
      compute_zobrist_key z (Board.set_from_fen z b fen).board := by
  unfold Board.set_from_fen at h ⊢
  simp only [] at h ⊢
  split at h
  · simp at h
  · split at h
    · simp at h
    · rfl

theorem make_move_key (z : Zobrist) (b : Board) (m : Move) :
    (b.make_move z m).zobrist_key = compute_zobrist_key z (b.make_move z m) := rfl

theorem produced_key (z : Zobrist) (b : Board) (h : Produced z b) :
    b.zobrist_key = compute_zobrist_key z b := by
  cases h with
  | fen b0 s h => exact set_from_fen_key z b0 s h
  | move b0 m => exact make_move_key z b0 m

/-- C7: a completed `set_from_fen` and every `make_move` leave `zobrist_key` equal to
`compute_zobrist_key` of the resulting position; that value is the same for two Boards agreeing
on `pieces[1..12]`, side to move, castle rights and en-passant square; hence two Boards produced
by `set_from_fen` or `make_move` that agree on those fields carry the same key, whatever their
clocks. -/
theorem C7_zobrist_key_canonical (z : Zobrist) :
    (∀ (b : Board) (fen : List Char), (Board.set_from_fen z b fen).thrown = none →
      (Board.set_from_fen z b fen).board.zobrist_key =
        compute_zobrist_key z (Board.set_from_fen z b fen).board) ∧
    (∀ (b : Board) (m : Move),
      (b.make_move z m).zobrist_key = compute_zobrist_key z (b.make_move z m)) ∧
    (∀ b1 b2 : Board, SameLogicalPosition b1 b2 →
      compute_zobrist_key z b1 = compute_zobrist_key z b2) ∧
    (∀ b1 b2 : Board, Produced z b1 → Produced z b2 → SameLogicalPosition b1 b2 →
      b1.zobrist_key = b2.zobrist_key) :=
  ⟨set_from_fen_key z, make_move_key z, compute_zobrist_key_congr z,
   fun b1 b2 h1 h2 h => by
     rw [produced_key z b1 h1, produced_key z b2 h2]
     exact compute_zobrist_key_congr z b1 b2 h⟩

theorem C7_zobrist_key_canonical_witness :
    (Board.set_from_fen zSample Board.init startFen).thrown = none ∧
    SameLogicalPosition (Board.set_from_fen zSample Board.init startFen).board
      (knightDanceBefore.make_move zSample ⟨45, 62, 8, 0, 0, false, false⟩) ∧
    (Board.set_from_fen zSample Board.init startFen).board.halfmove_clock ≠
      (knightDanceBefore.make_move zSample ⟨45, 62, 8, 0, 0, false, false⟩).halfmove_clock ∧
    (Board.set_from_fen zSample Board.init startFen).board.zobrist_key =
      (knightDanceBefore.make_move zSample ⟨45, 62, 8, 0, 0, false, false⟩).zobrist_key :=
  ⟨by decide, by decide, by decide,
   (C7_zobrist_key_canonical zSample).2.2.2 _ _
     (Produced.fen Board.init startFen (by decide))
     (Produced.move knightDanceBefore ⟨45, 62, 8, 0, 0, false, false⟩) (by decide)⟩

/-- C2 (defect in the code): on the position 8/8/8/3k4/4P3/8/8/4K3 with White to move, the White
pawn on e4 (square 28) attacks d5 (square 35) according to `pawn_attacks[WHITE][28]`, and
`generate_moves` lets it capture the Black king standing there; yet
`is_square_attacked(35, WHITE)` is false and `in_check(BLACK)` is false.  The query looks for
White pawns on `square + 7` and `square + 9`, the squares a White pawn on `square` would attack:
it reports e5 (36) attacked by a White pawn standing on d6 (43). -/
theorem C2_is_square_attacked_pawn_direction :
    (loadFen zSample "8/8/8/3k4/4P3/8/8/4K3 w - - 0 1").pieces WHITE_PAWN = sqbit 28 ∧
    init_move_tables.pawn_attacks 0 28 &&& sqbit 35 ≠ 0 ∧
    (Move.mk 28 35 WHITE_PAWN BLACK_KING 0 false false) ∈
      MoveGenerator.generate_moves init_move_tables
        (loadFen zSample "8/8/8/3k4/4P3/8/8/4K3 w - - 0 1") ∧
    (loadFen zSample "8/8/8/3k4/4P3/8/8/4K3 w - - 0 1").is_square_attacked
      init_move_tables 35 Color.WHITE = false ∧
    (loadFen zSample "8/8/8/3k4/4P3/8/8/4K3 w - - 0 1").in_check
      init_move_tables Color.BLACK = false ∧
    (loadFen zSample "7k/8/3P4/8/8/8/8/K7 w - - 0 1").pieces WHITE_PAWN = sqbit 43 ∧
    init_move_tables.pawn_attacks 0 43 &&& sqbit 36 = 0 ∧
    (loadFen zSample "7k/8/3P4/8/8/8/8/K7 w - - 0 1").is_square_attacked
      init_move_tables 36 Color.WHITE = true := by
  decide

/-- C3 (defect in the code): on 4k3/8/8/8/8/8/8/4K2R with White to move, `uci_to_move("e1g1")`
is the castle move 4 -> 6 of the White king, and `make_move` of it puts the king on g1 (6) but
leaves the White rook on h1 (7), with none on f1, and sets bit f1 (5) in the Black rook
bitboard, which was empty. -/
theorem C3_e1g1_moves_the_black_rook_bitboard (stale : Int) :
    uci_to_move stale "e1g1".toList (loadFen zSample "4k3/8/8/8/8/8/8/4K2R w K - 0 1") =
      Move.mk 4 6 WHITE_KING 0 0 false true ∧
    ((loadFen zSample "4k3/8/8/8/8/8/8/4K2R w K - 0 1").make_move zSample
      (uci_to_move stale "e1g1".toList
        (loadFen zSample "4k3/8/8/8/8/8/8/4K2R w K - 0 1"))).pieces WHITE_KING = sqbit 6 ∧
    ((loadFen zSample "4k3/8/8/8/8/8/8/4K2R w K - 0 1").make_move zSample
      (uci_to_move stale "e1g1".toList
        (loadFen zSample "4k3/8/8/8/8/8/8/4K2R w K - 0 1"))).pieces WHITE_ROOK = sqbit 7 ∧
    (loadFen zSample "4k3/8/8/8/8/8/8/4K2R w K - 0 1").pieces BLACK_ROOK = 0 ∧
    ((loadFen zSample "4k3/8/8/8/8/8/8/4K2R w K - 0 1").make_move zSample
      (uci_to_move stale "e1g1".toList
        (loadFen zSample "4k3/8/8/8/8/8/8/4K2R w K - 0 1"))).pieces BLACK_ROOK = sqbit 5 := by
  have h : uci_to_move stale "e1g1".toList (loadFen zSample "4k3/8/8/8/8/8/8/4K2R w K - 0 1") =
      Move.mk 4 6 WHITE_KING 0 0 false true := rfl
  rw [h]
  decide

/-- C4 (defect in the code): on 4KB2/8/8/8/8/8/8/k7 with White to move and the right WK set,
the White king stands on square 60 and a White bishop on square 61, between the king and its
destination 62; `generate_castling_moves` still emits the castle move 60 -> 62, because the
between-squares mask it tests is `0x60` (squares 5 and 6).  On 4k3/8/8/8/8/8/8/4K2R, with king
e1, rook h1, f1 and g1 empty and the right set, it emits nothing. -/
theorem C4_castling_emitted_through_occupied_square :
    (loadFen zSample "4KB2/8/8/8/8/8/8/k7 w K - 0 1").pieces WHITE_KING = sqbit 60 ∧
    (loadFen zSample "4KB2/8/8/8/8/8/8/k7 w K - 0 1").occupancies 2 &&& sqbit 61 ≠ 0 ∧
    MoveGenerator.generate_castling_moves init_move_tables
      (loadFen zSample "4KB2/8/8/8/8/8/8/k7 w K - 0 1") =
        [Move.mk 60 62 WHITE_KING 0 0 false true] ∧
    MoveGenerator.generate_castling_moves init_move_tables
      (loadFen zSample "4k3/8/8/8/8/8/8/4K2R w K - 0 1") = [] := by
  decide

/-- C10 (defect in the code): on 4k3/8/8/8/8/8/8/4K2R with the right WK set, the rook move
h1 -> h2 (7 -> 15) is emitted by `generate_moves`, and after `make_move` of it the right WK
(bit 1) is still set; on 4k2r/8/8/8/8/8/8/4K3 with the right BK set, the Black rook move
h8 -> h7 (63 -> 55) leaves BK (bit 4) set.  The king clause holds: the king move e1 -> e2
clears WK. -/
theorem C10_rook_leaving_corner_keeps_right :
    (Move.mk 7 15 WHITE_ROOK 0 0 false false) ∈
      MoveGenerator.generate_moves init_move_tables
        (loadFen zSample "4k3/8/8/8/8/8/8/4K2R w K - 0 1") ∧
    (loadFen zSample "4k3/8/8/8/8/8/8/4K2R w K - 0 1").castle_rights = 1 ∧
    ((loadFen zSample "4k3/8/8/8/8/8/8/4K2R w K - 0 1").make_move zSample
      (Move.mk 7 15 WHITE_ROOK 0 0 false false)).castle_rights = 1 ∧
    (Move.mk 63 55 BLACK_ROOK 0 0 false false) ∈
      MoveGenerator.generate_moves init_move_tables
        (loadFen zSample "4k2r/8/8/8/8/8/8/4K3 b k - 0 1") ∧
    ((loadFen zSample "4k2r/8/8/8/8/8/8/4K3 b k - 0 1").make_move zSample
      (Move.mk 63 55 BLACK_ROOK 0 0 false false)).castle_rights = 4 ∧
    ((loadFen zSample "4k3/8/8/8/8/8/8/4K2R w K - 0 1").make_move zSample
      (Move.mk 4 12 WHITE_KING 0 0 false false)).castle_rights = 0 := by
  decide

/-- C9, refuted as stated: starting from the loaded start position, `set_from_fen` of a
placement with nine files in a rank, and of a side field "x", return normally, and of a
halfmove field "zz" ends with `std::invalid_argument`; in all three cases the Board has been
overwritten (the White king bitboard, `1 << 4` before, is empty after). -/
theorem C9_counterexample :
    (loadFen zSample "rnbqkbnr/pppppppp/8/8/8/8/PPPPPPPP/RNBQKBNR w KQkq - 0 1").pieces
      WHITE_KING = sqbit 4 ∧
    (Board.set_from_fen zSample
      (loadFen zSample "rnbqkbnr/pppppppp/8/8/8/8/PPPPPPPP/RNBQKBNR w KQkq - 0 1")
      "8/PPPPPPPPP/8/8/8/8/8/8 w - - 0 1".toList).thrown = none ∧
    (Board.set_from_fen zSample
      (loadFen zSample "rnbqkbnr/pppppppp/8/8/8/8/PPPPPPPP/RNBQKBNR w KQkq - 0 1")
      "8/PPPPPPPPP/8/8/8/8/8/8 w - - 0 1".toList).board.pieces WHITE_KING = 0 ∧
    (Board.set_from_fen zSample
      (loadFen zSample "rnbqkbnr/pppppppp/8/8/8/8/PPPPPPPP/RNBQKBNR w KQkq - 0 1")
      "8/8/8/8/8/8/8/8 x - - 0 1".toList).thrown = none ∧
    (Board.set_from_fen zSample
      (loadFen zSample "rnbqkbnr/pppppppp/8/8/8/8/PPPPPPPP/RNBQKBNR w KQkq - 0 1")
      "8/8/8/8/8/8/8/8 x - - 0 1".toList).board.pieces WHITE_KING = 0 ∧
    (Board.set_from_fen zSample
      (loadFen zSample "rnbqkbnr/pppppppp/8/8/8/8/PPPPPPPP/RNBQKBNR w KQkq - 0 1")
      "8/8/8/8/8/8/8/8 w - - zz 1".toList).thrown = some StoiError.invalid_argument ∧
    (Board.set_from_fen zSample
      (loadFen zSample "rnbqkbnr/pppppppp/8/8/8/8/PPPPPPPP/RNBQKBNR w KQkq - 0 1")
      "8/8/8/8/8/8/8/8 w - - zz 1".toList).board.pieces WHITE_KING = 0 := by
  decide

/-- C9, amended: `set_from_fen` validates nothing and has no `INVALID_FEN` outcome.  For every
string, the result does not depend on the Board before the call (it is cleared first); the
piece bitboards are whatever the placement loop writes; the side is WHITE for the side field
"w" and BLACK for any other; and the call ends abnormally exactly with the exception of
`std::stoi` on a present halfmove field or, failing that, on a present fullmove field. -/
theorem C9_set_from_fen_validates_nothing (z : Zobrist) (b : Board) (fen : List Char) :
    (∀ b0 : Board, Board.set_from_fen z b0 fen = Board.set_from_fen z b fen) ∧
    (Board.set_from_fen z b fen).board.pieces =
      ((fenField 0 fen).foldl placementStep
        { rank := 7, file := 0, pieces := fun _ => 0 }).pieces ∧
    (Board.set_from_fen z b fen).board.side_to_move =
      (if fenField 1 fen = ['w'] then Color.WHITE else Color.BLACK) ∧
    (Board.set_from_fen z b fen).thrown =
      (match stoiFailure (fenField 4 fen) with
       | some e => some e
       | none => stoiFailure (fenField 5 fen)) := by
  refine ⟨fun b0 => rfl, ?_, ?_, ?_⟩
  · unfold Board.set_from_fen
    simp only []
    split
    · rfl
    · split <;> rfl
  · unfold Board.set_from_fen
    simp only []
    split
    · rfl
    · split <;> rfl
  · unfold Board.set_from_fen stoiFailure
    simp only [fenField]
    by_cases h4 : (nextToken (nextToken (nextToken (nextToken (nextToken fen).2).2).2).2).1 = []
    · by_cases h5 :
        (nextToken (nextToken (nextToken (nextToken (nextToken (nextToken fen).2).2).2).2).2).1 = []
      · simp [h4, h5]
      · simp only [h4, h5, if_true, if_false]
        cases stoi (nextToken (nextToken (nextToken (nextToken (nextToken
          (nextToken fen).2).2).2).2).2).1 <;> rfl
    · by_cases h5 :
        (nextToken (nextToken (nextToken (nextToken (nextToken (nextToken fen).2).2).2).2).2).1 = []
      · simp only [h4, h5, if_true, if_false]
        cases stoi (nextToken (nextToken (nextToken (nextToken (nextToken fen).2).2).2).2).1 <;> rfl
      · simp only [h4, h5, if_true, if_false]
        cases stoi (nextToken (nextToken (nextToken (nextToken (nextToken fen).2).2).2).2).1
        · rfl
        · cases stoi (nextToken (nextToken (nextToken (nextToken (nextToken
            (nextToken fen).2).2).2).2).2).1 <;> rfl

theorem sqbit_in {s : Int} (h0 : 0 ≤ s) (h1 : s < 64) : sqbit s = 2 ^ s.toNat := by
  simp [sqbit, h0, h1]

theorem sqbit_out {s : Int} (h : ¬ (0 ≤ s ∧ s < 64)) : sqbit s = 0 := by
  simp [sqbit, h]

theorem sqbit_lt (s : Int) : sqbit s < TWO64 := by
  unfold sqbit TWO64
  split
  · rename_i h
    have : s.toNat < 64 := by omega
    calc 2 ^ s.toNat < 2 ^ 64 := Nat.pow_lt_pow_right (by norm_num) this
      _ = 18446744073709551616 := by norm_num
  · norm_num

theorem and_two_pow_ne_zero (x k : Nat) : x &&& 2 ^ k ≠ 0 ↔ x.testBit k = true := by
  constructor
  · intro h
    by_contra hb
    apply h
    apply Nat.eq_of_testBit_eq
    intro i
    simp only [Nat.testBit_and, Nat.testBit_two_pow, Nat.zero_testBit]
    by_cases hik : k = i
    · subst hik
      simp [hb]
    · simp [hik]
  · intro hb h
    have := congrArg (fun y => y.testBit k) h
    simp [Nat.testBit_two_pow, hb] at this

theorem hasBit_range {x : Nat} {s : Int} (h : hasBit x s) : 0 ≤ s ∧ s < 64 := by
  by_contra hr
  exact h (by simp [sqbit_out hr])

theorem hasBit_iff_testBit {x : Nat} {s : Int} (h0 : 0 ≤ s) (h1 : s < 64) :
    hasBit x s ↔ x.testBit s.toNat = true := by
  unfold hasBit
  rw [sqbit_in h0 h1]
  exact and_two_pow_ne_zero x s.toNat

theorem hasBit_iff (x : Nat) (s : Int) :
    hasBit x s ↔ (0 ≤ s ∧ s < 64) ∧ x.testBit s.toNat = true := by
  constructor
  · intro h
    have hr := hasBit_range h
    exact ⟨hr, (hasBit_iff_testBit hr.1 hr.2).1 h⟩
  · rintro ⟨hr, h⟩
    exact (hasBit_iff_testBit hr.1 hr.2).2 h

theorem hasBit_zero (s : Int) : ¬ hasBit 0 s := by
  simp [hasBit]

theorem hasBit_or (x y : Nat) (s : Int) : hasBit (x ||| y) s ↔ hasBit x s ∨ hasBit y s := by
  simp only [hasBit_iff, Nat.testBit_or, Bool.or_eq_true]
  tauto

theorem hasBit_and (x y : Nat) (s : Int) : hasBit (x &&& y) s ↔ hasBit x s ∧ hasBit y s := by
  simp only [hasBit_iff, Nat.testBit_and, Bool.and_eq_true]
  tauto

theorem testBit_MASK64 (i : Nat) : MASK64.testBit i = decide (i < 64) := by
  have : MASK64 = 2 ^ 64 - 1 := by norm_num [MASK64]
  rw [this, Nat.testBit_two_pow_sub_one]

theorem hasBit_not64 (x : Nat) (s : Int) :
    hasBit (not64 x) s ↔ (0 ≤ s ∧ s < 64) ∧ ¬ hasBit x s := by
  simp only [hasBit_iff, not64, Nat.testBit_xor, testBit_MASK64]
  constructor
  · rintro ⟨hr, h⟩
    have : s.toNat < 64 := by omega
    simp [this] at h
    exact ⟨hr, fun h2 => by simp [h2.2] at h⟩
  · rintro ⟨hr, h⟩
    have : s.toNat < 64 := by omega
    refine ⟨hr, ?_⟩
    have h3 : x.testBit s.toNat = false := by
      cases hx : x.testBit s.toNat
      · rfl
      · exact absurd ⟨hr, hx⟩ h
    simp [this, h3]

theorem hasBit_sqbit (t s : Int) : hasBit (sqbit t) s ↔ (0 ≤ s ∧ s < 64) ∧ s = t := by
  constructor
  · intro h
    have hr := hasBit_range h
    refine ⟨hr, ?_⟩
    by_cases ht : 0 ≤ t ∧ t < 64
    · rw [hasBit_iff_testBit hr.1 hr.2, sqbit_in ht.1 ht.2, Nat.testBit_two_pow] at h
      have : t.toNat = s.toNat := by simpa using h
      omega
    · rw [sqbit_out ht] at h
      exact absurd h (hasBit_zero s)
  · rintro ⟨hr, rfl⟩
    rw [hasBit_iff_testBit hr.1 hr.2, sqbit_in hr.1 hr.2, Nat.testBit_two_pow]
    simp

theorem testBit_false_of_lt_TWO64 {x : Nat} (hx : x < TWO64) {i : Nat} (hi : 64 ≤ i) :
    x.testBit i = false := by
  apply Nat.testBit_lt_two_pow
  calc x < 2 ^ 64 := by simpa [TWO64] using hx
    _ ≤ 2 ^ i := Nat.pow_le_pow_right (by norm_num) hi

/-- Two `u64` words with the same set bits are equal. -/
theorem eq_of_hasBit {x y : Nat} (hx : x < TWO64) (hy : y < TWO64)
    (h : ∀ s : Int, hasBit x s ↔ hasBit y s) : x = y := by
  apply Nat.eq_of_testBit_eq
  intro i
  by_cases hi : i < 64
  · have := h (i : Int)
    rw [hasBit_iff_testBit (by omega) (by omega), hasBit_iff_testBit (by omega) (by omega)] at this
    simp only [Int.toNat_ofNat] at this
    cases hx1 : x.testBit i <;> cases hy1 : y.testBit i <;> simp_all
  · rw [testBit_false_of_lt_TWO64 hx (by omega), testBit_false_of_lt_TWO64 hy (by omega)]

theorem and_eq_zero_of_hasBit {x y : Nat} (hx : x < TWO64)
    (h : ∀ s : Int, hasBit x s → ¬ hasBit y s) : x &&& y = 0 := by
  have hlt : x &&& y < TWO64 := lt_of_le_of_lt Nat.and_le_left hx
  apply eq_of_hasBit hlt (by norm_num [TWO64])
  intro s
  rw [hasBit_and]
  constructor
  · rintro ⟨h1, h2⟩
    exact absurd h2 (h s h1)
  · intro h0
    exact absurd h0 (hasBit_zero s)

theorem not_hasBit_of_and_eq_zero {x y : Nat} (h : x &&& y = 0) {s : Int} (hx : hasBit x s) :
    ¬ hasBit y s := by
  intro hy
  have : hasBit (x &&& y) s := (hasBit_and x y s).2 ⟨hx, hy⟩
  rw [h] at this
  exact hasBit_zero s this

theorem not64_lt (x : Nat) (hx : x < TWO64) : not64 x < TWO64 := by
  unfold not64
  have h1 : MASK64 < 2 ^ 64 := by norm_num [MASK64]
  have h2 : x < 2 ^ 64 := by simpa [TWO64] using hx
  simpa [TWO64] using Nat.xor_lt_two_pow h1 h2

theorem or_lt_TWO64 {x y : Nat} (hx : x < TWO64) (hy : y < TWO64) : x ||| y < TWO64 := by
  have h1 : x < 2 ^ 64 := by simpa [TWO64] using hx
  have h2 : y < 2 ^ 64 := by simpa [TWO64] using hy
  simpa [TWO64] using Nat.or_lt_two_pow h1 h2

theorem and_lt_TWO64_left {x : Nat} (y : Nat) (hx : x < TWO64) : x &&& y < TWO64 :=
  lt_of_le_of_lt Nat.and_le_left hx

theorem and_lt_TWO64_right (x : Nat) {y : Nat} (hy : y < TWO64) : x &&& y < TWO64 :=
  lt_of_le_of_lt Nat.and_le_right hy

theorem exists_low_bit (b : Nat) (hb : 0 < b) : ∃ k m, b = 2 ^ (k + 1) * m + 2 ^ k := by
  induction b using Nat.strong_induction_on with
  | _ b ih =>
    rcases Nat.even_or_odd b with he | ho
    · obtain ⟨c, hc⟩ := he
      have hc0 : 0 < c := by omega
      have hcb : c < b := by omega
      obtain ⟨k, m, hkm⟩ := ih c hcb hc0
      refine ⟨k + 1, m, ?_⟩
      rw [hc, hkm]
      ring
    · obtain ⟨c, hc⟩ := ho
      exact ⟨0, c, by rw [hc]; ring⟩

theorem testBit_low_decomp (k m i : Nat) :
    (2 ^ (k + 1) * m + 2 ^ k).testBit i =
      if i < k + 1 then decide (k = i) else m.testBit (i - (k + 1)) := by
  have hlt : 2 ^ k < 2 ^ (k + 1) := Nat.pow_lt_pow_right (by norm_num) (by omega)
  rw [Nat.testBit_mul_pow_two_add m hlt i, Nat.testBit_two_pow]

theorem testBit_low_decomp_pred (k m i : Nat) :
    (2 ^ (k + 1) * m + 2 ^ k - 1).testBit i =
      if i < k + 1 then decide (i < k) else m.testBit (i - (k + 1)) := by
  have hpos : 0 < 2 ^ k := Nat.pow_pos (by norm_num)
  have hlt : 2 ^ k - 1 < 2 ^ (k + 1) := by
    have : 2 ^ k < 2 ^ (k + 1) := Nat.pow_lt_pow_right (by norm_num) (by omega)
    omega
  have heq : 2 ^ (k + 1) * m + 2 ^ k - 1 = 2 ^ (k + 1) * m + (2 ^ k - 1) := by omega
  rw [heq, Nat.testBit_mul_pow_two_add m hlt i, Nat.testBit_two_pow_sub_one]

theorem not64_eq_sub {b : Nat} (hb : b < TWO64) : not64 b = 2 ^ 64 - (b + 1) := by
  have hb2 : b < 2 ^ 64 := by simpa [TWO64] using hb
  apply Nat.eq_of_testBit_eq
  intro i
  rw [Nat.testBit_two_pow_sub_succ hb2, not64, Nat.testBit_xor, testBit_MASK64]
  by_cases hi : i < 64
  · simp [hi]
  · simp [hi, testBit_false_of_lt_TWO64 hb (by omega : 64 ≤ i)]

theorem low_bit_lt {b k m : Nat} (hb : b < TWO64) (h : b = 2 ^ (k + 1) * m + 2 ^ k) : k < 64 := by
  by_contra hk
  have h1 : 2 ^ 64 ≤ 2 ^ k := Nat.pow_le_pow_right (by norm_num) (by omega)
  have h2 : 2 ^ k ≤ b := by rw [h]; omega
  have : b < 2 ^ 64 := by simpa [TWO64] using hb
  omega

theorem lsb_eq_two_pow {b k m : Nat} (hb : b < TWO64) (h : b = 2 ^ (k + 1) * m + 2 ^ k) :
    lsb b = 2 ^ k := by
  have hk : k < 64 := low_bit_lt hb h
  have hb2 : b < 2 ^ 64 := by simpa [TWO64] using hb
  have hpos : 0 < b := by
    have : 0 < 2 ^ k := Nat.pow_pos (by norm_num)
    omega
  have hneg : (not64 b + 1) % TWO64 = 2 ^ 64 - (b - 1 + 1) := by
    rw [not64_eq_sub hb]
    have : 2 ^ 64 - (b + 1) + 1 = 2 ^ 64 - (b - 1 + 1) := by omega
    rw [this]
    apply Nat.mod_eq_of_lt
    simp only [TWO64]
    omega
  unfold lsb
  rw [hneg]
  apply Nat.eq_of_testBit_eq
  intro i
  have hb1 : b - 1 < 2 ^ 64 := by omega
  rw [Nat.testBit_and, Nat.testBit_two_pow_sub_succ hb1, Nat.testBit_two_pow]
  conv_lhs => rw [h]
  rw [testBit_low_decomp, testBit_low_decomp_pred]
  by_cases h1 : i < k + 1
  · by_cases h2 : k = i
    · subst h2
      simp [hk]
    · have : i < k := by omega
      simp [h1, h2, this]
  · have h2 : ¬ k = i := by omega
    simp only [h1, h2, if_false, decide_False]
    cases m.testBit (i - (k + 1)) <;> simp

theorem debruijn_table :
    ∀ k : Fin 64, index64.getD (((2 ^ k.val * debruijn64) % TWO64) >>> 58) 0 = (k.val : Int) := by
  decide

/-- The De Bruijn scan finds the lowest set bit of a non-zero `u64`. -/
theorem bit_scan_forward_spec {b : Nat} (hb0 : b ≠ 0) (hb : b < TWO64) :
    ∃ k : Nat, k < 64 ∧ bit_scan_forward b = (k : Int) ∧ b.testBit k = true ∧
      (∀ j, j < k → b.testBit j = false) ∧
      ∀ i, (b &&& (b - 1)).testBit i = (b.testBit i && decide (i ≠ k)) := by
  obtain ⟨k, m, h⟩ := exists_low_bit b (Nat.pos_of_ne_zero hb0)
  have hk : k < 64 := low_bit_lt hb h
  refine ⟨k, hk, ?_, ?_, ?_, ?_⟩
  · unfold bit_scan_forward
    rw [if_neg hb0, lsb_eq_two_pow hb h]
    exact debruijn_table ⟨k, hk⟩
  · rw [h, testBit_low_decomp]
    simp
  · intro j hj
    rw [h, testBit_low_decomp]
    have : j < k + 1 := by omega
    have h2 : ¬ k = j := by omega
    simp [this, h2]
  · intro i
    rw [Nat.testBit_and]
    conv_lhs => rw [h]
    conv_rhs => rw [h]
    rw [testBit_low_decomp, testBit_low_decomp_pred]
    by_cases h1 : i < k + 1
    · by_cases h2 : k = i
      · subst h2
        simp
      · have : i < k := by omega
        have h3 : ¬ i = k := by omega
        simp [h1, h2, this, h3]
    · have h2 : ¬ k = i := by omega
      have h3 : ¬ i = k := by omega
      simp [h1, h3]

theorem bsf_hasBit {b : Nat} (hb0 : b ≠ 0) (hb : b < TWO64) : hasBit b (bit_scan_forward b) := by
  obtain ⟨k, hk, hbsf, hbit, -, -⟩ := bit_scan_forward_spec hb0 hb
  rw [hbsf, hasBit_iff_testBit (by omega) (by omega)]
  simpa using hbit

theorem scanLoop_sound : ∀ (fuel b : Nat), b < TWO64 → ∀ sq ∈ scanLoop fuel b, hasBit b sq := by
  intro fuel
  induction fuel with
  | zero => intro b _ sq h; simp [scanLoop] at h
  | succ n ih =>
    intro b hb sq h
    unfold scanLoop at h
    split at h
    · simp at h
    · rename_i hb0
      rcases List.mem_cons.1 h with h1 | h1
      · rw [h1]; exact bsf_hasBit hb0 hb
      · have := ih (b &&& (b - 1)) (and_lt_TWO64_left _ hb) sq h1
        exact ((hasBit_and _ _ _).1 this).1

theorem scanBits_sound {b : Nat} (hb : b < TWO64) {sq : Int} (h : sq ∈ scanBits b) : hasBit b sq :=
  scanLoop_sound 64 b hb sq h

theorem piecesOf_sub (c : Color) {p : Int} (h : p ∈ piecesOf c) : p ∈ pieceRange := by
  cases c <;> simp [piecesOf, whitePieces, blackPieces, pieceRange] at h ⊢ <;> omega

theorem mem_pieceRange_iff (p : Int) : p ∈ pieceRange ↔ 1 ≤ p ∧ p ≤ 12 := by
  simp [pieceRange]; omega

theorem mem_whitePieces_iff (p : Int) : p ∈ whitePieces ↔ 1 ≤ p ∧ p ≤ 6 := by
  simp [whitePieces]; omega

theorem mem_blackPieces_iff (p : Int) : p ∈ blackPieces ↔ 7 ≤ p ∧ p ≤ 12 := by
  simp [blackPieces]; omega

theorem mem_piecesOf_iff (c : Color) (p : Int) :
    p ∈ piecesOf c ↔ (c = Color.WHITE ∧ 1 ≤ p ∧ p ≤ 6) ∨ (c = Color.BLACK ∧ 7 ≤ p ∧ p ≤ 12) := by
  cases c <;> simp [piecesOf, mem_whitePieces_iff, mem_blackPieces_iff]

theorem hasBit_occ0 {b : Board} (h : OccupanciesDerived b) (s : Int) :
    hasBit (b.occupancies 0) s ↔ ∃ p, p ∈ whitePieces ∧ hasBit (b.pieces p) s := by
  rw [h.1]
  simp only [hasBit_or, whitePieces, List.mem_cons, List.mem_singleton, List.not_mem_nil,
    or_false, exists_eq_or_imp, exists_eq_left]
  tauto

theorem hasBit_occ1 {b : Board} (h : OccupanciesDerived b) (s : Int) :
    hasBit (b.occupancies 1) s ↔ ∃ p, p ∈ blackPieces ∧ hasBit (b.pieces p) s := by
  rw [h.2.1]
  simp only [hasBit_or, blackPieces, List.mem_cons, List.mem_singleton, List.not_mem_nil,
    or_false, exists_eq_or_imp, exists_eq_left]
  tauto

theorem hasBit_occ_side {b : Board} (h : OccupanciesDerived b) (c : Color) (s : Int) :
    hasBit (b.occupancies c.toInt) s ↔ ∃ p, p ∈ piecesOf c ∧ hasBit (b.pieces p) s := by
  cases c
  · exact hasBit_occ0 h s
  · exact hasBit_occ1 h s

theorem hasBit_occ2 {b : Board} (h : OccupanciesDerived b) (s : Int) :
    hasBit (b.occupancies 2) s ↔ ∃ p, p ∈ pieceRange ∧ hasBit (b.pieces p) s := by
  rw [h.2.2, hasBit_or, hasBit_occ0 h, hasBit_occ1 h]
  constructor
  · rintro (⟨p, hp, hs⟩ | ⟨p, hp, hs⟩)
    · exact ⟨p, (mem_pieceRange_iff p).2 (by have := (mem_whitePieces_iff p).1 hp; omega), hs⟩
    · exact ⟨p, (mem_pieceRange_iff p).2 (by have := (mem_blackPieces_iff p).1 hp; omega), hs⟩
  · rintro ⟨p, hp, hs⟩
    have := (mem_pieceRange_iff p).1 hp
    by_cases h6 : p ≤ 6
    · exact Or.inl ⟨p, (mem_whitePieces_iff p).2 ⟨this.1, h6⟩, hs⟩
    · exact Or.inr ⟨p, (mem_blackPieces_iff p).2 ⟨by omega, this.2⟩, hs⟩

theorem hasBit_occ2_sides {b : Board} (h : OccupanciesDerived b) (c : Color) (s : Int) :
    hasBit (b.occupancies 2) s ↔
      hasBit (b.occupancies c.toInt) s ∨ hasBit (b.occupancies c.other.toInt) s := by
  rw [h.2.2, hasBit_or]
  cases c
  · exact Iff.rfl
  · exact Or.comm

theorem occ_side_lt {b : Board} (h : WellFormed b) (c : Color) :
    b.occupancies c.toInt < TWO64 := by
  have hb := h.bound
  simp only [pieceRange, List.mem_cons, List.mem_singleton, forall_eq_or_imp, forall_eq,
    List.not_mem_nil, false_implies, implies_true, and_true] at hb
  obtain ⟨h1, h2, h3, h4, h5, h6, h7, h8, h9, h10, h11, h12⟩ := hb
  cases c
  · show b.occupancies 0 < TWO64
    rw [h.occ.1]
    exact or_lt_TWO64 (or_lt_TWO64 (or_lt_TWO64 (or_lt_TWO64 (or_lt_TWO64 h1 h2) h3) h4) h5) h6
  · show b.occupancies 1 < TWO64
    rw [h.occ.2.1]
    exact or_lt_TWO64 (or_lt_TWO64 (or_lt_TWO64 (or_lt_TWO64 (or_lt_TWO64 h7 h8) h9) h10) h11) h12

theorem firstPieceAt_cases (pieces : Int → Nat) (ps : List Int) (s : Int) :
    (firstPieceAt pieces ps s = 0 ∧ ∀ p ∈ ps, ¬ hasBit (pieces p) s) ∨
    (firstPieceAt pieces ps s ∈ ps ∧ hasBit (pieces (firstPieceAt pieces ps s)) s) := by
  unfold firstPieceAt
  cases hf : ps.find? (fun p => decide (pieces p &&& sqbit s ≠ 0)) with
  | none =>
    left
    refine ⟨rfl, ?_⟩
    intro p hp hb
    have := List.find?_eq_none.1 hf p hp
    simp only [decide_eq_true_eq] at this
    exact this hb
  | some p =>
    right
    have h1 := List.mem_of_find?_eq_some hf
    have h2 := List.find?_some hf
    simp only [decide_eq_true_eq] at h2
    exact ⟨h1, h2⟩

theorem piecesOf_ne_zero (c : Color) : ∀ p ∈ piecesOf c, p ≠ 0 := by
  intro p hp
  have := (mem_pieceRange_iff p).1 (piecesOf_sub c hp)
  omega

/-- Every move of the loop nest `pieceMoves` has the shape `GenOK`. -/
theorem pieceMoves_ok {b : Board} (hwf : WellFormed b) {piece : Int}
    (hp : piece ∈ piecesOf b.side_to_move)
    (hnp : piece ≠ WHITE_PAWN ∧ piece ≠ BLACK_PAWN) (attacks : Int → Nat) {m : Move}
    (hm : m ∈ pieceMoves b piece attacks) : GenOK b m := by
  unfold pieceMoves at hm
  simp only [List.mem_flatMap, List.mem_map] at hm
  obtain ⟨sq, hsq, to_, hto, rfl⟩ := hm
  have hfrom : hasBit (b.pieces piece) sq :=
    scanBits_sound (hwf.bound piece (piecesOf_sub _ hp)) hsq
  have hocc := occ_side_lt hwf b.side_to_move
  have htarget := scanBits_sound (and_lt_TWO64_right _ (not64_lt _ hocc)) hto
  rw [hasBit_and, hasBit_not64] at htarget
  obtain ⟨-, hrange, hnotown⟩ := htarget
  refine ⟨hp, hfrom, hrange, rfl, Or.inl rfl, ?_, ?_, ?_⟩
  · right
    rcases firstPieceAt_cases b.pieces (piecesOf b.side_to_move.other) to_
      with ⟨h0, hnone⟩ | ⟨hmem, hbit⟩
    · left
      refine ⟨rfl, h0, ?_⟩
      rw [hasBit_occ2_sides hwf.occ b.side_to_move, hasBit_occ_side hwf.occ b.side_to_move.other]
      rintro (h | ⟨p, hp2, hb2⟩)
      · exact hnotown h
      · exact hnone p hp2 hb2
    · right
      exact ⟨rfl, hmem, hbit⟩
  · intro h; exact absurd h hnp.1
  · intro h; exact absurd h hnp.2

theorem whitePromos_mem {p : Int} (h : p ∈ whitePromos) :
    p ∈ whitePieces ∧ p ≠ 0 ∧ p ≠ WHITE_KING ∧ p ≠ BLACK_KING := by
  simp [whitePromos, WHITE_QUEEN, WHITE_ROOK, WHITE_BISHOP, WHITE_KNIGHT] at h
  rcases h with rfl | rfl | rfl | rfl <;> simp [whitePieces, WHITE_KING, BLACK_KING]

theorem blackPromos_mem {p : Int} (h : p ∈ blackPromos) :
    p ∈ blackPieces ∧ p ≠ 0 ∧ p ≠ WHITE_KING ∧ p ≠ BLACK_KING := by
  simp [blackPromos, BLACK_QUEEN, BLACK_ROOK, BLACK_BISHOP, BLACK_KNIGHT] at h
  rcases h with rfl | rfl | rfl | rfl <;> simp [blackPieces, WHITE_KING, BLACK_KING]

theorem whitePawnCapture_ok {b : Board} (hwf : WellFormed b)
    (hstm : b.side_to_move = Color.WHITE) {sq t : Int}
    (hfrom : hasBit (b.pieces WHITE_PAWN) sq)
    (ht : rank_of sq < 7 → 0 ≤ t ∧ t < 64) (hd : t - sq ≠ 16) {m : Move}
    (hm : m ∈ whitePawnCapture b sq (rank_of sq) t) : GenOK b m := by
  unfold whitePawnCapture at hm
  split at hm
  · rename_i hr
    have htr := ht hr
    rcases List.mem_append.1 hm with h1 | h1
    · split at h1
      · rename_i hocc
        have hocc1 : hasBit (b.occupancies 1) t := hocc
        have hcap : firstPieceAt b.pieces blackPieces t ∈ blackPieces ∧
            hasBit (b.pieces (firstPieceAt b.pieces blackPieces t)) t := by
          rcases firstPieceAt_cases b.pieces blackPieces t with ⟨-, hnone⟩ | h
          · obtain ⟨p, hp, hb⟩ := (hasBit_occ1 hwf.occ t).1 hocc1
            exact absurd hb (hnone p hp)
          · exact h
        simp only [] at h1
        split at h1
        · simp only [List.mem_map] at h1
          obtain ⟨promo, hpromo, rfl⟩ := h1
          have hp := whitePromos_mem hpromo
          refine ⟨by simp [hstm, piecesOf, whitePieces, WHITE_PAWN], hfrom, htr, rfl,
            Or.inr ⟨by simpa [hstm, piecesOf] using hp.1, hp.2.2.1, hp.2.2.2⟩, ?_, ?_, ?_⟩
          · right; right
            exact ⟨rfl, by simpa [hstm, Color.other, piecesOf] using hcap.1, hcap.2⟩
          · intro _ h16; exact absurd h16 hd
          · intro h; simp [WHITE_PAWN, BLACK_PAWN] at h
        · simp only [List.mem_singleton] at h1
          subst h1
          refine ⟨by simp [hstm, piecesOf, whitePieces, WHITE_PAWN], hfrom, htr, rfl,
            Or.inl rfl, ?_, ?_, ?_⟩
          · right; right
            exact ⟨rfl, by simpa [hstm, Color.other, piecesOf] using hcap.1, hcap.2⟩
          · intro _ h16; exact absurd h16 hd
          · intro h; simp [WHITE_PAWN, BLACK_PAWN] at h
      · simp at h1
    · split at h1
      · rename_i hep
        simp only [List.mem_singleton] at h1
        subst h1
        refine ⟨by simp [hstm, piecesOf, whitePieces, WHITE_PAWN], hfrom, htr, rfl,
          Or.inl rfl, ?_, ?_, ?_⟩
        · left
          exact ⟨rfl, hep.symm, by simp [hstm, Color.other, pawnOf], rfl, by simp [hstm, pawnOf]⟩
        · intro _ h16; exact absurd h16 hd
        · intro h; simp [WHITE_PAWN, BLACK_PAWN] at h
      · simp at h1
  · simp at hm

theorem blackPawnCapture_ok {b : Board} (hwf : WellFormed b)
    (hstm : b.side_to_move = Color.BLACK) {sq t : Int}
    (hfrom : hasBit (b.pieces BLACK_PAWN) sq)
    (ht : rank_of sq > 0 → 0 ≤ t ∧ t < 64) (hd : sq - t ≠ 16) {m : Move}
    (hm : m ∈ blackPawnCapture b sq (rank_of sq) t) : GenOK b m := by
  unfold blackPawnCapture at hm
  split at hm
  · rename_i hr
    have htr := ht hr
    rcases List.mem_append.1 hm with h1 | h1
    · split at h1
      · rename_i hocc
        have hocc0 : hasBit (b.occupancies 0) t := hocc
        have hcap : firstPieceAt b.pieces whitePieces t ∈ whitePieces ∧
            hasBit (b.pieces (firstPieceAt b.pieces whitePieces t)) t := by
          rcases firstPieceAt_cases b.pieces whitePieces t with ⟨-, hnone⟩ | h
          · obtain ⟨p, hp, hb⟩ := (hasBit_occ0 hwf.occ t).1 hocc0
            exact absurd hb (hnone p hp)
          · exact h
        simp only [] at h1
        split at h1
        · simp only [List.mem_map] at h1
          obtain ⟨promo, hpromo, rfl⟩ := h1
          have hp := blackPromos_mem hpromo
          refine ⟨by simp [hstm, piecesOf, blackPieces, BLACK_PAWN], hfrom, htr, rfl,
            Or.inr ⟨by simpa [hstm, piecesOf] using hp.1, hp.2.2.1, hp.2.2.2⟩, ?_, ?_, ?_⟩
          · right; right
            exact ⟨rfl, by simpa [hstm, Color.other, piecesOf] using hcap.1, hcap.2⟩
          · intro h; simp [WHITE_PAWN, BLACK_PAWN] at h
          · intro _ h16; exact absurd h16 hd
        · simp only [List.mem_singleton] at h1
          subst h1
          refine ⟨by simp [hstm, piecesOf, blackPieces, BLACK_PAWN], hfrom, htr, rfl,
            Or.inl rfl, ?_, ?_, ?_⟩
          · right; right
            exact ⟨rfl, by simpa [hstm, Color.other, piecesOf] using hcap.1, hcap.2⟩
          · intro h; simp [WHITE_PAWN, BLACK_PAWN] at h
          · intro _ h16; exact absurd h16 hd
      · simp at h1
    · split at h1
      · rename_i hep
        simp only [List.mem_singleton] at h1
        subst h1
        refine ⟨by simp [hstm, piecesOf, blackPieces, BLACK_PAWN], hfrom, htr, rfl,
          Or.inl rfl, ?_, ?_, ?_⟩
        · left
          exact ⟨rfl, hep.symm, by simp [hstm, Color.other, pawnOf], rfl, by simp [hstm, pawnOf]⟩
        · intro h; simp [WHITE_PAWN, BLACK_PAWN] at h
        · intro _ h16; exact absurd h16 hd
      · simp at h1
  · simp at hm

theorem whitePawnMoves_ok {b : Board} (hwf : WellFormed b)
    (hstm : b.side_to_move = Color.WHITE) {sq : Int}
    (hfrom : hasBit (b.pieces WHITE_PAWN) sq) {m : Move}
    (hm : m ∈ pawnMovesFrom b sq) : GenOK b m := by
  have hsq := hasBit_range hfrom
  unfold pawnMovesFrom at hm
  simp only [hstm, if_true] at hm
  rcases List.mem_append.1 hm with h12 | h3
  · rcases List.mem_append.1 h12 with h1 | h2
    · split at h1
      · rename_i hpush
        obtain ⟨hr, hempty⟩ := hpush
        have hto : 0 ≤ sq + 8 ∧ sq + 8 < 64 := by
          unfold rank_of at hr; omega
        have hempty' : ¬ hasBit (b.occupancies 2) (sq + 8) := hempty
        split at h1
        · simp only [List.mem_map] at h1
          obtain ⟨promo, hpromo, rfl⟩ := h1
          have hp := whitePromos_mem hpromo
          refine ⟨by simp [hstm, piecesOf, whitePieces, WHITE_PAWN], hfrom, hto, rfl,
            Or.inr ⟨by simpa [hstm, piecesOf] using hp.1, hp.2.2.1, hp.2.2.2⟩,
            Or.inr (Or.inl ⟨rfl, rfl, hempty'⟩), ?_, ?_⟩
          · intro _ h16; simp at h16
          · intro h; simp [WHITE_PAWN, BLACK_PAWN] at h
        · rcases List.mem_cons.1 h1 with rfl | h1
          · refine ⟨by simp [hstm, piecesOf, whitePieces, WHITE_PAWN], hfrom, hto, rfl,
              Or.inl rfl, Or.inr (Or.inl ⟨rfl, rfl, hempty'⟩), ?_, ?_⟩
            · intro _ h16; simp at h16
            · intro h; simp [WHITE_PAWN, BLACK_PAWN] at h
          · split at h1
            · rename_i hdouble
              obtain ⟨hr1, hempty2⟩ := hdouble
              have hempty2' : ¬ hasBit (b.occupancies 2) (sq + 16) := hempty2
              simp only [List.mem_singleton] at h1
              subst h1
              have hsq2 : 8 ≤ sq ∧ sq < 16 := by unfold rank_of at hr1; omega
              have hto2 : 0 ≤ sq + 16 ∧ sq + 16 < 64 := by omega
              refine ⟨by simp [hstm, piecesOf, whitePieces, WHITE_PAWN], hfrom, hto2, rfl,
                Or.inl rfl, Or.inr (Or.inl ⟨rfl, rfl, hempty2'⟩), ?_, ?_⟩
              · intro _ _
                exact ⟨hsq2.1, hsq2.2, hempty', rfl, rfl, rfl⟩
              · intro h; simp [WHITE_PAWN, BLACK_PAWN] at h
            · simp at h1
      · simp at h1
    · split at h2
      · rename_i hf
        refine whitePawnCapture_ok hwf hstm hfrom ?_ (by omega) h2
        intro hr
        unfold rank_of at hr
        omega
      · simp at h2
  · split at h3
    · rename_i hf
      refine whitePawnCapture_ok hwf hstm hfrom ?_ (by omega) h3
      intro hr
      unfold rank_of at hr
      unfold file_of at hf
      omega
    · simp at h3

theorem blackPawnMoves_ok {b : Board} (hwf : WellFormed b)
    (hstm : b.side_to_move = Color.BLACK) {sq : Int}
    (hfrom : hasBit (b.pieces BLACK_PAWN) sq) {m : Move}
    (hm : m ∈ pawnMovesFrom b sq) : GenOK b m := by
  have hsq := hasBit_range hfrom
  unfold pawnMovesFrom at hm
  simp only [hstm, reduceCtorEq, if_false] at hm
  rcases List.mem_append.1 hm with h12 | h3
  · rcases List.mem_append.1 h12 with h1 | h2
    · split at h1
      · rename_i hpush
        obtain ⟨hr, hempty⟩ := hpush
        have hto : 0 ≤ sq - 8 ∧ sq - 8 < 64 := by
          unfold rank_of at hr; omega
        have hempty' : ¬ hasBit (b.occupancies 2) (sq - 8) := hempty
        split at h1
        · simp only [List.mem_map] at h1
          obtain ⟨promo, hpromo, rfl⟩ := h1
          have hp := blackPromos_mem hpromo
          refine ⟨by simp [hstm, piecesOf, blackPieces, BLACK_PAWN], hfrom, hto, rfl,
            Or.inr ⟨by simpa [hstm, piecesOf] using hp.1, hp.2.2.1, hp.2.2.2⟩,
            Or.inr (Or.inl ⟨rfl, rfl, hempty'⟩), ?_, ?_⟩
          · intro h; simp [WHITE_PAWN, BLACK_PAWN] at h
          · intro _ h16; simp at h16
        · rcases List.mem_cons.1 h1 with rfl | h1
          · refine ⟨by simp [hstm, piecesOf, blackPieces, BLACK_PAWN], hfrom, hto, rfl,
              Or.inl rfl, Or.inr (Or.inl ⟨rfl, rfl, hempty'⟩), ?_, ?_⟩
            · intro h; simp [WHITE_PAWN, BLACK_PAWN] at h
            · intro _ h16; simp at h16
          · split at h1
            · rename_i hdouble
              obtain ⟨hr1, hempty2⟩ := hdouble
              have hempty2' : ¬ hasBit (b.occupancies 2) (sq - 16) := hempty2
              simp only [List.mem_singleton] at h1
              subst h1
              have hsq2 : 48 ≤ sq ∧ sq < 56 := by unfold rank_of at hr1; omega
              have hto2 : 0 ≤ sq - 16 ∧ sq - 16 < 64 := by omega
              refine ⟨by simp [hstm, piecesOf, blackPieces, BLACK_PAWN], hfrom, hto2, rfl,
                Or.inl rfl, Or.inr (Or.inl ⟨rfl, rfl, hempty2'⟩), ?_, ?_⟩
              · intro h; simp [WHITE_PAWN, BLACK_PAWN] at h
              · intro _ _
                exact ⟨hsq2.1, hsq2.2, hempty', rfl, rfl, rfl⟩
            · simp at h1
      · simp at h1
    · split at h2
      · rename_i hf
        refine blackPawnCapture_ok hwf hstm hfrom ?_ (by omega) h2
        intro hr
        unfold rank_of at hr
        unfold file_of at hf
        omega
      · simp at h2
  · split at h3
    · rename_i hf
      refine blackPawnCapture_ok hwf hstm hfrom ?_ (by omega) h3
      intro hr
      unfold rank_of at hr
      omega
    · simp at h3

theorem generate_pawn_moves_ok {b : Board} (hwf : WellFormed b) {m : Move}
    (hm : m ∈ MoveGenerator.generate_pawn_moves b) : GenOK b m := by
  unfold MoveGenerator.generate_pawn_moves at hm
  simp only [List.mem_flatMap] at hm
  obtain ⟨sq, hsq, hm⟩ := hm
  cases hstm : b.side_to_move
  · simp only [hstm, if_true] at hsq
    exact whitePawnMoves_ok hwf hstm
      (scanBits_sound (hwf.bound _ (by simp [pieceRange, WHITE_PAWN])) hsq) hm
  · simp only [hstm, reduceCtorEq, if_false] at hsq
    exact blackPawnMoves_ok hwf hstm
      (scanBits_sound (hwf.bound _ (by simp [pieceRange, BLACK_PAWN])) hsq) hm

/-- Every move `generate_moves` emits outside `generate_castling_moves` has the shape
`GenOK`. -/
theorem generate_moves_ok {t : MoveTables} {b : Board} (hwf : WellFormed b) {m : Move}
    (hm : m ∈ MoveGenerator.generate_moves t b)
    (hc : m ∉ MoveGenerator.generate_castling_moves t b) : GenOK b m := by
  unfold MoveGenerator.generate_moves at hm
  simp only [List.mem_append] at hm
  have side : ∀ (w k : Int), (1 ≤ w ∧ w ≤ 6) → (7 ≤ k ∧ k ≤ 12) →
      (if b.side_to_move = Color.WHITE then w else k) ∈ piecesOf b.side_to_move := by
    intro w k hw hk
    cases b.side_to_move
    · simp [piecesOf, mem_whitePieces_iff, hw]
    · simp [piecesOf, mem_blackPieces_iff, hk]
  have notpawn : ∀ (w k : Int), (2 ≤ w ∧ w ≤ 6) → (8 ≤ k ∧ k ≤ 12) →
      (if b.side_to_move = Color.WHITE then w else k) ≠ WHITE_PAWN ∧
      (if b.side_to_move = Color.WHITE then w else k) ≠ BLACK_PAWN := by
    intro w k hw hk
    unfold WHITE_PAWN BLACK_PAWN
    split <;> constructor <;> omega
  rcases hm with ((((((h | h) | h) | h) | h) | h) | h)
  · exact generate_pawn_moves_ok hwf h
  · exact pieceMoves_ok hwf (side _ _ (by decide) (by decide))
      (notpawn _ _ (by decide) (by decide)) _ h
  · exact pieceMoves_ok hwf (side _ _ (by decide) (by decide))
      (notpawn _ _ (by decide) (by decide)) _ h
  · exact pieceMoves_ok hwf (side _ _ (by decide) (by decide))
      (notpawn _ _ (by decide) (by decide)) _ h
  · exact pieceMoves_ok hwf (side _ _ (by decide) (by decide))
      (notpawn _ _ (by decide) (by decide)) _ h
  · exact pieceMoves_ok hwf (side _ _ (by decide) (by decide))
      (notpawn _ _ (by decide) (by decide)) _ h
  · exact absurd h hc

theorem hasBit_clearBit (ps : Int → Nat) (p t q s : Int) :
    hasBit (clearBit ps p t q) s ↔ hasBit (ps q) s ∧ ¬ (q = p ∧ s = t) := by
  unfold clearBit setAt
  by_cases hq : q = p
  · subst hq
    simp only [if_true, hasBit_and, hasBit_not64, hasBit_sqbit, true_and]
    constructor
    · rintro ⟨h1, -, h2⟩
      exact ⟨h1, fun h3 => h2 ⟨hasBit_range h1, h3⟩⟩
    · rintro ⟨h1, h2⟩
      exact ⟨h1, hasBit_range h1, fun h3 => h2 h3.2⟩
  · simp [hq]

theorem hasBit_setBit (ps : Int → Nat) (p t q s : Int) :
    hasBit (setBit ps p t q) s ↔ hasBit (ps q) s ∨ (q = p ∧ s = t ∧ 0 ≤ t ∧ t < 64) := by
  unfold setBit setAt
  by_cases hq : q = p
  · subst hq
    simp only [if_true, hasBit_or, hasBit_sqbit, true_and]
    constructor
    · rintro (h | ⟨hr, rfl⟩)
      · exact Or.inl h
      · exact Or.inr ⟨rfl, hr⟩
    · rintro (h | ⟨rfl, hr⟩)
      · exact Or.inl h
      · exact Or.inr ⟨hr, rfl⟩
  · simp [hq]

theorem clearBit_lt (ps : Int → Nat) (p t q : Int) (h : ps q < TWO64) :
    clearBit ps p t q < TWO64 := by
  unfold clearBit setAt
  split
  · rename_i hq
    subst hq
    exact and_lt_TWO64_left _ h
  · exact h

theorem setBit_lt (ps : Int → Nat) (p t q : Int) (h : ps q < TWO64) :
    setBit ps p t q < TWO64 := by
  unfold setBit setAt
  split
  · rename_i hq
    subst hq
    exact or_lt_TWO64 h (sqbit_lt t)
  · exact h

theorem clearBit_of_ne (ps : Int → Nat) {p q : Int} (t : Int) (h : q ≠ p) :
    clearBit ps p t q = ps q := by
  simp [clearBit, setAt, h]

theorem setBit_of_ne (ps : Int → Nat) {p q : Int} (t : Int) (h : q ≠ p) :
    setBit ps p t q = ps q := by
  simp [setBit, setAt, h]

theorem castleRook_lt (ps : Int → Nat) (to_ : Int) (u : Bool) (q : Int) (h : ps q < TWO64) :
    castleRook ps to_ u q < TWO64 := by
  unfold castleRook
  split_ifs <;> first | exact h | exact setBit_lt _ _ _ _ (clearBit_lt _ _ _ _ h)

/-- `make_move` keeps every piece bitboard a `u64`, for any move. -/
theorem makePieces_lt (b : Board) (m : Move) (q : Int) (h : b.pieces q < TWO64) :
    makePieces b m q < TWO64 := by
  unfold makePieces
  simp only []
  split_ifs <;>
    first
    | exact castleRook_lt _ _ _ _ (setBit_lt _ _ _ _ (clearBit_lt _ _ _ _ (clearBit_lt _ _ _ _ h)))
    | exact castleRook_lt _ _ _ _ (setBit_lt _ _ _ _ (clearBit_lt _ _ _ _ h))
    | exact setBit_lt _ _ _ _ (clearBit_lt _ _ _ _ (clearBit_lt _ _ _ _ h))
    | exact setBit_lt _ _ _ _ (clearBit_lt _ _ _ _ h)

theorem undoPieces_lt (ps : Int → Nat) (stm : Color) (u : UndoInfo) (q : Int)
    (h : ps q < TWO64) : undoPieces ps stm u q < TWO64 := by
  unfold undoPieces
  simp only []
  split_ifs <;>
    first
    | exact castleRook_lt _ _ _ _ (setBit_lt _ _ _ _ (setBit_lt _ _ _ _ (clearBit_lt _ _ _ _ h)))
    | exact castleRook_lt _ _ _ _ (setBit_lt _ _ _ _ (clearBit_lt _ _ _ _ h))
    | exact setBit_lt _ _ _ _ (setBit_lt _ _ _ _ (clearBit_lt _ _ _ _ h))
    | exact setBit_lt _ _ _ _ (clearBit_lt _ _ _ _ h)

theorem makePieces_hasBit (b : Board) (m : Move) (hc : m.isCastle = false) (q s : Int) :
    hasBit (makePieces b m q) s ↔
      ((hasBit (b.pieces q) s ∧ ¬ (q = m.piece ∧ s = m.from_)) ∧
        ¬ (Removes m ∧ q = m.captured ∧ s = removalSquare b m)) ∨
      (q = landingPiece m ∧ s = m.to_ ∧ 0 ≤ m.to_ ∧ m.to_ < 64) := by
  unfold makePieces Removes removalSquare landingPiece captureSquare
  simp only [hc, Bool.false_eq_true, if_false]
  cases hep : m.isEnPassant <;> by_cases hcap : m.captured = EMPTY <;>
    by_cases hp : m.promotion = EMPTY <;>
    simp [hep, hcap, hp, hasBit_setBit, hasBit_clearBit]

theorem undoPieces_hasBit (b : Board) (m : Move) (hc : m.isCastle = false) (ps : Int → Nat)
    (q s : Int) :
    hasBit (undoPieces ps b.side_to_move (b.undoInfo m) q) s ↔
      ((hasBit (ps q) s ∧ ¬ (q = landingPiece m ∧ s = m.to_)) ∨
        (q = m.piece ∧ s = m.from_ ∧ 0 ≤ m.from_ ∧ m.from_ < 64)) ∨
      (Removes m ∧ q = m.captured ∧ s = removalSquare b m ∧
        0 ≤ removalSquare b m ∧ removalSquare b m < 64) := by
  unfold undoPieces Removes removalSquare landingPiece captureSquare Board.undoInfo
  simp only [hc, Bool.false_eq_true, if_false]
  cases hep : m.isEnPassant <;> by_cases hcap : m.captured = EMPTY <;>
    by_cases hp : m.promotion = EMPTY <;>
    simp [hep, hcap, hp, hasBit_setBit, hasBit_clearBit]

theorem disjoint_unique {b : Board} (hwf : WellFormed b) {p q s : Int} (hp : p ∈ pieceRange)
    (hq : q ∈ pieceRange) (h1 : hasBit (b.pieces p) s) (h2 : hasBit (b.pieces q) s) : p = q := by
  by_contra hne
  exact not_hasBit_of_and_eq_zero (hwf.disjoint p hp q hq hne) h1 h2

theorem piecesOf_other_ne {c : Color} {p q : Int} (hp : p ∈ piecesOf c)
    (hq : q ∈ piecesOf c.other) : q ≠ p := by
  cases c <;> simp [piecesOf, Color.other, mem_whitePieces_iff, mem_blackPieces_iff] at hp hq <;>
    omega

theorem GenOK.piece_range {b : Board} {m : Move} (h : GenOK b m) : m.piece ∈ pieceRange :=
  piecesOf_sub _ h.piece_own

theorem GenOK.landing_own {b : Board} {m : Move} (h : GenOK b m) :
    landingPiece m ∈ piecesOf b.side_to_move := by
  unfold landingPiece
  rcases h.promo with h0 | ⟨h1, -, -⟩
  · simp [h0, EMPTY, h.piece_own]
  · split
    · exact h1
    · exact h.piece_own

theorem GenOK.landing_range {b : Board} {m : Move} (h : GenOK b m) :
    landingPiece m ∈ pieceRange :=
  piecesOf_sub _ h.landing_own

theorem pawnOf_mem (c : Color) : pawnOf c ∈ piecesOf c := by
  cases c <;> simp [pawnOf, piecesOf, whitePieces, blackPieces, WHITE_PAWN, BLACK_PAWN]

theorem GenOK.captured_opp {b : Board} {m : Move} (h : GenOK b m) (hr : Removes m) :
    m.captured ∈ piecesOf b.side_to_move.other := by
  rcases h.target with ⟨-, -, hc, -, -⟩ | ⟨he, hc, -⟩ | ⟨-, hc, -⟩
  · rw [hc]; exact pawnOf_mem _
  · rcases hr with hr | hr
    · rw [he] at hr; exact absurd hr (by simp)
    · exact absurd hc hr
  · exact hc

/-- Before a generated move, the only piece that can stand on the destination square is the
captured one. -/
theorem GenOK.to_holder {b : Board} {m : Move} (hwf : WellFormed b) (h : GenOK b m)
    (hep : EpOK b m) {q : Int} (hq : q ∈ pieceRange) (hb : hasBit (b.pieces q) m.to_) :
    Removes m ∧ q = m.captured ∧ removalSquare b m = m.to_ := by
  rcases h.target with ⟨he, -, -, -, -⟩ | ⟨-, -, hempty⟩ | ⟨he, hc, hcb⟩
  · exact absurd ((hasBit_occ2 hwf.occ _).2 ⟨q, hq, hb⟩) (hep he).1
  · exact absurd ((hasBit_occ2 hwf.occ _).2 ⟨q, hq, hb⟩) hempty
  · have hcr := piecesOf_sub _ hc
    have hne : m.captured ≠ EMPTY := by
      have := (mem_pieceRange_iff _).1 hcr
      unfold EMPTY; omega
    exact ⟨Or.inr hne, disjoint_unique hwf hq hcr hb hcb, by simp [removalSquare, he]⟩

theorem GenOK.removed_present {b : Board} {m : Move} (h : GenOK b m) (hep : EpOK b m)
    (hr : Removes m) : hasBit (b.pieces m.captured) (removalSquare b m) := by
  rcases h.target with ⟨he, -, -, -, -⟩ | ⟨he, hc, -⟩ | ⟨he, -, hcb⟩
  · simpa [removalSquare, he] using (hep he).2
  · rcases hr with hr | hr
    · rw [he] at hr; exact absurd hr (by simp)
    · exact absurd hc hr
  · simpa [removalSquare, he] using hcb

theorem makePieces_of_ne (b : Board) (m : Move) (hc : m.isCastle = false) {q : Int}
    (h1 : q ≠ m.piece) (h2 : q ≠ landingPiece m) (h3 : Removes m → q ≠ m.captured) :
    makePieces b m q = b.pieces q := by
  unfold makePieces
  unfold landingPiece at h2
  unfold Removes at h3
  simp only [hc, Bool.false_eq_true, if_false]
  cases hep : m.isEnPassant <;> by_cases hcap : m.captured = EMPTY <;>
    by_cases hp : m.promotion = EMPTY <;>
    simp_all [setBit_of_ne, clearBit_of_ne]

theorem undoPieces_of_ne (b : Board) (m : Move) (hc : m.isCastle = false) (ps : Int → Nat)
    {q : Int} (h1 : q ≠ m.piece) (h2 : q ≠ landingPiece m) (h3 : Removes m → q ≠ m.captured) :
    undoPieces ps b.side_to_move (b.undoInfo m) q = ps q := by
  unfold undoPieces Board.undoInfo
  unfold landingPiece at h2
  unfold Removes at h3
  simp only [hc, Bool.false_eq_true, if_false]
  cases hep : m.isEnPassant <;> by_cases hcap : m.captured = EMPTY <;>
    by_cases hp : m.promotion = EMPTY <;>
    simp_all [setBit_of_ne, clearBit_of_ne]

/-- The piece bitboards survive `make_move` followed by `undo_move`. -/
theorem undo_make_pieces {b : Board} {m : Move} (hwf : WellFormed b) (h : GenOK b m)
    (hep : EpOK b m) :
    undoPieces (makePieces b m) b.side_to_move (b.undoInfo m) = b.pieces := by
  funext q
  have hc := h.not_castle
  by_cases hq : q ∈ pieceRange
  · apply eq_of_hasBit (undoPieces_lt _ _ _ _ (makePieces_lt _ _ _ (hwf.bound q hq)))
      (hwf.bound q hq)
    intro s
    rw [undoPieces_hasBit b m hc, makePieces_hasBit b m hc]
    have hfr := hasBit_range h.from_has
    constructor
    · rintro ((⟨(⟨⟨hp, -⟩, -⟩ | ⟨hl1, hl2, -⟩), hnl⟩ | ⟨rfl, rfl, -⟩) | ⟨hr, rfl, rfl, -⟩)
      · exact hp
      · exact absurd ⟨hl1, hl2⟩ hnl
      · exact h.from_has
      · exact h.removed_present hep hr
    · intro hp
      by_cases hfrom : q = m.piece ∧ s = m.from_
      · exact Or.inl (Or.inr ⟨hfrom.1, hfrom.2, hfr⟩)
      · by_cases hrm : Removes m ∧ q = m.captured ∧ s = removalSquare b m
        · obtain ⟨hr, hq2, hs2⟩ := hrm
          have := hasBit_range (h.removed_present hep hr)
          exact Or.inr ⟨hr, hq2, hs2, this⟩
        · refine Or.inl (Or.inl ⟨Or.inl ⟨⟨hp, hfrom⟩, hrm⟩, ?_⟩)
          rintro ⟨-, hs⟩
          rw [hs] at hp
          obtain ⟨hr, hq2, hs2⟩ := h.to_holder hwf hep hq hp
          exact hrm ⟨hr, hq2, by rw [hs, hs2]⟩
  · have h1 : q ≠ m.piece := fun e => hq (e ▸ h.piece_range)
    have h2 : q ≠ landingPiece m := fun e => hq (e ▸ h.landing_range)
    have h3 : Removes m → q ≠ m.captured := fun hr e =>
      hq (e ▸ piecesOf_sub _ (h.captured_opp hr))
    rw [undoPieces_of_ne b m hc _ h1 h2 h3, makePieces_of_ne b m hc h1 h2 h3]

theorem update_occupancies_of_derived {b : Board} (h : OccupanciesDerived b) :
    b.update_occupancies = b := by
  obtain ⟨h0, h1, h2⟩ := h
  cases b with
  | mk pieces occupancies stm cr ep hm fm key =>
    simp only [Board.update_occupancies]
    congr
    funext j
    simp only [setAt, orPieces, List.foldl, Nat.zero_or]
    simp only [] at h0 h1 h2
    split
    · rename_i hj; rw [hj, h2, h0, h1]
    · split
      · rename_i hj; rw [hj, h1]
      · split
        · rename_i hj; rw [hj, h0]
        · rfl

/-- The make/undo round trip for a move of generator shape. -/
theorem undo_make_of_GenOK (z : Zobrist) {b : Board} {m : Move} (hwf : WellFormed b)
    (h : GenOK b m) (hep : EpOK b m) :
    (b.make_move z m).undo_move (b.undoInfo m) = b := by
  have hp := undo_make_pieces hwf h hep
  have hstm : (if (if b.side_to_move = Color.WHITE then Color.BLACK else Color.WHITE) =
      Color.WHITE then Color.BLACK else Color.WHITE) = b.side_to_move := by
    cases b.side_to_move <;> simp
  unfold Board.undo_move Board.make_move
  simp only [Board.update_occupancies, hstm]
  rw [hp]
  have hocc := update_occupancies_of_derived hwf.occ
  cases b with
  | mk pieces occupancies stm cr ep hm fm key =>
    simp only [Board.update_occupancies] at hocc
    simp only [Board.undoInfo]
    simp only [Board.mk.injEq] at hocc ⊢
    refine ⟨trivial, ?_, trivial, trivial, trivial, trivial, ?_, trivial⟩
    · funext j
      have hj := congrFun hocc.2.1 j
      simp only [setAt] at hj ⊢
      split_ifs at hj ⊢ <;> exact hj
    · cases stm <;> simp

theorem castleIf_isCastle {t : MoveTables} {b : Board} {right : Int} {mask : Nat}
    {king k s d : Int} {attacker : Color} {m : Move}
    (h : m ∈ castleIf t b right mask king k s d attacker) :
    m = Move.mk k d king 0 0 false true ∧ intAnd b.castle_rights right ≠ 0 ∧
      hasBit (b.pieces king) k := by
  unfold castleIf at h
  split at h
  · rename_i hc
    simp only [List.mem_singleton] at h
    exact ⟨h, hc.1, hc.2.2.1⟩
  · simp at h

theorem castling_isCastle {t : MoveTables} {b : Board} {m : Move}
    (h : m ∈ MoveGenerator.generate_castling_moves t b) : m.isCastle = true := by
  unfold MoveGenerator.generate_castling_moves at h
  split at h <;> rcases List.mem_append.1 h with h | h <;>
    rw [(castleIf_isCastle h).1]

theorem EpOK_of_valid {b : Board} {m : Move} (h : GenOK b m)
    (hv : m.isEnPassant = true → EpSquareValid b) : EpOK b m := by
  intro he
  rcases h.target with ⟨-, hto, hcap, -, -⟩ | ⟨he2, -, -⟩ | ⟨he2, -, -⟩
  · obtain ⟨h1, h2⟩ := hv he
    rw [hto, hcap]
    exact ⟨h1, h2⟩
  · rw [he2] at he; exact absurd he (by simp)
  · rw [he2] at he; exact absurd he (by simp)

/-- C1, refuted as stated.  On 4k3/8/8/4P3/8/8/8/4K3 with White to move and en-passant
square d6 (43), the position invariants hold and `generate_moves` emits the en-passant capture
e5 -> d6 (36 -> 43), which passes the legality test; `make_move` then `undo_move` leaves a Black
pawn on d5 (35) where the original had none.  On 4K3/8/8/8/8/8/8/k7 with the right WK set, the
emitted castle move 60 -> 62, also passing the test, leaves after make and undo a White rook on
square 63 where the original had none. -/
theorem C1_counterexample :
    WellFormed (loadFen zSample "4k3/8/8/4P3/8/8/8/4K3 w - d6 0 1") ∧
    (loadFen zSample "4k3/8/8/4P3/8/8/8/4K3 w - d6 0 1").zobrist_key =
      compute_zobrist_key zSample (loadFen zSample "4k3/8/8/4P3/8/8/8/4K3 w - d6 0 1") ∧
    Move.mk 36 43 WHITE_PAWN BLACK_PAWN 0 true false ∈
      MoveGenerator.generate_moves init_move_tables
        (loadFen zSample "4k3/8/8/4P3/8/8/8/4K3 w - d6 0 1") ∧
    MoveGenerator.is_move_legal zSample init_move_tables
      (loadFen zSample "4k3/8/8/4P3/8/8/8/4K3 w - d6 0 1")
      (Move.mk 36 43 WHITE_PAWN BLACK_PAWN 0 true false) = true ∧
    (loadFen zSample "4k3/8/8/4P3/8/8/8/4K3 w - d6 0 1").pieces BLACK_PAWN = 0 ∧
    (((loadFen zSample "4k3/8/8/4P3/8/8/8/4K3 w - d6 0 1").make_move zSample
        (Move.mk 36 43 WHITE_PAWN BLACK_PAWN 0 true false)).undo_move
      ((loadFen zSample "4k3/8/8/4P3/8/8/8/4K3 w - d6 0 1").undoInfo
        (Move.mk 36 43 WHITE_PAWN BLACK_PAWN 0 true false))).pieces BLACK_PAWN = sqbit 35 ∧
    WellFormed (loadFen zSample "4K3/8/8/8/8/8/8/k7 w K - 0 1") ∧
    Move.mk 60 62 WHITE_KING 0 0 false true ∈
      MoveGenerator.generate_moves init_move_tables
        (loadFen zSample "4K3/8/8/8/8/8/8/k7 w K - 0 1") ∧
    MoveGenerator.is_move_legal zSample init_move_tables
      (loadFen zSample "4K3/8/8/8/8/8/8/k7 w K - 0 1")
      (Move.mk 60 62 WHITE_KING 0 0 false true) = true ∧
    (loadFen zSample "4K3/8/8/8/8/8/8/k7 w K - 0 1").pieces WHITE_ROOK = 0 ∧
    (((loadFen zSample "4K3/8/8/8/8/8/8/k7 w K - 0 1").make_move zSample
        (Move.mk 60 62 WHITE_KING 0 0 false true)).undo_move
      ((loadFen zSample "4K3/8/8/8/8/8/8/k7 w K - 0 1").undoInfo
        (Move.mk 60 62 WHITE_KING 0 0 false true))).pieces WHITE_ROOK = sqbit 63 := by
  refine ⟨⟨by decide, by unfold PairwiseDisjoint; decide, by unfold OccupanciesDerived; decide⟩,
    by decide, by decide, by decide, by decide, by decide,
    ⟨by decide, by unfold PairwiseDisjoint; decide, by unfold OccupanciesDerived; decide⟩,
    by decide, by decide, by decide, by decide⟩

/-- C1, amended: for every position satisfying the position invariants (piece bitboards
pairwise disjoint `u64` words, occupancies derived) and every move `m` emitted by
`generate_moves` that is not a castling move and, if it is an en-passant capture, finds the
en-passant square empty with a pawn of the side not to move on the square behind it,
`undo_move` of the record of `make_move(m)` yields a Board equal to the original on every
field. -/
theorem C1_undo_make_generated (z : Zobrist) (t : MoveTables) (b : Board) (m : Move)
    (hwf : WellFormed b) (hm : m ∈ MoveGenerator.generate_moves t b)
    (hc : m.isCastle = false) (hep : m.isEnPassant = true → EpSquareValid b) :
    (b.make_move z m).undo_move (b.undoInfo m) = b := by
  have hnc : m ∉ MoveGenerator.generate_castling_moves t b := by
    intro h
    rw [castling_isCastle h] at hc
    exact absurd hc (by simp)
  have hg := generate_moves_ok hwf hm hnc
  exact undo_make_of_GenOK z hwf hg (EpOK_of_valid hg hep)

theorem C1_undo_make_generated_witness :
    ((loadFen zSample "4k3/8/8/3pP3/8/8/8/4K3 w - d6 0 1").make_move zSample
        (Move.mk 36 43 WHITE_PAWN BLACK_PAWN 0 true false)).undo_move
      ((loadFen zSample "4k3/8/8/3pP3/8/8/8/4K3 w - d6 0 1").undoInfo
        (Move.mk 36 43 WHITE_PAWN BLACK_PAWN 0 true false)) =
    loadFen zSample "4k3/8/8/3pP3/8/8/8/4K3 w - d6 0 1" :=
  C1_undo_make_generated zSample init_move_tables
    (loadFen zSample "4k3/8/8/3pP3/8/8/8/4K3 w - d6 0 1")
    (Move.mk 36 43 WHITE_PAWN BLACK_PAWN 0 true false)
    ⟨by decide, by unfold PairwiseDisjoint; decide, by unfold OccupanciesDerived; decide⟩
    (by decide) rfl (fun _ => by unfold EpSquareValid; decide)

/-- After a generated move a bit of a piece bitboard is an old bit or the landing bit. -/
theorem makePieces_sub {b : Board} {m : Move} (hc : m.isCastle = false) {q s : Int}
    (h : hasBit (makePieces b m q) s) :
    hasBit (b.pieces q) s ∨ (q = landingPiece m ∧ s = m.to_) := by
  rcases (makePieces_hasBit b m hc q s).1 h with ⟨⟨hp, -⟩, -⟩ | ⟨h1, h2, -⟩
  · exact Or.inl hp
  · exact Or.inr ⟨h1, h2⟩

/-- After a generated move only the landing piece stands on the destination square. -/
theorem makePieces_to {b : Board} {m : Move} (hwf : WellFormed b) (hg : GenOK b m)
    (hep : EpOK b m) {q : Int} (hq : q ∈ pieceRange) (h : hasBit (makePieces b m q) m.to_) :
    q = landingPiece m := by
  rcases (makePieces_hasBit b m hg.not_castle q m.to_).1 h with ⟨⟨hp, -⟩, hn⟩ | ⟨h1, -⟩
  · obtain ⟨hr, hq2, hs2⟩ := hg.to_holder hwf hep hq hp
    exact absurd ⟨hr, hq2, hs2.symm⟩ hn
  · exact h1

theorem make_move_pieces (z : Zobrist) (b : Board) (m : Move) :
    (b.make_move z m).pieces = makePieces b m := rfl

theorem make_move_wellFormed (z : Zobrist) {b : Board} {m : Move} (hwf : WellFormed b)
    (hg : GenOK b m) (hep : EpOK b m) : WellFormed (b.make_move z m) := by
  refine ⟨?_, ?_, update_occupancies_derived _⟩
  · intro p hp
    exact makePieces_lt b m p (hwf.bound p hp)
  · intro p hp q hq hne
    rw [make_move_pieces]
    apply and_eq_zero_of_hasBit (makePieces_lt b m p (hwf.bound p hp))
    intro s h1 h2
    by_cases hs : s = m.to_
    · rw [hs] at h1 h2
      exact hne ((makePieces_to hwf hg hep hp h1).trans (makePieces_to hwf hg hep hq h2).symm)
    · rcases makePieces_sub hg.not_castle h1 with hp1 | ⟨-, hs1⟩
      · rcases makePieces_sub hg.not_castle h2 with hp2 | ⟨-, hs2⟩
        · exact hne (disjoint_unique hwf hp hq hp1 hp2)
        · exact hs hs2
      · exact hs hs1

theorem andNot_table :
    ∀ n : Fin 16, ∀ c ∈ ([1, 2, 3, 4, 8, 12] : List Int),
      (0 ≤ andNot (n.val : Int) c ∧ andNot (n.val : Int) c < 16) ∧
      (intAnd (andNot (n.val : Int) c) 1 ≠ 0 → intAnd (n.val : Int) 1 ≠ 0 ∧ intAnd c 1 = 0) ∧
      (intAnd (andNot (n.val : Int) c) 2 ≠ 0 → intAnd (n.val : Int) 2 ≠ 0 ∧ intAnd c 2 = 0) ∧
      (intAnd (andNot (n.val : Int) c) 4 ≠ 0 → intAnd (n.val : Int) 4 ≠ 0 ∧ intAnd c 4 = 0) ∧
      (intAnd (andNot (n.val : Int) c) 8 ≠ 0 → intAnd (n.val : Int) 8 ≠ 0 ∧ intAnd c 8 = 0) := by
  decide

theorem andNot_spec {r : Int} (hr : 0 ≤ r ∧ r < 16) {c : Int}
    (hc : c ∈ ([1, 2, 3, 4, 8, 12] : List Int)) :
    (0 ≤ andNot r c ∧ andNot r c < 16) ∧
    (intAnd (andNot r c) 1 ≠ 0 → intAnd r 1 ≠ 0 ∧ intAnd c 1 = 0) ∧
    (intAnd (andNot r c) 2 ≠ 0 → intAnd r 2 ≠ 0 ∧ intAnd c 2 = 0) ∧
    (intAnd (andNot r c) 4 ≠ 0 → intAnd r 4 ≠ 0 ∧ intAnd c 4 = 0) ∧
    (intAnd (andNot r c) 8 ≠ 0 → intAnd r 8 ≠ 0 ∧ intAnd c 8 = 0) := by
  have h := andNot_table ⟨r.toNat, by omega⟩ c hc
  have hcast : ((r.toNat : Nat) : Int) = r := by omega
  simp only [hcast] at h
  exact h

theorem RightsLe.refl {r : Int} (hr : 0 ≤ r ∧ r < 16) : RightsLe r r :=
  ⟨hr, id, id, id, id⟩

theorem RightsLe.andNot {r1 r : Int} (h : RightsLe r1 r) {c : Int}
    (hc : c ∈ ([1, 2, 3, 4, 8, 12] : List Int)) : RightsLe (andNot r1 c) r := by
  obtain ⟨hr1, h1, h2, h4, h8⟩ := h
  obtain ⟨hr, a1, a2, a4, a8⟩ := andNot_spec hr1 hc
  exact ⟨hr, fun x => h1 (a1 x).1, fun x => h2 (a2 x).1, fun x => h4 (a4 x).1,
    fun x => h8 (a8 x).1⟩

theorem rightsAfterKing_le {r0 r : Int} (h : RightsLe r0 r) (piece : Int) :
    RightsLe (rightsAfterKing r0 piece) r := by
  have h3 : intOr 1 2 = 3 := by decide
  have h12 : intOr 4 8 = 12 := by decide
  unfold rightsAfterKing
  rw [h3, h12]
  split_ifs
  · exact h.andNot (by decide)
  · exact h.andNot (by decide)
  · exact h

theorem rightsAfterRook_le {r0 r : Int} (h : RightsLe r0 r) (rook sq : Int) :
    RightsLe (rightsAfterRook r0 rook sq) r := by
  unfold rightsAfterRook
  simp only []
  split_ifs <;>
    first
    | exact h
    | exact h.andNot (by decide)
    | exact (h.andNot (by decide)).andNot (by decide)

theorem updateCastleRights_le {r : Int} (hr : 0 ≤ r ∧ r < 16) (m : Move) :
    RightsLe (updateCastleRights r m) r :=
  rightsAfterRook_le (rightsAfterRook_le (rightsAfterKing_le (RightsLe.refl hr) _) _ _) _ _

theorem rightsAfterKing_white {r : Int} (hr : 0 ≤ r ∧ r < 16) :
    intAnd (rightsAfterKing r WHITE_KING) 1 = 0 ∧ intAnd (rightsAfterKing r WHITE_KING) 2 = 0 := by
  have h3 : intOr 1 2 = 3 := by decide
  have hs := andNot_spec hr (c := 3) (by decide)
  unfold rightsAfterKing
  rw [if_pos rfl, h3]
  constructor
  · by_contra hne
    exact absurd (hs.2.1 hne).2 (by decide)
  · by_contra hne
    exact absurd (hs.2.2.1 hne).2 (by decide)

theorem rightsAfterKing_black {r : Int} (hr : 0 ≤ r ∧ r < 16) :
    intAnd (rightsAfterKing r BLACK_KING) 4 = 0 ∧ intAnd (rightsAfterKing r BLACK_KING) 8 = 0 := by
  have h12 : intOr 4 8 = 12 := by decide
  have hs := andNot_spec hr (c := 12) (by decide)
  unfold rightsAfterKing
  rw [if_neg (by decide), if_pos rfl, h12]
  constructor
  · by_contra hne
    exact absurd (hs.2.2.2.1 hne).2 (by decide)
  · by_contra hne
    exact absurd (hs.2.2.2.2 hne).2 (by decide)

/-- A White right that survives `make_move` was set before, and the move was not a move of
the White king. -/
theorem updateCastleRights_white {r : Int} (hr : 0 ≤ r ∧ r < 16) (m : Move)
    (h : intAnd (updateCastleRights r m) 1 ≠ 0 ∨ intAnd (updateCastleRights r m) 2 ≠ 0) :
    (intAnd r 1 ≠ 0 ∨ intAnd r 2 ≠ 0) ∧ m.piece ≠ WHITE_KING := by
  have hle := updateCastleRights_le hr m
  refine ⟨h.imp hle.2.1 hle.2.2.1, ?_⟩
  intro hk
  have hz := rightsAfterKing_white hr
  have hle2 : RightsLe (updateCastleRights r m) (rightsAfterKing r m.piece) :=
    rightsAfterRook_le (rightsAfterRook_le (RightsLe.refl (rightsAfterKing_le
      (RightsLe.refl hr) _).1) _ _) _ _
  rw [hk] at hle2
  rcases h with h | h
  · exact hle2.2.1 h hz.1
  · exact hle2.2.2.1 h hz.2

theorem updateCastleRights_black {r : Int} (hr : 0 ≤ r ∧ r < 16) (m : Move)
    (h : intAnd (updateCastleRights r m) 4 ≠ 0 ∨ intAnd (updateCastleRights r m) 8 ≠ 0) :
    (intAnd r 4 ≠ 0 ∨ intAnd r 8 ≠ 0) ∧ m.piece ≠ BLACK_KING := by
  have hle := updateCastleRights_le hr m
  refine ⟨h.imp hle.2.2.2.1 hle.2.2.2.2, ?_⟩
  intro hk
  have hz := rightsAfterKing_black hr
  have hle2 : RightsLe (updateCastleRights r m) (rightsAfterKing r m.piece) :=
    rightsAfterRook_le (rightsAfterRook_le (RightsLe.refl (rightsAfterKing_le
      (RightsLe.refl hr) _).1) _ _) _ _
  rw [hk] at hle2
  rcases h with h | h
  · exact hle2.2.2.2.1 h hz.1
  · exact hle2.2.2.2.2 h hz.2

theorem castling_empty_of_inv {t : MoveTables} {b : Board} (hi : Inv b) :
    MoveGenerator.generate_castling_moves t b = [] := by
  apply List.eq_nil_iff_forall_not_mem.2
  intro m hm
  unfold MoveGenerator.generate_castling_moves at hm
  split at hm
  · rcases List.mem_append.1 hm with h | h
    · obtain ⟨-, hr, hk⟩ := castleIf_isCastle h
      exact hi.white_king (Or.inl hr) hk
    · obtain ⟨-, hr, hk⟩ := castleIf_isCastle h
      exact hi.white_king (Or.inr hr) hk
  · rcases List.mem_append.1 hm with h | h
    · obtain ⟨-, hr, hk⟩ := castleIf_isCastle h
      exact hi.black_king (Or.inl hr) hk
    · obtain ⟨-, hr, hk⟩ := castleIf_isCastle h
      exact hi.black_king (Or.inr hr) hk

theorem EpOK_of_inv {b : Board} {m : Move} (hi : Inv b) (hg : GenOK b m) : EpOK b m := by
  apply EpOK_of_valid hg
  intro he
  rcases hi.ep with hnone | hv
  · rcases hg.target with ⟨-, hto, -, -, -⟩ | ⟨he2, -, -⟩ | ⟨he2, -, -⟩
    · have := hg.to_range
      rw [hto, hnone] at this
      exact absurd this.1 (by decide)
    · rw [he2] at he; exact absurd he (by simp)
    · rw [he2] at he; exact absurd he (by simp)
  · exact hv

theorem piece_white_of_own {b : Board} {m : Move} (hg : GenOK b m) (hp : m.piece = WHITE_PAWN) :
    b.side_to_move = Color.WHITE := by
  have := (mem_piecesOf_iff _ _).1 hg.piece_own
  rw [hp] at this
  rcases this with ⟨h, -⟩ | ⟨-, h, -⟩
  · exact h
  · exact absurd h (by decide)

theorem piece_black_of_own {b : Board} {m : Move} (hg : GenOK b m) (hp : m.piece = BLACK_PAWN) :
    b.side_to_move = Color.BLACK := by
  have := (mem_piecesOf_iff _ _).1 hg.piece_own
  rw [hp] at this
  rcases this with ⟨-, -, h⟩ | ⟨h, -⟩
  · exact absurd h (by decide)
  · exact h

theorem landing_ne_king {b : Board} {m : Move} (hg : GenOK b m) {k : Int}
    (hk : k = WHITE_KING ∨ k = BLACK_KING) (hp : m.piece ≠ k) : landingPiece m ≠ k := by
  unfold landingPiece
  rcases hg.promo with h0 | ⟨-, h1, h2⟩
  · simp only [h0, EMPTY, ne_eq, not_true_eq_false, if_false]
    exact hp
  · split
    · rcases hk with rfl | rfl
      · exact h1
      · exact h2
    · exact hp

theorem make_move_ep (z : Zobrist) (b : Board) (m : Move) :
    (b.make_move z m).enpassant_square =
      if m.piece = WHITE_PAWN ∧ m.to_ - m.from_ = 16 then m.from_ + 8
      else if m.piece = BLACK_PAWN ∧ m.from_ - m.to_ = 16 then m.from_ - 8
      else SQ_NONE := rfl

theorem make_move_side (z : Zobrist) (b : Board) (m : Move) :
    (b.make_move z m).side_to_move =
      if b.side_to_move = Color.WHITE then Color.BLACK else Color.WHITE := rfl

theorem make_move_rights (z : Zobrist) (b : Board) (m : Move) :
    (b.make_move z m).castle_rights = updateCastleRights b.castle_rights m := rfl

theorem make_move_ep_valid (z : Zobrist) {b : Board} {m : Move} (hwf : WellFormed b)
    (hg : GenOK b m) (hep : EpOK b m) :
    (b.make_move z m).enpassant_square = SQ_NONE ∨ EpSquareValid (b.make_move z m) := by
  have hwf2 := make_move_wellFormed z hwf hg hep
  rw [make_move_ep]
  split
  · rename_i h
    obtain ⟨hp, h16⟩ := h
    obtain ⟨h8, h16b, hempty, hcap, hne, hpromo⟩ := hg.white_double hp h16
    have hstm := piece_white_of_own hg hp
    right
    unfold EpSquareValid
    rw [make_move_ep, if_pos ⟨hp, h16⟩, make_move_side, hstm]
    simp only [if_true, Color.other, pawnOf, captureSquare, reduceCtorEq, if_false]
    constructor
    · rw [hasBit_occ2 hwf2.occ]
      rintro ⟨q, hq, hb⟩
      rw [make_move_pieces] at hb
      rcases makePieces_sub hg.not_castle hb with hb1 | ⟨-, hs⟩
      · exact hempty ((hasBit_occ2 hwf.occ _).2 ⟨q, hq, hb1⟩)
      · omega
    · rw [make_move_pieces, makePieces_hasBit b m hg.not_castle]
      right
      refine ⟨?_, by omega, hg.to_range.1, hg.to_range.2⟩
      simp [landingPiece, hpromo, EMPTY, hp]
  · split
    · rename_i h
      obtain ⟨hp, h16⟩ := h
      obtain ⟨h8, h16b, hempty, hcap, hne, hpromo⟩ := hg.black_double hp h16
      have hstm := piece_black_of_own hg hp
      right
      unfold EpSquareValid
      have hnw : ¬ (m.piece = WHITE_PAWN ∧ m.to_ - m.from_ = 16) := by
        rintro ⟨hw, -⟩
        rw [hp] at hw
        exact absurd hw (by decide)
      rw [make_move_ep, if_neg hnw, if_pos ⟨hp, h16⟩, make_move_side, hstm]
      simp only [if_true, Color.other, pawnOf, captureSquare, reduceCtorEq, if_false]
      constructor
      · rw [hasBit_occ2 hwf2.occ]
        rintro ⟨q, hq, hb⟩
        rw [make_move_pieces] at hb
        rcases makePieces_sub hg.not_castle hb with hb1 | ⟨-, hs⟩
        · exact hempty ((hasBit_occ2 hwf.occ _).2 ⟨q, hq, hb1⟩)
        · omega
      · rw [make_move_pieces, makePieces_hasBit b m hg.not_castle]
        right
        refine ⟨?_, by omega, hg.to_range.1, hg.to_range.2⟩
        simp [landingPiece, hpromo, EMPTY, hp]
    · exact Or.inl rfl

/-- The invariant survives every move the generator emits. -/
theorem make_move_inv (z : Zobrist) (t : MoveTables) {b : Board} {m : Move} (hi : Inv b)
    (hm : m ∈ MoveGenerator.generate_moves t b) : Inv (b.make_move z m) := by
  have hnc : m ∉ MoveGenerator.generate_castling_moves t b := by
    rw [castling_empty_of_inv hi]
    exact List.not_mem_nil m
  have hg := generate_moves_ok hi.wf hm hnc
  have hep := EpOK_of_inv hi hg
  refine ⟨make_move_wellFormed z hi.wf hg hep, ?_, ?_, ?_, make_move_ep_valid z hi.wf hg hep⟩
  · rw [make_move_rights]
    exact (updateCastleRights_le hi.rights m).1
  · intro h
    rw [make_move_rights] at h
    obtain ⟨hold, hk⟩ := updateCastleRights_white hi.rights m h
    rw [make_move_pieces]
    intro hb
    rcases makePieces_sub hg.not_castle hb with hb1 | ⟨hl, -⟩
    · exact hi.white_king hold hb1
    · exact landing_ne_king hg (Or.inl rfl) hk hl.symm
  · intro h
    rw [make_move_rights] at h
    obtain ⟨hold, hk⟩ := updateCastleRights_black hi.rights m h
    rw [make_move_pieces]
    intro hb
    rcases makePieces_sub hg.not_castle hb with hb1 | ⟨hl, -⟩
    · exact hi.black_king hold hb1
    · exact landing_ne_king hg (Or.inr rfl) hk hl.symm

theorem set_from_fen_indep (z z0 : Zobrist) (b : Board) (fen : List Char) :
    (Board.set_from_fen z b fen).board.pieces = (Board.set_from_fen z0 b fen).board.pieces ∧
    (Board.set_from_fen z b fen).board.occupancies =
      (Board.set_from_fen z0 b fen).board.occupancies ∧
    (Board.set_from_fen z b fen).board.side_to_move =
      (Board.set_from_fen z0 b fen).board.side_to_move ∧
    (Board.set_from_fen z b fen).board.castle_rights =
      (Board.set_from_fen z0 b fen).board.castle_rights ∧
    (Board.set_from_fen z b fen).board.enpassant_square =
      (Board.set_from_fen z0 b fen).board.enpassant_square := by
  unfold Board.set_from_fen
  simp only []
  split
  · exact ⟨rfl, rfl, rfl, rfl, rfl⟩
  · split <;> exact ⟨rfl, rfl, rfl, rfl, rfl⟩

theorem Inv.of_agree {b1 b2 : Board} (h : Inv b1) (hp : b2.pieces = b1.pieces)
    (ho : b2.occupancies = b1.occupancies) (hs : b2.side_to_move = b1.side_to_move)
    (hr : b2.castle_rights = b1.castle_rights)
    (he : b2.enpassant_square = b1.enpassant_square) : Inv b2 := by
  cases b1
  cases b2
  simp only [] at hp ho hs hr he
  subst hp ho hs hr he
  exact ⟨⟨h.wf.bound, h.wf.disjoint, h.wf.occ⟩, h.rights, h.white_king, h.black_king, h.ep⟩

theorem start_inv (z : Zobrist) : Inv (Board.set_from_fen z Board.init startFen).board := by
  have h0 : Inv (Board.set_from_fen zSample Board.init startFen).board :=
    ⟨⟨by decide, by unfold PairwiseDisjoint; decide, by unfold OccupanciesDerived; decide⟩,
      by decide, by decide, by decide, Or.inl (by decide)⟩
  obtain ⟨hp, ho, hs, hr, he⟩ := set_from_fen_indep z zSample Board.init startFen
  exact h0.of_agree hp ho hs hr he

theorem reachable_inv {z : Zobrist} {t : MoveTables} {b : Board} (h : Reachable z t b) :
    Inv b := by
  induction h with
  | start => exact start_inv z
  | step b m _ hm _ ih => exact make_move_inv z t ih hm

/-- C5: every position reachable from the standard starting position by moves that
`generate_moves` emits and that pass the king-not-in-check legality test has its twelve piece
bitboards `pieces[1..12]` pairwise disjoint, whatever the contents of the attack tables. -/
theorem C5_reachable_pairwise_disjoint (z : Zobrist) (t : MoveTables) (b : Board)
    (h : Reachable z t b) : PairwiseDisjoint b :=
  (reachable_inv h).wf.disjoint

theorem C5_reachable_pairwise_disjoint_witness :
    PairwiseDisjoint
      ((Board.set_from_fen zSample Board.init startFen).board.make_move zSample
        (Move.mk 12 28 WHITE_PAWN 0 0 false false)) :=
  C5_reachable_pairwise_disjoint zSample init_move_tables _
    (Reachable.step _ _ Reachable.start (by decide) (by decide))

theorem nextToken_space (s : List Char) : nextToken (' ' :: s) = nextToken s := by
  simp [nextToken, List.dropWhile, isSpace]

theorem takeWhile_noSpace {tok : List Char} (hns : NoSpace tok) (rest : List Char) :
    (tok ++ ' ' :: rest).takeWhile (fun c => ! isSpace c) = tok := by
  induction tok with
  | nil => simp [List.takeWhile, isSpace]
  | cons c cs ih =>
    have hc : isSpace c = false := hns c (List.mem_cons_self _ _)
    have hcs : NoSpace cs := fun d hd => hns d (List.mem_cons_of_mem _ hd)
    simp [List.takeWhile, hc, ih hcs]

theorem dropWhile_noSpace {tok : List Char} (hns : NoSpace tok) (rest : List Char) :
    (tok ++ ' ' :: rest).dropWhile (fun c => ! isSpace c) = ' ' :: rest := by
  induction tok with
  | nil => simp [List.dropWhile, isSpace]
  | cons c cs ih =>
    have hc : isSpace c = false := hns c (List.mem_cons_self _ _)
    have hcs : NoSpace cs := fun d hd => hns d (List.mem_cons_of_mem _ hd)
    simp [List.dropWhile, hc, ih hcs]

theorem takeWhile_noSpace_end {tok : List Char} (hns : NoSpace tok) :
    tok.takeWhile (fun c => ! isSpace c) = tok := by
  induction tok with
  | nil => rfl
  | cons c cs ih =>
    have hc : isSpace c = false := hns c (List.mem_cons_self _ _)
    have hcs : NoSpace cs := fun d hd => hns d (List.mem_cons_of_mem _ hd)
    simp [List.takeWhile, hc, ih hcs]

theorem dropWhile_noSpace_end {tok : List Char} (hns : NoSpace tok) :
    tok.dropWhile (fun c => ! isSpace c) = [] := by
  induction tok with
  | nil => rfl
  | cons c cs ih =>
    have hc : isSpace c = false := hns c (List.mem_cons_self _ _)
    have hcs : NoSpace cs := fun d hd => hns d (List.mem_cons_of_mem _ hd)
    simp [List.dropWhile, hc, ih hcs]

theorem dropWhile_isSpace_noSpace {tok : List Char} (hne : tok ≠ []) (hns : NoSpace tok)
    (rest : List Char) : (tok ++ rest).dropWhile isSpace = tok ++ rest := by
  cases tok with
  | nil => exact absurd rfl hne
  | cons c cs =>
    have hc : isSpace c = false := hns c (List.mem_cons_self _ _)
    simp [List.dropWhile, hc]

/-- Extraction of a word followed by a blank. -/
theorem nextToken_word {tok : List Char} (hne : tok ≠ []) (hns : NoSpace tok)
    (rest : List Char) : nextToken (tok ++ ' ' :: rest) = (tok, ' ' :: rest) := by
  unfold nextToken
  simp only [dropWhile_isSpace_noSpace hne hns, takeWhile_noSpace hns, dropWhile_noSpace hns]

/-- Extraction of the last word of the stream. -/
theorem nextToken_last {tok : List Char} (hne : tok ≠ []) (hns : NoSpace tok) :
    nextToken tok = (tok, []) := by
  unfold nextToken
  have := dropWhile_isSpace_noSpace hne hns []
  simp only [List.append_nil] at this
  simp only [this, takeWhile_noSpace_end hns, dropWhile_noSpace_end hns]

theorem digit_char_table :
    ∀ k : Fin 10, charVal (Char.ofNat (48 + k.val)) - charVal '0' = (k.val : Int) ∧
      isDigit (Char.ofNat (48 + k.val)) = true ∧ isSpace (Char.ofNat (48 + k.val)) = false ∧
      Char.ofNat (48 + k.val) ≠ '-' ∧ Char.ofNat (48 + k.val) ≠ '+' ∧
      Char.ofNat (48 + k.val) ≠ '/' := by
  decide

theorem digit_char (k : Nat) (hk : k < 10) :
    charVal (Char.ofNat (48 + k)) - charVal '0' = (k : Int) ∧
      isDigit (Char.ofNat (48 + k)) = true ∧ isSpace (Char.ofNat (48 + k)) = false ∧
      Char.ofNat (48 + k) ≠ '-' ∧ Char.ofNat (48 + k) ≠ '+' ∧ Char.ofNat (48 + k) ≠ '/' :=
  digit_char_table ⟨k, hk⟩

/-- The digits `decimalLoop` writes: non-empty, all decimal digits, and worth `n`. -/
theorem decimalLoop_spec : ∀ (fuel n : Nat) (acc : List Char), n < fuel →
    ∃ ds : List Char, decimalLoop fuel n acc = ds ++ acc ∧ ds ≠ [] ∧
      (∀ c ∈ ds, isDigit c = true ∧ isSpace c = false ∧ c ≠ '-' ∧ c ≠ '+') ∧
      ∀ a : Int, digitsValue ds a = a * 10 ^ ds.length + (n : Int) := by
  intro fuel
  induction fuel with
  | zero => intro n acc h; omega
  | succ f ih =>
    intro n acc hn
    have hd := digit_char (n % 10) (Nat.mod_lt _ (by norm_num))
    unfold decimalLoop
    simp only []
    split
    · rename_i h0
      refine ⟨[Char.ofNat (48 + n % 10)], rfl, by simp, ?_, ?_⟩
      · intro c hc
        simp only [List.mem_singleton] at hc
        subst hc
        exact ⟨hd.2.1, hd.2.2.1, hd.2.2.2.1, hd.2.2.2.2.1⟩
      · intro a
        simp only [digitsValue, List.foldl, hd.1, List.length_singleton, pow_one]
        have : n % 10 = n := by omega
        rw [this]
    · rename_i h0
      have hlt : n / 10 < f := by omega
      obtain ⟨ds, heq, hne, hall, hval⟩ := ih (n / 10) (Char.ofNat (48 + n % 10) :: acc) hlt
      refine ⟨ds ++ [Char.ofNat (48 + n % 10)], ?_, by simp, ?_, ?_⟩
      · rw [heq]; simp
      · intro c hc
        rcases List.mem_append.1 hc with h | h
        · exact hall c h
        · simp only [List.mem_singleton] at h
          subst h
          exact ⟨hd.2.1, hd.2.2.1, hd.2.2.2.1, hd.2.2.2.2.1⟩
      · intro a
        have h1 := hval a
        unfold digitsValue at h1 ⊢
        rw [List.foldl_append, h1]
        simp only [List.foldl, hd.1, List.length_append, List.length_singleton, pow_succ]
        have : (n : Int) = (n / 10 : Nat) * 10 + (n % 10 : Nat) := by omega
        push_cast at this ⊢
        linarith

theorem takeWhile_all {p : Char → Bool} {l : List Char} (h : ∀ c ∈ l, p c = true) :
    l.takeWhile p = l := by
  induction l with
  | nil => rfl
  | cons c cs ih =>
    simp [List.takeWhile, h c (List.mem_cons_self _ _),
      ih (fun d hd => h d (List.mem_cons_of_mem _ hd))]

/-- The number `operator<<` writes is the number `std::stoi` reads back. -/
theorem stoi_showInt {n : Int} (h0 : 0 ≤ n) (h1 : n ≤ 2147483647) :
    stoi (showInt n) = Except.ok n ∧ showInt n ≠ [] ∧ NoSpace (showInt n) := by
  obtain ⟨ds, heq, hne, hall, hval⟩ := decimalLoop_spec (n.natAbs + 1) n.natAbs [] (by omega)
  have hshow : showInt n = ds := by
    unfold showInt
    rw [if_neg (by omega), heq, List.append_nil]
  rw [hshow]
  refine ⟨?_, hne, fun c hc => (hall c hc).2.1⟩
  cases ds with
  | nil => exact absurd rfl hne
  | cons d rest =>
    have hd := hall d (List.mem_cons_self _ _)
    unfold stoi
    have hdrop : (d :: rest).dropWhile isSpace = d :: rest := by
      simp [List.dropWhile, hd.2.1]
    simp only [hdrop, List.head?_cons, Option.some.injEq, hd.2.2.1, hd.2.2.2, or_self,
      if_false, decide_False]
    rw [takeWhile_all (fun c hc => (hall c hc).1)]
    have hv := hval 0
    unfold digitsValue at hv
    simp only [zero_mul, zero_add] at hv
    have hn : ((n.natAbs : Nat) : Int) = n := by omega
    rw [hn] at hv
    simp only [reduceCtorEq, if_false, hv, Bool.false_eq_true]
    rw [if_neg (by omega)]

theorem castling_table :
    ∀ n : Fin 16, parseCastling (fenCastling (n.val : Int)) = (n.val : Int) ∧
      fenCastling (n.val : Int) ≠ [] ∧ ∀ c ∈ fenCastling (n.val : Int), isSpace c = false := by
  decide

theorem castling_round_trip {r : Int} (hr : 0 ≤ r ∧ r < 16) :
    parseCastling (fenCastling r) = r ∧ fenCastling r ≠ [] ∧ NoSpace (fenCastling r) := by
  have h := castling_table ⟨r.toNat, by omega⟩
  have hcast : ((r.toNat : Nat) : Int) = r := by omega
  simp only [hcast] at h
  exact h

theorem ep_table :
    ∀ n : Fin 64, parseEp (fenEp (n.val : Int)) = (n.val : Int) ∧
      fenEp (n.val : Int) ≠ [] ∧ ∀ c ∈ fenEp (n.val : Int), isSpace c = false := by
  decide

theorem ep_round_trip {e : Int} (he : e = SQ_NONE ∨ (0 ≤ e ∧ e < 64)) :
    parseEp (fenEp e) = e ∧ fenEp e ≠ [] ∧ NoSpace (fenEp e) := by
  rcases he with rfl | he
  · exact ⟨by decide, by decide, by unfold NoSpace; decide⟩
  · have h := ep_table ⟨e.toNat, by omega⟩
    have hcast : ((e.toNat : Nat) : Int) = e := by omega
    simp only [hcast] at h
    exact h

theorem piece_char_table :
    ∀ p ∈ pieceRange, piece_to_char p ≠ '/' ∧ isDigit (piece_to_char p) = false ∧
      char_to_piece (piece_to_char p) = p ∧ piece_to_char p ≠ '.' ∧
      isSpace (piece_to_char p) = false ∧ p ≠ EMPTY := by
  decide

theorem count_digit_table :
    ∀ k : Fin 9, 0 < k.val → showInt (k.val : Int) = [Char.ofNat (48 + k.val)] := by
  decide

theorem showInt_count {c : Int} (h0 : 0 < c) (h8 : c ≤ 8) :
    ∃ k : Nat, k < 10 ∧ (k : Int) = c ∧ showInt c = [Char.ofNat (48 + k)] := by
  have h := count_digit_table ⟨c.toNat, by omega⟩ (by simp; omega)
  have hcast : ((c.toNat : Nat) : Int) = c := by omega
  simp only [hcast] at h
  exact ⟨c.toNat, by omega, hcast, h⟩

theorem pieceAt_some {P : Int → Nat} {s p : Int} (h : pieceAt P s = some p) :
    p ∈ pieceRange ∧ hasBit (P p) s := by
  unfold pieceAt at h
  have h1 := List.mem_of_find?_eq_some h
  have h2 := List.find?_some h
  simp only [decide_eq_true_eq] at h2
  exact ⟨h1, h2⟩

theorem pieceAt_none {P : Int → Nat} {s : Int} (h : pieceAt P s = none) :
    ∀ p ∈ pieceRange, ¬ hasBit (P p) s := by
  unfold pieceAt at h
  intro p hp hb
  have := List.find?_eq_none.1 h p hp
  simp only [decide_eq_true_eq] at this
  exact this hb

theorem fenFileStep_none {P : Int → Nat} {r f : Int} (st : RankState)
    (h : pieceAt P (r * 8 + f) = none) :
    fenFileStep P r st f = { st with empty_count := st.empty_count + 1 } := by
  unfold fenFileStep
  unfold pieceAt at h
  simp only [h, if_true]

theorem fenFileStep_some {P : Int → Nat} {r f p : Int} (st : RankState)
    (h : pieceAt P (r * 8 + f) = some p) :
    fenFileStep P r st f =
      { empty_count := 0
        out := (if st.empty_count > 0 then st.out ++ showInt st.empty_count else st.out) ++
          [piece_to_char p] } := by
  have hp := (piece_char_table p (pieceAt_some h).1).2.2.2.1
  unfold fenFileStep
  unfold pieceAt at h
  simp only [h, hp, if_false]

theorem parsePlacement_append (s1 s2 : List Char) :
    parsePlacement (s1 ++ s2) = s2.foldl placementStep (parsePlacement s1) := by
  unfold parsePlacement
  rw [List.foldl_append]

theorem placementStep_digit (st : PlacementState) {k : Nat} (hk : k < 10) :
    placementStep st (Char.ofNat (48 + k)) = { st with file := st.file + (k : Int) } := by
  have hd := digit_char k hk
  unfold placementStep
  rw [if_neg hd.2.2.2.2.2, if_pos hd.2.1, hd.1]

theorem placementStep_piece (st : PlacementState) {p : Int} (hp : p ∈ pieceRange) :
    placementStep st (piece_to_char p) =
      { st with pieces := setBit st.pieces p (st.rank * 8 + st.file), file := st.file + 1 } := by
  obtain ⟨h1, h2, h3, -, -, h6⟩ := piece_char_table p hp
  unfold placementStep
  rw [if_neg h1, if_neg (by simp [h2])]
  simp only [h3, h6, ne_eq, not_false_eq_true, if_true]

theorem placementStep_slash (st : PlacementState) :
    placementStep st '/' = { st with rank := st.rank - 1, file := 0 } := by
  unfold placementStep
  rw [if_pos rfl]

theorem Written_succ {f : Int} (hf : 0 ≤ f) (r s : Int) :
    Written r (f + 1) s ↔ Written r f s ∨ s = r * 8 + f := by
  unfold Written
  omega

/-- Writing the pending count of empty squares brings the reader to file `f`. -/
theorem flush_spec {P : Int → Nat} {r f : Int} {st : RankState} (h : FileInv P r f st)
    (hf : f ≤ 8) :
    (parsePlacement
        (if st.empty_count > 0 then st.out ++ showInt st.empty_count else st.out)).rank = r ∧
    (parsePlacement
        (if st.empty_count > 0 then st.out ++ showInt st.empty_count else st.out)).file = f ∧
    (parsePlacement
        (if st.empty_count > 0 then st.out ++ showInt st.empty_count else st.out)).pieces =
      (parsePlacement st.out).pieces ∧
    NoSpace (if st.empty_count > 0 then st.out ++ showInt st.empty_count else st.out) := by
  split
  · rename_i hpos
    obtain ⟨k, hk, hkc, hshow⟩ := showInt_count hpos (by have := h.count.2; omega)
    rw [hshow, parsePlacement_append]
    simp only [List.foldl, placementStep_digit _ hk]
    refine ⟨h.rank, ?_, trivial, ?_⟩
    · rw [h.file, hkc]; omega
    · intro c hc
      rcases List.mem_append.1 hc with hc | hc
      · exact h.text c hc
      · simp only [List.mem_singleton] at hc
        rw [hc]
        exact (digit_char k hk).2.2.1
  · rename_i hneg
    refine ⟨h.rank, ?_, rfl, h.text⟩
    rw [h.file]
    have := h.count.1
    omega

theorem fileInv_step {P : Int → Nat} {r f : Int} {st : RankState} (hr : 0 ≤ r ∧ r ≤ 7)
    (hf : 0 ≤ f ∧ f ≤ 7) (h : FileInv P r f st) :
    FileInv P r (f + 1) (fenFileStep P r st f) := by
  cases hpa : pieceAt P (r * 8 + f) with
  | none =>
    rw [fenFileStep_none st hpa]
    have hc1 := h.count.1
    have hc2 := h.count.2
    refine ⟨h.rank, ?_, ⟨?_, ?_⟩, h.bound, ?_, h.text⟩
    · show (parsePlacement st.out).file = f + 1 - (st.empty_count + 1)
      rw [h.file]; omega
    · show 0 ≤ st.empty_count + 1
      omega
    · show st.empty_count + 1 ≤ f + 1
      omega
    · intro q s
      show hasBit ((parsePlacement st.out).pieces q) s ↔ _
      rw [h.bits, Written_succ hf.1]
      constructor
      · rintro ⟨hw, hq⟩
        exact ⟨Or.inl hw, hq⟩
      · rintro ⟨hw | hs, hq⟩
        · exact ⟨hw, hq⟩
        · rw [hs, hpa] at hq
          exact absurd hq (by simp)
  | some p =>
    rw [fenFileStep_some st hpa]
    obtain ⟨hp, hpb⟩ := pieceAt_some hpa
    obtain ⟨h1, h2, h3, h4⟩ := flush_spec h (by omega)
    have hparse : parsePlacement
        ((if st.empty_count > 0 then st.out ++ showInt st.empty_count else st.out) ++
          [piece_to_char p]) =
        { rank := r, file := f + 1,
          pieces := setBit (parsePlacement st.out).pieces p (r * 8 + f) } := by
      rw [parsePlacement_append]
      simp only [List.foldl, placementStep_piece _ hp, h1, h2, h3]
    refine ⟨?_, ?_, ⟨le_refl 0, ?_⟩, ?_, ?_, ?_⟩
    · simp only [hparse]
    · simp only [hparse]; omega
    · show (0 : Int) ≤ f + 1
      omega
    · intro q
      simp only [hparse]
      exact setBit_lt _ _ _ _ (h.bound q)
    · intro q s
      simp only [hparse]
      rw [hasBit_setBit, h.bits, Written_succ hf.1]
      constructor
      · rintro (⟨hw, hq⟩ | ⟨rfl, rfl, -⟩)
        · exact ⟨Or.inl hw, hq⟩
        · exact ⟨Or.inr rfl, hpa⟩
      · rintro ⟨hw | hs, hq⟩
        · exact Or.inl ⟨hw, hq⟩
        · rw [hs, hpa] at hq
          simp only [Option.some.injEq] at hq
          exact Or.inr ⟨hq.symm, hs, by omega, by omega⟩
    · intro c hc
      simp only [] at hc
      rcases List.mem_append.1 hc with hc | hc
      · exact h4 c hc
      · simp only [List.mem_singleton] at hc
        rw [hc]
        exact (piece_char_table p hp).2.2.2.2.1

theorem fileInv_rank_end {P : Int → Nat} {r : Int} {out : List Char} (hr : 0 ≤ r ∧ r ≤ 7)
    (h : FileInv P r 0 { empty_count := 0, out := out }) :
    FileInv P r 8 (fileRange.foldl (fenFileStep P r) { empty_count := 0, out := out }) := by
  simp only [fileRange, List.foldl]
  have h1 := fileInv_step hr (by norm_num) h
  have h2 := fileInv_step hr (by norm_num) h1
  have h3 := fileInv_step hr (by norm_num) h2
  have h4 := fileInv_step hr (by norm_num) h3
  have h5 := fileInv_step hr (by norm_num) h4
  have h6 := fileInv_step hr (by norm_num) h5
  have h7 := fileInv_step hr (by norm_num) h6
  have h8 := fileInv_step hr (by norm_num) h7
  norm_num at h1 h2 h3 h4 h5 h6 h7 h8
  exact h8

/-- One rank of `to_fen`, read back: above the last rank the reader ends on the next rank at
file 0 with every square of the ranks written so far placed. -/
theorem rank_step {P : Int → Nat} {r : Int} {out : List Char} (hr : 0 < r ∧ r ≤ 7)
    (h : FileInv P r 0 { empty_count := 0, out := out }) :
    FileInv P (r - 1) 0 { empty_count := 0, out := fenRankStep P out r } := by
  have h8 := fileInv_rank_end ⟨by omega, hr.2⟩ h
  unfold fenRankStep
  simp only [if_pos hr.1]
  generalize fileRange.foldl (fenFileStep P r) { empty_count := 0, out := out } = st8 at h8 ⊢
  obtain ⟨f1, f2, f3, f4⟩ := flush_spec h8 (le_refl 8)
  generalize (if st8.empty_count > 0 then st8.out ++ showInt st8.empty_count else st8.out) =
    out1 at f1 f2 f3 f4 ⊢
  have hparse : parsePlacement (out1 ++ ['/']) =
      { rank := r - 1, file := 0, pieces := (parsePlacement st8.out).pieces } := by
    rw [parsePlacement_append]
    simp only [List.foldl, placementStep_slash, f1, f3]
  refine ⟨?_, ?_, ⟨le_refl 0, le_refl 0⟩, ?_, ?_, ?_⟩
  · simp only [hparse]
  · simp only [hparse]; norm_num
  · intro q
    simp only [hparse]
    exact h8.bound q
  · intro q s
    simp only [hparse]
    rw [h8.bits]
    have : Written r 8 s ↔ Written (r - 1) 0 s := by
      unfold Written
      omega
    rw [this]
  · intro c hc
    simp only [] at hc
    rcases List.mem_append.1 hc with hc | hc
    · exact f4 c hc
    · simp only [List.mem_singleton] at hc
      rw [hc]
      decide

theorem rank_last {P : Int → Nat} {out : List Char}
    (h : FileInv P 0 0 { empty_count := 0, out := out }) :
    (parsePlacement (fenRankStep P out 0)).rank = 0 ∧
    (∀ q, (parsePlacement (fenRankStep P out 0)).pieces q < TWO64) ∧
    (∀ q s, hasBit ((parsePlacement (fenRankStep P out 0)).pieces q) s ↔
      (0 ≤ s ∧ s < 64) ∧ pieceAt P s = some q) ∧
    NoSpace (fenRankStep P out 0) := by
  have h8 := fileInv_rank_end ⟨le_refl 0, by norm_num⟩ h
  unfold fenRankStep
  simp only [gt_iff_lt, lt_irrefl, if_false]
  generalize fileRange.foldl (fenFileStep P 0) { empty_count := 0, out := out } = st8 at h8 ⊢
  obtain ⟨f1, f2, f3, f4⟩ := flush_spec h8 (le_refl 8)
  simp only [gt_iff_lt] at f1 f3 f4
  refine ⟨f1, ?_, ?_, f4⟩
  · intro q
    rw [f3]
    exact h8.bound q
  · intro q s
    rw [f3, h8.bits]
    have : Written 0 8 s ↔ (0 ≤ s ∧ s < 64) := by
      unfold Written
      omega
    rw [this]

/-- The placement field of `to_fen`, read back by the placement loop of `set_from_fen`: the
bit `s` of `pieces[q]` is set exactly when `q` is the piece `to_fen` found on square `s`. -/
theorem placement_spec (P : Int → Nat) :
    (∀ q, (parsePlacement (fenPlacement P)).pieces q < TWO64) ∧
    (∀ q s, hasBit ((parsePlacement (fenPlacement P)).pieces q) s ↔
      (0 ≤ s ∧ s < 64) ∧ pieceAt P s = some q) ∧
    NoSpace (fenPlacement P) ∧ fenPlacement P ≠ [] := by
  have h7 : FileInv P 7 0 { empty_count := 0, out := [] } := by
    refine ⟨rfl, rfl, ⟨le_refl 0, le_refl 0⟩, ?_, ?_, ?_⟩
    · intro q
      show (0 : Nat) < TWO64
      norm_num [TWO64]
    · intro q s
      show hasBit 0 s ↔ _
      constructor
      · intro h; exact absurd h (hasBit_zero s)
      · rintro ⟨hw, -⟩
        unfold Written at hw
        omega
    · intro c hc
      simp at hc
  have h6 := rank_step (r := 7) (by norm_num) h7
  have h5 := rank_step (r := 6) (by norm_num) (by simpa using h6)
  have h4 := rank_step (r := 5) (by norm_num) (by simpa using h5)
  have h3 := rank_step (r := 4) (by norm_num) (by simpa using h4)
  have h2 := rank_step (r := 3) (by norm_num) (by simpa using h3)
  have h1 := rank_step (r := 2) (by norm_num) (by simpa using h2)
  have h0 := rank_step (r := 1) (by norm_num) (by simpa using h1)
  obtain ⟨g1, g2, g3, g4⟩ := rank_last (by simpa using h0)
  have heq : fenPlacement P = fenRankStep P (fenRankStep P (fenRankStep P (fenRankStep P
      (fenRankStep P (fenRankStep P (fenRankStep P (fenRankStep P [] 7) 6) 5) 4) 3) 2) 1) 0 := rfl
  rw [heq]
  refine ⟨g2, g3, g4, ?_⟩
  intro hnil
  rw [hnil] at g1
  exact absurd g1 (by decide)

theorem set_from_fen_eq_fenLoad (z : Zobrist) (b : Board) (fen : List Char) :
    Board.set_from_fen z b fen =
      fenLoad z (fenField 0 fen) (fenField 1 fen) (fenField 2 fen) (fenField 3 fen)
        (fenField 4 fen) (fenField 5 fen) := rfl

/-- The six fields of a text made of six words separated by single blanks. -/
theorem fenField_six {p s c e h f : List Char} (hp : p ≠ [] ∧ NoSpace p)
    (hs : s ≠ [] ∧ NoSpace s) (hc : c ≠ [] ∧ NoSpace c) (he : e ≠ [] ∧ NoSpace e)
    (hh : h ≠ [] ∧ NoSpace h) (hf : f ≠ [] ∧ NoSpace f) :
    fenField 0 (p ++ ' ' :: (s ++ ' ' :: (c ++ ' ' :: (e ++ ' ' :: (h ++ ' ' :: f))))) = p ∧
    fenField 1 (p ++ ' ' :: (s ++ ' ' :: (c ++ ' ' :: (e ++ ' ' :: (h ++ ' ' :: f))))) = s ∧
    fenField 2 (p ++ ' ' :: (s ++ ' ' :: (c ++ ' ' :: (e ++ ' ' :: (h ++ ' ' :: f))))) = c ∧
    fenField 3 (p ++ ' ' :: (s ++ ' ' :: (c ++ ' ' :: (e ++ ' ' :: (h ++ ' ' :: f))))) = e ∧
    fenField 4 (p ++ ' ' :: (s ++ ' ' :: (c ++ ' ' :: (e ++ ' ' :: (h ++ ' ' :: f))))) = h ∧
    fenField 5 (p ++ ' ' :: (s ++ ' ' :: (c ++ ' ' :: (e ++ ' ' :: (h ++ ' ' :: f))))) = f := by
  simp only [fenField, nextToken_word hp.1 hp.2, nextToken_space, nextToken_word hs.1 hs.2,
    nextToken_word hc.1 hc.2, nextToken_word he.1 he.2, nextToken_word hh.1 hh.2,
    nextToken_last hf.1 hf.2, and_self]

theorem to_fen_eq (pos : Board) :
    pos.to_fen =
      fenPlacement pos.pieces ++ ' ' ::
        ((if pos.side_to_move = Color.WHITE then ['w'] else ['b']) ++ ' ' ::
          (fenCastling pos.castle_rights ++ ' ' ::
            (fenEp pos.enpassant_square ++ ' ' ::
              (showInt pos.halfmove_clock ++ ' ' :: showInt pos.fullmove_number)))) := by
  unfold Board.to_fen
  cases pos.side_to_move <;> simp [List.append_assoc]

theorem side_field (c : Color) :
    ((if c = Color.WHITE then ['w'] else ['b']) ≠ [] ∧
      NoSpace (if c = Color.WHITE then ['w'] else ['b'])) ∧
    (if (if c = Color.WHITE then ['w'] else ['b']) = ['w'] then Color.WHITE else Color.BLACK) =
      c := by
  cases c
  · exact ⟨⟨by decide, by unfold NoSpace; decide⟩, by decide⟩
  · exact ⟨⟨by decide, by unfold NoSpace; decide⟩, by decide⟩

/-- The bitboards read back from the placement field are the bitboards written. -/
theorem placement_round_trip {pos : Board} (h0 : pos.pieces 0 = 0) (hwf : WellFormed pos)
    (p : Int) (hp0 : 0 ≤ p) (hp12 : p ≤ 12) :
    (parsePlacement (fenPlacement pos.pieces)).pieces p = pos.pieces p := by
  obtain ⟨hb, hbits, -, -⟩ := placement_spec pos.pieces
  by_cases hz : p = 0
  · subst hz
    rw [h0]
    apply eq_of_hasBit (hb 0) (by norm_num [TWO64])
    intro s
    rw [hbits]
    constructor
    · rintro ⟨-, hpa⟩
      have := (mem_pieceRange_iff 0).1 (pieceAt_some hpa).1
      omega
    · intro h; exact absurd h (hasBit_zero s)
  · have hpr : p ∈ pieceRange := (mem_pieceRange_iff p).2 ⟨by omega, hp12⟩
    apply eq_of_hasBit (hb p) (hwf.bound p hpr)
    intro s
    rw [hbits]
    constructor
    · rintro ⟨-, hpa⟩
      exact (pieceAt_some hpa).2
    · intro h
      refine ⟨hasBit_range h, ?_⟩
      cases hpa : pieceAt pos.pieces s with
      | none => exact absurd h (pieceAt_none hpa p hpr)
      | some q =>
        obtain ⟨hq, hqb⟩ := pieceAt_some hpa
        rw [disjoint_unique hwf hq hpr hqb h]

theorem fenLoad_ok (z : Zobrist) (p s c e h f : List Char) {hm fm : Int} (hh : h ≠ [])
    (hf : f ≠ []) (hsh : stoi h = Except.ok hm) (hsf : stoi f = Except.ok fm) :
    fenLoad z p s c e h f =
      { board :=
          { pieces := (parsePlacement p).pieces
            occupancies :=
              (Board.update_occupancies
                { Board.init with pieces := (parsePlacement p).pieces }).occupancies
            side_to_move := if s = ['w'] then Color.WHITE else Color.BLACK
            castle_rights := parseCastling c
            enpassant_square := parseEp e
            halfmove_clock := hm
            fullmove_number := fm
            zobrist_key :=
              compute_zobrist_key z
                { pieces := (parsePlacement p).pieces
                  occupancies := fun _ => 0
                  side_to_move := if s = ['w'] then Color.WHITE else Color.BLACK
                  castle_rights := parseCastling c
                  enpassant_square := parseEp e
                  halfmove_clock := 0
                  fullmove_number := 0
                  zobrist_key := 0 } }
        thrown := none } := by
  unfold fenLoad
  simp only [if_neg hh, if_neg hf, hsh, hsf]
  rfl

/-- C8: for every position `pos` satisfying the position invariants (`pieces[0]` empty, piece
bitboards pairwise disjoint `u64` words, occupancies derived, `castle_rights` in `0..15`,
`enpassant_square` `SQ_NONE` or in `0..63`, clocks non-negative `int` values, key canonical),
`set_from_fen(pos.to_fen())` returns normally and leaves a Board equal to `pos` on all
fields. -/
theorem C8_fen_round_trip (z : Zobrist) (b0 pos : Board) (h0 : pos.pieces 0 = 0)
    (hwf : WellFormed pos) (hr : 0 ≤ pos.castle_rights ∧ pos.castle_rights < 16)
    (hep : pos.enpassant_square = SQ_NONE ∨
      (0 ≤ pos.enpassant_square ∧ pos.enpassant_square < 64))
    (hhm : 0 ≤ pos.halfmove_clock ∧ pos.halfmove_clock ≤ 2147483647)
    (hfm : 0 ≤ pos.fullmove_number ∧ pos.fullmove_number ≤ 2147483647)
    (hkey : pos.zobrist_key = compute_zobrist_key z pos) :
    (Board.set_from_fen z b0 pos.to_fen).thrown = none ∧
    BoardEq (Board.set_from_fen z b0 pos.to_fen).board pos := by
  obtain ⟨-, -, hpns, hpne⟩ := placement_spec pos.pieces
  obtain ⟨hside, hsideval⟩ := side_field pos.side_to_move
  obtain ⟨hcval, hcne, hcns⟩ := castling_round_trip hr
  obtain ⟨heval, hene, hens⟩ := ep_round_trip hep
  obtain ⟨hhval, hhne, hhns⟩ := stoi_showInt hhm.1 hhm.2
  obtain ⟨hfval, hfne, hfns⟩ := stoi_showInt hfm.1 hfm.2
  obtain ⟨f0, f1, f2, f3, f4, f5⟩ :=
    fenField_six ⟨hpne, hpns⟩ hside ⟨hcne, hcns⟩ ⟨hene, hens⟩ ⟨hhne, hhns⟩ ⟨hfne, hfns⟩
  have hpieces := placement_round_trip h0 hwf
  rw [set_from_fen_eq_fenLoad, to_fen_eq, f0, f1, f2, f3, f4, f5,
    fenLoad_ok z _ _ _ _ _ _ hhne hfne hhval hfval]
  refine ⟨rfl, hpieces, ?_, hsideval, hcval, heval, rfl, rfl, ?_⟩
  · intro i hi0 hi2
    have h1 := hpieces 1 (by norm_num) (by norm_num)
    have h2 := hpieces 2 (by norm_num) (by norm_num)
    have h3 := hpieces 3 (by norm_num) (by norm_num)
    have h4 := hpieces 4 (by norm_num) (by norm_num)
    have h5 := hpieces 5 (by norm_num) (by norm_num)
    have h6 := hpieces 6 (by norm_num) (by norm_num)
    have h7 := hpieces 7 (by norm_num) (by norm_num)
    have h8 := hpieces 8 (by norm_num) (by norm_num)
    have h9 := hpieces 9 (by norm_num) (by norm_num)
    have h10 := hpieces 10 (by norm_num) (by norm_num)
    have h11 := hpieces 11 (by norm_num) (by norm_num)
    have h12 := hpieces 12 (by norm_num) (by norm_num)
    obtain ⟨o0, o1, o2⟩ := hwf.occ
    have hi : i = 0 ∨ i = 1 ∨ i = 2 := by omega
    simp only [Board.update_occupancies, setAt, orPieces, List.foldl, Nat.zero_or,
      h1, h2, h3, h4, h5, h6, h7, h8, h9, h10, h11, h12]
    rcases hi with rfl | rfl | rfl
    · simp [o0]
    · simp [o1]
    · simp [o2, o0, o1]
  · show compute_zobrist_key z _ = pos.zobrist_key
    rw [hkey]
    apply compute_zobrist_key_congr
    refine ⟨?_, hsideval, hcval, heval⟩
    intro p hp
    have := (mem_pieceRange_iff p).1 hp
    exact hpieces p (by omega) this.2

theorem C8_fen_round_trip_witness :
    (Board.set_from_fen zSample Board.init
      (loadFen zSample
        "r3k2r/p1ppqpb1/bn2pnp1/3PN3/1p2P3/2N2Q1p/PPPBBPPP/R3K2R b Kq e3 100 250").to_fen).thrown =
      none ∧
    BoardEq
      (Board.set_from_fen zSample Board.init
        (loadFen zSample
          "r3k2r/p1ppqpb1/bn2pnp1/3PN3/1p2P3/2N2Q1p/PPPBBPPP/R3K2R b Kq e3 100 250").to_fen).board
      (loadFen zSample
        "r3k2r/p1ppqpb1/bn2pnp1/3PN3/1p2P3/2N2Q1p/PPPBBPPP/R3K2R b Kq e3 100 250") :=
  C8_fen_round_trip zSample Board.init
    (loadFen zSample "r3k2r/p1ppqpb1/bn2pnp1/3PN3/1p2P3/2N2Q1p/PPPBBPPP/R3K2R b Kq e3 100 250")
    (by decide)
    ⟨by decide, by unfold PairwiseDisjoint; decide, by unfold OccupanciesDerived; decide⟩
    (by decide) (by decide) (by decide) (by decide) (by decide)

theorem eq_zero_of_low_bits_clear {b : Nat} (hb : b < TWO64)
    (h : ∀ i, i < 64 → b.testBit i = false) : b = 0 := by
  apply Nat.eq_of_testBit_eq
  intro i
  rw [Nat.zero_testBit]
  by_cases hi : i < 64
  · exact h i hi
  · exact testBit_false_of_lt_TWO64 hb (by omega)

/-- Fuel adequacy of the bit-scan loop: on a `u64` whose lowest `64 - n` bits are clear the
loop has stopped after `n` rounds, so more fuel changes nothing, and it visits every set
bit. -/
theorem scanLoop_fuel : ∀ (n b : Nat), b < TWO64 → (∀ i, i + n < 64 → b.testBit i = false) →
    (∀ fuel, n ≤ fuel → scanLoop fuel b = scanLoop n b) ∧
    (∀ s : Int, hasBit b s → s ∈ scanLoop n b) := by
  intro n
  induction n with
  | zero =>
    intro b hb hlow
    have hb0 : b = 0 := eq_zero_of_low_bits_clear hb (fun i hi => hlow i (by omega))
    subst hb0
    refine ⟨?_, fun s hs => absurd hs (hasBit_zero s)⟩
    intro fuel _
    cases fuel <;> simp [scanLoop]
  | succ n ih =>
    intro b hb hlow
    by_cases hb0 : b = 0
    · subst hb0
      refine ⟨?_, fun s hs => absurd hs (hasBit_zero s)⟩
      intro fuel _
      cases fuel <;> simp [scanLoop]
    · obtain ⟨k, hk, hbsf, hbit, hbelow, hpop⟩ := bit_scan_forward_spec hb0 hb
      have hklow : 64 ≤ k + (n + 1) := by
        by_contra hlt
        have := hlow k (by omega)
        rw [hbit] at this
        exact absurd this (by simp)
      have hb' : b &&& (b - 1) < TWO64 := and_lt_TWO64_left _ hb
      have hlow' : ∀ i, i + n < 64 → (b &&& (b - 1)).testBit i = false := by
        intro i hi
        rw [hpop]
        by_cases hik : i = k
        · simp [hik]
        · have : i < k := by omega
          simp [hbelow i this]
      obtain ⟨ih1, ih2⟩ := ih (b &&& (b - 1)) hb' hlow'
      constructor
      · intro fuel hfuel
        obtain ⟨f, rfl⟩ : ∃ f, fuel = f + 1 := ⟨fuel - 1, by omega⟩
        simp only [scanLoop, if_neg hb0]
        rw [ih1 f (by omega)]
      · intro s hs
        simp only [scanLoop, if_neg hb0, List.mem_cons]
        by_cases hsk : s = (k : Int)
        · left; rw [hbsf]; exact hsk
        · right
          apply ih2
          have hr := hasBit_range hs
          rw [hasBit_iff_testBit hr.1 hr.2] at hs ⊢
          rw [hpop, hs]
          have : s.toNat ≠ k := by omega
          simp [this]

/-- The loop `while (bb) { sq = bit_scan_forward(bb); bb &= bb - 1; ... }` is over after at
most 64 rounds and visits exactly the set bits of `bb`. -/
theorem scanBits_spec {bb : Nat} (hb : bb < TWO64) :
    (∀ fuel, 64 ≤ fuel → scanLoop fuel bb = scanBits bb) ∧
    (∀ s : Int, s ∈ scanBits bb ↔ hasBit bb s) := by
  obtain ⟨h1, h2⟩ := scanLoop_fuel 64 bb hb (fun i hi => by omega)
  exact ⟨h1, fun s => ⟨fun h => scanBits_sound hb h, h2 s⟩⟩

/-- Fuel adequacy of the ray walk: if the walk from `(rr, ff)` leaves the board after at most
`n` steps, `n` rounds reach the exit of the `while` and more fuel changes nothing. -/
theorem rayLoop_fuel (occ : Nat) (dr df : Int) : ∀ (n : Nat) (rr ff : Int) (attacks : Nat),
    (∃ j : Nat, j ≤ n ∧
      ¬ (0 ≤ rr + j * dr ∧ rr + j * dr < 8 ∧ 0 ≤ ff + j * df ∧ ff + j * df < 8)) →
    ∀ fuel, n ≤ fuel → rayLoop occ dr df fuel rr ff attacks = rayLoop occ dr df n rr ff attacks := by
  intro n
  induction n with
  | zero =>
    intro rr ff attacks hex fuel _
    obtain ⟨j, hj, hout⟩ := hex
    have hj0 : j = 0 := by omega
    subst hj0
    simp only [Nat.cast_zero, zero_mul, add_zero] at hout
    cases fuel with
    | zero => rfl
    | succ f => simp only [rayLoop, if_neg hout]
  | succ n ih =>
    intro rr ff attacks hex fuel hfuel
    obtain ⟨f, rfl⟩ : ∃ f, fuel = f + 1 := ⟨fuel - 1, by omega⟩
    by_cases hin : 0 ≤ rr ∧ rr < 8 ∧ 0 ≤ ff ∧ ff < 8
    · simp only [rayLoop, if_pos hin]
      split
      · rfl
      · apply ih _ _ _ _ f (by omega)
        obtain ⟨j, hj, hout⟩ := hex
        have hj1 : 1 ≤ j := by
          by_contra h0
          have : j = 0 := by omega
          subst this
          simp only [Nat.cast_zero, zero_mul, add_zero] at hout
          exact hout hin
        refine ⟨j - 1, by omega, ?_⟩
        have hcast : ((j - 1 : Nat) : Int) = (j : Int) - 1 := by omega
        rw [hcast]
        have e1 : rr + dr + ((j : Int) - 1) * dr = rr + j * dr := by ring
        have e2 : ff + df + ((j : Int) - 1) * df = ff + j * df := by ring
        rw [e1, e2]
        exact hout
    · simp only [rayLoop, if_neg hin]

/-- Every ray of `get_slider_attacks` is over after at most 8 rounds. -/
theorem rayLoop_eight (occ : Nat) {dr df : Int} (hd : (dr, df) ∈ dirsB ++ dirsR)
    (rr ff : Int) (attacks : Nat) (fuel : Nat) (hfuel : 8 ≤ fuel) :
    rayLoop occ dr df fuel rr ff attacks = rayLoop occ dr df 8 rr ff attacks := by
  apply rayLoop_fuel occ dr df 8 rr ff attacks _ fuel hfuel
  by_cases hin : 0 ≤ rr ∧ rr < 8 ∧ 0 ≤ ff ∧ ff < 8
  · simp only [dirsB, dirsR, List.cons_append, List.nil_append, List.mem_cons, Prod.mk.injEq,
      List.mem_singleton, List.not_mem_nil, or_false] at hd
    have hstep : dr = 1 ∨ dr = -1 ∨ (dr = 0 ∧ df = 1) ∨ (dr = 0 ∧ df = -1) := by omega
    rcases hstep with h | h | h | h
    · subst h
      exact ⟨(8 - rr).toNat, by omega, by omega⟩
    · subst h
      exact ⟨(rr + 1).toNat, by omega, by omega⟩
    · rw [h.2]
      exact ⟨(8 - ff).toNat, by omega, by omega⟩
    · rw [h.2]
      exact ⟨(ff + 1).toNat, by omega, by omega⟩
  · exact ⟨0, by omega, by simpa using hin⟩

/-! ## perft, the transposition table and start-up -/

set_option maxRecDepth 100000

theorem SameRules.generate_moves (t : MoveTables) {b1 b2 : Board} (h : SameRules b1 b2) :
    MoveGenerator.generate_moves t b1 = MoveGenerator.generate_moves t b2 := by
  cases b1
  cases b2
  obtain ⟨hp, ho, hs, hr, he⟩ := h
  simp only [] at hp ho hs hr he
  subst hp ho hs hr he
  rfl

theorem SameRules.in_check (t : MoveTables) {b1 b2 : Board} (h : SameRules b1 b2) (c : Color) :
    b1.in_check t c = b2.in_check t c := by
  cases b1
  cases b2
  obtain ⟨hp, ho, hs, hr, he⟩ := h
  simp only [] at hp ho hs hr he
  subst hp ho hs hr he
  rfl

theorem SameRules.make_move (z1 z2 : Zobrist) {b1 b2 : Board} (h : SameRules b1 b2) (m : Move) :
    SameRules (b1.make_move z1 m) (b2.make_move z2 m) := by
  cases b1
  cases b2
  obtain ⟨hp, ho, hs, hr, he⟩ := h
  simp only [] at hp ho hs hr he
  subst hp ho hs hr he
  exact ⟨rfl, rfl, rfl, rfl, rfl⟩

theorem SameRules.undo_move {b1 b2 c1 c2 : Board} (h : SameRules b1 b2) (hc : SameRules c1 c2)
    (m : Move) : SameRules (c1.undo_move (b1.undoInfo m)) (c2.undo_move (b2.undoInfo m)) := by
  cases b1
  cases b2
  cases c1
  cases c2
  obtain ⟨hp, ho, hs, hr, he⟩ := h
  obtain ⟨hp2, ho2, hs2, hr2, he2⟩ := hc
  simp only [] at hp ho hs hr he hp2 ho2 hs2 hr2 he2
  subst hp ho hs hr he hp2 ho2 hs2 hr2 he2
  exact ⟨rfl, rfl, rfl, rfl, rfl⟩

theorem perftStep_sameRules (z1 z2 : Zobrist) (t : MoveTables) {sub1 sub2 : Board → Board × Nat}
    (hsub : ∀ c1 c2, SameRules c1 c2 →
      SameRules (sub1 c1).1 (sub2 c2).1 ∧ (sub1 c1).2 = (sub2 c2).2)
    {a1 a2 : Board × Nat} (ha : SameRules a1.1 a2.1 ∧ a1.2 = a2.2) (m : Move) :
    SameRules (perftStep z1 t sub1 a1 m).1 (perftStep z2 t sub2 a2 m).1 ∧
      (perftStep z1 t sub1 a1 m).2 = (perftStep z2 t sub2 a2 m).2 := by
  obtain ⟨hb, hn⟩ := ha
  have hmk := SameRules.make_move z1 z2 hb m
  have hchk := SameRules.in_check t hmk (a1.1.make_move z1 m).side_to_move.other
  have hside : (a1.1.make_move z1 m).side_to_move = (a2.1.make_move z2 m).side_to_move := hmk.2.2.1
  unfold perftStep
  simp only []
  rw [hchk, hside]
  split
  · obtain ⟨h1, h2⟩ := hsub _ _ hmk
    exact ⟨SameRules.undo_move hb h1 m, by rw [hn, h2]⟩
  · exact ⟨SameRules.undo_move hb hmk m, hn⟩

theorem foldl_sameRules {f1 f2 : Board × Nat → Move → Board × Nat}
    (hf : ∀ a1 a2 : Board × Nat, SameRules a1.1 a2.1 ∧ a1.2 = a2.2 → ∀ m,
      SameRules (f1 a1 m).1 (f2 a2 m).1 ∧ (f1 a1 m).2 = (f2 a2 m).2) :
    ∀ (ms : List Move) (a1 a2 : Board × Nat), SameRules a1.1 a2.1 ∧ a1.2 = a2.2 →
      SameRules (ms.foldl f1 a1).1 (ms.foldl f2 a2).1 ∧ (ms.foldl f1 a1).2 = (ms.foldl f2 a2).2
  | [], _, _, ha => ha
  | m :: ms, a1, a2, ha => by
    simp only [List.foldl_cons]
    exact foldl_sameRules hf ms _ _ (hf a1 a2 ha m)

/-- The node count of `perft` does not depend on the Zobrist words, on the clocks or on the
key of the Board. -/
theorem perft_sameRules (z1 z2 : Zobrist) (t : MoveTables) :
    ∀ (d : Nat) (b1 b2 : Board), SameRules b1 b2 →
      SameRules (Searcher.perft z1 t d b1).1 (Searcher.perft z2 t d b2).1 ∧
        (Searcher.perft z1 t d b1).2 = (Searcher.perft z2 t d b2).2
  | 0, _, _, h => ⟨h, rfl⟩
  | d + 1, b1, b2, h => by
    unfold Searcher.perft
    rw [SameRules.generate_moves t h]
    exact foldl_sameRules
      (fun a1 a2 ha m => perftStep_sameRules z1 z2 t (perft_sameRules z1 z2 t d) ha m)
      _ _ _ ⟨h, rfl⟩

theorem loadFen_sameRules (z1 z2 : Zobrist) (fen : String) :
    SameRules (loadFen z1 fen) (loadFen z2 fen) :=
  set_from_fen_indep z1 z2 Board.init fen.toList

/-- C18: with the attack tables of `init_move_tables`, `perft` at depth 1 on the standard
starting position returns 20, whatever the Zobrist words are. -/
theorem C18_perft_startpos_depth_one (z : Zobrist) :
    (Searcher.perft z init_move_tables 1
      (loadFen z "rnbqkbnr/pppppppp/8/8/8/8/PPPPPPPP/RNBQKBNR w KQkq - 0 1")).2 = 20 := by
  rw [(perft_sameRules z zSample init_move_tables 1 _ _ (loadFen_sameRules z zSample _)).2]
  decide

theorem perftStep_eq (z : Zobrist) (t : MoveTables) (sub : Board → Board × Nat) {b : Board}
    {m : Move} (hi : Inv b) (hm : m ∈ MoveGenerator.generate_moves t b)
    (hsub : (sub (b.make_move z m)).1 = b.make_move z m) (acc : Nat) :
    perftStep z t sub (b, acc) m =
      (b, if MoveGenerator.is_move_legal z t b m = true then
            (acc + (sub (b.make_move z m)).2) % TWO64 else acc) := by
  have hnc : m ∉ MoveGenerator.generate_castling_moves t b := by
    rw [castling_empty_of_inv hi]
    exact List.not_mem_nil m
  have hg := generate_moves_ok hi.wf hm hnc
  have hundo := undo_make_of_GenOK z hi.wf hg (EpOK_of_inv hi hg)
  unfold perftStep MoveGenerator.is_move_legal
  simp only []
  by_cases hc : (b.make_move z m).in_check t (b.make_move z m).side_to_move.other = false
  · simp [hc, hsub, hundo]
  · simp [hc, hundo]

theorem perft_fold (z : Zobrist) (t : MoveTables) (sub : Board → Board × Nat) {b : Board}
    (hi : Inv b) : ∀ (ms : List Move) (acc : Nat), acc < TWO64 →
    (∀ m ∈ ms, m ∈ MoveGenerator.generate_moves t b) →
    (∀ m ∈ ms, (sub (b.make_move z m)).1 = b.make_move z m) →
    ms.foldl (perftStep z t sub) (b, acc) =
      (b, (acc + ((ms.filter (fun m => MoveGenerator.is_move_legal z t b m)).map
        (fun m => (sub (b.make_move z m)).2)).sum) % TWO64)
  | [], acc, hacc, _, _ => by
    simp [Nat.mod_eq_of_lt hacc]
  | m :: ms, acc, hacc, hms, hsub => by
    rw [List.foldl_cons, perftStep_eq z t sub hi (hms m (List.mem_cons_self _ _))
      (hsub m (List.mem_cons_self _ _))]
    have hms2 : ∀ x ∈ ms, x ∈ MoveGenerator.generate_moves t b :=
      fun x hx => hms x (List.mem_cons_of_mem _ hx)
    have hsub2 : ∀ x ∈ ms, (sub (b.make_move z x)).1 = b.make_move z x :=
      fun x hx => hsub x (List.mem_cons_of_mem _ hx)
    have h64 : 0 < TWO64 := by unfold TWO64; decide
    cases hl : MoveGenerator.is_move_legal z t b m
    · simp only [Bool.false_eq_true, if_false]
      rw [perft_fold z t sub hi ms acc hacc hms2 hsub2, List.filter_cons_of_neg (by simp [hl])]
    · simp only [if_true]
      rw [perft_fold z t sub hi ms _ (Nat.mod_lt _ h64) hms2 hsub2,
        List.filter_cons_of_pos (by simp [hl]), List.map_cons, List.sum_cons]
      congr 1
      rw [Nat.add_mod, Nat.mod_mod, ← Nat.add_mod, Nat.add_assoc]

/-- On a Board satisfying the play invariant `perft` hands the Board back as it received
it. -/
theorem perft_restores (z : Zobrist) (t : MoveTables) :
    ∀ (d : Nat) (b : Board), Inv b → (Searcher.perft z t d b).1 = b
  | 0, _, _ => rfl
  | d + 1, b, hi => by
    unfold Searcher.perft
    rw [perft_fold z t _ hi _ 0 (by unfold TWO64; decide) (fun m hm => hm)
      (fun m hm => perft_restores z t d _ (make_move_inv z t hi hm))]

theorem perft_succ (z : Zobrist) (t : MoveTables) (d : Nat) {b : Board} (hi : Inv b) :
    Searcher.perft z t (d + 1) b =
      (b, ((legalMoves z t b).map
        (fun m => (Searcher.perft z t d (b.make_move z m)).2)).sum % TWO64) := by
  have h := perft_fold z t (Searcher.perft z t d) hi (MoveGenerator.generate_moves t b) 0
    (by unfold TWO64; decide) (fun m hm => hm)
    (fun m hm => perft_restores z t d _ (make_move_inv z t hi hm))
  rw [Nat.zero_add] at h
  exact h

theorem sum_map_mod (f : Move → Nat) (n : Nat) : ∀ l : List Move,
    (l.map (fun m => f m % n)).sum % n = (l.map f).sum % n
  | [] => rfl
  | m :: l => by
    simp only [List.map_cons, List.sum_cons]
    rw [Nat.add_mod, sum_map_mod f n l, Nat.mod_mod, ← Nat.add_mod]

theorem perft_eq_perftSpec (z : Zobrist) (t : MoveTables) :
    ∀ (d : Nat) (b : Board), Inv b → (Searcher.perft z t d b).2 = perftSpec z t d b % TWO64
  | 0, _, _ => by
    show 1 = 1 % TWO64
    unfold TWO64
    decide
  | d + 1, b, hi => by
    rw [perft_succ z t d hi]
    show _ % TWO64 = ((legalMoves z t b).map _).sum % TWO64
    rw [← sum_map_mod (fun m => perftSpec z t d (b.make_move z m))]
    congr 2
    apply List.map_congr_left
    intro m hm
    exact perft_eq_perftSpec z t d _
      (make_move_inv z t hi (List.mem_filter.1 hm).1)

theorem divideStep_eq (z : Zobrist) (t : MoveTables) (d : Nat) :
    divideStep z t d = perftStep z t (Searcher.perft z t d) := by
  funext acc move
  unfold divideStep perftStep
  cases d with
  | zero => rfl
  | succ d => simp

/-- C17, refuted as stated.  On 3r3k/8/8/4P3/8/8/8/3K4 with White to move and en-passant
square d6, a Board with pairwise disjoint bitboards and derived occupancies, the sum of
`perft(child, 0)` over the children by moves of `generate_moves` that do not leave the White king
in check is 5, but `perft` at depth 1 returns 6: undoing the emitted en-passant capture e5 -> d6
leaves a Black pawn on d5 (35) that was not there, it shields d2 from the rook on d8, and the
loop then counts the king move d1 -> d2 (3 -> 11), which is no legal move of the position. -/
theorem C17_counterexample :
    WellFormed (loadFen zSample "3r3k/8/8/4P3/8/8/8/3K4 w - d6 0 1") ∧
    (legalMoves zSample init_move_tables
      (loadFen zSample "3r3k/8/8/4P3/8/8/8/3K4 w - d6 0 1")).length = 5 ∧
    ((legalMoves zSample init_move_tables
      (loadFen zSample "3r3k/8/8/4P3/8/8/8/3K4 w - d6 0 1")).map
        (fun m => (Searcher.perft zSample init_move_tables 0
          ((loadFen zSample "3r3k/8/8/4P3/8/8/8/3K4 w - d6 0 1").make_move zSample m)).2)).sum
      = 5 ∧
    (Searcher.perft zSample init_move_tables 1
      (loadFen zSample "3r3k/8/8/4P3/8/8/8/3K4 w - d6 0 1")).2 = 6 ∧
    Move.mk 3 11 WHITE_KING 0 0 false false ∉ legalMoves zSample init_move_tables
      (loadFen zSample "3r3k/8/8/4P3/8/8/8/3K4 w - d6 0 1") ∧
    (loadFen zSample "3r3k/8/8/4P3/8/8/8/3K4 w - d6 0 1").pieces BLACK_PAWN = 0 ∧
    (Searcher.perft zSample init_move_tables 1
      (loadFen zSample "3r3k/8/8/4P3/8/8/8/3K4 w - d6 0 1")).1.pieces BLACK_PAWN = sqbit 35 :=
  ⟨⟨by decide, by unfold PairwiseDisjoint; decide, by unfold OccupanciesDerived; decide⟩,
   by decide, by decide, by decide, by decide, by decide, by decide⟩

/-- C17, amended: `perft` at depth 0 returns 1 and leaves the Board alone; on every Board that
satisfies the play invariant `Inv` (as every position reached from the starting position does)
and for every depth `d + 1`, `perft` hands the Board back unchanged and returns, in `u64`
arithmetic, the sum of `perft(child, d)` over the children by the moves of `generate_moves` that
do not leave the mover's king in check, which is the node count `perftSpec` modulo 2^64; and for
every Board and every depth `d + 1`, `divide` leaves the same Board and returns the same total
as `perft`. -/
theorem C17_perft_recursion (z : Zobrist) (t : MoveTables) :
    (∀ b : Board, Searcher.perft z t 0 b = (b, 1)) ∧
    (∀ (d : Nat) (b : Board), Inv b →
      Searcher.perft z t (d + 1) b =
        (b, ((legalMoves z t b).map
          (fun m => (Searcher.perft z t d (b.make_move z m)).2)).sum % TWO64)) ∧
    (∀ (d : Nat) (b : Board), Inv b →
      (Searcher.perft z t d b).2 = perftSpec z t d b % TWO64) ∧
    (∀ (d : Nat) (b : Board),
      Searcher.divide z t (d + 1) b = some (Searcher.perft z t (d + 1) b)) := by
  refine ⟨fun _ => rfl, fun d b hi => perft_succ z t d hi,
    fun d b hi => perft_eq_perftSpec z t d b hi, fun d b => ?_⟩
  show some ((MoveGenerator.generate_moves t b).foldl (divideStep z t d) (b, 0)) =
    some ((MoveGenerator.generate_moves t b).foldl (perftStep z t (Searcher.perft z t d)) (b, 0))
  rw [divideStep_eq]

theorem C17_perft_recursion_witness :
    Inv (Board.set_from_fen zSample Board.init startFen).board ∧
    Searcher.perft zSample init_move_tables 2
        (Board.set_from_fen zSample Board.init startFen).board =
      ((Board.set_from_fen zSample Board.init startFen).board,
        ((legalMoves zSample init_move_tables
            (Board.set_from_fen zSample Board.init startFen).board).map
          (fun m => (Searcher.perft zSample init_move_tables 1
            ((Board.set_from_fen zSample Board.init startFen).board.make_move zSample m)).2)).sum
          % TWO64) :=
  ⟨start_inv zSample,
   (C17_perft_recursion zSample init_move_tables).2.1 1 _ (start_inv zSample)⟩

/-- C12: after `make_move(m)` the halfmove clock is 0 when `m.piece` is a pawn or
`m.captured != EMPTY` and the previous clock plus 1 otherwise; the fullmove number grows by 1
exactly when the mover was Black; and the side to move is the other colour. -/
theorem C12_make_move_clocks_and_side (z : Zobrist) (b : Board) (m : Move) :
    (b.make_move z m).halfmove_clock =
      (if (m.piece = WHITE_PAWN ∨ m.piece = BLACK_PAWN) ∨ m.captured ≠ EMPTY then 0
       else b.halfmove_clock + 1) ∧
    (b.make_move z m).fullmove_number =
      (if b.side_to_move = Color.BLACK then b.fullmove_number + 1 else b.fullmove_number) ∧
    (b.make_move z m).side_to_move = b.side_to_move.other ∧
    (b.make_move z m).side_to_move ≠ b.side_to_move := by
  refine ⟨?_, rfl, ?_, ?_⟩
  · show (if m.piece = WHITE_PAWN ∨ m.piece = BLACK_PAWN ∨ m.captured ≠ EMPTY then 0
        else b.halfmove_clock + 1) = _
    by_cases h1 : m.piece = WHITE_PAWN <;> by_cases h2 : m.piece = BLACK_PAWN <;>
      by_cases h3 : m.captured = EMPTY <;> simp [h1, h2, h3]
  · rw [make_move_side]
    cases b.side_to_move <;> rfl
  · rw [make_move_side]
    cases b.side_to_move <;> simp

/-- C16: for every position and every content of the attack tables, the list produced by
`generate_captures` equals the list `capturesSpec` of the moves of `generate_moves` with
`captured != EMPTY` or `promotion != EMPTY`, taken in the order of `generate_moves`; it is a
sublist of `generate_moves`, and a move belongs to it exactly when it is emitted by
`generate_moves` with a capture or a promotion. -/
theorem C16_generate_captures_refines (t : MoveTables) (board : Board) :
    MoveGenerator.generate_captures t board = capturesSpec t board ∧
    List.Sublist (MoveGenerator.generate_captures t board)
      (MoveGenerator.generate_moves t board) ∧
    ∀ m, m ∈ MoveGenerator.generate_captures t board ↔
      m ∈ MoveGenerator.generate_moves t board ∧ (m.captured ≠ EMPTY ∨ m.promotion ≠ EMPTY) := by
  have h : MoveGenerator.generate_captures t board = capturesSpec t board := by
    unfold MoveGenerator.generate_captures capturesSpec
    apply List.filter_congr
    intro m _
    by_cases h1 : m.captured = 0 <;> by_cases h2 : m.promotion = 0 <;> simp [h1, h2, EMPTY]
  refine ⟨h, ?_, ?_⟩
  · unfold MoveGenerator.generate_captures
    exact List.filter_sublist _
  · intro m
    rw [h]
    unfold capturesSpec
    simp [List.mem_filter]

/-- C20: in every table state, after `store(k, d, v, f, m)` a `probe(k, d1)` with `d1 <= d`
returns true and writes `v`, `f` and `m` through its reference parameters, whatever was stored
under `k` before and whatever the parameters held; the entry under every other key is the one
held before the store; and the stored entry carries the table's `current_age`, which the store
leaves as it was. -/
theorem C20_store_then_probe (tt : TranspositionTable) (k : Nat) (d v : Int) (f : TTFlag)
    (m : Move) :
    (∀ (d1 v0 : Int) (f0 : TTFlag) (m0 : Move), d1 ≤ d →
      (tt.store k d v f m).probe k d1 v0 f0 m0 =
        { hit := true, value := v, flag := f, best_move := m }) ∧
    (∀ k1, k1 ≠ k → (tt.store k d v f m).table k1 = tt.table k1) ∧
    (∀ (k1 : Nat) (d1 v0 : Int) (f0 : TTFlag) (m0 : Move), k1 ≠ k →
      (tt.store k d v f m).probe k1 d1 v0 f0 m0 = tt.probe k1 d1 v0 f0 m0) ∧
    (tt.store k d v f m).table k =
      some { key := k, depth := d, value := v, flag := f, best_move := m,
             age := tt.current_age } ∧
    (tt.store k d v f m).current_age = tt.current_age := by
  refine ⟨?_, ?_, ?_, ?_, rfl⟩
  · intro d1 v0 f0 m0 h
    simp [TranspositionTable.probe, TranspositionTable.store, h]
  · intro k1 h
    simp [TranspositionTable.store, h]
  · intro k1 d1 v0 f0 m0 h
    simp [TranspositionTable.probe, TranspositionTable.store, h]
  · simp [TranspositionTable.store]

theorem C20_store_then_probe_witness :
    (3 : Int) ≤ 5 ∧
    (({ table := fun _ => some ⟨7, 9, -4, TTFlag.TT_ALPHA, ⟨1, 2, 3, 0, 0, false, false⟩, 6⟩,
        current_age := 2 } : TranspositionTable).store 7 5 11 TTFlag.TT_EXACT
          ⟨12, 28, 1, 0, 0, false, false⟩).probe 7 3 0 TTFlag.TT_BETA
          ⟨0, 0, 0, 0, 0, false, false⟩ =
      { hit := true, value := 11, flag := TTFlag.TT_EXACT,
        best_move := ⟨12, 28, 1, 0, 0, false, false⟩ } :=
  ⟨by decide,
   (C20_store_then_probe _ 7 5 11 TTFlag.TT_EXACT ⟨12, 28, 1, 0, 0, false, false⟩).1
     3 0 TTFlag.TT_BETA ⟨0, 0, 0, 0, 0, false, false⟩ (by decide)⟩

/-- C19 (defect in the code): `init_engine`, the start-up initialisation `main` runs, calls
`init_zobrist` only, so at program start every entry of `knight_moves`, `king_moves` and
`pawn_attacks` still holds the zero of static initialisation, whereas `init_move_tables`,
which nothing calls, would give every square a non-zero knight and king mask; with the tables of
program start `perft` counts 16 moves on the starting position (the four knight moves are
missing). -/
theorem C19_startup_leaves_attack_tables_zero (words : Zobrist) :
    (∀ s, (programStart words).tables.knight_moves s = 0) ∧
    (∀ s, (programStart words).tables.king_moves s = 0) ∧
    (∀ c s, (programStart words).tables.pawn_attacks c s = 0) ∧
    (∀ s : Fin 64, init_move_tables.knight_moves ((s : Nat) : Int) ≠ 0 ∧
      init_move_tables.king_moves ((s : Nat) : Int) ≠ 0) ∧
    (Searcher.perft words (programStart words).tables 1
      (loadFen words "rnbqkbnr/pppppppp/8/8/8/8/PPPPPPPP/RNBQKBNR w KQkq - 0 1")).2 = 16 := by
  refine ⟨fun _ => rfl, fun _ => rfl, fun _ _ => rfl, by decide, ?_⟩
  show (Searcher.perft words MoveTables.static_init 1 _).2 = 16
  rw [(perft_sameRules words zSample MoveTables.static_init 1 _ _
    (loadFen_sameRules words zSample _)).2]
  decide

/-! ## The pawn generator: shapes, two-square pushes, en passant, promotions -/

theorem whitePawnCapture_shape {b : Board} {sq r tgt : Int} {m : Move}
    (hm : m ∈ whitePawnCapture b sq r tgt) :
    r < 7 ∧ m.from_ = sq ∧ m.to_ = tgt ∧ m.piece = WHITE_PAWN ∧ m.isCastle = false ∧
    ((m.isEnPassant = true ∧ b.enpassant_square = tgt ∧ m.captured = BLACK_PAWN ∧
        m.promotion = 0) ∨
     (m.isEnPassant = false ∧ hasBit (b.occupancies 1) tgt ∧
        m.captured = firstPieceAt b.pieces blackPieces tgt ∧
        ((r = 6 ∧ m.promotion ∈ whitePromos) ∨ (r ≠ 6 ∧ m.promotion = 0)))) := by
  unfold whitePawnCapture at hm
  split at hm
  · rename_i hr
    rcases List.mem_append.1 hm with h1 | h1
    · split at h1
      · rename_i hocc
        simp only [] at h1
        split at h1
        · rename_i h6
          simp only [List.mem_map] at h1
          obtain ⟨promo, hpromo, rfl⟩ := h1
          exact ⟨hr, rfl, rfl, rfl, rfl, Or.inr ⟨rfl, hocc, rfl, Or.inl ⟨h6, hpromo⟩⟩⟩
        · rename_i h6
          simp only [List.mem_singleton] at h1
          subst h1
          exact ⟨hr, rfl, rfl, rfl, rfl, Or.inr ⟨rfl, hocc, rfl, Or.inr ⟨h6, rfl⟩⟩⟩
      · simp at h1
    · split at h1
      · rename_i hep
        simp only [List.mem_singleton] at h1
        subst h1
        exact ⟨hr, rfl, rfl, rfl, rfl, Or.inl ⟨rfl, hep, rfl, rfl⟩⟩
      · simp at h1
  · simp at hm

theorem blackPawnCapture_shape {b : Board} {sq r tgt : Int} {m : Move}
    (hm : m ∈ blackPawnCapture b sq r tgt) :
    r > 0 ∧ m.from_ = sq ∧ m.to_ = tgt ∧ m.piece = BLACK_PAWN ∧ m.isCastle = false ∧
    ((m.isEnPassant = true ∧ b.enpassant_square = tgt ∧ m.captured = WHITE_PAWN ∧
        m.promotion = 0) ∨
     (m.isEnPassant = false ∧ hasBit (b.occupancies 0) tgt ∧
        m.captured = firstPieceAt b.pieces whitePieces tgt ∧
        ((r = 1 ∧ m.promotion ∈ blackPromos) ∨ (r ≠ 1 ∧ m.promotion = 0)))) := by
  unfold blackPawnCapture at hm
  split at hm
  · rename_i hr
    rcases List.mem_append.1 hm with h1 | h1
    · split at h1
      · rename_i hocc
        simp only [] at h1
        split at h1
        · rename_i h6
          simp only [List.mem_map] at h1
          obtain ⟨promo, hpromo, rfl⟩ := h1
          exact ⟨hr, rfl, rfl, rfl, rfl, Or.inr ⟨rfl, hocc, rfl, Or.inl ⟨h6, hpromo⟩⟩⟩
        · rename_i h6
          simp only [List.mem_singleton] at h1
          subst h1
          exact ⟨hr, rfl, rfl, rfl, rfl, Or.inr ⟨rfl, hocc, rfl, Or.inr ⟨h6, rfl⟩⟩⟩
      · simp at h1
    · split at h1
      · rename_i hep
        simp only [List.mem_singleton] at h1
        subst h1
        exact ⟨hr, rfl, rfl, rfl, rfl, Or.inl ⟨rfl, hep, rfl, rfl⟩⟩
      · simp at h1
  · simp at hm

/-- The shape of the moves `generate_pawn_moves` pushes for a White pawn on `sq`. -/
theorem whitePawnMoves_shape {b : Board} (hstm : b.side_to_move = Color.WHITE) {sq : Int}
    {m : Move} (hm : m ∈ pawnMovesFrom b sq) :
    m.from_ = sq ∧ m.piece = WHITE_PAWN ∧ m.isCastle = false ∧ rank_of sq < 7 ∧
    ((m.to_ = sq + 8 ∧ m.isEnPassant = false ∧ m.captured = 0 ∧
        ¬ hasBit (b.occupancies 2) (sq + 8) ∧
        ((rank_of sq = 6 ∧ m.promotion ∈ whitePromos) ∨ (rank_of sq ≠ 6 ∧ m.promotion = 0))) ∨
     (m = Move.mk sq (sq + 16) WHITE_PAWN 0 0 false false ∧ rank_of sq = 1 ∧
        ¬ hasBit (b.occupancies 2) (sq + 8) ∧ ¬ hasBit (b.occupancies 2) (sq + 16)) ∨
     (((m.to_ = sq + 7 ∧ file_of sq > 0) ∨ (m.to_ = sq + 9 ∧ file_of sq < 7)) ∧
        ((m.isEnPassant = true ∧ b.enpassant_square = m.to_ ∧ m.captured = BLACK_PAWN ∧
            m.promotion = 0) ∨
         (m.isEnPassant = false ∧ hasBit (b.occupancies 1) m.to_ ∧
            m.captured = firstPieceAt b.pieces blackPieces m.to_ ∧
            ((rank_of sq = 6 ∧ m.promotion ∈ whitePromos) ∨
              (rank_of sq ≠ 6 ∧ m.promotion = 0)))))) := by
  unfold pawnMovesFrom at hm
  simp only [hstm, if_true] at hm
  rcases List.mem_append.1 hm with h12 | h3
  · rcases List.mem_append.1 h12 with h1 | h2
    · split at h1
      · rename_i hpush
        obtain ⟨hr, hempty⟩ := hpush
        split at h1
        · rename_i h6
          simp only [List.mem_map] at h1
          obtain ⟨promo, hpromo, rfl⟩ := h1
          exact ⟨rfl, rfl, rfl, hr, Or.inl ⟨rfl, rfl, rfl, hempty, Or.inl ⟨h6, hpromo⟩⟩⟩
        · rename_i h6
          rcases List.mem_cons.1 h1 with rfl | h1
          · exact ⟨rfl, rfl, rfl, hr, Or.inl ⟨rfl, rfl, rfl, hempty, Or.inr ⟨h6, rfl⟩⟩⟩
          · split at h1
            · rename_i hdouble
              simp only [List.mem_singleton] at h1
              subst h1
              exact ⟨rfl, rfl, rfl, hr, Or.inr (Or.inl ⟨rfl, hdouble.1, hempty, hdouble.2⟩)⟩
            · simp at h1
      · simp at h1
    · split at h2
      · rename_i hf
        obtain ⟨hr, h1, h2, h3, h4, h5⟩ := whitePawnCapture_shape h2
        refine ⟨h1, h3, h4, hr, Or.inr (Or.inr ⟨Or.inl ⟨h2, hf⟩, ?_⟩)⟩
        rw [h2]
        exact h5
      · simp at h2
  · split at h3
    · rename_i hf
      obtain ⟨hr, h1, h2, h3, h4, h5⟩ := whitePawnCapture_shape h3
      refine ⟨h1, h3, h4, hr, Or.inr (Or.inr ⟨Or.inr ⟨h2, hf⟩, ?_⟩)⟩
      rw [h2]
      exact h5
    · simp at h3

/-- The shape of the moves `generate_pawn_moves` pushes for a Black pawn on `sq`. -/
theorem blackPawnMoves_shape {b : Board} (hstm : b.side_to_move = Color.BLACK) {sq : Int}
    {m : Move} (hm : m ∈ pawnMovesFrom b sq) :
    m.from_ = sq ∧ m.piece = BLACK_PAWN ∧ m.isCastle = false ∧ rank_of sq > 0 ∧
    ((m.to_ = sq - 8 ∧ m.isEnPassant = false ∧ m.captured = 0 ∧
        ¬ hasBit (b.occupancies 2) (sq - 8) ∧
        ((rank_of sq = 1 ∧ m.promotion ∈ blackPromos) ∨ (rank_of sq ≠ 1 ∧ m.promotion = 0))) ∨
     (m = Move.mk sq (sq - 16) BLACK_PAWN 0 0 false false ∧ rank_of sq = 6 ∧
        ¬ hasBit (b.occupancies 2) (sq - 8) ∧ ¬ hasBit (b.occupancies 2) (sq - 16)) ∨
     (((m.to_ = sq - 9 ∧ file_of sq > 0) ∨ (m.to_ = sq - 7 ∧ file_of sq < 7)) ∧
        ((m.isEnPassant = true ∧ b.enpassant_square = m.to_ ∧ m.captured = WHITE_PAWN ∧
            m.promotion = 0) ∨
         (m.isEnPassant = false ∧ hasBit (b.occupancies 0) m.to_ ∧
            m.captured = firstPieceAt b.pieces whitePieces m.to_ ∧
            ((rank_of sq = 1 ∧ m.promotion ∈ blackPromos) ∨
              (rank_of sq ≠ 1 ∧ m.promotion = 0)))))) := by
  unfold pawnMovesFrom at hm
  simp only [hstm, reduceCtorEq, if_false] at hm
  rcases List.mem_append.1 hm with h12 | h3
  · rcases List.mem_append.1 h12 with h1 | h2
    · split at h1
      · rename_i hpush
        obtain ⟨hr, hempty⟩ := hpush
        split at h1
        · rename_i h6
          simp only [List.mem_map] at h1
          obtain ⟨promo, hpromo, rfl⟩ := h1
          exact ⟨rfl, rfl, rfl, hr, Or.inl ⟨rfl, rfl, rfl, hempty, Or.inl ⟨h6, hpromo⟩⟩⟩
        · rename_i h6
          rcases List.mem_cons.1 h1 with rfl | h1
          · exact ⟨rfl, rfl, rfl, hr, Or.inl ⟨rfl, rfl, rfl, hempty, Or.inr ⟨h6, rfl⟩⟩⟩
          · split at h1
            · rename_i hdouble
              simp only [List.mem_singleton] at h1
              subst h1
              exact ⟨rfl, rfl, rfl, hr, Or.inr (Or.inl ⟨rfl, hdouble.1, hempty, hdouble.2⟩)⟩
            · simp at h1
      · simp at h1
    · split at h2
      · rename_i hf
        obtain ⟨hr, h1, h2, h3, h4, h5⟩ := blackPawnCapture_shape h2
        refine ⟨h1, h3, h4, hr, Or.inr (Or.inr ⟨Or.inl ⟨h2, hf⟩, ?_⟩)⟩
        rw [h2]
        exact h5
      · simp at h2
  · split at h3
    · rename_i hf
      obtain ⟨hr, h1, h2, h3, h4, h5⟩ := blackPawnCapture_shape h3
      refine ⟨h1, h3, h4, hr, Or.inr (Or.inr ⟨Or.inr ⟨h2, hf⟩, ?_⟩)⟩
      rw [h2]
      exact h5
    · simp at h3

theorem pieceMoves_shape {b : Board} {piece : Int} {attacks : Int → Nat} {m : Move}
    (hm : m ∈ pieceMoves b piece attacks) :
    m.piece = piece ∧ m.isEnPassant = false ∧ m.promotion = 0 ∧ m.isCastle = false := by
  unfold pieceMoves at hm
  simp only [List.mem_flatMap, List.mem_map] at hm
  obtain ⟨sq, -, to_, -, rfl⟩ := hm
  exact ⟨rfl, rfl, rfl, rfl⟩

/-- Every move of `generate_moves` comes from `generate_pawn_moves` or is no pawn move, no
en-passant capture and no promotion. -/
theorem generate_moves_cases {t : MoveTables} {b : Board} {m : Move}
    (hm : m ∈ MoveGenerator.generate_moves t b) :
    m ∈ MoveGenerator.generate_pawn_moves b ∨
    (m.isEnPassant = false ∧ m.promotion = 0 ∧ m.piece ≠ WHITE_PAWN ∧ m.piece ≠ BLACK_PAWN) := by
  unfold MoveGenerator.generate_moves at hm
  simp only [List.mem_append] at hm
  have key : ∀ (w k : Int) (attacks : Int → Nat), 2 ≤ w ∧ w ≤ 6 → 8 ≤ k →
      m ∈ pieceMoves b (if b.side_to_move = Color.WHITE then w else k) attacks →
      m.isEnPassant = false ∧ m.promotion = 0 ∧ m.piece ≠ WHITE_PAWN ∧ m.piece ≠ BLACK_PAWN := by
    intro w k attacks hw hk h
    obtain ⟨hp, he, hpr, -⟩ := pieceMoves_shape h
    have h1 : WHITE_PAWN = 1 := rfl
    have h7 : BLACK_PAWN = 7 := rfl
    rw [hp, h1, h7]
    refine ⟨he, hpr, ?_, ?_⟩ <;> intro hcon <;> split at hcon <;> omega
  rcases hm with (((((h | h) | h) | h) | h) | h) | h
  · exact Or.inl h
  · exact Or.inr (key _ _ _ (by decide) (by decide) h)
  · exact Or.inr (key _ _ _ (by decide) (by decide) h)
  · exact Or.inr (key _ _ _ (by decide) (by decide) h)
  · exact Or.inr (key _ _ _ (by decide) (by decide) h)
  · exact Or.inr (key _ _ _ (by decide) (by decide) h)
  · right
    unfold MoveGenerator.generate_castling_moves at h
    split at h <;> rcases List.mem_append.1 h with h | h <;>
      rw [(castleIf_isCastle h).1] <;> exact ⟨rfl, rfl, by decide, by decide⟩

theorem mem_generate_pawn_moves {b : Board} (hb : b.pieces (pawnOf b.side_to_move) < TWO64)
    (m : Move) :
    m ∈ MoveGenerator.generate_pawn_moves b ↔
      ∃ sq, hasBit (b.pieces (pawnOf b.side_to_move)) sq ∧ m ∈ pawnMovesFrom b sq := by
  unfold MoveGenerator.generate_pawn_moves
  simp only [List.mem_flatMap]
  constructor
  · rintro ⟨sq, hsq, h⟩
    exact ⟨sq, ((scanBits_spec hb).2 sq).1 hsq, h⟩
  · rintro ⟨sq, hsq, h⟩
    exact ⟨sq, ((scanBits_spec hb).2 sq).2 hsq, h⟩

theorem scanLoop_nodup : ∀ (fuel b : Nat), b < TWO64 → (scanLoop fuel b).Nodup := by
  intro fuel
  induction fuel with
  | zero => intro b _; simp [scanLoop]
  | succ n ih =>
    intro b hb
    unfold scanLoop
    split
    · exact List.nodup_nil
    · rename_i hb0
      obtain ⟨k, hk, hbsf, -, -, hpop⟩ := bit_scan_forward_spec hb0 hb
      have hb2 : b &&& (b - 1) < TWO64 := and_lt_TWO64_left _ hb
      refine List.nodup_cons.2 ⟨?_, ih _ hb2⟩
      intro hmem
      have h1 := scanLoop_sound n _ hb2 _ hmem
      rw [hbsf, hasBit_iff_testBit (by omega) (by omega), hpop] at h1
      simp at h1

theorem scanBits_nodup {b : Nat} (hb : b < TWO64) : (scanBits b).Nodup :=
  scanLoop_nodup 64 b hb

theorem filter_flatMap_single {α β : Type} (p : β → Bool) (f : α → List β) (s : α) :
    ∀ l : List α, l.Nodup → s ∈ l → (∀ x ∈ l, x ≠ s → (f x).filter p = []) →
      (l.flatMap f).filter p = (f s).filter p
  | [], _, hs, _ => absurd hs (List.not_mem_nil s)
  | a :: l, hnd, hs, hne => by
    obtain ⟨ha, hnd2⟩ := List.nodup_cons.1 hnd
    have htail : ∀ x ∈ l, x ≠ s → (f x).filter p = [] :=
      fun x hx => hne x (List.mem_cons_of_mem _ hx)
    rw [List.flatMap_cons, List.filter_append]
    rcases List.mem_cons.1 hs with rfl | hs2
    · have hrest : (l.flatMap f).filter p = [] := by
        apply List.filter_eq_nil_iff.2
        intro y hy
        obtain ⟨x, hx, hyx⟩ := List.mem_flatMap.1 hy
        have hxs : x ≠ s := fun h => ha (h ▸ hx)
        exact (List.filter_eq_nil_iff.1 (htail x hx hxs)) y hyx
      rw [hrest, List.append_nil]
    · have has : a ≠ s := fun h => ha (h ▸ hs2)
      rw [hne a (List.mem_cons_self _ _) has, List.nil_append]
      exact filter_flatMap_single p f s l hnd2 hs2 htail

/-- What `generate_moves` guarantees about a move it emits with `isEnPassant` set. -/
theorem ep_move_shape {t : MoveTables} {b : Board}
    (hb : b.pieces (pawnOf b.side_to_move) < TWO64) {m : Move}
    (hm : m ∈ MoveGenerator.generate_moves t b) (he : m.isEnPassant = true) :
    m.piece = pawnOf b.side_to_move ∧ hasBit (b.pieces (pawnOf b.side_to_move)) m.from_ ∧
    m.to_ = b.enpassant_square ∧ m.captured = pawnOf b.side_to_move.other ∧
    m.promotion = EMPTY ∧ m.isCastle = false ∧ 0 ≤ m.to_ := by
  rcases generate_moves_cases hm with hp | ⟨hne, -⟩
  · obtain ⟨sq, hsq, hmem⟩ := (mem_generate_pawn_moves hb m).1 hp
    have hrange := hasBit_range hsq
    cases hstm : b.side_to_move
    · obtain ⟨hf, hpc, hc, hr, hshape⟩ := whitePawnMoves_shape hstm hmem
      rcases hshape with ⟨-, hne, -⟩ | ⟨rfl, -⟩ | ⟨hto, hcap⟩
      · rw [hne] at he; exact absurd he (by simp)
      · exact absurd he (by simp)
      · rcases hcap with ⟨-, hep, hcp, hpr⟩ | ⟨hne, -⟩
        · refine ⟨by rw [hpc]; simp [pawnOf], ?_, hep.symm, by rw [hcp]; simp [pawnOf, Color.other],
            hpr, hc, ?_⟩
          · rw [hf]; rw [hstm] at hsq; exact hsq
          · rcases hto with ⟨h, -⟩ | ⟨h, -⟩ <;> omega
        · rw [hne] at he; exact absurd he (by simp)
    · obtain ⟨hf, hpc, hc, hr, hshape⟩ := blackPawnMoves_shape hstm hmem
      rcases hshape with ⟨-, hne, -⟩ | ⟨rfl, -⟩ | ⟨hto, hcap⟩
      · rw [hne] at he; exact absurd he (by simp)
      · exact absurd he (by simp)
      · rcases hcap with ⟨-, hep, hcp, hpr⟩ | ⟨hne, -⟩
        · refine ⟨by rw [hpc]; simp [pawnOf], ?_, hep.symm, by rw [hcp]; simp [pawnOf, Color.other],
            hpr, hc, ?_⟩
          · rw [hf]; rw [hstm] at hsq; exact hsq
          · unfold rank_of at hr
            unfold file_of at hto
            rcases hto with ⟨h, h2⟩ | ⟨h, -⟩ <;> omega
        · rw [hne] at he; exact absurd he (by simp)
  · rw [hne] at he; exact absurd he (by simp)

/-- C15: every move `generate_moves` emits with `isEnPassant` set has the pawn of the side to
move as its piece, starts on a square holding such a pawn, lands on `enpassant_square`, has the
opposing pawn as `captured` and is neither a promotion nor a castle; and when `enpassant_square`
is `SQ_NONE` no emitted move has `isEnPassant` set. -/
theorem C15_en_passant_moves (t : MoveTables) (b : Board)
    (hb : b.pieces (pawnOf b.side_to_move) < TWO64) :
    (∀ m ∈ MoveGenerator.generate_moves t b, m.isEnPassant = true →
      m.piece = pawnOf b.side_to_move ∧ hasBit (b.pieces (pawnOf b.side_to_move)) m.from_ ∧
      m.to_ = b.enpassant_square ∧ m.captured = pawnOf b.side_to_move.other ∧
      m.promotion = EMPTY ∧ m.isCastle = false) ∧
    (b.enpassant_square = SQ_NONE →
      ∀ m ∈ MoveGenerator.generate_moves t b, m.isEnPassant = false) := by
  constructor
  · intro m hm he
    obtain ⟨h1, h2, h3, h4, h5, h6, -⟩ := ep_move_shape hb hm he
    exact ⟨h1, h2, h3, h4, h5, h6⟩
  · intro hnone m hm
    cases he : m.isEnPassant
    · rfl
    · obtain ⟨-, -, h3, -, -, -, h7⟩ := ep_move_shape hb hm he
      rw [h3, hnone] at h7
      exact absurd h7 (by decide)

theorem squareEmpty_iff {b : Board} (hwf : WellFormed b) (s : Int) :
    SquareEmpty b s ↔ ¬ hasBit (b.occupancies 2) s := by
  rw [hasBit_occ2 hwf.occ]
  unfold SquareEmpty
  constructor
  · rintro h ⟨p, hp, hs⟩
    exact h p hp hs
  · intro h p hp hs
    exact h ⟨p, hp, hs⟩

theorem pawn_moves_sub {t : MoveTables} {b : Board} {m : Move}
    (h : m ∈ MoveGenerator.generate_pawn_moves b) : m ∈ MoveGenerator.generate_moves t b := by
  unfold MoveGenerator.generate_moves
  simp only [List.mem_append]
  exact Or.inl (Or.inl (Or.inl (Or.inl (Or.inl (Or.inl h)))))

theorem pawn_bound {b : Board} (hwf : WellFormed b) :
    b.pieces (pawnOf b.side_to_move) < TWO64 := by
  apply hwf.bound
  cases b.side_to_move <;> simp [pawnOf, pieceRange, WHITE_PAWN, BLACK_PAWN]

/-- The two-square push of the pawn of the side to move on `s`, as the generator builds it. -/
theorem double_push_emitted {b : Board} (hwf : WellFormed b) {s : Int}
    (hs : hasBit (b.pieces (pawnOf b.side_to_move)) s)
    (hr : rank_of s = startRank b.side_to_move)
    (h1 : SquareEmpty b (s + forward b.side_to_move))
    (h2 : SquareEmpty b (s + 2 * forward b.side_to_move)) :
    Move.mk s (s + 2 * forward b.side_to_move) (pawnOf b.side_to_move) 0 0 false false ∈
      MoveGenerator.generate_pawn_moves b := by
  rw [mem_generate_pawn_moves (pawn_bound hwf)]
  refine ⟨s, hs, ?_⟩
  rw [squareEmpty_iff hwf] at h1 h2
  unfold hasBit at h1 h2
  cases hstm : b.side_to_move
  · rw [hstm] at hr h1 h2
    have e1 : s + forward Color.WHITE = s + 8 := rfl
    have e2 : s + 2 * forward Color.WHITE = s + 16 := rfl
    have e3 : startRank Color.WHITE = 1 := rfl
    rw [e1] at h1
    rw [e2] at h2
    rw [e3] at hr
    rw [e2]
    simp [pawnMovesFrom, hstm, hr, h1, h2, pawnOf]
  · rw [hstm] at hr h1 h2
    have e1 : s + forward Color.BLACK = s - 8 := rfl
    have e2 : s + 2 * forward Color.BLACK = s - 16 := rfl
    have e3 : startRank Color.BLACK = 6 := rfl
    rw [e1] at h1
    rw [e2] at h2
    rw [e3] at hr
    rw [e2]
    simp [pawnMovesFrom, hstm, hr, h1, h2, pawnOf]

/-- What an emitted move that passes `make_move`'s two-square test looks like. -/
theorem double_push_shape {t : MoveTables} {b : Board}
    (hb : b.pieces (pawnOf b.side_to_move) < TWO64) {m : Move}
    (hm : m ∈ MoveGenerator.generate_moves t b) (hd : IsDoublePush m) :
    hasBit (b.pieces (pawnOf b.side_to_move)) m.from_ ∧
    rank_of m.from_ = startRank b.side_to_move ∧
    ¬ hasBit (b.occupancies 2) (m.from_ + forward b.side_to_move) ∧
    ¬ hasBit (b.occupancies 2) (m.from_ + 2 * forward b.side_to_move) ∧
    m = Move.mk m.from_ (m.from_ + 2 * forward b.side_to_move) (pawnOf b.side_to_move)
      0 0 false false := by
  rcases generate_moves_cases hm with hp | ⟨-, -, hw, hk⟩
  · obtain ⟨sq, hsq, hmem⟩ := (mem_generate_pawn_moves hb m).1 hp
    cases hstm : b.side_to_move
    · rw [hstm] at hsq
      obtain ⟨hf, hpc, hc, hr, hshape⟩ := whitePawnMoves_shape hstm hmem
      have h16 : m.to_ - m.from_ = 16 := by
        rcases hd with ⟨-, h⟩ | ⟨h, -⟩
        · exact h
        · rw [hpc] at h; exact absurd h (by decide)
      rcases hshape with ⟨hto, -⟩ | ⟨rfl, hr1, he1, he2⟩ | ⟨hto, -⟩
      · omega
      · exact ⟨hsq, hr1, he1, he2, rfl⟩
      · rcases hto with ⟨h, -⟩ | ⟨h, -⟩ <;> omega
    · rw [hstm] at hsq
      obtain ⟨hf, hpc, hc, hr, hshape⟩ := blackPawnMoves_shape hstm hmem
      have h16 : m.from_ - m.to_ = 16 := by
        rcases hd with ⟨h, -⟩ | ⟨-, h⟩
        · rw [hpc] at h; exact absurd h (by decide)
        · exact h
      rcases hshape with ⟨hto, -⟩ | ⟨rfl, hr1, he1, he2⟩ | ⟨hto, -⟩
      · omega
      · exact ⟨hsq, hr1, he1, he2, rfl⟩
      · rcases hto with ⟨h, -⟩ | ⟨h, -⟩ <;> omega
  · rcases hd with ⟨h, -⟩ | ⟨h, -⟩
    · exact absurd h hw
    · exact absurd h hk

/-- C14: on a Board with pairwise disjoint bitboards and derived occupancies, `generate_moves`
emits a two-square pawn push from `s` if and only if a pawn of the side to move stands on `s`,
`s` lies on that side's starting rank (rank index 1 for White, 6 for Black), and the square one
step ahead and the square two steps ahead are both empty; such a move is the quiet move
`s -> s + 16` (White) or `s -> s - 16` (Black) of that pawn. -/
theorem C14_double_push_iff (t : MoveTables) (b : Board) (hwf : WellFormed b) (s : Int) :
    ((∃ m ∈ MoveGenerator.generate_moves t b, m.from_ = s ∧ IsDoublePush m) ↔
      (hasBit (b.pieces (pawnOf b.side_to_move)) s ∧ rank_of s = startRank b.side_to_move ∧
        SquareEmpty b (s + forward b.side_to_move) ∧
        SquareEmpty b (s + 2 * forward b.side_to_move))) ∧
    (∀ m ∈ MoveGenerator.generate_moves t b, m.from_ = s → IsDoublePush m →
      m = Move.mk s (s + 2 * forward b.side_to_move) (pawnOf b.side_to_move) 0 0 false false) := by
  refine ⟨⟨?_, ?_⟩, ?_⟩
  · rintro ⟨m, hm, rfl, hd⟩
    obtain ⟨h1, h2, h3, h4, -⟩ := double_push_shape (pawn_bound hwf) hm hd
    exact ⟨h1, h2, (squareEmpty_iff hwf _).2 h3, (squareEmpty_iff hwf _).2 h4⟩
  · rintro ⟨hs, hr, h1, h2⟩
    refine ⟨_, pawn_moves_sub (double_push_emitted hwf hs hr h1 h2), rfl, ?_⟩
    unfold IsDoublePush
    cases b.side_to_move
    · left; exact ⟨rfl, by simp [forward]⟩
    · right; exact ⟨rfl, by simp [forward]⟩
  · rintro m hm rfl hd
    exact (double_push_shape (pawn_bound hwf) hm hd).2.2.2.2

/-- For a move `generate_moves` emits, lying two ranks apart and passing `make_move`'s
two-square test are the same thing, and the piece of a pawn move is the pawn of the side to
move. -/
theorem two_ranks_iff_double {t : MoveTables} {b : Board}
    (hb : b.pieces (pawnOf b.side_to_move) < TWO64) {m : Move}
    (hm : m ∈ MoveGenerator.generate_moves t b) :
    (PawnTwoRanks m ↔ IsDoublePush m) ∧
    (IsDoublePush m → m.piece = pawnOf b.side_to_move) := by
  rcases generate_moves_cases hm with hp | ⟨-, -, hw, hk⟩
  · obtain ⟨sq, hsq, hmem⟩ := (mem_generate_pawn_moves hb m).1 hp
    have hrange := hasBit_range hsq
    unfold PawnTwoRanks IsDoublePush rank_of
    cases hstm : b.side_to_move
    · obtain ⟨hf, hpc, hc, hr, hshape⟩ := whitePawnMoves_shape hstm hmem
      have hnb : m.piece ≠ BLACK_PAWN := by rw [hpc]; decide
      have hto : m.to_ = sq + 8 ∨ m.to_ = sq + 16 ∨ (m.to_ = sq + 7 ∧ file_of sq > 0) ∨
          (m.to_ = sq + 9 ∧ file_of sq < 7) := by
        rcases hshape with ⟨h, -⟩ | ⟨rfl, -⟩ | ⟨h | h, -⟩
        · exact Or.inl h
        · exact Or.inr (Or.inl rfl)
        · exact Or.inr (Or.inr (Or.inl h))
        · exact Or.inr (Or.inr (Or.inr h))
      unfold file_of at hto
      refine ⟨?_, fun _ => by rw [hpc]; simp [pawnOf]⟩
      simp only [hpc, true_or, true_and, hf, show WHITE_PAWN ≠ BLACK_PAWN by decide, false_and,
        or_false]
      omega
    · obtain ⟨hf, hpc, hc, hr, hshape⟩ := blackPawnMoves_shape hstm hmem
      have hto : m.to_ = sq - 8 ∨ m.to_ = sq - 16 ∨ (m.to_ = sq - 9 ∧ file_of sq > 0) ∨
          (m.to_ = sq - 7 ∧ file_of sq < 7) := by
        rcases hshape with ⟨h, -⟩ | ⟨rfl, -⟩ | ⟨h | h, -⟩
        · exact Or.inl h
        · exact Or.inr (Or.inl rfl)
        · exact Or.inr (Or.inr (Or.inl h))
        · exact Or.inr (Or.inr (Or.inr h))
      unfold file_of at hto
      refine ⟨?_, fun _ => by rw [hpc]; simp [pawnOf]⟩
      simp only [hpc, or_true, true_and, hf, show BLACK_PAWN ≠ WHITE_PAWN by decide, false_and,
        false_or]
      omega
  · unfold PawnTwoRanks IsDoublePush
    simp [hw, hk]

/-- C11: after `make_move(m)` the en-passant square is `from + 8` when `m` is a White pawn move
with `to - from == 16`, `from - 8` when `m` is a Black pawn move with `from - to == 16`, and
`SQ_NONE` for every other move; the previous `enpassant_square` has no influence; and for a
move `m` emitted by `generate_moves` that test singles out the pawn moves of exactly two ranks,
so the new en-passant square is the square the pawn of the side to move crossed (`from + 8` for
White, `from - 8` for Black) when `m` is a pawn move of two ranks and `SQ_NONE` otherwise. -/
theorem C11_make_move_enpassant_square (z : Zobrist) (t : MoveTables) (b : Board) (m : Move) :
    (IsDoublePush m →
      (b.make_move z m).enpassant_square =
        if m.piece = WHITE_PAWN then m.from_ + 8 else m.from_ - 8) ∧
    (¬ IsDoublePush m → (b.make_move z m).enpassant_square = SQ_NONE) ∧
    (∀ e : Int, ({ b with enpassant_square := e }.make_move z m).enpassant_square =
      (b.make_move z m).enpassant_square) ∧
    (b.pieces (pawnOf b.side_to_move) < TWO64 → m ∈ MoveGenerator.generate_moves t b →
      (PawnTwoRanks m →
        (b.make_move z m).enpassant_square = m.from_ + forward b.side_to_move) ∧
      (¬ PawnTwoRanks m → (b.make_move z m).enpassant_square = SQ_NONE)) := by
  have hyes : IsDoublePush m → (b.make_move z m).enpassant_square =
      if m.piece = WHITE_PAWN then m.from_ + 8 else m.from_ - 8 := by
    intro hd
    rw [make_move_ep]
    rcases hd with ⟨hp, h16⟩ | ⟨hp, h16⟩
    · rw [if_pos ⟨hp, h16⟩, if_pos hp]
    · have hnw : m.piece ≠ WHITE_PAWN := by rw [hp]; decide
      rw [if_neg (fun h => hnw h.1), if_pos ⟨hp, h16⟩, if_neg hnw]
  have hno : ¬ IsDoublePush m → (b.make_move z m).enpassant_square = SQ_NONE := by
    intro hd
    rw [make_move_ep, if_neg (fun h => hd (Or.inl h)), if_neg (fun h => hd (Or.inr h))]
  refine ⟨hyes, hno, fun _ => rfl, ?_⟩
  intro hb hm
  obtain ⟨hiff, hpiece⟩ := two_ranks_iff_double hb hm
  constructor
  · intro h2
    have hd := hiff.1 h2
    rw [hyes hd, hpiece hd]
    cases b.side_to_move
    · simp [pawnOf, forward]
    · simp only [pawnOf, forward, reduceCtorEq, if_false,
        show BLACK_PAWN ≠ WHITE_PAWN by decide]
      omega
  · intro h2
    exact hno (fun hd => h2 (hiff.2 hd))

theorem filter_pieceMoves_from {b : Board} (hwf : WellFormed b) {s : Int}
    (hs : hasBit (b.pieces (pawnOf b.side_to_move)) s) (q : Move → Bool) (w k : Int)
    (attacks : Int → Nat) (hw : 2 ≤ w ∧ w ≤ 6) (hk : 8 ≤ k ∧ k ≤ 12) :
    (pieceMoves b (if b.side_to_move = Color.WHITE then w else k) attacks).filter
      (fun m => decide (m.from_ = s) && q m) = [] := by
  apply List.filter_eq_nil_iff.2
  intro m hm
  unfold pieceMoves at hm
  simp only [List.mem_flatMap, List.mem_map] at hm
  obtain ⟨sq, hsq, to_, -, rfl⟩ := hm
  have hrange : (if b.side_to_move = Color.WHITE then w else k) ∈ pieceRange := by
    rw [mem_pieceRange_iff]; split <;> omega
  have hfrom := scanBits_sound (hwf.bound _ hrange) hsq
  simp only [Bool.and_eq_true, decide_eq_true_eq, not_and]
  intro hsq2
  subst hsq2
  have hpawn : pawnOf b.side_to_move ∈ pieceRange := by
    cases b.side_to_move <;> simp [pawnOf, pieceRange, WHITE_PAWN, BLACK_PAWN]
  have := disjoint_unique hwf hrange hpawn hfrom hs
  exfalso
  revert this
  cases b.side_to_move <;> simp [pawnOf, WHITE_PAWN, BLACK_PAWN] <;> omega

theorem filter_castling_from {t : MoveTables} {b : Board} (hwf : WellFormed b) {s : Int}
    (hs : hasBit (b.pieces (pawnOf b.side_to_move)) s) (q : Move → Bool) :
    (MoveGenerator.generate_castling_moves t b).filter
      (fun m => decide (m.from_ = s) && q m) = [] := by
  apply List.filter_eq_nil_iff.2
  intro m hm
  simp only [Bool.and_eq_true, decide_eq_true_eq, not_and]
  intro hfrom
  exfalso
  have hpawn : pawnOf b.side_to_move ∈ pieceRange := by
    cases b.side_to_move <;> simp [pawnOf, pieceRange, WHITE_PAWN, BLACK_PAWN]
  unfold MoveGenerator.generate_castling_moves at hm
  split at hm
  · rename_i hstm
    rw [hstm] at hs hpawn
    have hne : WHITE_KING ≠ pawnOf Color.WHITE := by decide
    rcases List.mem_append.1 hm with h | h <;> obtain ⟨rfl, -, hk⟩ := castleIf_isCastle h <;>
      subst hfrom <;>
      exact hne (disjoint_unique hwf (by decide) hpawn hk hs)
  · rename_i hstm
    have hstm2 : b.side_to_move = Color.BLACK := by
      cases h : b.side_to_move
      · exact absurd h hstm
      · rfl
    rw [hstm2] at hs hpawn
    have hne : BLACK_KING ≠ pawnOf Color.BLACK := by decide
    rcases List.mem_append.1 hm with h | h <;> obtain ⟨rfl, -, hk⟩ := castleIf_isCastle h <;>
      subst hfrom <;>
      exact hne (disjoint_unique hwf (by decide) hpawn hk hs)

theorem pawnMovesFrom_from {b : Board} {sq : Int} {m : Move} (hm : m ∈ pawnMovesFrom b sq) :
    m.from_ = sq := by
  cases hstm : b.side_to_move
  · exact (whitePawnMoves_shape hstm hm).1
  · exact (blackPawnMoves_shape hstm hm).1

/-- On a well-formed Board the moves `generate_moves` emits from a square holding a pawn of
the side to move are, in order, those the pawn loop pushes for that square. -/
theorem filter_generate_moves_from {t : MoveTables} {b : Board} (hwf : WellFormed b) {s : Int}
    (hs : hasBit (b.pieces (pawnOf b.side_to_move)) s) (q : Move → Bool) :
    (MoveGenerator.generate_moves t b).filter (fun m => decide (m.from_ = s) && q m) =
      (pawnMovesFrom b s).filter (fun m => decide (m.from_ = s) && q m) := by
  unfold MoveGenerator.generate_moves
  simp only [List.filter_append]
  unfold MoveGenerator.generate_knight_moves MoveGenerator.generate_bishop_moves
    MoveGenerator.generate_rook_moves MoveGenerator.generate_queen_moves
    MoveGenerator.generate_king_moves
  rw [filter_pieceMoves_from hwf hs q _ _ _ (by decide) (by decide),
    filter_pieceMoves_from hwf hs q _ _ _ (by decide) (by decide),
    filter_pieceMoves_from hwf hs q _ _ _ (by decide) (by decide),
    filter_pieceMoves_from hwf hs q _ _ _ (by decide) (by decide),
    filter_pieceMoves_from hwf hs q _ _ _ (by decide) (by decide),
    filter_castling_from hwf hs q]
  simp only [List.append_nil]
  have hb := pawn_bound hwf
  unfold MoveGenerator.generate_pawn_moves
  have hpw : (if b.side_to_move = Color.WHITE then WHITE_PAWN else BLACK_PAWN) =
      pawnOf b.side_to_move := rfl
  simp only [hpw]
  apply filter_flatMap_single _ _ s _ (scanBits_nodup hb) (((scanBits_spec hb).2 s).2 hs)
  intro x _ hx
  apply List.filter_eq_nil_iff.2
  intro m hm
  simp only [Bool.and_eq_true, decide_eq_true_eq, not_and]
  intro hfrom
  exact absurd ((pawnMovesFrom_from hm).symm.trans hfrom) hx

theorem firstPieceAt_eq {b : Board} (hwf : WellFormed b) {ps : List Int}
    (hps : ∀ p ∈ ps, p ∈ pieceRange) {cap tgt : Int} (hc : cap ∈ ps)
    (hb : hasBit (b.pieces cap) tgt) : firstPieceAt b.pieces ps tgt = cap := by
  rcases firstPieceAt_cases b.pieces ps tgt with ⟨-, hnone⟩ | ⟨hmem, hbit⟩
  · exact absurd hb (hnone cap hc)
  · exact disjoint_unique hwf (hps _ hmem) (hps _ hc) hbit hb

theorem whitePawnCapture_filter_ne (b : Board) (s r t1 tgt : Int) (h : t1 ≠ tgt) :
    (whitePawnCapture b s r t1).filter (fun m => decide (m.from_ = s) && decide (m.to_ = tgt)) =
      [] := by
  apply List.filter_eq_nil_iff.2
  intro m hm
  obtain ⟨-, -, hto, -⟩ := whitePawnCapture_shape hm
  simp [hto, h]

theorem blackPawnCapture_filter_ne (b : Board) (s r t1 tgt : Int) (h : t1 ≠ tgt) :
    (blackPawnCapture b s r t1).filter (fun m => decide (m.from_ = s) && decide (m.to_ = tgt)) =
      [] := by
  apply List.filter_eq_nil_iff.2
  intro m hm
  obtain ⟨-, -, hto, -⟩ := blackPawnCapture_shape hm
  simp [hto, h]

theorem whitePawnCapture_filter_eq {b : Board} (hwf : WellFormed b) {s tgt cap : Int}
    (hc : cap ∈ blackPieces) (hb : hasBit (b.pieces cap) tgt) (hep : b.enpassant_square ≠ tgt) :
    (whitePawnCapture b s 6 tgt).filter (fun m => decide (m.from_ = s) && decide (m.to_ = tgt)) =
      whitePromos.map (fun promo => Move.mk s tgt WHITE_PAWN cap promo false false) := by
  have hocc : b.occupancies 1 &&& sqbit tgt ≠ 0 := (hasBit_occ1 hwf.occ tgt).2 ⟨cap, hc, hb⟩
  have hfirst := firstPieceAt_eq hwf
    (fun p hp => (mem_pieceRange_iff p).2 (by have := (mem_blackPieces_iff p).1 hp; omega)) hc hb
  unfold whitePawnCapture
  simp [hocc, hfirst, hep, whitePromos]

theorem blackPawnCapture_filter_eq {b : Board} (hwf : WellFormed b) {s tgt cap : Int}
    (hc : cap ∈ whitePieces) (hb : hasBit (b.pieces cap) tgt) (hep : b.enpassant_square ≠ tgt) :
    (blackPawnCapture b s 1 tgt).filter (fun m => decide (m.from_ = s) && decide (m.to_ = tgt)) =
      blackPromos.map (fun promo => Move.mk s tgt BLACK_PAWN cap promo false false) := by
  have hocc : b.occupancies 0 &&& sqbit tgt ≠ 0 := (hasBit_occ0 hwf.occ tgt).2 ⟨cap, hc, hb⟩
  have hfirst := firstPieceAt_eq hwf
    (fun p hp => (mem_pieceRange_iff p).2 (by have := (mem_whitePieces_iff p).1 hp; omega)) hc hb
  unfold blackPawnCapture
  simp [hocc, hfirst, hep, blackPromos]

theorem filter_ite_nil {α : Type} (c : Prop) [Decidable c] (l : List α) (p : α → Bool) :
    (if c then l else []).filter p = if c then l.filter p else [] := by
  split <;> rfl

theorem white_promo_filter {b : Board} (hwf : WellFormed b)
    (hstm : b.side_to_move = Color.WHITE) {s tgt cap : Int} (hr : rank_of s = 6)
    (ht : PromoTarget b s tgt cap) :
    (pawnMovesFrom b s).filter (fun m => decide (m.from_ = s) && decide (m.to_ = tgt)) =
      whitePromos.map (fun promo => Move.mk s tgt WHITE_PAWN cap promo false false) := by
  unfold PromoTarget at ht
  rw [hstm] at ht
  simp only [forward, if_true, Color.other] at ht
  unfold pawnMovesFrom
  simp only [hstm, if_true, hr, List.filter_append, filter_ite_nil]
  rcases ht with ⟨rfl, hempty, rfl⟩ | ⟨hdir, hc, hb, hep⟩
  · have hocc := (squareEmpty_iff hwf _).1 hempty
    unfold hasBit at hocc
    rw [whitePawnCapture_filter_ne b s 6 (s + 7) (s + 8) (by omega),
      whitePawnCapture_filter_ne b s 6 (s + 9) (s + 8) (by omega)]
    simp [hocc, whitePromos]
  · have hc2 : cap ∈ blackPieces := by simpa [piecesOf] using hc
    rcases hdir with ⟨rfl, hf⟩ | ⟨rfl, hf⟩
    · have e7 : s + 8 - 1 = s + 7 := by omega
      rw [e7] at hb hep ⊢
      rw [whitePawnCapture_filter_eq hwf hc2 hb hep,
        whitePawnCapture_filter_ne b s 6 (s + 9) (s + 7) (by omega)]
      simp [hf, whitePromos]
    · have e9 : s + 8 + 1 = s + 9 := by omega
      rw [e9] at hb hep ⊢
      rw [whitePawnCapture_filter_eq hwf hc2 hb hep,
        whitePawnCapture_filter_ne b s 6 (s + 7) (s + 9) (by omega)]
      simp [hf, whitePromos]

theorem black_promo_filter {b : Board} (hwf : WellFormed b)
    (hstm : b.side_to_move = Color.BLACK) {s tgt cap : Int} (hr : rank_of s = 1)
    (ht : PromoTarget b s tgt cap) :
    (pawnMovesFrom b s).filter (fun m => decide (m.from_ = s) && decide (m.to_ = tgt)) =
      blackPromos.map (fun promo => Move.mk s tgt BLACK_PAWN cap promo false false) := by
  unfold PromoTarget at ht
  rw [hstm] at ht
  simp only [forward, reduceCtorEq, if_false, Color.other] at ht
  unfold pawnMovesFrom
  simp only [hstm, reduceCtorEq, if_false, hr, List.filter_append, filter_ite_nil]
  rcases ht with ⟨rfl, hempty, rfl⟩ | ⟨hdir, hc, hb, hep⟩
  · have hocc := (squareEmpty_iff hwf _).1 hempty
    unfold hasBit at hocc
    have e8 : s + -8 = s - 8 := by omega
    rw [e8] at hocc ⊢
    rw [blackPawnCapture_filter_ne b s 1 (s - 9) (s - 8) (by omega),
      blackPawnCapture_filter_ne b s 1 (s - 7) (s - 8) (by omega)]
    simp [hocc, blackPromos]
  · have hc2 : cap ∈ whitePieces := by simpa [piecesOf] using hc
    rcases hdir with ⟨rfl, hf⟩ | ⟨rfl, hf⟩
    · have e9 : s + -8 - 1 = s - 9 := by omega
      rw [e9] at hb hep ⊢
      rw [blackPawnCapture_filter_eq hwf hc2 hb hep,
        blackPawnCapture_filter_ne b s 1 (s - 7) (s - 9) (by omega)]
      simp [hf, blackPromos]
    · have e7 : s + -8 + 1 = s - 7 := by omega
      rw [e7] at hb hep ⊢
      rw [blackPawnCapture_filter_eq hwf hc2 hb hep,
        blackPawnCapture_filter_ne b s 1 (s - 9) (s - 7) (by omega)]
      simp [hf, blackPromos]

/-- C13, refuted as stated.  On 3n4/4P3/8/8/8/8/8/K6k with White to move and the en-passant
square set to d8 (59), a Board with pairwise disjoint bitboards and derived occupancies, the
White pawn on e7 (52) stands one rank before its last rank and the capture diagonal d8 holds a
Black knight; `generate_moves` emits five moves from e7 to d8: the four promotions and an
en-passant capture with `promotion == EMPTY`. -/
theorem C13_counterexample :
    WellFormed (loadFen zSample "3n4/4P3/8/8/8/8/8/K6k w - d8 0 1") ∧
    hasBit ((loadFen zSample "3n4/4P3/8/8/8/8/8/K6k w - d8 0 1").pieces WHITE_PAWN) 52 ∧
    rank_of 52 = 6 ∧ file_of 52 > 0 ∧
    hasBit ((loadFen zSample "3n4/4P3/8/8/8/8/8/K6k w - d8 0 1").pieces BLACK_KNIGHT) 59 ∧
    (MoveGenerator.generate_moves init_move_tables
        (loadFen zSample "3n4/4P3/8/8/8/8/8/K6k w - d8 0 1")).filter
      (fun m => decide (m.from_ = 52) && decide (m.to_ = 59)) =
      [Move.mk 52 59 WHITE_PAWN BLACK_KNIGHT WHITE_QUEEN false false,
       Move.mk 52 59 WHITE_PAWN BLACK_KNIGHT WHITE_ROOK false false,
       Move.mk 52 59 WHITE_PAWN BLACK_KNIGHT WHITE_BISHOP false false,
       Move.mk 52 59 WHITE_PAWN BLACK_KNIGHT WHITE_KNIGHT false false,
       Move.mk 52 59 WHITE_PAWN BLACK_PAWN EMPTY true false] :=
  ⟨⟨by decide, by unfold PairwiseDisjoint; decide, by unfold OccupanciesDerived; decide⟩,
   by decide, by decide, by decide, by decide, by decide⟩

/-- C13, amended: on a Board with pairwise disjoint bitboards and derived occupancies, for a
pawn of the side to move on `s`, one rank before its last rank, and a target `tgt` that is
either the empty square straight ahead or a capture diagonal holding the enemy piece `cap` and
different from `enpassant_square`, the moves `generate_moves` emits from `s` to `tgt` are
exactly four, in this order: the pawn's move to `tgt` promoting to queen, rook, bishop and
knight of the mover's colour (capturing `cap` on a diagonal); none of the moves from `s` to
`tgt` has `promotion == EMPTY`. -/
theorem C13_promotions (t : MoveTables) (b : Board) (hwf : WellFormed b) (s tgt cap : Int)
    (hs : hasBit (b.pieces (pawnOf b.side_to_move)) s)
    (hr : rank_of s = seventhRank b.side_to_move) (ht : PromoTarget b s tgt cap) :
    (MoveGenerator.generate_moves t b).filter
        (fun m => decide (m.from_ = s) && decide (m.to_ = tgt)) =
      (promosOf b.side_to_move).map
        (fun promo => Move.mk s tgt (pawnOf b.side_to_move) cap promo false false) ∧
    promosOf b.side_to_move =
      (if b.side_to_move = Color.WHITE then [WHITE_QUEEN, WHITE_ROOK, WHITE_BISHOP, WHITE_KNIGHT]
       else [BLACK_QUEEN, BLACK_ROOK, BLACK_BISHOP, BLACK_KNIGHT]) ∧
    (∀ m ∈ MoveGenerator.generate_moves t b, m.from_ = s → m.to_ = tgt →
      m.promotion ≠ EMPTY) := by
  have hfilter : (MoveGenerator.generate_moves t b).filter
        (fun m => decide (m.from_ = s) && decide (m.to_ = tgt)) =
      (promosOf b.side_to_move).map
        (fun promo => Move.mk s tgt (pawnOf b.side_to_move) cap promo false false) := by
    rw [filter_generate_moves_from hwf hs]
    cases hstm : b.side_to_move
    · rw [hstm] at hr
      exact white_promo_filter hwf hstm hr ht
    · rw [hstm] at hr
      exact black_promo_filter hwf hstm hr ht
  refine ⟨hfilter, rfl, ?_⟩
  intro m hm hfrom hto
  have hmem : m ∈ (MoveGenerator.generate_moves t b).filter
      (fun m => decide (m.from_ = s) && decide (m.to_ = tgt)) := by
    rw [List.mem_filter]
    exact ⟨hm, by simp [hfrom, hto]⟩
  rw [hfilter, List.mem_map] at hmem
  obtain ⟨promo, hpromo, rfl⟩ := hmem
  show promo ≠ 0
  unfold promosOf at hpromo
  split at hpromo
  · exact (whitePromos_mem hpromo).2.1
  · exact (blackPromos_mem hpromo).2.1

theorem C13_promotions_witness :
    (MoveGenerator.generate_moves init_move_tables
        (loadFen zSample "3n4/4P3/8/8/8/8/8/K6k w - - 0 1")).filter
      (fun m => decide (m.from_ = 52) && decide (m.to_ = 59)) =
      (promosOf (loadFen zSample "3n4/4P3/8/8/8/8/8/K6k w - - 0 1").side_to_move).map
        (fun promo => Move.mk 52 59
          (pawnOf (loadFen zSample "3n4/4P3/8/8/8/8/8/K6k w - - 0 1").side_to_move)
          BLACK_KNIGHT promo false false) :=
  (C13_promotions init_move_tables (loadFen zSample "3n4/4P3/8/8/8/8/8/K6k w - - 0 1")
    ⟨by decide, by unfold PairwiseDisjoint; decide, by unfold OccupanciesDerived; decide⟩
    52 59 BLACK_KNIGHT (by decide) (by decide)
    (Or.inr ⟨Or.inl ⟨by decide, by decide⟩, by decide, by decide, by decide⟩)).1

theorem C14_double_push_iff_witness :
    ∃ m ∈ MoveGenerator.generate_moves init_move_tables
        (Board.set_from_fen zSample Board.init startFen).board,
      m.from_ = 12 ∧ IsDoublePush m :=
  ((C14_double_push_iff init_move_tables (Board.set_from_fen zSample Board.init startFen).board
    (start_inv zSample).wf 12).1).2
    ⟨by decide, by decide, by unfold SquareEmpty; decide, by unfold SquareEmpty; decide⟩

theorem C15_en_passant_moves_witness :
    (Move.mk 36 43 WHITE_PAWN BLACK_PAWN 0 true false).to_ =
      (loadFen zSample "4k3/8/8/3pP3/8/8/8/4K3 w - d6 0 1").enpassant_square :=
  ((C15_en_passant_moves init_move_tables
    (loadFen zSample "4k3/8/8/3pP3/8/8/8/4K3 w - d6 0 1") (by decide)).1
    (Move.mk 36 43 WHITE_PAWN BLACK_PAWN 0 true false) (by decide) rfl).2.2.1

theorem C11_make_move_enpassant_square_witness :
    IsDoublePush (Move.mk 12 28 WHITE_PAWN 0 0 false false) ∧
    PawnTwoRanks (Move.mk 12 28 WHITE_PAWN 0 0 false false) ∧
    Move.mk 12 28 WHITE_PAWN 0 0 false false ∈ MoveGenerator.generate_moves init_move_tables
      (Board.set_from_fen zSample Board.init startFen).board ∧
    ((Board.set_from_fen zSample Board.init startFen).board.make_move zSample
      (Move.mk 12 28 WHITE_PAWN 0 0 false false)).enpassant_square =
        12 + forward (Board.set_from_fen zSample Board.init startFen).board.side_to_move :=
  ⟨Or.inl ⟨rfl, by decide⟩, ⟨Or.inl rfl, Or.inl (by decide)⟩, by decide,
   ((C11_make_move_enpassant_square zSample init_move_tables
      (Board.set_from_fen zSample Board.init startFen).board
      (Move.mk 12 28 WHITE_PAWN 0 0 false false)).2.2.2 (by decide) (by decide)).1
      ⟨Or.inl rfl, Or.inl (by decide)⟩⟩

/-! ## Evaluation and move scoring -/

theorem foldl_add_eq_sum (f : Int → Int) : ∀ (l : List Int) (acc : Int),
    l.foldl (fun score p => score + f p) acc = acc + (l.map f).sum
  | [], acc => by simp
  | p :: l, acc => by
    rw [List.foldl_cons, foldl_add_eq_sum f l, List.map_cons, List.sum_cons]
    omega

theorem evaluate_sameRules (e : EvalTables) {b1 b2 : Board} (h : SameRules b1 b2) :
    Evaluator.evaluate e b1 = Evaluator.evaluate e b2 := by
  cases b1
  cases b2
  obtain ⟨hp, ho, hs, hr, he⟩ := h
  simp only [] at hp ho hs hr he
  subst hp ho hs hr he
  rfl

/-- C27: `evaluate` is `evaluate_material + evaluate_positional` when White is to move and
the negation of that sum when Black is to move; `evaluate_material` is the sum over `p` in
1..12 of `PIECE_VALUES[p] * popcount(pieces[p])`, with the values 100, 320, 330, 500, 900,
20000 for the White pieces and their negatives for the Black pieces; and changing nothing but
the side to move negates the evaluation. -/
theorem C27_evaluate_material_plus_positional (e : EvalTables) (b : Board) :
    Evaluator.evaluate e b =
      (if b.side_to_move = Color.WHITE then
        Evaluator.evaluate_material b + Evaluator.evaluate_positional e b
       else -(Evaluator.evaluate_material b + Evaluator.evaluate_positional e b)) ∧
    Evaluator.evaluate_material b =
      (pieceRange.map (fun p => PIECE_VALUES p * popcount (b.pieces p))).sum ∧
    (PIECE_VALUES WHITE_PAWN = 100 ∧ PIECE_VALUES WHITE_KNIGHT = 320 ∧
      PIECE_VALUES WHITE_BISHOP = 330 ∧ PIECE_VALUES WHITE_ROOK = 500 ∧
      PIECE_VALUES WHITE_QUEEN = 900 ∧ PIECE_VALUES WHITE_KING = 20000 ∧
      PIECE_VALUES BLACK_PAWN = -100 ∧ PIECE_VALUES BLACK_KNIGHT = -320 ∧
      PIECE_VALUES BLACK_BISHOP = -330 ∧ PIECE_VALUES BLACK_ROOK = -500 ∧
      PIECE_VALUES BLACK_QUEEN = -900 ∧ PIECE_VALUES BLACK_KING = -20000) ∧
    Evaluator.evaluate e { b with side_to_move := b.side_to_move.other } =
      -Evaluator.evaluate e b := by
  refine ⟨rfl, ?_, by decide, ?_⟩
  · unfold Evaluator.evaluate_material
    rw [foldl_add_eq_sum (fun p => PIECE_VALUES p * popcount (b.pieces p))]
    omega
  · have hm : Evaluator.evaluate_material { b with side_to_move := b.side_to_move.other } =
        Evaluator.evaluate_material b := rfl
    have hp : Evaluator.evaluate_positional e { b with side_to_move := b.side_to_move.other } =
        Evaluator.evaluate_positional e b := rfl
    unfold Evaluator.evaluate
    simp only [hm, hp]
    cases b.side_to_move <;> simp [Color.other]

/-- C28, refuted as stated: on 8/8/8/8/8/8/8/4K2k with White to move and the end-game tables
filled by `init_evaluation_tables`, `evaluate` does not return 0. -/
theorem C28_counterexample :
    Evaluator.evaluate (init_evaluation_tables EvalTables.static_init)
      (loadFen zSample "8/8/8/8/8/8/8/4K2k w - - 0 1") ≠ 0 := by
  decide

/-- C28, amended: on 8/8/8/8/8/8/8/4K2k with White to move and the end-game tables filled by
`init_evaluation_tables`, `evaluate` returns -30, whatever the Zobrist words: the material term
is 0, the game phase is 0, and the positional term is the end-game sum
`eg_king_table[4] + eg_king_table[63 - 7] = -50 + 20`, the Black king's entry being added like
the White king's.  With the zeroed end-game tables of static initialisation the value is 0. -/
theorem C28_king_vs_king_evaluation (z : Zobrist) :
    Evaluator.evaluate (init_evaluation_tables EvalTables.static_init)
      (loadFen z "8/8/8/8/8/8/8/4K2k w - - 0 1") = -30 ∧
    Evaluator.evaluate_material (loadFen zSample "8/8/8/8/8/8/8/4K2k w - - 0 1") = 0 ∧
    Evaluator.get_game_phase (loadFen zSample "8/8/8/8/8/8/8/4K2k w - - 0 1") = 0 ∧
    Evaluator.evaluate_positional (init_evaluation_tables EvalTables.static_init)
      (loadFen zSample "8/8/8/8/8/8/8/4K2k w - - 0 1") = -30 ∧
    (init_evaluation_tables EvalTables.static_init).eg_king_table 4 = -50 ∧
    (init_evaluation_tables EvalTables.static_init).eg_king_table (63 - 7) = 20 ∧
    Evaluator.evaluate EvalTables.static_init
      (loadFen z "8/8/8/8/8/8/8/4K2k w - - 0 1") = 0 := by
  refine ⟨?_, by decide, by decide, by decide, by decide, by decide, ?_⟩
  · rw [evaluate_sameRules _ (loadFen_sameRules z zSample _)]
    decide
  · rw [evaluate_sameRules _ (loadFen_sameRules z zSample _)]
    decide

theorem piece_value_black {v : Int} (h : v ∈ blackPieces) :
    PIECE_VALUES v < 0 ∧ v ≠ 0 := by
  simp only [blackPieces, List.mem_cons, List.mem_singleton, List.not_mem_nil, or_false] at h
  rcases h with rfl | rfl | rfl | rfl | rfl | rfl <;> decide

theorem piece_value_white {v : Int} (h : v ∈ whitePieces) :
    0 < PIECE_VALUES v ∧ v ≠ 0 := by
  simp only [whitePieces, List.mem_cons, List.mem_singleton, List.not_mem_nil, or_false] at h
  rcases h with rfl | rfl | rfl | rfl | rfl | rfl <;> decide

theorem score_move_capture (s : Searcher) {m tt_move : Move} (depth : Int)
    (ht : m.equals tt_move = false) (hc : m.captured ≠ 0) :
    s.score_move m tt_move depth =
      9000 + PIECE_VALUES m.captured - Int.tdiv (PIECE_VALUES m.piece) 10 := by
  unfold Searcher.score_move
  simp [ht, hc]

/-- C24 (defect in the code): for two captures by the same piece, neither equal to the
transposition-table move, `score_move` returns `9000 + PIECE_VALUES[captured] -
PIECE_VALUES[piece] / 10` with the signed table.  When the victims are Black pieces (a White
piece captures) their entries are negative, so the capture of the victim worth more scores
strictly lower: a White pawn taking a Black queen scores 8090, taking a Black pawn 8890.  When
the victims are White pieces the capture of the victim worth more scores strictly higher. -/
theorem C24_score_move_signed_victim_value (s : Searcher) (tt_move : Move) (depth : Int)
    (m1 m2 : Move) (h1 : m1.equals tt_move = false) (h2 : m2.equals tt_move = false)
    (hp : m1.piece = m2.piece)
    (hv : (PIECE_VALUES m1.captured).natAbs > (PIECE_VALUES m2.captured).natAbs) :
    (m1.captured ∈ blackPieces → m2.captured ∈ blackPieces →
      s.score_move m1 tt_move depth < s.score_move m2 tt_move depth) ∧
    (m1.captured ∈ whitePieces → m2.captured ∈ whitePieces →
      s.score_move m1 tt_move depth > s.score_move m2 tt_move depth) := by
  constructor
  · intro hb1 hb2
    obtain ⟨hn1, hc1⟩ := piece_value_black hb1
    obtain ⟨hn2, hc2⟩ := piece_value_black hb2
    rw [score_move_capture s depth h1 hc1, score_move_capture s depth h2 hc2, hp]
    omega
  · intro hb1 hb2
    obtain ⟨hn1, hc1⟩ := piece_value_white hb1
    obtain ⟨hn2, hc2⟩ := piece_value_white hb2
    rw [score_move_capture s depth h1 hc1, score_move_capture s depth h2 hc2, hp]
    omega

theorem C24_score_move_signed_victim_value_witness :
    Searcher.init.score_move (Move.mk 12 21 WHITE_PAWN BLACK_QUEEN 0 false false)
      (Move.mk 0 0 0 0 0 false false) 1 = 8090 ∧
    Searcher.init.score_move (Move.mk 12 19 WHITE_PAWN BLACK_PAWN 0 false false)
      (Move.mk 0 0 0 0 0 false false) 1 = 8890 ∧
    Searcher.init.score_move (Move.mk 12 21 WHITE_PAWN BLACK_QUEEN 0 false false)
      (Move.mk 0 0 0 0 0 false false) 1 <
    Searcher.init.score_move (Move.mk 12 19 WHITE_PAWN BLACK_PAWN 0 false false)
      (Move.mk 0 0 0 0 0 false false) 1 :=
  ⟨by decide, by decide,
   (C24_score_move_signed_victim_value Searcher.init (Move.mk 0 0 0 0 0 false false) 1
      (Move.mk 12 21 WHITE_PAWN BLACK_QUEEN 0 false false)
      (Move.mk 12 19 WHITE_PAWN BLACK_PAWN 0 false false)
      (by decide) (by decide) rfl (by decide)).1 (by decide) (by decide)⟩

theorem mem_squaresOf (bb : Nat) (s : Int) : s ∈ squaresOf bb ↔ hasBit bb s := by
  unfold squaresOf
  simp only [List.mem_filter, List.mem_map, List.mem_range, decide_eq_true_eq]
  constructor
  · rintro ⟨-, h⟩
    exact h
  · intro h
    have hr := hasBit_range h
    exact ⟨⟨s.toNat, by omega, by omega⟩, h⟩

theorem squaresOf_nodup (bb : Nat) : (squaresOf bb).Nodup := by
  unfold squaresOf
  apply List.Nodup.filter
  apply List.Nodup.map _ (List.nodup_range 64)
  intro a b h
  exact Int.ofNat.inj h

/-- The bit-scan loop visits every square of the bitboard exactly once. -/
theorem scanBits_perm {bb : Nat} (hb : bb < TWO64) : (scanBits bb).Perm (squaresOf bb) := by
  rw [List.perm_ext_iff_of_nodup (scanBits_nodup hb) (squaresOf_nodup bb)]
  intro s
  rw [(scanBits_spec hb).2 s, mem_squaresOf]

theorem popcountLoop_eq : ∀ (fuel b : Nat) (count : Int),
    popcountLoop fuel b count = count + ((scanLoop fuel b).length : Int)
  | 0, _, count => by simp [popcountLoop, scanLoop]
  | fuel + 1, b, count => by
    unfold popcountLoop scanLoop
    split
    · simp
    · rw [popcountLoop_eq fuel]
      simp only [List.length_cons]
      push_cast
      omega

/-- Kernighan's loop counts the squares of a `u64` bitboard. -/
theorem popcount_eq_countBits {bb : Nat} (hb : bb < TWO64) : popcount bb = countBits bb := by
  unfold popcount countBits
  rw [popcountLoop_eq]
  have h : (scanLoop 64 bb).length = (squaresOf bb).length := (scanBits_perm hb).length_eq
  rw [h]
  omega

theorem length_filter_or {α : Type} (p q : α → Bool) : ∀ l : List α,
    (∀ x ∈ l, ¬ (p x = true ∧ q x = true)) →
    (l.filter (fun x => p x || q x)).length = (l.filter p).length + (l.filter q).length
  | [], _ => rfl
  | a :: l, h => by
    have ih := length_filter_or p q l (fun x hx => h x (List.mem_cons_of_mem _ hx))
    have ha := h a (List.mem_cons_self _ _)
    cases hp : p a <;> cases hq : q a <;> simp [List.filter_cons, hp, hq, ih] at ha ⊢ <;> omega

theorem countBits_or {a b : Nat} (h : ∀ s, hasBit a s → ¬ hasBit b s) :
    countBits (a ||| b) = countBits a + countBits b := by
  unfold countBits squaresOf
  have hf : (fun s : Int => decide (hasBit (a ||| b) s)) =
      (fun s => decide (hasBit a s) || decide (hasBit b s)) := by
    funext s
    by_cases h1 : hasBit a s <;> by_cases h2 : hasBit b s <;> simp [hasBit_or, h1, h2]
  rw [hf, length_filter_or]
  · push_cast
    rfl
  · intro x _ hx
    simp only [decide_eq_true_eq] at hx
    exact h x hx.1 hx.2

theorem foldl_pstStep (e : EvalTables) (p : Int) : ∀ (l : List Int) (acc : Int × Int),
    l.foldl (pstStep e p) acc =
      (acc.1 + (l.map (fun sq => mgTable p (if p ≤ 6 then sq else 63 - sq))).sum,
       acc.2 + (l.map (fun sq => egTable e p (if p ≤ 6 then sq else 63 - sq))).sum)
  | [], acc => by simp
  | sq :: l, acc => by
    rw [List.foldl_cons, foldl_pstStep e p l]
    simp only [pstStep, List.map_cons, List.sum_cons, decide_eq_true_eq]
    ext <;> simp only [] <;> omega

theorem foldl_pair_sum (f g : Int → Int) : ∀ (l : List Int) (acc : Int × Int),
    l.foldl (fun acc p => (acc.1 + f p, acc.2 + g p)) acc =
      (acc.1 + (l.map f).sum, acc.2 + (l.map g).sum)
  | [], acc => by simp
  | p :: l, acc => by
    rw [List.foldl_cons, foldl_pair_sum f g l]
    simp only [List.map_cons, List.sum_cons]
    ext <;> simp only [] <;> omega

theorem mgTable_kind {p : Int} (hp : p ∈ pieceRange) : mgTable p = mgOfKind (kindOf p) := by
  simp only [pieceRange, List.mem_cons, List.mem_singleton, List.not_mem_nil, or_false] at hp
  rcases hp with rfl | rfl | rfl | rfl | rfl | rfl | rfl | rfl | rfl | rfl | rfl | rfl <;> rfl

theorem egTable_kind (e : EvalTables) {p : Int} (hp : p ∈ pieceRange) :
    egTable e p = egOfKind e (kindOf p) := by
  simp only [pieceRange, List.mem_cons, List.mem_singleton, List.not_mem_nil, or_false] at hp
  rcases hp with rfl | rfl | rfl | rfl | rfl | rfl | rfl | rfl | rfl | rfl | rfl | rfl <;> rfl

theorem pstScores_eq (e : EvalTables) {b : Board} (hb : ∀ p ∈ pieceRange, b.pieces p < TWO64) :
    pstScores e b = (pstSum mgOfKind b, pstSum (egOfKind e) b) := by
  unfold pstScores
  have hstep : ∀ (l : List Int), (∀ p ∈ l, p ∈ pieceRange) → ∀ acc : Int × Int,
      l.foldl (fun acc p => (scanBits (b.pieces p)).foldl (pstStep e p) acc) acc =
      l.foldl (fun acc p =>
        (acc.1 + ((squaresOf (b.pieces p)).map
            (fun sq => mgOfKind (kindOf p) (if p ≤ 6 then sq else 63 - sq))).sum,
         acc.2 + ((squaresOf (b.pieces p)).map
            (fun sq => egOfKind e (kindOf p) (if p ≤ 6 then sq else 63 - sq))).sum)) acc := by
    intro l
    induction l with
    | nil => intro _ _; rfl
    | cons p l ih =>
      intro hl acc
      have hp := hl p (List.mem_cons_self _ _)
      rw [List.foldl_cons, List.foldl_cons, foldl_pstStep, mgTable_kind hp, egTable_kind e hp,
        ((scanBits_perm (hb p hp)).map _).sum_eq, ((scanBits_perm (hb p hp)).map _).sum_eq]
      exact ih (fun q hq => hl q (List.mem_cons_of_mem _ hq)) _
  rw [hstep pieceRange (fun p hp => hp), foldl_pair_sum]
  simp [pstSum]

/-- C25: on a Board whose piece bitboards are `u64` words, `evaluate_positional` equals
`interpolate(mg, eg, phase)` where `mg` and `eg` are the sums, over every piece and every square
it occupies, of the middle-game and end-game table entry of the piece's kind at the square for
a White piece and at `63 - sq` for a Black piece, `phase` is `get_game_phase`, and
`interpolate(mg, eg, phase) = (mg*phase + eg*(256-phase)) / 256` with truncating division. -/
theorem C25_evaluate_positional_is_interpolated_sum (e : EvalTables) (b : Board)
    (hb : ∀ p ∈ pieceRange, b.pieces p < TWO64) :
    Evaluator.evaluate_positional e b =
      interpolateSpec (pstSum mgOfKind b) (pstSum (egOfKind e) b)
        (Evaluator.get_game_phase b) ∧
    (∀ mg eg phase : Int, Evaluator.interpolate mg eg phase = interpolateSpec mg eg phase) := by
  refine ⟨?_, fun _ _ _ => rfl⟩
  unfold Evaluator.evaluate_positional
  simp only [pstScores_eq e hb]
  rfl

theorem C25_evaluate_positional_is_interpolated_sum_witness :
    Evaluator.evaluate_positional (init_evaluation_tables EvalTables.static_init)
        (Board.set_from_fen zSample Board.init startFen).board =
      interpolateSpec
        (pstSum mgOfKind (Board.set_from_fen zSample Board.init startFen).board)
        (pstSum (egOfKind (init_evaluation_tables EvalTables.static_init))
          (Board.set_from_fen zSample Board.init startFen).board)
        (Evaluator.get_game_phase (Board.set_from_fen zSample Board.init startFen).board) :=
  (C25_evaluate_positional_is_interpolated_sum (init_evaluation_tables EvalTables.static_init)
    (Board.set_from_fen zSample Board.init startFen).board (start_inv zSample).wf.bound).1

theorem countBits_nonneg (bb : Nat) : 0 ≤ countBits bb := by
  unfold countBits
  omega

theorem countBits_zero : countBits 0 = 0 := by decide

theorem disjoint_hasBit {b : Board} (hd : PairwiseDisjoint b) {p q : Int}
    (hp : p ∈ pieceRange) (hq : q ∈ pieceRange) (hne : p ≠ q) :
    ∀ s, hasBit (b.pieces p) s → ¬ hasBit (b.pieces q) s :=
  fun _ h => not_hasBit_of_and_eq_zero (hd p hp q hq hne) h

/-- The three population counts of `get_game_phase` on pairwise disjoint `u64` bitboards. -/
theorem phase_counts {b : Board} (hb : ∀ p ∈ pieceRange, b.pieces p < TWO64)
    (hd : PairwiseDisjoint b) :
    popcount (b.pieces WHITE_QUEEN ||| b.pieces BLACK_QUEEN) =
      countBits (b.pieces WHITE_QUEEN) + countBits (b.pieces BLACK_QUEEN) ∧
    popcount (b.pieces WHITE_ROOK ||| b.pieces BLACK_ROOK) =
      countBits (b.pieces WHITE_ROOK) + countBits (b.pieces BLACK_ROOK) ∧
    popcount (b.pieces WHITE_BISHOP ||| b.pieces BLACK_BISHOP ||| b.pieces WHITE_KNIGHT |||
        b.pieces BLACK_KNIGHT) =
      (countBits (b.pieces WHITE_BISHOP) + countBits (b.pieces BLACK_BISHOP)) +
        (countBits (b.pieces WHITE_KNIGHT) + countBits (b.pieces BLACK_KNIGHT)) := by
  have hWQ := hb WHITE_QUEEN (by decide)
  have hBQ := hb BLACK_QUEEN (by decide)
  have hWR := hb WHITE_ROOK (by decide)
  have hBR := hb BLACK_ROOK (by decide)
  have hWB := hb WHITE_BISHOP (by decide)
  have hBB := hb BLACK_BISHOP (by decide)
  have hWN := hb WHITE_KNIGHT (by decide)
  have hBN := hb BLACK_KNIGHT (by decide)
  refine ⟨?_, ?_, ?_⟩
  · rw [popcount_eq_countBits (or_lt_TWO64 hWQ hBQ),
      countBits_or (disjoint_hasBit hd (by decide) (by decide) (by decide))]
  · rw [popcount_eq_countBits (or_lt_TWO64 hWR hBR),
      countBits_or (disjoint_hasBit hd (by decide) (by decide) (by decide))]
  · rw [popcount_eq_countBits (or_lt_TWO64 (or_lt_TWO64 (or_lt_TWO64 hWB hBB) hWN) hBN)]
    have d1 := disjoint_hasBit hd (p := WHITE_BISHOP) (q := BLACK_BISHOP)
      (by decide) (by decide) (by decide)
    have d2 := disjoint_hasBit hd (p := WHITE_BISHOP) (q := WHITE_KNIGHT)
      (by decide) (by decide) (by decide)
    have d3 := disjoint_hasBit hd (p := BLACK_BISHOP) (q := WHITE_KNIGHT)
      (by decide) (by decide) (by decide)
    have d4 := disjoint_hasBit hd (p := WHITE_BISHOP) (q := BLACK_KNIGHT)
      (by decide) (by decide) (by decide)
    have d5 := disjoint_hasBit hd (p := BLACK_BISHOP) (q := BLACK_KNIGHT)
      (by decide) (by decide) (by decide)
    have d6 := disjoint_hasBit hd (p := WHITE_KNIGHT) (q := BLACK_KNIGHT)
      (by decide) (by decide) (by decide)
    rw [countBits_or, countBits_or, countBits_or d1]
    · omega
    · intro s hs
      rcases (hasBit_or _ _ s).1 hs with h | h
      · exact d2 s h
      · exact d3 s h
    · intro s hs
      rcases (hasBit_or _ _ s).1 hs with h | h
      · rcases (hasBit_or _ _ s).1 h with h | h
        · exact d4 s h
        · exact d5 s h
      · exact d6 s h

/-- C26: on a Board with pairwise disjoint `u64` piece bitboards, `get_game_phase` returns
`min(24, 4*Q + 2*R + (B + N)) * 256 / 24`, where `Q`, `R`, `B`, `N` count the queens, rooks,
bishops and knights of both colours; the result lies in `0..256`, is 0 when the weighted count
is 0 and 256 when it is at least 24. -/
theorem C26_get_game_phase (b : Board) (hb : ∀ p ∈ pieceRange, b.pieces p < TWO64)
    (hd : PairwiseDisjoint b) :
    Evaluator.get_game_phase b = phaseSpec b ∧
    0 ≤ Evaluator.get_game_phase b ∧ Evaluator.get_game_phase b ≤ 256 ∧
    (phaseWeight b = 0 → Evaluator.get_game_phase b = 0) ∧
    (24 ≤ phaseWeight b → Evaluator.get_game_phase b = 256) := by
  obtain ⟨hq, hr, hm⟩ := phase_counts hb hd
  have hw : 0 ≤ phaseWeight b := by
    unfold phaseWeight
    have := countBits_nonneg (b.pieces WHITE_QUEEN)
    have := countBits_nonneg (b.pieces BLACK_QUEEN)
    have := countBits_nonneg (b.pieces WHITE_ROOK)
    have := countBits_nonneg (b.pieces BLACK_ROOK)
    have := countBits_nonneg (b.pieces WHITE_BISHOP)
    have := countBits_nonneg (b.pieces BLACK_BISHOP)
    have := countBits_nonneg (b.pieces WHITE_KNIGHT)
    have := countBits_nonneg (b.pieces BLACK_KNIGHT)
    omega
  have hphase : Evaluator.get_game_phase b = phaseSpec b := by
    unfold Evaluator.get_game_phase phaseSpec
    simp only [hq, hr, hm]
    have he : (0 : Int) +
        (countBits (b.pieces WHITE_QUEEN) + countBits (b.pieces BLACK_QUEEN)) * 4 +
        (countBits (b.pieces WHITE_ROOK) + countBits (b.pieces BLACK_ROOK)) * 2 +
        ((countBits (b.pieces WHITE_BISHOP) + countBits (b.pieces BLACK_BISHOP)) +
          (countBits (b.pieces WHITE_KNIGHT) + countBits (b.pieces BLACK_KNIGHT))) =
        phaseWeight b := by
      unfold phaseWeight
      omega
    rw [he]
    apply Int.tdiv_eq_ediv
    · have : 0 ≤ min 24 (phaseWeight b) := by omega
      omega
    · decide
  rw [hphase]
  unfold phaseSpec
  refine ⟨rfl, ?_, ?_, ?_, ?_⟩
  · omega
  · omega
  · intro h0
    rw [h0]
    decide
  · intro h24
    have : min 24 (phaseWeight b) = 24 := by omega
    rw [this]
    decide

theorem C26_get_game_phase_witness :
    Evaluator.get_game_phase (Board.set_from_fen zSample Board.init startFen).board =
      phaseSpec (Board.set_from_fen zSample Board.init startFen).board ∧
    phaseWeight (Board.set_from_fen zSample Board.init startFen).board = 24 ∧
    Evaluator.get_game_phase (Board.set_from_fen zSample Board.init startFen).board = 256 :=
  ⟨(C26_get_game_phase (Board.set_from_fen zSample Board.init startFen).board
      (start_inv zSample).wf.bound (start_inv zSample).wf.disjoint).1,
   by decide, by decide⟩

/-! ## The search -/

theorem alphaBetaStep_congr (env : SearchEnv)
    {sub1 sub2 : Int → Searcher → Board → Int → Int → Bool → SearchResult} {depth : Int}
    (h : ∀ d, d < depth → sub1 d = sub2 d) (beta : Int) :
    alphaBetaStep env sub1 depth beta = alphaBetaStep env sub2 depth beta := by
  funext st move
  have h1 : sub1 (depth - 1) = sub2 (depth - 1) := h _ (by omega)
  have h2 : sub1 (depth - 1 - 1) = sub2 (depth - 1 - 1) := h _ (by omega)
  have h0 : sub1 (depth - 1 - 0) = sub2 (depth - 1 - 0) := h _ (by omega)
  unfold alphaBetaStep alphaBetaScore
  by_cases hc : depth ≥ 3 ∧ st.moves_searched ≥ 4
  · simp only [hc, and_self, if_true, h1, h2]
  · simp only [hc, if_false, h1, h0]

theorem alphaBetaBody_congr (env : SearchEnv)
    {sub1 sub2 : Int → Searcher → Board → Int → Int → Bool → SearchResult} {depth : Int}
    (h : 0 < depth → ∀ d, d < depth → sub1 d = sub2 d) :
    alphaBetaBody env sub1 depth = alphaBetaBody env sub2 depth := by
  funext s board alpha beta do_null
  unfold alphaBetaBody
  by_cases hd : depth ≤ 0
  · simp only [hd, if_true]
  · have hsub := h (by omega)
    have h3 : sub1 (depth - 3) = sub2 (depth - 3) := hsub _ (by omega)
    have hstep : ∀ beta, alphaBetaStep env sub1 depth beta = alphaBetaStep env sub2 depth beta :=
      alphaBetaStep_congr env hsub
    simp only [alphaBetaTail, alphaBetaMoves, h3, hstep]

/-- Fuel adequacy of `alpha_beta`: any bound above `depth` gives the same result, so the
bound `depth + 1` that `Searcher.alpha_beta` passes is never used up. -/
theorem alphaBetaFuel_enough (env : SearchEnv) : ∀ (f1 f2 : Nat) (depth : Int),
    depth.toNat < f1 → depth.toNat < f2 →
    alphaBetaFuel env f1 depth = alphaBetaFuel env f2 depth := by
  intro f1
  induction f1 with
  | zero => intro f2 depth h; omega
  | succ a ih =>
    intro f2 depth h1 h2
    obtain ⟨b, rfl⟩ : ∃ b, f2 = b + 1 := ⟨f2 - 1, by omega⟩
    show alphaBetaBody env (alphaBetaFuel env a) depth = alphaBetaBody env (alphaBetaFuel env b) depth
    apply alphaBetaBody_congr
    intro hpos d hd
    exact ih b d (by omega) (by omega)

/-- The method `alpha_beta` satisfies its recursion equation: the result at `depth` is the
body run with the method itself for the recursive calls. -/
theorem alpha_beta_unfold (env : SearchEnv) (s : Searcher) (board : Board)
    (depth alpha beta : Int) (do_null : Bool) :
    Searcher.alpha_beta env s board depth alpha beta do_null =
      alphaBetaBody env (fun d s b al be dn => Searcher.alpha_beta env s b d al be dn)
        depth s board alpha beta do_null := by
  have key : alphaBetaBody env (alphaBetaFuel env depth.toNat) depth =
      alphaBetaBody env (fun d s b al be dn => Searcher.alpha_beta env s b d al be dn) depth := by
    apply alphaBetaBody_congr
    intro hpos d hd
    funext s b al be dn
    show alphaBetaFuel env depth.toNat d s b al be dn =
      alphaBetaFuel env (d.toNat + 1) d s b al be dn
    rw [alphaBetaFuel_enough env depth.toNat (d.toNat + 1) d (by omega) (by omega)]
  show alphaBetaBody env (alphaBetaFuel env depth.toNat) depth s board alpha beta do_null = _
  rw [key]

/-- C21 (defect in the code): after `store(k, d, v, f, m)` a `probe(k, d1)` writes `m` to its
`best_move` parameter only when `d1 <= d`; when the entry is too shallow (`d1 > d`) it returns
false and leaves `value`, `flag` and `best_move` as they were.  With an entry of depth 1 holding
the move e2e4, a probe at depth 2 leaves the all-zero Move in `best_move`. -/
theorem C21_probe_keeps_best_move_when_too_shallow (tt : TranspositionTable) (k : Nat)
    (d v : Int) (f : TTFlag) (m : Move) (d1 v0 : Int) (f0 : TTFlag) (m0 : Move) :
    (tt.store k d v f m).probe k d1 v0 f0 m0 =
      (if d1 ≤ d then { hit := true, value := v, flag := f, best_move := m }
       else { hit := false, value := v0, flag := f0, best_move := m0 }) ∧
    ((tt.store k 1 35 TTFlag.TT_EXACT (Move.mk 12 28 WHITE_PAWN 0 0 false false)).probe k 2 0
        TTFlag.TT_ALPHA (Move.mk 0 0 0 0 0 false false)).best_move =
      Move.mk 0 0 0 0 0 false false ∧
    ((tt.store k 1 35 TTFlag.TT_EXACT (Move.mk 12 28 WHITE_PAWN 0 0 false false)).probe k 2 0
        TTFlag.TT_ALPHA (Move.mk 0 0 0 0 0 false false)).hit = false := by
  refine ⟨?_, ?_, ?_⟩
  · by_cases h : d1 ≤ d <;> simp [TranspositionTable.probe, TranspositionTable.store, h]
  · simp [TranspositionTable.probe, TranspositionTable.store]
  · simp [TranspositionTable.probe, TranspositionTable.store]

theorem alphaBetaUpdate_best_le_alpha (depth beta : Int) (st : ABLoop) (move : Move)
    (undo : UndoInfo) (r : SearchResult) (h : st.best_value ≤ st.alpha) :
    (alphaBetaUpdate depth beta st move undo r).best_value ≤
      (alphaBetaUpdate depth beta st move undo r).alpha := by
  unfold alphaBetaUpdate
  simp only []
  by_cases hcut : (if r.value > st.alpha then r.value else st.alpha) ≥ beta
  · rw [if_pos hcut]
    show (if r.value > st.best_value then r.value else st.best_value) ≤
      (if r.value > st.alpha then r.value else st.alpha)
    split <;> split <;> omega
  · rw [if_neg hcut]
    show (if r.value > st.best_value then r.value else st.best_value) ≤
      (if r.value > st.alpha then r.value else st.alpha)
    split <;> split <;> omega

theorem alphaBetaStep_best_le_alpha (env : SearchEnv)
    (sub : Int → Searcher → Board → Int → Int → Bool → SearchResult) (depth beta : Int)
    (st : ABLoop) (move : Move) (h : st.best_value ≤ st.alpha) :
    (alphaBetaStep env sub depth beta st move).best_value ≤
      (alphaBetaStep env sub depth beta st move).alpha := by
  unfold alphaBetaStep
  by_cases hdone : st.done = true
  · rw [if_pos hdone]
    exact h
  · rw [if_neg hdone]
    simp only []
    by_cases hchk : (st.board.make_move env.z move).in_check env.t
        (st.board.make_move env.z move).side_to_move.other = true
    · rw [if_pos hchk]
      exact h
    · rw [if_neg hchk]
      exact alphaBetaUpdate_best_le_alpha depth beta st move _ _ h

theorem alphaBetaLoop_best_le_alpha (env : SearchEnv)
    (sub : Int → Searcher → Board → Int → Int → Bool → SearchResult) (depth beta : Int) :
    ∀ (moves : List Move) (st : ABLoop), st.best_value ≤ st.alpha →
      (moves.foldl (alphaBetaStep env sub depth beta) st).best_value ≤
        (moves.foldl (alphaBetaStep env sub depth beta) st).alpha
  | [], _, h => h
  | m :: ms, st, h => by
    rw [List.foldl_cons]
    exact alphaBetaLoop_best_le_alpha env sub depth beta ms _
      (alphaBetaStep_best_le_alpha env sub depth beta st m h)

/-- When the move loop of `alpha_beta` is entered with `alpha >= -1000000`, the entry stored
at its end carries the flag `TT_ALPHA`. -/
theorem alphaBetaMoves_flag (env : SearchEnv)
    (sub : Int → Searcher → Board → Int → Int → Bool → SearchResult)
    (s : Searcher) (board : Board) (depth alpha beta : Int) (moves : List Move)
    (tt_move : Move) (h : -1000000 ≤ alpha) :
    ∃ bm age,
      (alphaBetaMoves env sub s board depth alpha beta moves tt_move).s.tt.table
          (alphaBetaMoves env sub s board depth alpha beta moves tt_move).board.zobrist_key =
        some { key := (alphaBetaMoves env sub s board depth alpha beta moves tt_move).board.zobrist_key
               depth := depth
               value := (alphaBetaMoves env sub s board depth alpha beta moves tt_move).value
               flag := TTFlag.TT_ALPHA, best_move := bm, age := age } := by
  unfold alphaBetaMoves
  simp only []
  have hinv := alphaBetaLoop_best_le_alpha env sub depth beta
    (Searcher.order_moves env s moves tt_move depth)
    { s := s, board := board, alpha := alpha, best_value := -1000000,
      best_move := (Searcher.order_moves env s moves tt_move depth).headD
        (Move.mk 0 0 0 0 0 false false),
      moves_searched := 0, done := false } h
  generalize (Searcher.order_moves env s moves tt_move depth).foldl
    (alphaBetaStep env sub depth beta) _ = st at hinv ⊢
  refine ⟨st.best_move, st.s.tt.current_age, ?_⟩
  simp [TranspositionTable.store, ttFlagOf, hinv]

theorem mem_insertSorted (cmp : Move → Move → Bool) (m x : Move) : ∀ l : List Move,
    x ∈ insertSorted cmp m l → x = m ∨ x ∈ l
  | [], h => by
    simp only [insertSorted, List.mem_singleton] at h
    exact Or.inl h
  | y :: ys, h => by
    unfold insertSorted at h
    split at h
    · rcases List.mem_cons.1 h with h1 | h1
      · exact Or.inr (h1 ▸ List.mem_cons_self _ _)
      · rcases mem_insertSorted cmp m x ys h1 with h2 | h2
        · exact Or.inl h2
        · exact Or.inr (List.mem_cons_of_mem _ h2)
    · rcases List.mem_cons.1 h with h1 | h1
      · exact Or.inl h1
      · exact Or.inr h1

theorem mem_insertionSort (cmp : Move → Move → Bool) (x : Move) : ∀ l : List Move,
    x ∈ insertionSort cmp l → x ∈ l
  | [], h => by simp [insertionSort] at h
  | y :: ys, h => by
    have h1 : x ∈ insertSorted cmp y (insertionSort cmp ys) := h
    rcases mem_insertSorted cmp y x _ h1 with h2 | h2
    · exact h2 ▸ List.mem_cons_self _ _
    · exact List.mem_cons_of_mem _ (mem_insertionSort cmp x ys h2)

/-- A move that leaves the mover's king in check is skipped by the move loop, and on a Board
satisfying the play invariant the loop state is as before. -/
theorem alphaBetaStep_illegal (env : SearchEnv)
    (sub : Int → Searcher → Board → Int → Int → Bool → SearchResult) (depth beta : Int)
    {st : ABLoop} {m : Move} (hi : Inv st.board)
    (hm : m ∈ MoveGenerator.generate_moves env.t st.board)
    (hl : MoveGenerator.is_move_legal env.z env.t st.board m = false) :
    alphaBetaStep env sub depth beta st m = st := by
  have hnc : m ∉ MoveGenerator.generate_castling_moves env.t st.board := by
    rw [castling_empty_of_inv hi]
    exact List.not_mem_nil m
  have hg := generate_moves_ok hi.wf hm hnc
  have hundo := undo_make_of_GenOK env.z hi.wf hg (EpOK_of_inv hi hg)
  have hchk : (st.board.make_move env.z m).in_check env.t
      (st.board.make_move env.z m).side_to_move.other = true := by
    unfold MoveGenerator.is_move_legal at hl
    simpa using hl
  unfold alphaBetaStep
  by_cases hdone : st.done = true
  · rw [if_pos hdone]
  · rw [if_neg hdone]
    simp only []
    rw [if_pos hchk, hundo]

theorem alphaBetaLoop_illegal (env : SearchEnv)
    (sub : Int → Searcher → Board → Int → Int → Bool → SearchResult) (depth beta : Int)
    (st : ABLoop) (hi : Inv st.board) : ∀ (l : List Move),
    (∀ m ∈ l, m ∈ MoveGenerator.generate_moves env.t st.board ∧
      MoveGenerator.is_move_legal env.z env.t st.board m = false) →
    l.foldl (alphaBetaStep env sub depth beta) st = st
  | [], _ => rfl
  | m :: ms, h => by
    obtain ⟨hm, hl⟩ := h m (List.mem_cons_self _ _)
    rw [List.foldl_cons, alphaBetaStep_illegal env sub depth beta hi hm hl]
    exact alphaBetaLoop_illegal env sub depth beta st hi ms
      (fun x hx => h x (List.mem_cons_of_mem _ hx))

/-- C23 (defect in the code): `alpha_beta` at depth 1 with window (-1000000, 1000000) and no
entry for the position in the transposition table.  When `generate_moves` emits nothing it
returns the mate score -999901 if the side to move is in check and 0 if it is not.  When
`generate_moves` emits moves and every one of them leaves the mover's king in check, on a
Board that satisfies the play invariant, it returns -1000000 whether or not the side to move is
in check: the stalemate is scored as a mate. -/
theorem C23_no_legal_move_scores (env : SearchEnv) (s : Searcher) (board : Board)
    (do_null : Bool) (hmiss : s.tt.table board.zobrist_key = none) :
    (MoveGenerator.generate_moves env.t board = [] →
      (Searcher.alpha_beta env s board 1 (-1000000) 1000000 do_null).value =
        if board.in_check env.t board.side_to_move = true then -999901 else 0) ∧
    (Inv board → (∀ cmp l m, m ∈ env.sort cmp l → m ∈ l) →
      MoveGenerator.generate_moves env.t board ≠ [] →
      (∀ m ∈ MoveGenerator.generate_moves env.t board,
        MoveGenerator.is_move_legal env.z env.t board m = false) →
      (Searcher.alpha_beta env s board 1 (-1000000) 1000000 do_null).value = -1000000 ∧
      (Searcher.alpha_beta env s board 1 (-1000000) 1000000 do_null).board = board) := by
  have hbody : Searcher.alpha_beta env s board 1 (-1000000) 1000000 do_null =
      alphaBetaTail env (fun d s b al be dn => Searcher.alpha_beta env s b d al be dn)
        { s with stats := { s.stats with nodes := s.stats.nodes + 1 } } board 1 (-1000000)
        1000000 env.stale := by
    rw [alpha_beta_unfold]
    unfold alphaBetaBody
    simp [TranspositionTable.probe, hmiss]
  rw [hbody]
  constructor
  · intro hnil
    unfold alphaBetaTail
    simp only [hnil, if_true]
    split <;> rfl
  · intro hi hsort hne hill
    unfold alphaBetaTail
    simp only [hne, if_false]
    unfold alphaBetaMoves
    simp only []
    rw [alphaBetaLoop_illegal env _ 1 1000000 _ hi]
    · exact ⟨rfl, rfl⟩
    · intro m hm
      have hmem := hsort _ _ m hm
      exact ⟨hmem, hill m hmem⟩

theorem C23_no_legal_move_scores_witness :
    (loadFen zSample "7k/5Q2/6K1/8/8/8/8/8 b - - 0 1").in_check init_move_tables
      Color.BLACK = false ∧
    (Searcher.alpha_beta envSample Searcher.init
      (loadFen zSample "7k/5Q2/6K1/8/8/8/8/8 b - - 0 1") 1 (-1000000) 1000000 true).value =
        -1000000 :=
  ⟨by decide,
   ((C23_no_legal_move_scores envSample Searcher.init
      (loadFen zSample "7k/5Q2/6K1/8/8/8/8/8 b - - 0 1") true rfl).2
      ⟨⟨by decide, by unfold PairwiseDisjoint; decide, by unfold OccupanciesDerived; decide⟩,
        by decide, by decide, by decide, Or.inl (by decide)⟩
      (fun cmp l m h => mem_insertionSort cmp m l h) (by decide) (by decide)).1⟩

set_option maxHeartbeats 4000000 in
/-- C22 (defect in the code): the flag is chosen from `alpha` as the move loop left it, not
from its value on entry.  Whenever the move loop is entered with `alpha >= -1000000`, the
entry stored at the end holds the returned `best_value` with the flag `TT_ALPHA`, also when
`best_value` lies inside the window or reaches `beta`.  On the starting position at depth 1
with window (-1000000, 1000000) and an empty table the returned value lies strictly inside
the window and the stored flag is `TT_ALPHA`, not `TT_EXACT`. -/
theorem C22_stored_flag_uses_updated_alpha :
    (∀ (env : SearchEnv) (sub : Int → Searcher → Board → Int → Int → Bool → SearchResult)
      (s : Searcher) (board : Board) (depth alpha beta : Int) (moves : List Move)
      (tt_move : Move), -1000000 ≤ alpha →
      ∃ bm age,
        (alphaBetaMoves env sub s board depth alpha beta moves tt_move).s.tt.table
            (alphaBetaMoves env sub s board depth alpha beta moves tt_move).board.zobrist_key =
          some { key :=
                   (alphaBetaMoves env sub s board depth alpha beta moves tt_move).board.zobrist_key
                 depth := depth
                 value := (alphaBetaMoves env sub s board depth alpha beta moves tt_move).value
                 flag := TTFlag.TT_ALPHA, best_move := bm, age := age }) ∧
    (-1000000 < (Searcher.alpha_beta envSample Searcher.init
        (Board.set_from_fen zSample Board.init startFen).board 1 (-1000000) 1000000 true).value ∧
      (Searcher.alpha_beta envSample Searcher.init
        (Board.set_from_fen zSample Board.init startFen).board 1 (-1000000) 1000000 true).value
        < 1000000) ∧
    ((Searcher.alpha_beta envSample Searcher.init
        (Board.set_from_fen zSample Board.init startFen).board 1 (-1000000) 1000000 true).s.tt.table
        (Board.set_from_fen zSample Board.init startFen).board.zobrist_key).map
      (fun entry => entry.flag) = some TTFlag.TT_ALPHA :=
  ⟨fun env sub s board depth alpha beta moves tt_move h =>
    alphaBetaMoves_flag env sub s board depth alpha beta moves tt_move h,
   by decide!, by decide!⟩

theorem C22_stored_flag_uses_updated_alpha_witness :
    ∃ bm age,
      (alphaBetaMoves envSample
          (fun d s b al be dn => Searcher.alpha_beta envSample s b d al be dn) Searcher.init
          (Board.set_from_fen zSample Board.init startFen).board 1 (-1000000) 1000000
          (MoveGenerator.generate_moves init_move_tables
            (Board.set_from_fen zSample Board.init startFen).board)
          envSample.stale).s.tt.table
        (alphaBetaMoves envSample
          (fun d s b al be dn => Searcher.alpha_beta envSample s b d al be dn) Searcher.init
          (Board.set_from_fen zSample Board.init startFen).board 1 (-1000000) 1000000
          (MoveGenerator.generate_moves init_move_tables
            (Board.set_from_fen zSample Board.init startFen).board)
          envSample.stale).board.zobrist_key =
      some { key := (alphaBetaMoves envSample
                 (fun d s b al be dn => Searcher.alpha_beta envSample s b d al be dn)
                 Searcher.init (Board.set_from_fen zSample Board.init startFen).board 1
                 (-1000000) 1000000
                 (MoveGenerator.generate_moves init_move_tables
                   (Board.set_from_fen zSample Board.init startFen).board)
                 envSample.stale).board.zobrist_key
             depth := 1
             value := (alphaBetaMoves envSample
                 (fun d s b al be dn => Searcher.alpha_beta envSample s b d al be dn)
                 Searcher.init (Board.set_from_fen zSample Board.init startFen).board 1
                 (-1000000) 1000000
                 (MoveGenerator.generate_moves init_move_tables
                   (Board.set_from_fen zSample Board.init startFen).board)
                 envSample.stale).value
             flag := TTFlag.TT_ALPHA, best_move := bm, age := age } :=
  C22_stored_flag_uses_updated_alpha.1 envSample _ Searcher.init _ 1 (-1000000) 1000000 _ _
    (by decide)

/-! ## The UCI adapter -/

/-- C29 (defect in the code): the command line `position startpos moves e2e4 e7e5` is
handled exactly like `position startpos`: `handle_position` loads the starting position and
its `moves` branch, an `else if` of the same chain, is not reached.  The Board is the starting
position: White pawn on e2 (12), none on e4 (28), Black pawn on e7 (52), none on e5 (36),
fullmove number 1.  Applying the two moves to the starting position with the move loop of
`handle_position` gives the Board the claim describes. -/
theorem C29_position_startpos_ignores_moves (z : Zobrist) (stale : Int) (u : UCI) :
    UCI.process_command z stale u "position startpos moves e2e4 e7e5".toList =
      some { uci := { u with board := (Board.set_from_fen z u.board startFen).board }
             thrown := (Board.set_from_fen z u.board startFen).thrown } ∧
    UCI.process_command z stale u "position startpos moves e2e4 e7e5".toList =
      UCI.process_command z stale u "position startpos".toList ∧
    (UCI.process_command zSample 0 (UCI.atStart zSample)
        "position startpos moves e2e4 e7e5".toList).map
      (fun o => (decide (hasBit (o.uci.board.pieces WHITE_PAWN) 12),
        decide (hasBit (o.uci.board.pieces WHITE_PAWN) 28),
        decide (hasBit (o.uci.board.pieces BLACK_PAWN) 52),
        decide (hasBit (o.uci.board.pieces BLACK_PAWN) 36))) =
      some (true, false, true, false) ∧
    (UCI.process_command zSample 0 (UCI.atStart zSample)
        "position startpos moves e2e4 e7e5".toList).map
      (fun o => (o.uci.board.side_to_move, o.uci.board.fullmove_number, o.thrown)) =
      some (Color.WHITE, 1, none) ∧
    (decide (hasBit ((applyMoves zSample 0 12 "e2e4 e7e5".toList
        (UCI.atStart zSample).board).pieces WHITE_PAWN) 12),
      decide (hasBit ((applyMoves zSample 0 12 "e2e4 e7e5".toList
        (UCI.atStart zSample).board).pieces WHITE_PAWN) 28),
      decide (hasBit ((applyMoves zSample 0 12 "e2e4 e7e5".toList
        (UCI.atStart zSample).board).pieces BLACK_PAWN) 52),
      decide (hasBit ((applyMoves zSample 0 12 "e2e4 e7e5".toList
        (UCI.atStart zSample).board).pieces BLACK_PAWN) 36)) =
      (false, true, false, true) ∧
    ((applyMoves zSample 0 12 "e2e4 e7e5".toList (UCI.atStart zSample).board).side_to_move,
      (applyMoves zSample 0 12 "e2e4 e7e5".toList
        (UCI.atStart zSample).board).fullmove_number) = (Color.WHITE, 2) :=
  ⟨rfl, rfl, by decide, by decide, by decide, by decide⟩

/-- C30 (defect in the code): for the command line
`position fen 8/8/8/8/8/5k2/5q2/5K2 w - - 0 1`, `handle_position` extracts one word after `fen`
and hands only the placement field `8/8/8/8/8/5k2/5q2/5K2` to `set_from_fen`.  The side field
is then missing and read as Black: the Board has `side_to_move == BLACK`, whereas
`set_from_fen` on the whole six-field string gives `side_to_move == WHITE`. -/
theorem C30_position_fen_reads_one_word (z : Zobrist) (stale : Int) (u : UCI) :
    UCI.process_command z stale u "position fen 8/8/8/8/8/5k2/5q2/5K2 w - - 0 1".toList =
      some { uci := { u with
               board := (Board.set_from_fen z u.board "8/8/8/8/8/5k2/5q2/5K2".toList).board }
             thrown := (Board.set_from_fen z u.board "8/8/8/8/8/5k2/5q2/5K2".toList).thrown } ∧
    (UCI.process_command zSample 0 (UCI.atStart zSample)
        "position fen 8/8/8/8/8/5k2/5q2/5K2 w - - 0 1".toList).map
      (fun o => (o.uci.board.side_to_move, o.thrown)) = some (Color.BLACK, none) ∧
    (Board.set_from_fen zSample (UCI.atStart zSample).board
      "8/8/8/8/8/5k2/5q2/5K2 w - - 0 1".toList).board.side_to_move = Color.WHITE ∧
    (Board.set_from_fen zSample (UCI.atStart zSample).board
      "8/8/8/8/8/5k2/5q2/5K2 w - - 0 1".toList).thrown = none :=
  ⟨rfl, by decide, by decide, by decide⟩

/-! ## Bit scan and check detection -/

/-- C36: `bit_scan_forward(0)` is 64, and for every non-zero 64-bit `b` the result is the
index `i` in `0..63` of the lowest set bit of `b`: bit `i` is set and all bits below `i` are
clear.  The De Bruijn product is reduced modulo 2^64 in the definition. -/
theorem C36_bit_scan_forward_lowest_set_bit :
    bit_scan_forward 0 = 64 ∧
    ∀ b : Nat, b ≠ 0 → b < TWO64 →
      ∃ i : Nat, i ≤ 63 ∧ bit_scan_forward b = (i : Int) ∧ b.testBit i = true ∧
        ∀ j, j < i → b.testBit j = false := by
  refine ⟨by decide, ?_⟩
  intro b hb0 hb
  obtain ⟨k, hk, hbsf, hbit, hlow, -⟩ := bit_scan_forward_spec hb0 hb
  exact ⟨k, by omega, hbsf, hbit, hlow⟩

theorem C36_bit_scan_forward_lowest_set_bit_witness :
    ∃ i : Nat, i ≤ 63 ∧ bit_scan_forward 0x8000000000000000 = (i : Int) ∧
      (0x8000000000000000 : Nat).testBit i = true ∧
      ∀ j, j < i → (0x8000000000000000 : Nat).testBit j = false :=
  C36_bit_scan_forward_lowest_set_bit.2 0x8000000000000000 (by decide) (by decide)

/-- C32: `in_check(side)` returns true when the king bitboard of `side` is empty; and when it
is a non-empty `u64` word, `in_check(side)` equals `is_square_attacked(k, other(side))` for the
square `k` that is the lowest-indexed square holding a king of that side. -/
theorem C32_in_check_via_king_square (t : MoveTables) (b : Board) (side : Color) :
    (b.pieces (if side = Color.WHITE then WHITE_KING else BLACK_KING) = 0 →
      b.in_check t side = true) ∧
    (b.pieces (if side = Color.WHITE then WHITE_KING else BLACK_KING) ≠ 0 →
      b.pieces (if side = Color.WHITE then WHITE_KING else BLACK_KING) < TWO64 →
      ∃ k : Int, 0 ≤ k ∧ k < 64 ∧
        hasBit (b.pieces (if side = Color.WHITE then WHITE_KING else BLACK_KING)) k ∧
        (∀ j : Int, hasBit (b.pieces (if side = Color.WHITE then WHITE_KING else BLACK_KING)) j →
          k ≤ j) ∧
        b.in_check t side = b.is_square_attacked t k side.other) := by
  have hk : (if side = Color.WHITE then b.pieces WHITE_KING else b.pieces BLACK_KING) =
      b.pieces (if side = Color.WHITE then WHITE_KING else BLACK_KING) := by
    cases side <;> rfl
  constructor
  · intro h0
    unfold Board.in_check
    simp only [hk, h0, ne_eq, not_true_eq_false, if_false, if_true]
  · intro hne hlt
    obtain ⟨k, hk64, hbsf, hbit, hlow, -⟩ := bit_scan_forward_spec hne hlt
    refine ⟨(k : Int), by omega, by omega, ?_, ?_, ?_⟩
    · rw [hasBit_iff_testBit (by omega) (by omega)]
      simpa using hbit
    · intro j hj
      have hr := hasBit_range hj
      by_contra hlt2
      have hjt := (hasBit_iff_testBit hr.1 hr.2).1 hj
      have := hlow j.toNat (by omega)
      rw [this] at hjt
      exact absurd hjt (by simp)
    · unfold Board.in_check
      simp only [hk, hne, ne_eq, not_false_eq_true, if_true, hbsf]
      have hns : ((k : Int) = SQ_NONE) = False := by
        apply propext
        constructor
        · intro h
          unfold SQ_NONE at h
          omega
        · exact False.elim
      simp only [hns, if_false]

theorem C32_in_check_via_king_square_witness :
    ∃ k : Int, 0 ≤ k ∧ k < 64 ∧
      hasBit ((Board.set_from_fen zSample Board.init startFen).board.pieces
        (if Color.WHITE = Color.WHITE then WHITE_KING else BLACK_KING)) k ∧
      (∀ j : Int, hasBit ((Board.set_from_fen zSample Board.init startFen).board.pieces
        (if Color.WHITE = Color.WHITE then WHITE_KING else BLACK_KING)) j → k ≤ j) ∧
      (Board.set_from_fen zSample Board.init startFen).board.in_check init_move_tables
          Color.WHITE =
        (Board.set_from_fen zSample Board.init startFen).board.is_square_attacked
          init_move_tables k Color.WHITE.other :=
  (C32_in_check_via_king_square init_move_tables
    (Board.set_from_fen zSample Board.init startFen).board Color.WHITE).2
    (by decide) (by decide)

/-! ## The null move and the score of the transposition-table move -/

theorem orPieces_setAt_zero (pieces : Int → Nat) (v : Nat) :
    orPieces (setAt pieces 0 v) [1, 2, 3, 4, 5, 6] = orPieces pieces [1, 2, 3, 4, 5, 6] ∧
    orPieces (setAt pieces 0 v) [7, 8, 9, 10, 11, 12] = orPieces pieces [7, 8, 9, 10, 11, 12] := by
  constructor <;> simp [orPieces, setAt]

theorem setAt_setAt (a : Int → Nat) (i : Int) (v w : Nat) :
    setAt (setAt a i v) i w = setAt a i w := by
  funext j
  unfold setAt
  split <;> rfl

theorem null_makePieces (b : Board) :
    makePieces b (Move.mk 0 0 0 0 0 false false) =
      setAt b.pieces 0 ((b.pieces 0 &&& not64 (sqbit 0)) ||| sqbit 0) := by
  unfold makePieces
  simp [clearBit, setBit, EMPTY, setAt_setAt, setAt]

theorem null_undoPieces (pieces : Int → Nat) (stm : Color) (u : UndoInfo)
    (h1 : u.from_ = 0) (h2 : u.to_ = 0) (h3 : u.piece = 0) (h4 : u.captured = 0)
    (h5 : u.promotion = 0) (h6 : u.isEnPassant = false) (h7 : u.isCastle = false) :
    undoPieces pieces stm u =
      setAt pieces 0 ((pieces 0 &&& not64 (sqbit 0)) ||| sqbit 0) := by
  unfold undoPieces
  simp [h1, h2, h3, h4, h5, h6, h7, clearBit, setBit, EMPTY, setAt_setAt, setAt]

theorem null_bit_twice (x : Nat) :
    (((x &&& not64 (sqbit 0)) ||| sqbit 0) &&& not64 (sqbit 0)) ||| sqbit 0 =
      (x &&& not64 (sqbit 0)) ||| sqbit 0 := by
  apply Nat.eq_of_testBit_eq
  intro i
  simp only [Nat.testBit_or, Nat.testBit_and]
  cases (x.testBit i) <;> cases ((not64 (sqbit 0)).testBit i) <;> cases ((sqbit 0).testBit i) <;>
    rfl

/-- The Board left by the null move followed by `undo_move` of its record: every field is
the one before the null move except entry 0 of `pieces`, in which bit 0 is set. -/
theorem null_move_undo (z : Zobrist) (b : Board) (hocc : OccupanciesDerived b) :
    (b.make_move z (Move.mk 0 0 0 0 0 false false)).undo_move
        (b.undoInfo (Move.mk 0 0 0 0 0 false false)) =
      { b with pieces := setAt b.pieces 0 ((b.pieces 0 &&& not64 (sqbit 0)) ||| sqbit 0) } := by
  have hstm : (if (if b.side_to_move = Color.WHITE then Color.BLACK else Color.WHITE) =
      Color.WHITE then Color.BLACK else Color.WHITE) = b.side_to_move := by
    cases b.side_to_move <;> simp
  have hfm : (if b.side_to_move = Color.BLACK then
      (if b.side_to_move = Color.BLACK then b.fullmove_number + 1 else b.fullmove_number) - 1
      else (if b.side_to_move = Color.BLACK then b.fullmove_number + 1
        else b.fullmove_number)) = b.fullmove_number := by
    cases b.side_to_move <;> simp
  unfold Board.undo_move Board.make_move
  simp only [hstm, Board.update_occupancies, null_makePieces]
  rw [null_undoPieces _ _ _ rfl rfl rfl rfl rfl rfl rfl]
  simp only [Board.undoInfo, setAt_setAt, hfm]
  have h0 : setAt b.pieces 0 (b.pieces 0 &&& not64 (sqbit 0) ||| sqbit 0) 0 =
      b.pieces 0 &&& not64 (sqbit 0) ||| sqbit 0 := by simp [setAt]
  rw [h0, null_bit_twice]
  obtain ⟨hw, hk⟩ := orPieces_setAt_zero b.pieces (b.pieces 0 &&& not64 (sqbit 0) ||| sqbit 0)
  rw [hw, hk]
  have hderived := update_occupancies_of_derived hocc
  unfold Board.update_occupancies at hderived
  cases b with
  | mk pieces occupancies stm cr ep hm fm key =>
    simp only [Board.mk.injEq, and_true, true_and] at hderived ⊢
    funext i
    have hi := congrFun hderived i
    simp only [setAt] at hi ⊢
    by_cases h2 : i = 2 <;> by_cases h1 : i = 1 <;> by_cases h0 : i = 0 <;>
      simp [h0, h1, h2] at hi ⊢ <;> exact hi

/-- C34, refuted as stated: on the starting position `pieces[0]` is 0 before the null move
and 1 after the null move has been made and undone. -/
theorem C34_counterexample :
    (Board.set_from_fen zSample Board.init startFen).board.pieces 0 = 0 ∧
    (((Board.set_from_fen zSample Board.init startFen).board.make_move zSample
        (Move.mk 0 0 0 0 0 false false)).undo_move
      ((Board.set_from_fen zSample Board.init startFen).board.undoInfo
        (Move.mk 0 0 0 0 0 false false))).pieces 0 = 1 := by
  constructor <;> decide

/-- C34, amended: `make_move` of the all-zero Move flips `side_to_move`, sets
`enpassant_square` to `SQ_NONE`, leaves `zobrist_key` equal to `compute_zobrist_key` of the
resulting Board, and changes none of `pieces[1..12]` (it sets bit 0 of `pieces[0]`); on a Board
whose occupancies are the derived values, `undo_move` of its undo record restores every field
of the Board except `pieces[0]`, which keeps bit 0 set. -/
theorem C34_null_move (z : Zobrist) (b : Board) :
    (b.make_move z (Move.mk 0 0 0 0 0 false false)).side_to_move = b.side_to_move.other ∧
    (b.make_move z (Move.mk 0 0 0 0 0 false false)).enpassant_square = SQ_NONE ∧
    (b.make_move z (Move.mk 0 0 0 0 0 false false)).zobrist_key =
      compute_zobrist_key z (b.make_move z (Move.mk 0 0 0 0 0 false false)) ∧
    (∀ p, p ≠ 0 → (b.make_move z (Move.mk 0 0 0 0 0 false false)).pieces p = b.pieces p) ∧
    (b.make_move z (Move.mk 0 0 0 0 0 false false)).pieces 0 =
      (b.pieces 0 &&& not64 (sqbit 0)) ||| sqbit 0 ∧
    (OccupanciesDerived b →
      (b.make_move z (Move.mk 0 0 0 0 0 false false)).undo_move
          (b.undoInfo (Move.mk 0 0 0 0 0 false false)) =
        { b with
          pieces := setAt b.pieces 0 ((b.pieces 0 &&& not64 (sqbit 0)) ||| sqbit 0) }) := by
  have hp : (b.make_move z (Move.mk 0 0 0 0 0 false false)).pieces =
      setAt b.pieces 0 ((b.pieces 0 &&& not64 (sqbit 0)) ||| sqbit 0) := by
    rw [make_move_pieces]
    exact null_makePieces b
  refine ⟨?_, rfl, make_move_key z b _, ?_, ?_, null_move_undo z b⟩
  · rw [make_move_side]
    cases b.side_to_move <;> rfl
  · intro p hne
    rw [hp]
    simp [setAt, hne]
  · rw [hp]
    simp [setAt]

theorem C34_null_move_witness :
    ((Board.set_from_fen zSample Board.init startFen).board.make_move zSample
        (Move.mk 0 0 0 0 0 false false)).undo_move
      ((Board.set_from_fen zSample Board.init startFen).board.undoInfo
        (Move.mk 0 0 0 0 0 false false)) =
      { (Board.set_from_fen zSample Board.init startFen).board with
        pieces := setAt (Board.set_from_fen zSample Board.init startFen).board.pieces 0
          (((Board.set_from_fen zSample Board.init startFen).board.pieces 0 &&&
            not64 (sqbit 0)) ||| sqbit 0) } :=
  (C34_null_move zSample (Board.set_from_fen zSample Board.init startFen).board).2.2.2.2.2
    (start_inv zSample).wf.occ

theorem piece_value_bounds {p : Int} (h : p ∈ pieceRange) (hw : p ≠ WHITE_KING)
    (hb : p ≠ BLACK_KING) :
    PIECE_VALUES p ≤ 900 ∧ -90 ≤ Int.tdiv (PIECE_VALUES p) 10 := by
  simp only [pieceRange, List.mem_cons, List.mem_singleton, List.not_mem_nil, or_false] at h
  rcases h with rfl | rfl | rfl | rfl | rfl | rfl | rfl | rfl | rfl | rfl | rfl | rfl
  all_goals first
    | exact absurd rfl hw
    | exact absurd rfl hb
    | decide

theorem promo_value_bounds {p : Int} (h : p = 0 ∨ p ∈ whitePromos ∨ p ∈ blackPromos) :
    p = 0 ∨ 7000 + PIECE_VALUES p ≤ 7900 := by
  rcases h with h | h | h
  · exact Or.inl h
  · right
    simp only [whitePromos, List.mem_cons, List.mem_singleton, List.not_mem_nil, or_false] at h
    rcases h with rfl | rfl | rfl | rfl <;> decide
  · right
    simp only [blackPromos, List.mem_cons, List.mem_singleton, List.not_mem_nil, or_false] at h
    rcases h with rfl | rfl | rfl | rfl <;> decide

/-- C39, refuted as stated: with the all-zero killer table, depth 1 and the move e2e4 as
`tt_move`, the capture of the White king by a Black pawn does not equal `tt_move` and scores
`9000 + 20000 - (-100) / 10 = 29010`, and the capture of a White queen by the Black king
scores `9000 + 900 - (-20000) / 10 = 11900`; both are above the 10000 of the
transposition-table move. -/
theorem C39_counterexample :
    Searcher.init.score_move (Move.mk 12 28 WHITE_PAWN 0 0 false false)
      (Move.mk 12 28 WHITE_PAWN 0 0 false false) 1 = 10000 ∧
    (Move.mk 13 4 BLACK_PAWN WHITE_KING 0 false false).equals
      (Move.mk 12 28 WHITE_PAWN 0 0 false false) = false ∧
    Searcher.init.score_move (Move.mk 13 4 BLACK_PAWN WHITE_KING 0 false false)
      (Move.mk 12 28 WHITE_PAWN 0 0 false false) 1 = 29010 ∧
    (Move.mk 60 52 BLACK_KING WHITE_QUEEN 0 false false).equals
      (Move.mk 12 28 WHITE_PAWN 0 0 false false) = false ∧
    Searcher.init.score_move (Move.mk 60 52 BLACK_KING WHITE_QUEEN 0 false false)
      (Move.mk 12 28 WHITE_PAWN 0 0 false false) 1 = 11900 := by
  refine ⟨by decide, by decide, by decide, by decide, by decide⟩

/-- C39, amended: every move `m` that equals `tt_move` under `operator==` (same `from`, `to`,
`piece` and `promotion`, whatever `captured` and the flags) scores 10000.  A move that does
not equal it scores below 10000 when neither its piece nor its captured piece is a king and
its promotion is none or a knight, bishop, rook or queen: a capture scores
`9000 + PIECE_VALUES[captured] - PIECE_VALUES[piece] / 10`, at most 9990, and a move that
captures nothing scores at most 8000. -/
theorem C39_score_move_of_tt_move (s : Searcher) (m tt_move : Move) (depth : Int) :
    (m.equals tt_move = true → s.score_move m tt_move depth = 10000) ∧
    (m.equals tt_move = false →
      (m.piece ∈ pieceRange ∧ m.piece ≠ WHITE_KING ∧ m.piece ≠ BLACK_KING) →
      (m.captured = 0 ∨
        (m.captured ∈ pieceRange ∧ m.captured ≠ WHITE_KING ∧ m.captured ≠ BLACK_KING)) →
      (m.promotion = 0 ∨ m.promotion ∈ whitePromos ∨ m.promotion ∈ blackPromos) →
      (m.captured ≠ 0 →
        s.score_move m tt_move depth =
          9000 + PIECE_VALUES m.captured - Int.tdiv (PIECE_VALUES m.piece) 10 ∧
        s.score_move m tt_move depth ≤ 9990) ∧
      (m.captured = 0 → s.score_move m tt_move depth ≤ 8000) ∧
      s.score_move m tt_move depth < 10000) := by
  constructor
  · intro heq
    unfold Searcher.score_move
    rw [if_pos heq]
  intro hne hpiece hcap hpromo
  have hc : m.captured ≠ 0 → s.score_move m tt_move depth =
        9000 + PIECE_VALUES m.captured - Int.tdiv (PIECE_VALUES m.piece) 10 ∧
      s.score_move m tt_move depth ≤ 9990 := by
    intro h0
    have hv := score_move_capture s depth hne h0
    rcases hcap with h | ⟨h1, h2, h3⟩
    · exact absurd h h0
    · have b1 := (piece_value_bounds h1 h2 h3).1
      have b2 := (piece_value_bounds hpiece.1 hpiece.2.1 hpiece.2.2).2
      exact ⟨hv, by rw [hv]; omega⟩
  have hq : m.captured = 0 → s.score_move m tt_move depth ≤ 8000 := by
    intro h0
    unfold Searcher.score_move
    rw [if_neg (by simp [hne]), if_neg (by simp [h0])]
    split
    · omega
    · split
      · omega
      · split
        · rename_i hp
          rcases promo_value_bounds hpromo with h | h
          · exact absurd h hp
          · omega
        · omega
  refine ⟨hc, hq, ?_⟩
  by_cases h0 : m.captured = 0
  · have := hq h0
    omega
  · have := (hc h0).2
    omega

theorem C39_score_move_of_tt_move_witness :
    Searcher.init.score_move (Move.mk 12 21 WHITE_PAWN BLACK_QUEEN 0 true false)
      (Move.mk 12 21 WHITE_PAWN 0 0 false false) 1 = 10000 ∧
    Searcher.init.score_move (Move.mk 12 21 WHITE_PAWN BLACK_QUEEN 0 false false)
      (Move.mk 12 28 WHITE_PAWN 0 0 false false) 1 < 10000 :=
  ⟨(C39_score_move_of_tt_move Searcher.init (Move.mk 12 21 WHITE_PAWN BLACK_QUEEN 0 true false)
      (Move.mk 12 21 WHITE_PAWN 0 0 false false) 1).1 (by decide),
   ((C39_score_move_of_tt_move Searcher.init
      (Move.mk 12 21 WHITE_PAWN BLACK_QUEEN 0 false false)
      (Move.mk 12 28 WHITE_PAWN 0 0 false false) 1).2 (by decide) (by decide)
      (Or.inr (by decide)) (Or.inl rfl)).2.2⟩

/-! ## Bounds of the quiescence search -/

/-- The invariant of the move loop of `quiescence`: either a `return beta` has been taken, or
`alpha` lies between its starting value and `beta`. -/
theorem quiescenceStep_inv (env : SearchEnv)
    (sub : Searcher → Board → Int → Int → SearchResult) (lo beta : Int) (st : QLoop)
    (move : Move)
    (h : st.ret = some beta ∨ (st.ret = none ∧ lo ≤ st.alpha ∧ st.alpha < beta)) :
    (quiescenceStep env sub beta st move).ret = some beta ∨
      ((quiescenceStep env sub beta st move).ret = none ∧
        lo ≤ (quiescenceStep env sub beta st move).alpha ∧
        (quiescenceStep env sub beta st move).alpha < beta) := by
  obtain ⟨s0, b0, a0, r0⟩ := st
  rcases h with h | ⟨hnone, hlo, hhi⟩
  · simp only at h
    subst h
    exact Or.inl rfl
  · simp only at hnone hlo hhi
    subst hnone
    unfold quiescenceStep
    simp only []
    by_cases hchk : (b0.make_move env.z move).in_check env.t
        (b0.make_move env.z move).side_to_move.other = true
    · rw [if_pos hchk]
      exact Or.inr ⟨rfl, hlo, hhi⟩
    · rw [if_neg hchk]
      generalize (sub s0 (b0.make_move env.z move) (-beta) (-a0)) = r
      by_cases hcut : -r.value ≥ beta
      · rw [if_pos hcut]
        exact Or.inl rfl
      · rw [if_neg hcut]
        refine Or.inr ⟨rfl, ?_, ?_⟩
        · show lo ≤ if -r.value > a0 then -r.value else a0
          split <;> omega
        · show (if -r.value > a0 then -r.value else a0) < beta
          split <;> omega

theorem quiescenceLoop_inv (env : SearchEnv)
    (sub : Searcher → Board → Int → Int → SearchResult) (lo beta : Int) :
    ∀ (moves : List Move) (st : QLoop),
      (st.ret = some beta ∨ (st.ret = none ∧ lo ≤ st.alpha ∧ st.alpha < beta)) →
      ((moves.foldl (quiescenceStep env sub beta) st).ret = some beta ∨
        ((moves.foldl (quiescenceStep env sub beta) st).ret = none ∧
          lo ≤ (moves.foldl (quiescenceStep env sub beta) st).alpha ∧
          (moves.foldl (quiescenceStep env sub beta) st).alpha < beta))
  | [], _, h => h
  | m :: ms, st, h => by
    rw [List.foldl_cons]
    exact quiescenceLoop_inv env sub lo beta ms _ (quiescenceStep_inv env sub lo beta st m h)

/-- With the move loop (`depth < 8`) the value of `quiescence` lies in `[alpha, beta]`. -/
theorem quiescenceBody_some_bounds (env : SearchEnv)
    (q : Searcher → Board → Int → Int → SearchResult) (s : Searcher) (board : Board)
    (alpha beta : Int) (h : alpha < beta) :
    alpha ≤ (quiescenceBody env (some q) s board alpha beta).value ∧
      (quiescenceBody env (some q) s board alpha beta).value ≤ beta := by
  unfold quiescenceBody
  simp only []
  by_cases hsp : Evaluator.evaluate env.e board ≥ beta
  · rw [if_pos hsp]
    exact ⟨by show alpha ≤ beta; omega, by show beta ≤ beta; omega⟩
  · rw [if_neg hsp]
    have hinv := quiescenceLoop_inv env q alpha beta
      (MoveGenerator.generate_captures env.t board)
      { s := { s with stats := { s.stats with qnodes := s.stats.qnodes + 1 } }, board := board,
        alpha := if alpha < Evaluator.evaluate env.e board then Evaluator.evaluate env.e board
          else alpha,
        ret := none }
      (Or.inr ⟨rfl, by show alpha ≤ if _ then _ else _; split <;> omega,
        by show (if _ then _ else _) < beta; split <;> omega⟩)
    generalize (MoveGenerator.generate_captures env.t board).foldl (quiescenceStep env q beta) _
      = st at hinv ⊢
    show alpha ≤ st.ret.getD st.alpha ∧ st.ret.getD st.alpha ≤ beta
    rcases hinv with hret | ⟨hnone, hlo, hhi⟩
    · rw [hret]
      exact ⟨by show alpha ≤ beta; omega, by show beta ≤ beta; omega⟩
    · rw [hnone]
      exact ⟨hlo, by show st.alpha ≤ beta; omega⟩

/-- At `depth >= 8` the value of `quiescence` is `beta` or the static evaluation. -/
theorem quiescenceBody_none_value (env : SearchEnv) (s : Searcher) (board : Board)
    (alpha beta : Int) :
    (quiescenceBody env none s board alpha beta).value =
      if Evaluator.evaluate env.e board ≥ beta then beta else Evaluator.evaluate env.e board := by
  unfold quiescenceBody
  simp only []
  split <;> rfl

/-- C38, refuted as stated: on 8/8/8/8/8/8/8/4K2k with White to move the static evaluation is
-30, and `quiescence(board, 0, 100, 8)` returns -30, which is below `alpha = 0`. -/
theorem C38_counterexample :
    (0 : Int) < 100 ∧ (0 : Int) ≤ 8 ∧ (8 : Int) ≤ 8 ∧
    (Searcher.quiescence envSample Searcher.init
      (loadFen zSample "8/8/8/8/8/8/8/4K2k w - - 0 1") 0 100 8).value = -30 := by
  refine ⟨by decide, by decide, by decide, by decide⟩

/-- C38, amended: for every `alpha < beta`, every Searcher and Board and every `depth < 8`
(in particular the depth 0 at which `alpha_beta` calls it), the value `v` returned by
`quiescence(board, alpha, beta, depth)` satisfies `alpha <= v <= beta`; for `depth >= 8` the
value is `beta` when the static evaluation is at least `beta` and the static evaluation
otherwise, so `v <= beta` still holds but `v` can be below `alpha`. -/
theorem C38_quiescence_bounds (env : SearchEnv) (s : Searcher) (board : Board)
    (alpha beta depth : Int) (h : alpha < beta) :
    (depth < 8 →
      alpha ≤ (Searcher.quiescence env s board alpha beta depth).value ∧
      (Searcher.quiescence env s board alpha beta depth).value ≤ beta) ∧
    (8 ≤ depth →
      (Searcher.quiescence env s board alpha beta depth).value =
        (if Evaluator.evaluate env.e board ≥ beta then beta
         else Evaluator.evaluate env.e board) ∧
      (Searcher.quiescence env s board alpha beta depth).value ≤ beta) := by
  constructor
  · intro hd
    obtain ⟨rem, hrem⟩ : ∃ rem, (8 - depth).toNat = rem + 1 := ⟨(8 - depth).toNat - 1, by omega⟩
    unfold Searcher.quiescence
    rw [hrem]
    exact quiescenceBody_some_bounds env _ s board alpha beta h
  · intro hd
    have hrem : (8 - depth).toNat = 0 := by omega
    unfold Searcher.quiescence
    rw [hrem]
    have hv := quiescenceBody_none_value env s board alpha beta
    refine ⟨hv, ?_⟩
    show (quiescenceBody env none s board alpha beta).value ≤ beta
    rw [hv]
    split <;> omega

theorem C38_quiescence_bounds_witness :
    (-1000000 : Int) ≤ (Searcher.quiescence envSample Searcher.init
      (Board.set_from_fen zSample Board.init startFen).board (-1000000) 1000000 0).value ∧
    (Searcher.quiescence envSample Searcher.init
      (Board.set_from_fen zSample Board.init startFen).board (-1000000) 1000000 0).value
      ≤ 1000000 :=
  (C38_quiescence_bounds envSample Searcher.init
    (Board.set_from_fen zSample Board.init startFen).board (-1000000) 1000000 0
    (by decide)).1 (by decide)

/-! ## The move loop of `handle_position` -/

theorem nextToken_rest_lt (ss : List Char) (h : (nextToken ss).1 ≠ []) :
    (nextToken ss).2.length < ss.length := by
  unfold nextToken at h ⊢
  simp only [] at h ⊢
  have h1 : (ss.dropWhile isSpace).length ≤ ss.length := (List.dropWhile_sublist _).length_le
  have h2 := congrArg List.length
    (List.takeWhile_append_dropWhile (fun c => ! isSpace c) (ss.dropWhile isSpace))
  rw [List.length_append] at h2
  have h3 : 0 < ((ss.dropWhile isSpace).takeWhile (fun c => ! isSpace c)).length :=
    List.length_pos.2 h
  omega

/-- One round of the loop `while (ss >> token)`. -/
theorem applyMoves_succ (z : Zobrist) (stale : Int) (fuel : Nat) (ss : List Char) (board : Board)
    (h : (nextToken ss).1 ≠ []) :
    applyMoves z stale (fuel + 1) ss board =
      applyMoves z stale fuel (nextToken ss).2
        (if (uci_to_move stale (nextToken ss).1 board).from_ ≠ -1 then
          board.make_move z (uci_to_move stale (nextToken ss).1 board)
        else board) := by
  rw [applyMoves]
  simp only [if_neg h]

theorem applyMoves_end (z : Zobrist) (stale : Int) (fuel : Nat) (ss : List Char) (board : Board)
    (h : (nextToken ss).1 = []) : applyMoves z stale fuel ss board = board := by
  cases fuel with
  | zero => rfl
  | succ n =>
    rw [applyMoves]
    simp only [if_pos h]

/-- Fuel adequacy of the move loop: more rounds than the stream has characters are never
used. -/
theorem applyMoves_fuel (z : Zobrist) (stale : Int) :
    ∀ (n : Nat) (ss : List Char) (board : Board) (fuel : Nat), ss.length < n → ss.length < fuel →
      applyMoves z stale fuel ss board = applyMoves z stale n ss board := by
  intro n
  induction n with
  | zero => intro ss _ _ h; omega
  | succ n ih =>
    intro ss board fuel hn hf
    obtain ⟨f, rfl⟩ : ∃ f, fuel = f + 1 := ⟨fuel - 1, by omega⟩
    by_cases h : (nextToken ss).1 = []
    · rw [applyMoves_end z stale _ ss board h, applyMoves_end z stale _ ss board h]
    · have hlt := nextToken_rest_lt ss h
      rw [applyMoves_succ z stale f ss board h, applyMoves_succ z stale n ss board h]
      exact ih _ _ f (by omega) (by omega)

theorem Color.other_ne (c : Color) : c.other ≠ c := by
  cases c <;> decide

theorem applyMoves_space (z : Zobrist) (stale : Int) (fuel : Nat) (ss : List Char)
    (board : Board) :
    applyMoves z stale (fuel + 1) (' ' :: ss) board = applyMoves z stale (fuel + 1) ss board := by
  rw [applyMoves, applyMoves, nextToken_space]

theorem handle_position_moves (z : Zobrist) (stale : Int) (u : UCI) (ss : List Char) :
    (UCI.handle_position z stale u ("moves".toList ++ ' ' :: ss)).uci.board =
      applyMoves z stale (ss.length + 1) ss u.board := by
  unfold UCI.handle_position
  rw [nextToken_word (by decide) (by intro c hc; revert c; decide) ss]
  simp only []
  rw [if_neg (by decide), if_neg (by decide)]
  simp only [if_true]
  show applyMoves z stale ((' ' :: ss).length + 1) (' ' :: ss) u.board = _
  rw [applyMoves_space]
  exact applyMoves_fuel z stale _ ss u.board _ (by omega)
    (by simp only [List.length_cons]; omega)

/-- C31, refuted as stated: the token `e2e4x` is not a move in algebraic coordinates
(its fifth character is no promotion letter), yet `position`'s move loop applies it to the
starting position: afterwards the White pawn of e2 (12) stands on e4 (28) and Black is to
move. -/
theorem C31_counterexample :
    ¬ IsCoordinateToken "e2e4x".toList ∧
    (UCI.atStart zSample).board.side_to_move = Color.WHITE ∧
    hasBit ((UCI.atStart zSample).board.pieces WHITE_PAWN) 12 ∧
    ¬ hasBit ((UCI.atStart zSample).board.pieces WHITE_PAWN) 28 ∧
    (UCI.handle_position zSample 0 (UCI.atStart zSample)
      "moves e2e4x".toList).uci.board.side_to_move = Color.BLACK ∧
    ¬ hasBit ((UCI.handle_position zSample 0 (UCI.atStart zSample)
      "moves e2e4x".toList).uci.board.pieces WHITE_PAWN) 12 ∧
    hasBit ((UCI.handle_position zSample 0 (UCI.atStart zSample)
      "moves e2e4x".toList).uci.board.pieces WHITE_PAWN) 28 := by
  refine ⟨by decide, by decide, by decide, by decide, by decide, by decide, by decide⟩

/-- C31, amended: the move loop of `handle_position` (the command `position moves ...`)
takes the words of the line one by one.  A word is rejected, and the Board left as it is,
exactly when `uci_to_move` returns `from == -1`: every word shorter than four characters is
rejected, and for a word of four or more characters `from` is computed from its first two
characters alone, as `(c0 - 'a') + (c1 - '1') * 8`, with no test of the files, the ranks,
the length or the promotion letter.  Every word that is not rejected is handed to
`make_move`, which changes the Board (the side to move is flipped), whether or not the word
has the form of a move. -/
theorem C31_move_loop (z : Zobrist) (stale : Int) (u : UCI) (ss : List Char)
    (h : (nextToken ss).1 ≠ []) :
    (UCI.handle_position z stale u ("moves".toList ++ ' ' :: ss)).uci.board =
      applyMoves z stale (ss.length + 1) ss u.board ∧
    applyMoves z stale (ss.length + 1) ss u.board =
      applyMoves z stale ((nextToken ss).2.length + 1) (nextToken ss).2
        (if (uci_to_move stale (nextToken ss).1 u.board).from_ ≠ -1 then
          u.board.make_move z (uci_to_move stale (nextToken ss).1 u.board)
        else u.board) ∧
    ((nextToken ss).1.length < 4 → (uci_to_move stale (nextToken ss).1 u.board).from_ = -1) ∧
    (4 ≤ (nextToken ss).1.length →
      (uci_to_move stale (nextToken ss).1 u.board).from_ =
        (charVal ((nextToken ss).1.getD 0 ' ') - charVal 'a') +
          (charVal ((nextToken ss).1.getD 1 ' ') - charVal '1') * 8) ∧
    (u.board.make_move z (uci_to_move stale (nextToken ss).1 u.board)).side_to_move =
      u.board.side_to_move.other ∧
    u.board.make_move z (uci_to_move stale (nextToken ss).1 u.board) ≠ u.board := by
  have hside : (u.board.make_move z (uci_to_move stale (nextToken ss).1 u.board)).side_to_move =
      u.board.side_to_move.other := by
    rw [make_move_side]
    cases u.board.side_to_move <;> rfl
  refine ⟨handle_position_moves z stale u ss, ?_, ?_, ?_, hside, ?_⟩
  · rw [applyMoves_succ z stale _ ss u.board h]
    exact applyMoves_fuel z stale _ _ _ _ (by omega) (nextToken_rest_lt ss h)
  · intro hlen
    unfold uci_to_move
    rw [if_pos hlen]
  · intro hlen
    unfold uci_to_move
    rw [if_neg (by omega)]
  · intro heq
    rw [heq] at hside
    exact Color.other_ne _ hside.symm

theorem C31_move_loop_witness :
    (UCI.handle_position zSample 0 (UCI.atStart zSample)
      ("moves".toList ++ ' ' :: "e2e4x".toList)).uci.board =
      applyMoves zSample 0 ("e2e4x".toList.length + 1) "e2e4x".toList
        (UCI.atStart zSample).board :=
  (C31_move_loop zSample 0 (UCI.atStart zSample) "e2e4x".toList (by decide)).1

/-! ## The ray walk of `get_slider_attacks` -/

theorem rayLoop_hasBit (occ : Nat) (dr df : Int) : ∀ (n : Nat) (rr ff : Int) (attacks : Nat)
    (t : Int),
    hasBit (rayLoop occ dr df n rr ff attacks) t ↔
      hasBit attacks t ∨ WalkHits occ dr df n rr ff t := by
  intro n
  induction n with
  | zero =>
    intro rr ff attacks t
    simp only [rayLoop, WalkHits]
    constructor
    · exact Or.inl
    · rintro (h | ⟨k, hk, -⟩)
      · exact h
      · omega
  | succ n ih =>
    intro rr ff attacks t
    by_cases hin : 0 ≤ rr ∧ rr < 8 ∧ 0 ≤ ff ∧ ff < 8
    · have hs : 0 ≤ rr * 8 + ff ∧ rr * 8 + ff < 64 := by omega
      by_cases hocc : occ &&& sqbit (rr * 8 + ff) ≠ 0
      · have e : rayLoop occ dr df (n + 1) rr ff attacks = attacks ||| sqbit (rr * 8 + ff) := by
          rw [rayLoop, if_pos hin]
          simp only [if_pos hocc]
        rw [e, hasBit_or, hasBit_sqbit]
        constructor
        · rintro (h | ⟨-, h⟩)
          · exact Or.inl h
          · refine Or.inr ⟨0, by omega, by simpa using hin, by simpa using h, ?_⟩
            intro j hj
            omega
        · rintro (h | ⟨k, hk, hon, ht, hprev⟩)
          · exact Or.inl h
          · by_cases hk0 : k = 0
            · subst hk0
              simp only [Nat.cast_zero, zero_mul, add_zero] at ht
              exact Or.inr ⟨by omega, ht⟩
            · have h0 := (hprev 0 (by omega)).2
              simp only [Nat.cast_zero, zero_mul, add_zero] at h0
              exact absurd hocc h0
      · have e : rayLoop occ dr df (n + 1) rr ff attacks =
            rayLoop occ dr df n (rr + dr) (ff + df) (attacks ||| sqbit (rr * 8 + ff)) := by
          rw [rayLoop, if_pos hin]
          simp only [if_neg hocc]
        rw [e, ih, hasBit_or, hasBit_sqbit]
        constructor
        · rintro ((h | ⟨-, h⟩) | ⟨k, hk, hon, ht, hprev⟩)
          · exact Or.inl h
          · refine Or.inr ⟨0, by omega, by simpa using hin, by simpa using h, ?_⟩
            intro j hj
            omega
          · have c1 : rr + ((k + 1 : Nat) : Int) * dr = rr + dr + k * dr := by push_cast; ring
            have c2 : ff + ((k + 1 : Nat) : Int) * df = ff + df + k * df := by push_cast; ring
            refine Or.inr ⟨k + 1, by omega, by rw [c1, c2]; exact hon, by rw [c1, c2]; exact ht, ?_⟩
            intro j hj
            by_cases hj0 : j = 0
            · subst hj0
              simp only [Nat.cast_zero, zero_mul, add_zero]
              exact ⟨hin, hocc⟩
            · obtain ⟨i, rfl⟩ : ∃ i, j = i + 1 := ⟨j - 1, by omega⟩
              have d1 : rr + ((i + 1 : Nat) : Int) * dr = rr + dr + i * dr := by push_cast; ring
              have d2 : ff + ((i + 1 : Nat) : Int) * df = ff + df + i * df := by push_cast; ring
              rw [d1, d2]
              exact hprev i (by omega)
        · rintro (h | ⟨k, hk, hon, ht, hprev⟩)
          · exact Or.inl (Or.inl h)
          · by_cases hk0 : k = 0
            · subst hk0
              simp only [Nat.cast_zero, zero_mul, add_zero] at ht
              exact Or.inl (Or.inr ⟨by omega, ht⟩)
            · obtain ⟨i, rfl⟩ : ∃ i, k = i + 1 := ⟨k - 1, by omega⟩
              have c1 : rr + ((i + 1 : Nat) : Int) * dr = rr + dr + i * dr := by push_cast; ring
              have c2 : ff + ((i + 1 : Nat) : Int) * df = ff + df + i * df := by push_cast; ring
              rw [c1, c2] at hon ht
              refine Or.inr ⟨i, by omega, hon, ht, ?_⟩
              intro j hj
              have d1 : rr + ((j + 1 : Nat) : Int) * dr = rr + dr + j * dr := by push_cast; ring
              have d2 : ff + ((j + 1 : Nat) : Int) * df = ff + df + j * df := by push_cast; ring
              have := hprev (j + 1) (by omega)
              rw [d1, d2] at this
              exact this
    · have e : rayLoop occ dr df (n + 1) rr ff attacks = attacks := by
        rw [rayLoop, if_neg hin]
      rw [e]
      constructor
      · exact Or.inl
      · rintro (h | ⟨k, hk, hon, ht, hprev⟩)
        · exact h
        · by_cases hk0 : k = 0
          · subst hk0
            simp only [Nat.cast_zero, zero_mul, add_zero] at hon
            exact absurd hon hin
          · have h0 := (hprev 0 (by omega)).1
            simp only [Nat.cast_zero, zero_mul, add_zero] at h0
            exact absurd h0 hin

theorem rayLoop_lt (occ : Nat) (dr df : Int) : ∀ (n : Nat) (rr ff : Int) (attacks : Nat),
    attacks < TWO64 → rayLoop occ dr df n rr ff attacks < TWO64 := by
  intro n
  induction n with
  | zero => intro rr ff attacks h; exact h
  | succ n ih =>
    intro rr ff attacks h
    rw [rayLoop]
    split
    · simp only []
      split
      · exact or_lt_TWO64 h (sqbit_lt _)
      · exact ih _ _ _ (or_lt_TWO64 h (sqbit_lt _))
    · exact h

theorem sliderFold_hasBit (occ : Nat) (r f : Int) (t : Int) :
    ∀ (dirs : List (Int × Int)) (a0 : Nat),
      hasBit (dirs.foldl (fun attacks d => rayLoop occ d.1 d.2 8 (r + d.1) (f + d.2) attacks) a0)
          t ↔
        hasBit a0 t ∨ ∃ d ∈ dirs, WalkHits occ d.1 d.2 8 (r + d.1) (f + d.2) t
  | [], a0 => by simp
  | d :: ds, a0 => by
    rw [List.foldl_cons, sliderFold_hasBit occ r f t ds, rayLoop_hasBit]
    simp only [List.mem_cons, exists_eq_or_imp]
    tauto

theorem sliderFold_lt (occ : Nat) (r f : Int) :
    ∀ (dirs : List (Int × Int)) (a0 : Nat), a0 < TWO64 →
      dirs.foldl (fun attacks d => rayLoop occ d.1 d.2 8 (r + d.1) (f + d.2) attacks) a0 < TWO64
  | [], a0, h => h
  | d :: ds, a0, h => by
    rw [List.foldl_cons]
    exact sliderFold_lt occ r f ds _ (rayLoop_lt occ _ _ _ _ _ _ h)

theorem sliderDirs_eq_walkDirs {bishop rook : Bool} (h : bishop = true ∨ rook = true) :
    sliderDirs bishop rook = walkDirs bishop rook := by
  cases bishop <;> cases rook <;> simp [sliderDirs, walkDirs, dirsB, dirsR] at h ⊢

theorem walkDirs_unit {bishop rook : Bool} {d : Int × Int} (hd : d ∈ walkDirs bishop rook) :
    (d.1 = 1 ∨ d.1 = 0 ∨ d.1 = -1) ∧ (d.2 = 1 ∨ d.2 = 0 ∨ d.2 = -1) ∧ (d.1 ≠ 0 ∨ d.2 ≠ 0) := by
  obtain ⟨dr, df⟩ := d
  cases bishop <;> cases rook <;>
    simp only [walkDirs, List.mem_append, List.mem_cons, Prod.mk.injEq, List.mem_singleton,
      List.not_mem_nil, or_false, false_or, if_true, if_false, Bool.false_eq_true] at hd ⊢ <;>
    omega

theorem walkHits_iff_reaches (occ : Nat) {sq : Int} (hsq : 0 ≤ sq ∧ sq < 64) {dr df : Int}
    (hdr : dr = 1 ∨ dr = 0 ∨ dr = -1) (hdf : df = 1 ∨ df = 0 ∨ df = -1)
    (hne : dr ≠ 0 ∨ df ≠ 0) (t : Int) :
    WalkHits occ dr df 8 (rank_of sq + dr) (file_of sq + df) t ↔ RayReaches occ sq dr df t := by
  have hr : 0 ≤ rank_of sq ∧ rank_of sq < 8 := by unfold rank_of; omega
  have hf : 0 ≤ file_of sq ∧ file_of sq < 8 := by unfold file_of; omega
  generalize hR : rank_of sq = r at hr
  generalize hF : file_of sq = f at hf
  unfold WalkHits RayReaches walkSquare
  rw [hR, hF]
  have step : ∀ (x d : Int) (i : Nat), x + ((i + 1 : Nat) : Int) * d = x + d + i * d := by
    intro x d i
    push_cast
    ring
  constructor
  · rintro ⟨k, hk, hon, ht, hprev⟩
    refine ⟨k + 1, ?_, by omega, ?_, ?_, ?_⟩
    · rcases hdr with h | h | h <;> rcases hdf with h2 | h2 | h2 <;> subst h <;> subst h2 <;>
        omega
    · rw [step, step]
      exact hon
    · rw [step, step]
      exact ht
    · intro j hj hj1
      obtain ⟨i, rfl⟩ : ∃ i, j = i + 1 := ⟨j - 1, by omega⟩
      rw [step, step]
      exact (hprev i (by omega)).2
  · rintro ⟨k, hk, hk1, hon, ht, hprev⟩
    obtain ⟨i, rfl⟩ : ∃ i, k = i + 1 := ⟨k - 1, by omega⟩
    rw [step, step] at hon ht
    refine ⟨i, by omega, hon, ht, ?_⟩
    intro j hj
    constructor
    · have hji : (j : Int) < i := by exact_mod_cast hj
      have hj0 : (0 : Int) ≤ j := Int.ofNat_nonneg j
      generalize (j : Int) = J at hji hj0 ⊢
      generalize (i : Int) = I at hji hon ⊢
      rcases hdr with h | h | h <;> rcases hdf with h2 | h2 | h2 <;> subst h <;> subst h2 <;>
        omega
    · have := hprev (j + 1) (by omega) (by omega)
      rw [step, step] at this
      exact this

theorem walkSquare_ne (sq : Int) {dr df : Int}
    (hdr : dr = 1 ∨ dr = 0 ∨ dr = -1) (hdf : df = 1 ∨ df = 0 ∨ df = -1)
    (hne : dr ≠ 0 ∨ df ≠ 0) {j : Nat} (hj : 1 ≤ j) : walkSquare sq dr df j ≠ sq := by
  unfold walkSquare rank_of file_of
  have hj1 : (1 : Int) ≤ j := by exact_mod_cast hj
  generalize (j : Int) = J at hj1 ⊢
  rcases hdr with h | h | h <;> rcases hdf with h2 | h2 | h2 <;> subst h <;> subst h2 <;> omega

theorem rayReaches_congr {occ1 occ2 : Nat} {sq : Int}
    (h : ∀ t, t ≠ sq → (hasBit occ1 t ↔ hasBit occ2 t)) {dr df : Int}
    (hdr : dr = 1 ∨ dr = 0 ∨ dr = -1) (hdf : df = 1 ∨ df = 0 ∨ df = -1)
    (hne : dr ≠ 0 ∨ df ≠ 0) (t : Int) :
    RayReaches occ1 sq dr df t → RayReaches occ2 sq dr df t := by
  rintro ⟨k, hk, hk1, hon, ht, hprev⟩
  refine ⟨k, hk, hk1, hon, ht, ?_⟩
  intro j hj hj1 hbit
  exact hprev j hj hj1 ((h _ (walkSquare_ne sq hdr hdf hne hj1)).2 hbit)

theorem get_slider_attacks_hasBit (board : Board) {sq : Int} (hsq : 0 ≤ sq ∧ sq < 64)
    {bishop rook : Bool} (hbr : bishop = true ∨ rook = true) (t : Int) :
    hasBit (get_slider_attacks sq board bishop rook) t ↔
      SliderReaches (board.occupancies 2) sq bishop rook t := by
  unfold get_slider_attacks SliderReaches
  simp only []
  rw [sliderFold_hasBit, sliderDirs_eq_walkDirs hbr]
  constructor
  · rintro (h | ⟨d, hd, hw⟩)
    · exact absurd h (hasBit_zero t)
    · obtain ⟨h1, h2, h3⟩ := walkDirs_unit hd
      exact ⟨d, hd, (walkHits_iff_reaches _ hsq h1 h2 h3 t).1 hw⟩
  · rintro ⟨d, hd, hw⟩
    obtain ⟨h1, h2, h3⟩ := walkDirs_unit hd
    exact Or.inr ⟨d, hd, (walkHits_iff_reaches _ hsq h1 h2 h3 t).2 hw⟩

theorem get_slider_attacks_lt (board : Board) (sq : Int) (bishop rook : Bool) :
    get_slider_attacks sq board bishop rook < TWO64 := by
  unfold get_slider_attacks
  exact sliderFold_lt _ _ _ _ 0 (by decide)

/-- C35: for a square `sq` of the board and a bishop, a rook or both, the bitboard
`get_slider_attacks(sq, board, bishop, rook)` is a 64-bit word whose set squares are exactly
the squares reached by walking from `sq` in each of the four diagonal directions (bishop),
the four orthogonal directions (rook) or all eight (both), up to the board edge or the first
square set in `occupancies[2]`, that square included; it never contains `sq`, and it is the
same for any two Boards whose `occupancies[2]` differ at most in the bit of `sq`. -/
theorem C35_get_slider_attacks_walk (board : Board) (sq : Int) (bishop rook : Bool)
    (hsq : 0 ≤ sq ∧ sq < 64) (hbr : bishop = true ∨ rook = true) :
    (∀ t, hasBit (get_slider_attacks sq board bishop rook) t ↔
      SliderReaches (board.occupancies 2) sq bishop rook t) ∧
    get_slider_attacks sq board bishop rook < TWO64 ∧
    ¬ hasBit (get_slider_attacks sq board bishop rook) sq ∧
    (∀ board2 : Board,
      (∀ t, t ≠ sq → (hasBit (board2.occupancies 2) t ↔ hasBit (board.occupancies 2) t)) →
      get_slider_attacks sq board2 bishop rook = get_slider_attacks sq board bishop rook) := by
  refine ⟨get_slider_attacks_hasBit board hsq hbr, get_slider_attacks_lt board sq bishop rook,
    ?_, ?_⟩
  · rw [get_slider_attacks_hasBit board hsq hbr]
    rintro ⟨d, hd, k, hk, hk1, hon, ht, -⟩
    obtain ⟨h1, h2, h3⟩ := walkDirs_unit hd
    exact walkSquare_ne sq h1 h2 h3 hk1 ht.symm
  · intro board2 hocc
    apply eq_of_hasBit (get_slider_attacks_lt _ _ _ _) (get_slider_attacks_lt _ _ _ _)
    intro t
    rw [get_slider_attacks_hasBit board2 hsq hbr, get_slider_attacks_hasBit board hsq hbr]
    constructor
    · rintro ⟨d, hd, hw⟩
      obtain ⟨h1, h2, h3⟩ := walkDirs_unit hd
      exact ⟨d, hd, rayReaches_congr hocc h1 h2 h3 t hw⟩
    · rintro ⟨d, hd, hw⟩
      obtain ⟨h1, h2, h3⟩ := walkDirs_unit hd
      exact ⟨d, hd, rayReaches_congr (fun t ht => (hocc t ht).symm) h1 h2 h3 t hw⟩

theorem C35_get_slider_attacks_walk_witness :
    ¬ hasBit (get_slider_attacks 0
      (Board.set_from_fen zSample Board.init startFen).board false true) 0 :=
  (C35_get_slider_attacks_walk (Board.set_from_fen zSample Board.init startFen).board 0 false
    true (by decide) (by decide)).2.2.1

/-! ## Round trip of a generated move through its algebraic text -/

theorem file_char (k : Int) (h0 : 0 ≤ k) (h1 : k < 8) :
    charVal (charOfInt (charVal 'a' + k)) - charVal 'a' = k := by
  interval_cases k <;> decide

theorem rank_char (k : Int) (h0 : 0 ≤ k) (h1 : k < 8) :
    charVal (charOfInt (charVal '1' + k)) - charVal '1' = k := by
  interval_cases k <;> decide

/-- Reading back the two characters `sq_name` writes gives the square. -/
theorem parse_sq_name (s : Int) (h0 : 0 ≤ s) (h1 : s < 64) :
    (charVal (charOfInt (charVal 'a' + file_of s)) - charVal 'a') +
      (charVal (charOfInt (charVal '1' + rank_of s)) - charVal '1') * 8 = s := by
  have hf : 0 ≤ file_of s ∧ file_of s < 8 := by unfold file_of; omega
  have hr : 0 ≤ rank_of s ∧ rank_of s < 8 := by unfold rank_of; omega
  rw [file_char _ hf.1 hf.2, rank_char _ hr.1 hr.2]
  unfold file_of rank_of
  omega

theorem to_uci_plain (m : Move) (h : m.promotion = 0) :
    m.to_uci =
      [charOfInt (charVal 'a' + file_of m.from_), charOfInt (charVal '1' + rank_of m.from_),
        charOfInt (charVal 'a' + file_of m.to_), charOfInt (charVal '1' + rank_of m.to_)] := by
  unfold Move.to_uci sq_name
  simp only [h, ne_eq, not_true_eq_false, if_false]
  rfl

theorem to_uci_promo (m : Move) (h : m.promotion ≠ 0) :
    m.to_uci =
      [charOfInt (charVal 'a' + file_of m.from_), charOfInt (charVal '1' + rank_of m.from_),
        charOfInt (charVal 'a' + file_of m.to_), charOfInt (charVal '1' + rank_of m.to_),
        if m.promotion = WHITE_ROOK ∨ m.promotion = BLACK_ROOK then 'r'
        else if m.promotion = WHITE_KNIGHT ∨ m.promotion = BLACK_KNIGHT then 'n'
        else if m.promotion = WHITE_BISHOP ∨ m.promotion = BLACK_BISHOP then 'b'
        else 'q'] := by
  unfold Move.to_uci sq_name
  simp only [if_pos h]
  rfl

/-- What `uci_to_move` returns for a text of four characters naming two squares of the
board. -/
theorem uci_to_move_four (stale : Int) (b : Board) (f t : Int) (hf : 0 ≤ f ∧ f < 64)
    (ht : 0 ≤ t ∧ t < 64) (piece cap0 : Int)
    (hpiece : (pieceRange.find? (fun p => decide (b.pieces p &&& sqbit f ≠ 0))).getD stale =
      piece)
    (hcap : (pieceRange.find?
      (fun p => decide (p ≠ piece ∧ b.pieces p &&& sqbit t ≠ 0))).getD 0 = cap0) :
    uci_to_move stale
      [charOfInt (charVal 'a' + file_of f), charOfInt (charVal '1' + rank_of f),
        charOfInt (charVal 'a' + file_of t), charOfInt (charVal '1' + rank_of t)] b =
      Move.mk f t piece
        (if ((piece = WHITE_PAWN ∨ piece = BLACK_PAWN) ∧ file_of f ≠ file_of t ∧ cap0 = 0)
          then (if piece = WHITE_PAWN then BLACK_PAWN else WHITE_PAWN) else cap0)
        0
        (decide ((piece = WHITE_PAWN ∨ piece = BLACK_PAWN) ∧ file_of f ≠ file_of t ∧ cap0 = 0))
        (decide ((piece = WHITE_KING ∨ piece = BLACK_KING) ∧ (f - t).natAbs = 2)) := by
  unfold uci_to_move
  simp only [List.length_cons, List.length_nil, List.getD_cons_zero, List.getD_cons_succ,
    parse_sq_name f hf.1 hf.2, parse_sq_name t ht.1 ht.2, hpiece, hcap]
  simp

/-- What `uci_to_move` returns for a text of five characters whose first four name two
squares of the board. -/
theorem uci_to_move_five (stale : Int) (b : Board) (f t : Int) (hf : 0 ≤ f ∧ f < 64)
    (ht : 0 ≤ t ∧ t < 64) (pc : Char) (piece cap0 : Int)
    (hpiece : (pieceRange.find? (fun p => decide (b.pieces p &&& sqbit f ≠ 0))).getD stale =
      piece)
    (hcap : (pieceRange.find?
      (fun p => decide (p ≠ piece ∧ b.pieces p &&& sqbit t ≠ 0))).getD 0 = cap0) :
    uci_to_move stale
      [charOfInt (charVal 'a' + file_of f), charOfInt (charVal '1' + rank_of f),
        charOfInt (charVal 'a' + file_of t), charOfInt (charVal '1' + rank_of t), pc] b =
      Move.mk f t piece
        (if ((piece = WHITE_PAWN ∨ piece = BLACK_PAWN) ∧ file_of f ≠ file_of t ∧ cap0 = 0)
          then (if piece = WHITE_PAWN then BLACK_PAWN else WHITE_PAWN) else cap0)
        (if piece = WHITE_PAWN then
          if pc = 'q' then WHITE_QUEEN
          else if pc = 'r' then WHITE_ROOK
          else if pc = 'n' then WHITE_KNIGHT
          else if pc = 'b' then WHITE_BISHOP
          else 0
        else if piece = BLACK_PAWN then
          if pc = 'q' then BLACK_QUEEN
          else if pc = 'r' then BLACK_ROOK
          else if pc = 'n' then BLACK_KNIGHT
          else if pc = 'b' then BLACK_BISHOP
          else 0
        else 0)
        (decide ((piece = WHITE_PAWN ∨ piece = BLACK_PAWN) ∧ file_of f ≠ file_of t ∧ cap0 = 0))
        (decide ((piece = WHITE_KING ∨ piece = BLACK_KING) ∧ (f - t).natAbs = 2)) := by
  unfold uci_to_move
  simp only [List.length_cons, List.length_nil, List.getD_cons_zero, List.getD_cons_succ,
    parse_sq_name f hf.1 hf.2, parse_sq_name t ht.1 ht.2, hpiece, hcap]
  simp

/-- The piece `uci_to_move` finds on a square on which the piece `p` stands. -/
theorem find_piece_on {b : Board} (hwf : WellFormed b) {p s : Int} (hp : p ∈ pieceRange)
    (h : hasBit (b.pieces p) s) (d : Int) :
    (pieceRange.find? (fun q => decide (b.pieces q &&& sqbit s ≠ 0))).getD d = p := by
  cases hfind : pieceRange.find? (fun q => decide (b.pieces q &&& sqbit s ≠ 0)) with
  | none =>
    have := List.find?_eq_none.1 hfind p hp
    simp only [decide_eq_true_eq] at this
    exact absurd h this
  | some q =>
    have hq := List.find?_some hfind
    simp only [decide_eq_true_eq] at hq
    exact disjoint_unique hwf (List.mem_of_find?_eq_some hfind) hp hq h

/-- The captured piece `uci_to_move` finds on an empty destination. -/
theorem find_capture_none {b : Board} {piece s : Int}
    (h : ∀ q ∈ pieceRange, q ≠ piece → ¬ hasBit (b.pieces q) s) :
    (pieceRange.find? (fun q => decide (q ≠ piece ∧ b.pieces q &&& sqbit s ≠ 0))).getD 0 = 0 := by
  have : pieceRange.find? (fun q => decide (q ≠ piece ∧ b.pieces q &&& sqbit s ≠ 0)) = none := by
    apply List.find?_eq_none.2
    intro q hq
    simp only [decide_eq_true_eq, not_and]
    exact h q hq
  rw [this]
  rfl

/-- The captured piece `uci_to_move` finds on a destination on which another piece stands. -/
theorem find_capture_some {b : Board} (hwf : WellFormed b) {piece c s : Int}
    (hc : c ∈ pieceRange) (hne : c ≠ piece) (h : hasBit (b.pieces c) s) :
    (pieceRange.find? (fun q => decide (q ≠ piece ∧ b.pieces q &&& sqbit s ≠ 0))).getD 0 = c := by
  cases hfind : pieceRange.find? (fun q => decide (q ≠ piece ∧ b.pieces q &&& sqbit s ≠ 0)) with
  | none =>
    have := List.find?_eq_none.1 hfind c hc
    simp only [decide_eq_true_eq, not_and] at this
    exact absurd h (this hne)
  | some q =>
    have hq := List.find?_some hfind
    simp only [decide_eq_true_eq] at hq
    exact disjoint_unique hwf (List.mem_of_find?_eq_some hfind) hc hq.2 h

/-- The round trip for a move whose fields describe the Board: the piece stands on `from`,
the destination is on the board, a promotion belongs to a pawn of its colour, the castle
flag is set exactly for a king moving two squares, and the capture fields are those of an
en-passant capture onto an empty square, of a move to an empty square (straight ahead for a
pawn), or of the capture of the piece standing on the destination. -/
theorem uci_roundtrip {b : Board} (hwf : WellFormed b) (stale : Int) (m : Move)
    (hp : m.piece ∈ pieceRange) (hfrom : hasBit (b.pieces m.piece) m.from_)
    (hto : 0 ≤ m.to_ ∧ m.to_ < 64)
    (hpromo : m.promotion = 0 ∨ (m.piece = WHITE_PAWN ∧ m.promotion ∈ whitePromos) ∨
      (m.piece = BLACK_PAWN ∧ m.promotion ∈ blackPromos))
    (hcastle : m.isCastle =
      decide ((m.piece = WHITE_KING ∨ m.piece = BLACK_KING) ∧ (m.from_ - m.to_).natAbs = 2))
    (htarget :
      (m.isEnPassant = true ∧
        ((m.piece = WHITE_PAWN ∧ m.captured = BLACK_PAWN) ∨
          (m.piece = BLACK_PAWN ∧ m.captured = WHITE_PAWN)) ∧
        file_of m.from_ ≠ file_of m.to_ ∧ ¬ hasBit (b.occupancies 2) m.to_) ∨
      (m.isEnPassant = false ∧ m.captured = 0 ∧ ¬ hasBit (b.occupancies 2) m.to_ ∧
        ((m.piece = WHITE_PAWN ∨ m.piece = BLACK_PAWN) → file_of m.from_ = file_of m.to_)) ∨
      (m.isEnPassant = false ∧ m.captured ∈ pieceRange ∧ m.captured ≠ m.piece ∧
        hasBit (b.pieces m.captured) m.to_)) :
    uci_to_move stale m.to_uci b = m := by
  obtain ⟨f, t, piece, captured, promotion, ep, castle⟩ := m
  simp only at hp hfrom hto hpromo hcastle htarget
  have hf := hasBit_range hfrom
  have hpiece := find_piece_on hwf hp hfrom stale
  have hempty : ¬ hasBit (b.occupancies 2) t →
      (pieceRange.find? (fun q => decide (q ≠ piece ∧ b.pieces q &&& sqbit t ≠ 0))).getD 0 = 0 := by
    intro hno
    apply find_capture_none
    intro q hq _ hbit
    exact hno ((hasBit_occ2 hwf.occ t).2 ⟨q, hq, hbit⟩)
  obtain ⟨cap0, hcap, hep, hcaptured⟩ : ∃ cap0,
      (pieceRange.find? (fun q => decide (q ≠ piece ∧ b.pieces q &&& sqbit t ≠ 0))).getD 0 =
        cap0 ∧
      decide ((piece = WHITE_PAWN ∨ piece = BLACK_PAWN) ∧ file_of f ≠ file_of t ∧ cap0 = 0) =
        ep ∧
      (if ((piece = WHITE_PAWN ∨ piece = BLACK_PAWN) ∧ file_of f ≠ file_of t ∧ cap0 = 0)
        then (if piece = WHITE_PAWN then BLACK_PAWN else WHITE_PAWN) else cap0) = captured := by
    rcases htarget with ⟨he, hpc, hfile, hno⟩ | ⟨he, hc, hno, hfile⟩ | ⟨he, hc, hne, hbit⟩
    · refine ⟨0, hempty hno, ?_, ?_⟩
      · rw [he]
        rcases hpc with ⟨h1, -⟩ | ⟨h1, -⟩ <;> simp [h1, hfile]
      · rcases hpc with ⟨h1, h2⟩ | ⟨h1, h2⟩
        · simp [h1, h2, hfile]
        · simp [h1, h2, hfile, WHITE_PAWN, BLACK_PAWN]
    · refine ⟨0, hempty hno, ?_, ?_⟩
      · rw [he]
        by_cases hpawn : piece = WHITE_PAWN ∨ piece = BLACK_PAWN
        · simp [hpawn, hfile hpawn]
        · simp [hpawn]
      · rw [hc]
        by_cases hpawn : piece = WHITE_PAWN ∨ piece = BLACK_PAWN
        · simp [hpawn, hfile hpawn]
        · simp [hpawn]
    · have h0 : captured ≠ 0 := by
        have := (mem_pieceRange_iff captured).1 hc
        omega
      refine ⟨captured, find_capture_some hwf hc hne hbit, ?_, ?_⟩
      · rw [he]
        simp [h0]
      · simp [h0]
  by_cases hpr : promotion = 0
  · subst hpr
    rw [to_uci_plain _ rfl, uci_to_move_four stale b f t hf hto piece cap0 hpiece hcap]
    simp only [hep, hcaptured, hcastle]
  · rw [to_uci_promo _ hpr]
    simp only []
    rw [uci_to_move_five stale b f t hf hto _ piece cap0 hpiece hcap]
    simp only [hep, hcaptured, hcastle]
    congr 1
    rcases hpromo with h | ⟨h1, h2⟩ | ⟨h1, h2⟩
    · exact absurd h hpr
    · subst h1
      simp only [whitePromos, List.mem_cons, List.mem_singleton, List.not_mem_nil,
        or_false] at h2
      rcases h2 with rfl | rfl | rfl | rfl <;> rfl
    · subst h1
      simp only [blackPromos, List.mem_cons, List.mem_singleton, List.not_mem_nil,
        or_false] at h2
      rcases h2 with rfl | rfl | rfl | rfl <;> rfl

theorem init_king_table : ∀ i : Fin 64,
    ¬ hasBit (init_move_tables.king_moves (i.val : Int)) ((i.val : Int) + 2) ∧
    ¬ hasBit (init_move_tables.king_moves (i.val : Int)) ((i.val : Int) - 2) := by
  decide

theorem init_king_no_two (sq to_ : Int) (h : hasBit (init_move_tables.king_moves sq) to_) :
    (sq - to_).natAbs ≠ 2 := by
  intro h2
  by_cases hsq : 0 ≤ sq ∧ sq < 64
  · have := init_king_table ⟨sq.toNat, by omega⟩
    have e : ((sq.toNat : Nat) : Int) = sq := by omega
    simp only [e] at this
    have hto : to_ = sq + 2 ∨ to_ = sq - 2 := by omega
    rcases hto with rfl | rfl
    · exact this.1 h
    · exact this.2 h
  · have : init_move_tables.king_moves sq = 0 := by
      simp only [init_move_tables, if_neg hsq]
    rw [this] at h
    exact hasBit_zero _ h


theorem pieceMoves_target {b : Board} (hwf : WellFormed b) {piece : Int} {attacks : Int → Nat}
    {m : Move} (hm : m ∈ pieceMoves b piece attacks) :
    m.piece = piece ∧ hasBit (attacks m.from_) m.to_ := by
  unfold pieceMoves at hm
  simp only [List.mem_flatMap, List.mem_map] at hm
  obtain ⟨sq, -, to_, hto, rfl⟩ := hm
  have hocc := occ_side_lt hwf b.side_to_move
  have htarget := scanBits_sound (and_lt_TWO64_right _ (not64_lt _ hocc)) hto
  rw [hasBit_and] at htarget
  exact ⟨rfl, htarget.1⟩

/-- The facts about a pawn move of the generator that its text depends on. -/
theorem pawn_move_facts {b : Board} (hwf : WellFormed b) {m : Move}
    (hm : m ∈ MoveGenerator.generate_pawn_moves b) :
    (m.piece = WHITE_PAWN ∨ m.piece = BLACK_PAWN) ∧
    (m.promotion = 0 ∨ (m.piece = WHITE_PAWN ∧ m.promotion ∈ whitePromos) ∨
      (m.piece = BLACK_PAWN ∧ m.promotion ∈ blackPromos)) ∧
    (m.isEnPassant = false → ¬ hasBit (b.occupancies 2) m.to_ →
      file_of m.from_ = file_of m.to_) ∧
    (m.isEnPassant = true → file_of m.from_ ≠ file_of m.to_) := by
  have hb : b.pieces (pawnOf b.side_to_move) < TWO64 :=
    hwf.bound _ (by cases b.side_to_move <;> simp [pawnOf, pieceRange, WHITE_PAWN, BLACK_PAWN])
  obtain ⟨sq, -, hmem⟩ := (mem_generate_pawn_moves hb m).1 hm
  have hocc2 := hwf.occ.2.2
  cases hstm : b.side_to_move with
  | WHITE =>
    obtain ⟨hf, hp, -, -, h⟩ := whitePawnMoves_shape hstm hmem
    refine ⟨Or.inl hp, ?_, ?_, ?_⟩
    · rcases h with ⟨-, -, -, -, h | h⟩ | ⟨rfl, -⟩ | ⟨-, ⟨-, -, -, h⟩ | ⟨-, -, -, h | h⟩⟩
      · exact Or.inr (Or.inl ⟨hp, h.2⟩)
      · exact Or.inl h.2
      · exact Or.inl rfl
      · exact Or.inl h
      · exact Or.inr (Or.inl ⟨hp, h.2⟩)
      · exact Or.inl h.2
    · intro he hno
      rcases h with ⟨ht, -⟩ | ⟨rfl, -⟩ | ⟨-, ⟨he2, -⟩ | ⟨-, hbit, -⟩⟩
      · rw [hf, ht]; unfold file_of; omega
      · show file_of sq = file_of (sq + 16)
        unfold file_of; omega
      · rw [he] at he2; exact absurd he2 (by decide)
      · exact absurd (by rw [hocc2, hasBit_or]; exact Or.inr hbit) hno
    · intro he
      rcases h with ⟨-, he2, -⟩ | ⟨rfl, -⟩ | ⟨ht, -⟩
      · rw [he] at he2; exact absurd he2 (by decide)
      · exact absurd he (by simp)
      · rw [hf]
        rcases ht with ⟨ht, hfile⟩ | ⟨ht, hfile⟩ <;> rw [ht] <;> unfold file_of at hfile ⊢ <;> omega
  | BLACK =>
    obtain ⟨hf, hp, -, -, h⟩ := blackPawnMoves_shape hstm hmem
    refine ⟨Or.inr hp, ?_, ?_, ?_⟩
    · rcases h with ⟨-, -, -, -, h | h⟩ | ⟨rfl, -⟩ | ⟨-, ⟨-, -, -, h⟩ | ⟨-, -, -, h | h⟩⟩
      · exact Or.inr (Or.inr ⟨hp, h.2⟩)
      · exact Or.inl h.2
      · exact Or.inl rfl
      · exact Or.inl h
      · exact Or.inr (Or.inr ⟨hp, h.2⟩)
      · exact Or.inl h.2
    · intro he hno
      rcases h with ⟨ht, -⟩ | ⟨rfl, -⟩ | ⟨-, ⟨he2, -⟩ | ⟨-, hbit, -⟩⟩
      · rw [hf, ht]; unfold file_of; omega
      · show file_of sq = file_of (sq - 16)
        unfold file_of; omega
      · rw [he] at he2; exact absurd he2 (by decide)
      · exact absurd (by rw [hocc2, hasBit_or]; exact Or.inl hbit) hno
    · intro he
      rcases h with ⟨-, he2, -⟩ | ⟨rfl, -⟩ | ⟨ht, -⟩
      · rw [he] at he2; exact absurd he2 (by decide)
      · exact absurd he (by simp)
      · rw [hf]
        rcases ht with ⟨ht, hfile⟩ | ⟨ht, hfile⟩ <;> rw [ht] <;> unfold file_of at hfile ⊢ <;> omega

theorem castleIf_facts {t : MoveTables} {b : Board} {right : Int} {mask : Nat}
    {king k s d : Int} {attacker : Color} {m : Move}
    (hm : m ∈ castleIf t b right mask king k s d attacker) :
    m = Move.mk k d king 0 0 false true ∧ hasBit (b.pieces king) k := by
  unfold castleIf at hm
  split at hm
  · rename_i h
    simp only [List.mem_singleton] at hm
    exact ⟨hm, h.2.2.1⟩
  · simp at hm

/-- The castling moves of the generator: a king on its square moving two squares. -/
theorem castling_facts {t : MoveTables} {b : Board} {m : Move}
    (hm : m ∈ MoveGenerator.generate_castling_moves t b) :
    m.isCastle = true ∧ (m.piece = WHITE_KING ∨ m.piece = BLACK_KING) ∧
    (m.from_ - m.to_).natAbs = 2 ∧ hasBit (b.pieces m.piece) m.from_ ∧
    (0 ≤ m.to_ ∧ m.to_ < 64) ∧ m.captured = 0 ∧ m.promotion = 0 ∧ m.isEnPassant = false := by
  unfold MoveGenerator.generate_castling_moves at hm
  split at hm <;> rcases List.mem_append.1 hm with h | h <;>
    obtain ⟨rfl, hk⟩ := castleIf_facts h <;>
    exact ⟨rfl, by simp, by decide, hk, by decide, rfl, rfl, rfl⟩

/-- The moves of the generator outside the pawn and castling generators. -/
theorem generate_moves_class {t : MoveTables} {b : Board} (hwf : WellFormed b) {m : Move}
    (hm : m ∈ MoveGenerator.generate_moves t b)
    (hc : m ∉ MoveGenerator.generate_castling_moves t b) :
    m ∈ MoveGenerator.generate_pawn_moves b ∨
    (m.promotion = 0 ∧ m.isEnPassant = false ∧ m.piece ≠ WHITE_PAWN ∧ m.piece ≠ BLACK_PAWN ∧
      ((m.piece = WHITE_KING ∨ m.piece = BLACK_KING) → hasBit (t.king_moves m.from_) m.to_)) := by
  unfold MoveGenerator.generate_moves at hm
  simp only [List.mem_append] at hm
  have key : ∀ (w k : Int) (attacks : Int → Nat), 2 ≤ w ∧ w ≤ 5 → 8 ≤ k ∧ k ≤ 11 →
      m ∈ pieceMoves b (if b.side_to_move = Color.WHITE then w else k) attacks →
      (m.promotion = 0 ∧ m.isEnPassant = false ∧ m.piece ≠ WHITE_PAWN ∧ m.piece ≠ BLACK_PAWN ∧
        ((m.piece = WHITE_KING ∨ m.piece = BLACK_KING) →
          hasBit (t.king_moves m.from_) m.to_)) := by
    intro w k attacks hw hk h
    obtain ⟨hp, he, hpr, -⟩ := pieceMoves_shape h
    have h1 : WHITE_PAWN = 1 := rfl
    have h7 : BLACK_PAWN = 7 := rfl
    have h6 : WHITE_KING = 6 := rfl
    have h12 : BLACK_KING = 12 := rfl
    rw [hp, h1, h7, h6, h12]
    refine ⟨hpr, he, ?_, ?_, ?_⟩
    · intro hcon; split at hcon <;> omega
    · intro hcon; split at hcon <;> omega
    · intro hcon; exfalso; split at hcon <;> omega
  rcases hm with (((((h | h) | h) | h) | h) | h) | h
  · exact Or.inl h
  · exact Or.inr (key _ _ _ (by decide) (by decide) h)
  · exact Or.inr (key _ _ _ (by decide) (by decide) h)
  · exact Or.inr (key _ _ _ (by decide) (by decide) h)
  · exact Or.inr (key _ _ _ (by decide) (by decide) h)
  · right
    obtain ⟨hp, he, hpr, -⟩ := pieceMoves_shape h
    obtain ⟨-, htgt⟩ := pieceMoves_target hwf h
    have h1 : WHITE_PAWN = 1 := rfl
    have h7 : BLACK_PAWN = 7 := rfl
    have h6 : WHITE_KING = 6 := rfl
    have h12 : BLACK_KING = 12 := rfl
    refine ⟨hpr, he, ?_, ?_, fun _ => htgt⟩
    · rw [hp, h1, h6, h12]; intro hcon; split at hcon <;> omega
    · rw [hp, h7, h6, h12]; intro hcon; split at hcon <;> omega
  · exact absurd h hc

/-- The king tables of the program: the table `init_move_tables` fills, or the zeroed table
the program runs with. -/
theorem king_tables_no_two {t : MoveTables}
    (ht : t = init_move_tables ∨ t = MoveTables.static_init) (sq to_ : Int)
    (h : hasBit (t.king_moves sq) to_) : (sq - to_).natAbs ≠ 2 := by
  rcases ht with rfl | rfl
  · exact init_king_no_two sq to_ h
  · exact absurd h (hasBit_zero _)

theorem generated_roundtrip {t : MoveTables} {b : Board}
    (ht : t = init_move_tables ∨ t = MoveTables.static_init) (hwf : WellFormed b)
    (stale : Int) {m : Move} (hm : m ∈ MoveGenerator.generate_moves t b)
    (hdest : m.isEnPassant = true ∨ m.isCastle = true → ¬ hasBit (b.occupancies 2) m.to_) :
    uci_to_move stale m.to_uci b = m := by
  by_cases hc : m ∈ MoveGenerator.generate_castling_moves t b
  · obtain ⟨h1, h2, h3, h4, h5, h6, h7, h8⟩ := castling_facts hc
    have hpr : m.piece ∈ pieceRange := by
      rcases h2 with h | h <;> rw [h] <;> decide
    apply uci_roundtrip hwf stale m hpr h4 h5 (Or.inl h7)
    · rw [h1]
      simp [h2, h3]
    · refine Or.inr (Or.inl ⟨h8, h6, hdest (Or.inr h1), ?_⟩)
      intro hpawn
      exfalso
      have e1 : WHITE_PAWN = 1 := rfl
      have e7 : BLACK_PAWN = 7 := rfl
      have e6 : WHITE_KING = 6 := rfl
      have e12 : BLACK_KING = 12 := rfl
      rw [e1, e7] at hpawn
      rw [e6, e12] at h2
      omega
  · have g := generate_moves_ok hwf hm hc
    have hcls := generate_moves_class hwf hm hc
    have e1 : WHITE_PAWN = 1 := rfl
    have e7 : BLACK_PAWN = 7 := rfl
    have e6 : WHITE_KING = 6 := rfl
    have e12 : BLACK_KING = 12 := rfl
    apply uci_roundtrip hwf stale m (piecesOf_sub _ g.piece_own) g.from_has g.to_range
    · rcases hcls with hpawn | ⟨hpr, -⟩
      · exact (pawn_move_facts hwf hpawn).2.1
      · exact Or.inl hpr
    · rw [g.not_castle]
      symm
      rw [decide_eq_false_iff_not]
      rintro ⟨hking, htwo⟩
      rcases hcls with hpawn | ⟨-, -, -, -, hstep⟩
      · have := (pawn_move_facts hwf hpawn).1
        rw [e1, e7] at this
        rw [e6, e12] at hking
        omega
      · exact king_tables_no_two ht _ _ (hstep hking) htwo
    · rcases g.target with ⟨he, -, hcap, -, hpiece⟩ | ⟨he, hcap, hno⟩ | ⟨he, hcap, hbit⟩
      · refine Or.inl ⟨he, ?_, ?_, hdest (Or.inl he)⟩
        · rw [hpiece, hcap]
          cases b.side_to_move
          · exact Or.inl ⟨rfl, rfl⟩
          · exact Or.inr ⟨rfl, rfl⟩
        · rcases hcls with hpawn | ⟨-, he2, -⟩
          · exact (pawn_move_facts hwf hpawn).2.2.2 he
          · rw [he] at he2
            exact absurd he2 (by decide)
      · refine Or.inr (Or.inl ⟨he, hcap, hno, ?_⟩)
        intro hpawn
        rcases hcls with hmem | ⟨-, -, h1, h2, -⟩
        · exact (pawn_move_facts hwf hmem).2.2.1 he hno
        · rcases hpawn with h | h
          · exact absurd h h1
          · exact absurd h h2
      · exact Or.inr (Or.inr ⟨he, piecesOf_sub _ hcap, piecesOf_other_ne g.piece_own hcap, hbit⟩)

/-- C37, refuted as stated.  On 4k3/8/3p4/4P3/8/8/8/4K3 with White to move and en-passant
square d6 (43), on which a Black pawn stands, the position invariants hold and
`generate_moves` emits the en-passant capture e5 -> d6 (36 -> 43); its text is `e5d6`, and
`uci_to_move` reads it back as the ordinary capture of the pawn on d6, with `isEnPassant`
false.  On 4K1n1/8/8/8/8/8/8/k7 with the right WK set, the emitted castle move 60 -> 62 has
`captured == 0`, and `uci_to_move` reads its text back with the Black knight of square 62 as
`captured`. -/
theorem C37_counterexample :
    WellFormed (loadFen zSample "4k3/8/3p4/4P3/8/8/8/4K3 w - d6 0 1") ∧
    Move.mk 36 43 WHITE_PAWN BLACK_PAWN 0 true false ∈
      MoveGenerator.generate_moves init_move_tables
        (loadFen zSample "4k3/8/3p4/4P3/8/8/8/4K3 w - d6 0 1") ∧
    (Move.mk 36 43 WHITE_PAWN BLACK_PAWN 0 true false).to_uci = "e5d6".toList ∧
    uci_to_move 0 (Move.mk 36 43 WHITE_PAWN BLACK_PAWN 0 true false).to_uci
        (loadFen zSample "4k3/8/3p4/4P3/8/8/8/4K3 w - d6 0 1") =
      Move.mk 36 43 WHITE_PAWN BLACK_PAWN 0 false false ∧
    WellFormed (loadFen zSample "4K1n1/8/8/8/8/8/8/k7 w K - 0 1") ∧
    Move.mk 60 62 WHITE_KING 0 0 false true ∈
      MoveGenerator.generate_moves init_move_tables
        (loadFen zSample "4K1n1/8/8/8/8/8/8/k7 w K - 0 1") ∧
    uci_to_move 0 (Move.mk 60 62 WHITE_KING 0 0 false true).to_uci
        (loadFen zSample "4K1n1/8/8/8/8/8/8/k7 w K - 0 1") =
      Move.mk 60 62 WHITE_KING BLACK_KNIGHT 0 false true := by
  refine ⟨⟨by decide, by unfold PairwiseDisjoint; decide, by unfold OccupanciesDerived; decide⟩,
    by decide, by decide, by decide,
    ⟨by decide, by unfold PairwiseDisjoint; decide, by unfold OccupanciesDerived; decide⟩,
    by decide, by decide⟩

/-- C37, amended: for every position satisfying the position invariants (u64 piece
bitboards, pairwise disjoint, occupancies derived), with the king table of
`init_move_tables` or the zeroed one the program runs with, and every move `m` emitted by
`generate_moves` whose destination square is empty when `m` is an en-passant capture or a
castling move, `uci_to_move(m.to_uci(), board)` returns a Move equal to `m` on all seven
fields, whatever the uninitialised `piece` of `uci_to_move` held. -/
theorem C37_to_uci_round_trip (t : MoveTables) (b : Board) (stale : Int) (m : Move)
    (ht : t = init_move_tables ∨ t = MoveTables.static_init) (hwf : WellFormed b)
    (hm : m ∈ MoveGenerator.generate_moves t b)
    (hdest : m.isEnPassant = true ∨ m.isCastle = true → ¬ hasBit (b.occupancies 2) m.to_) :
    uci_to_move stale m.to_uci b = m :=
  generated_roundtrip ht hwf stale hm hdest

theorem C37_to_uci_round_trip_witness :
    uci_to_move 0 (Move.mk 12 28 WHITE_PAWN 0 0 false false).to_uci
        (Board.set_from_fen zSample Board.init startFen).board =
      Move.mk 12 28 WHITE_PAWN 0 0 false false :=
  C37_to_uci_round_trip init_move_tables (Board.set_from_fen zSample Board.init startFen).board
    0 (Move.mk 12 28 WHITE_PAWN 0 0 false false) (Or.inl rfl) (start_inv zSample).wf
    (by decide) (by decide)

/-! ## What `quiescence` and `alpha_beta` do to the Searcher -/

theorem addQnodes_zero (s : Searcher) : s.addQnodes 0 = s := by
  unfold Searcher.addQnodes
  simp

theorem addQnodes_add (s : Searcher) (a b : Int) :
    (s.addQnodes a).addQnodes b = s.addQnodes (a + b) := by
  unfold Searcher.addQnodes
  simp [add_assoc]

theorem quiescenceStep_uniform (env : SearchEnv)
    {sub : Searcher → Board → Int → Int → SearchResult} (hsub : QUniform sub) (beta : Int)
    (move : Move) (b : Board) (alpha : Int) (ret : Option Int) (n0 : Int) :
    ∃ (b1 : Board) (alpha1 : Int) (ret1 : Option Int) (n1 : Int), ∀ s : Searcher,
      quiescenceStep env sub beta
          { s := s.addQnodes n0, board := b, alpha := alpha, ret := ret } move =
        { s := s.addQnodes n1, board := b1, alpha := alpha1, ret := ret1 } := by
  cases ret with
  | some v => exact ⟨b, alpha, some v, n0, fun s => rfl⟩
  | none =>
    by_cases hchk : (b.make_move env.z move).in_check env.t
        (b.make_move env.z move).side_to_move.other = true
    · refine ⟨(b.make_move env.z move).undo_move (b.undoInfo move), alpha, none, n0, ?_⟩
      intro s
      unfold quiescenceStep
      simp only [if_pos hchk]
    · obtain ⟨v, n, b2, h⟩ := hsub (b.make_move env.z move) (-beta) (-alpha)
      by_cases hcut : -v ≥ beta
      · refine ⟨b2.undo_move (b.undoInfo move), alpha, some beta, n0 + n, ?_⟩
        intro s
        unfold quiescenceStep
        simp only [if_neg hchk, h, if_pos hcut, addQnodes_add]
      · refine ⟨b2.undo_move (b.undoInfo move), if -v > alpha then -v else alpha, none,
          n0 + n, ?_⟩
        intro s
        unfold quiescenceStep
        simp only [if_neg hchk, h, if_neg hcut, addQnodes_add]

theorem quiescenceLoop_uniform (env : SearchEnv)
    {sub : Searcher → Board → Int → Int → SearchResult} (hsub : QUniform sub) (beta : Int) :
    ∀ (moves : List Move) (b : Board) (alpha : Int) (ret : Option Int) (n0 : Int),
    ∃ (b1 : Board) (alpha1 : Int) (ret1 : Option Int) (n1 : Int), ∀ s : Searcher,
      moves.foldl (quiescenceStep env sub beta)
          { s := s.addQnodes n0, board := b, alpha := alpha, ret := ret } =
        { s := s.addQnodes n1, board := b1, alpha := alpha1, ret := ret1 }
  | [], b, alpha, ret, n0 => ⟨b, alpha, ret, n0, fun _ => rfl⟩
  | m :: ms, b, alpha, ret, n0 => by
    obtain ⟨b1, a1, r1, n1, h1⟩ := quiescenceStep_uniform env hsub beta m b alpha ret n0
    obtain ⟨b2, a2, r2, n2, h2⟩ := quiescenceLoop_uniform env hsub beta ms b1 a1 r1 n1
    refine ⟨b2, a2, r2, n2, ?_⟩
    intro s
    rw [List.foldl_cons, h1, h2]

theorem quiescenceBody_uniform (env : SearchEnv)
    (sub : Option (Searcher → Board → Int → Int → SearchResult))
    (hsub : ∀ q, sub = some q → QUniform q) : QUniform (quiescenceBody env sub) := by
  intro b alpha beta
  have hs : ∀ s : Searcher,
      ({ s with stats := { s.stats with qnodes := s.stats.qnodes + 1 } } : Searcher) =
        s.addQnodes 1 := fun _ => rfl
  by_cases hsp : Evaluator.evaluate env.e b ≥ beta
  · refine ⟨beta, 1, b, ?_⟩
    intro s
    unfold quiescenceBody
    simp only [if_pos hsp, hs]
  · cases sub with
    | none =>
      refine ⟨Evaluator.evaluate env.e b, 1, b, ?_⟩
      intro s
      unfold quiescenceBody
      simp only [if_neg hsp, hs]
    | some q =>
      obtain ⟨b1, a1, r1, n1, h1⟩ := quiescenceLoop_uniform env (hsub q rfl) beta
        (MoveGenerator.generate_captures env.t b) b
        (if alpha < Evaluator.evaluate env.e b then Evaluator.evaluate env.e b else alpha)
        none 1
      refine ⟨r1.getD a1, n1, b1, ?_⟩
      intro s
      unfold quiescenceBody
      simp only [if_neg hsp, hs, h1]

theorem quiescenceRem_uniform (env : SearchEnv) : ∀ rem : Nat, QUniform (quiescenceRem env rem)
  | 0 => quiescenceBody_uniform env none (fun _ h => by simp at h)
  | rem + 1 => quiescenceBody_uniform env (some (quiescenceRem env rem)) (fun q h => by
      simp only [Option.some.injEq] at h
      subst h
      exact quiescenceRem_uniform env rem)

/-- A call of `quiescence` returns a value and a Board that do not depend on the Searcher,
and changes nothing of the Searcher but `stats.qnodes`. -/
theorem quiescence_uniform (env : SearchEnv) (b : Board) (alpha beta depth : Int) :
    ∃ (v n : Int) (b1 : Board), ∀ s : Searcher,
      Searcher.quiescence env s b alpha beta depth =
        { value := v, s := s.addQnodes n, board := b1 } :=
  quiescenceRem_uniform env _ b alpha beta

theorem SearchFrame.of_same (D : Int) (s : Searcher) : SearchFrame D s s :=
  ⟨rfl, rfl, rfl, rfl, fun _ _ _ => rfl⟩

theorem SearchFrame.trans {D : Int} {s s1 s2 : Searcher} (h1 : SearchFrame D s s1)
    (h2 : SearchFrame D s1 s2) : SearchFrame D s s2 :=
  ⟨h2.1.trans h1.1, h2.2.1.trans h1.2.1, h2.2.2.1.trans h1.2.2.1,
    h2.2.2.2.1.trans h1.2.2.2.1, fun d i h => (h2.2.2.2.2 d i h).trans (h1.2.2.2.2 d i h)⟩

theorem SearchFrame.mono {D E : Int} (hDE : D ≤ E) {s s1 : Searcher} (h : SearchFrame D s s1) :
    SearchFrame E s s1 :=
  ⟨h.1, h.2.1, h.2.2.1, h.2.2.2.1, fun d i hn => h.2.2.2.2 d i (fun hs => hn
    ⟨⟨hs.1.1, le_trans hs.1.2 hDE⟩, hs.2⟩)⟩

theorem killerUpdate_outside {D depth : Int} (hd : 1 ≤ depth ∧ depth ≤ D)
    (k : Int → Int → Move) (move : Move) (d i : Int) (h : ¬ KillerSlot D d i) :
    killerUpdate k depth move d i = k d i := by
  unfold killerUpdate
  by_cases hdd : d = depth
  · have hi : ¬ (i = 0 ∨ i = 1) := fun hi => h ⟨by omega, hi⟩
    rw [if_pos hdd, if_neg (fun h0 => hi (Or.inl h0)), if_neg (fun h1 => hi (Or.inr h1))]
  · rw [if_neg hdd]

theorem alphaBetaScore_frame {D : Int}
    {sub : Int → Searcher → Board → Int → Int → Bool → SearchResult}
    (hsub : ∀ d, d ≤ D → ∀ s b al be dn, SearchFrame D s (sub d s b al be dn).s)
    {depth : Int} (hd : depth ≤ D) (beta : Int) (st : ABLoop) (b1 : Board) :
    SearchFrame D st.s (alphaBetaScore sub depth beta st b1).s := by
  unfold alphaBetaScore
  by_cases h0 : st.moves_searched = 0
  · rw [if_pos h0]
    exact hsub _ (by omega) _ _ _ _ _
  · rw [if_neg h0]
    simp only []
    have hred : (0 : Int) ≤ (if depth ≥ 3 ∧ st.moves_searched ≥ 4 then (1 : Int) else 0) := by
      split <;> omega
    generalize (if depth ≥ 3 ∧ st.moves_searched ≥ 4 then (1 : Int) else 0) = red at hred
    by_cases hre : -(sub (depth - 1 - red) st.s b1 (-st.alpha - 1) (-st.alpha) true).value >
        st.alpha
    · rw [if_pos hre]
      exact (hsub _ (by omega) _ _ _ _ _).trans (hsub _ (by omega) _ _ _ _ _)
    · rw [if_neg hre]
      exact hsub _ (by omega) _ _ _ _ _

theorem alphaBetaUpdate_frame {D depth : Int} (hd : 1 ≤ depth ∧ depth ≤ D) (beta : Int)
    (st : ABLoop) (move : Move) (undo : UndoInfo) (r : SearchResult) :
    SearchFrame D r.s (alphaBetaUpdate depth beta st move undo r).s := by
  unfold alphaBetaUpdate
  simp only []
  by_cases hcut : (if r.value > st.alpha then r.value else st.alpha) ≥ beta
  · rw [if_pos hcut]
    by_cases hcap : move.captured = 0
    · simp only [if_pos hcap]
      exact ⟨rfl, rfl, rfl, rfl, fun d i h => killerUpdate_outside hd _ _ d i h⟩
    · simp only [if_neg hcap]
      exact SearchFrame.of_same D _
  · rw [if_neg hcut]
    exact SearchFrame.of_same D _

theorem alphaBetaStep_frame (env : SearchEnv) {D : Int}
    {sub : Int → Searcher → Board → Int → Int → Bool → SearchResult}
    (hsub : ∀ d, d ≤ D → ∀ s b al be dn, SearchFrame D s (sub d s b al be dn).s)
    {depth : Int} (hd : 1 ≤ depth ∧ depth ≤ D) (beta : Int) (st : ABLoop) (move : Move) :
    SearchFrame D st.s (alphaBetaStep env sub depth beta st move).s := by
  unfold alphaBetaStep
  by_cases hdone : st.done = true
  · rw [if_pos hdone]
    exact SearchFrame.of_same D _
  · rw [if_neg hdone]
    simp only []
    by_cases hchk : (st.board.make_move env.z move).in_check env.t
        (st.board.make_move env.z move).side_to_move.other = true
    · rw [if_pos hchk]
      exact SearchFrame.of_same D _
    · rw [if_neg hchk]
      exact (alphaBetaScore_frame hsub hd.2 beta st _).trans
        (alphaBetaUpdate_frame hd beta st move _ _)

theorem alphaBetaLoop_frame (env : SearchEnv) {D : Int}
    {sub : Int → Searcher → Board → Int → Int → Bool → SearchResult}
    (hsub : ∀ d, d ≤ D → ∀ s b al be dn, SearchFrame D s (sub d s b al be dn).s)
    {depth : Int} (hd : 1 ≤ depth ∧ depth ≤ D) (beta : Int) :
    ∀ (moves : List Move) (st : ABLoop),
      SearchFrame D st.s (moves.foldl (alphaBetaStep env sub depth beta) st).s
  | [], st => SearchFrame.of_same D _
  | m :: ms, st => by
    rw [List.foldl_cons]
    exact (alphaBetaStep_frame env hsub hd beta st m).trans
      (alphaBetaLoop_frame env hsub hd beta ms _)

theorem alphaBetaTail_frame (env : SearchEnv) {D : Int}
    {sub : Int → Searcher → Board → Int → Int → Bool → SearchResult}
    (hsub : ∀ d, d ≤ D → ∀ s b al be dn, SearchFrame D s (sub d s b al be dn).s)
    {depth : Int} (hd : 1 ≤ depth ∧ depth ≤ D) (s : Searcher) (board : Board)
    (alpha beta : Int) (tt_move : Move) :
    SearchFrame D s (alphaBetaTail env sub s board depth alpha beta tt_move).s := by
  unfold alphaBetaTail
  simp only []
  by_cases hm : MoveGenerator.generate_moves env.t board = []
  · rw [if_pos hm]
    by_cases hc : board.in_check env.t board.side_to_move = true
    · rw [if_pos hc]
      exact SearchFrame.of_same D _
    · rw [if_neg hc]
      exact SearchFrame.of_same D _
  · rw [if_neg hm]
    unfold alphaBetaMoves
    simp only []
    have h := alphaBetaLoop_frame env hsub hd beta
      (Searcher.order_moves env s (MoveGenerator.generate_moves env.t board) tt_move depth)
      { s := s, board := board, alpha := alpha, best_value := -1000000,
        best_move := (Searcher.order_moves env s (MoveGenerator.generate_moves env.t board)
          tt_move depth).headD (Move.mk 0 0 0 0 0 false false),
        moves_searched := 0, done := false }
    exact ⟨h.1, h.2.1, h.2.2.1, h.2.2.2.1, h.2.2.2.2⟩

/-- The body of `alpha_beta` is the probe of the transposition table followed by
`alphaBetaRest`. -/
theorem alphaBetaBody_eq (env : SearchEnv)
    (sub : Int → Searcher → Board → Int → Int → Bool → SearchResult)
    (depth : Int) (s : Searcher) (board : Board) (alpha beta : Int) (do_null : Bool) :
    alphaBetaBody env sub depth s board alpha beta do_null =
      (if (s.tt.probe board.zobrist_key depth 0 TTFlag.TT_EXACT env.stale).hit = true then
        if (s.tt.probe board.zobrist_key depth 0 TTFlag.TT_EXACT env.stale).flag =
            TTFlag.TT_EXACT then
          { value := (s.tt.probe board.zobrist_key depth 0 TTFlag.TT_EXACT env.stale).value
            s := { s with stats := { s.stats with nodes := s.stats.nodes + 1,
                                                  tthits := s.stats.tthits + 1 } }
            board := board }
        else if (s.tt.probe board.zobrist_key depth 0 TTFlag.TT_EXACT env.stale).flag =
            TTFlag.TT_ALPHA ∧
            (s.tt.probe board.zobrist_key depth 0 TTFlag.TT_EXACT env.stale).value ≤ alpha then
          { value := alpha
            s := { s with stats := { s.stats with nodes := s.stats.nodes + 1,
                                                  tthits := s.stats.tthits + 1 } }
            board := board }
        else if (s.tt.probe board.zobrist_key depth 0 TTFlag.TT_EXACT env.stale).flag =
            TTFlag.TT_BETA ∧
            (s.tt.probe board.zobrist_key depth 0 TTFlag.TT_EXACT env.stale).value ≥ beta then
          { value := beta
            s := { s with stats := { s.stats with nodes := s.stats.nodes + 1,
                                                  tthits := s.stats.tthits + 1 } }
            board := board }
        else
          alphaBetaRest env sub depth
            { s with stats := { s.stats with nodes := s.stats.nodes + 1,
                                             tthits := s.stats.tthits + 1 } }
            board alpha beta do_null
            (s.tt.probe board.zobrist_key depth 0 TTFlag.TT_EXACT env.stale).best_move
       else
        alphaBetaRest env sub depth
          { s with stats := { s.stats with nodes := s.stats.nodes + 1 } }
          board alpha beta do_null
          (s.tt.probe board.zobrist_key depth 0 TTFlag.TT_EXACT env.stale).best_move) := by
  unfold alphaBetaBody alphaBetaRest
  simp only []
  by_cases hh : (s.tt.probe board.zobrist_key depth 0 TTFlag.TT_EXACT env.stale).hit = true
  · simp only [hh, if_true, true_and]
  · simp only [hh, if_false, false_and, Bool.false_eq_true]

theorem alphaBetaRest_frame (env : SearchEnv) {D : Int}
    {sub : Int → Searcher → Board → Int → Int → Bool → SearchResult}
    (hsub : ∀ d, d ≤ D → ∀ s b al be dn, SearchFrame D s (sub d s b al be dn).s)
    {depth : Int} (hd : depth ≤ D) (s : Searcher) (board : Board)
    (alpha beta : Int) (do_null : Bool) (tt_move : Move) :
    SearchFrame D s (alphaBetaRest env sub depth s board alpha beta do_null tt_move).s := by
  unfold alphaBetaRest
  by_cases c4 : depth ≤ 0
  · rw [if_pos c4]
    obtain ⟨v, n, b1, h⟩ := quiescence_uniform env board alpha beta 0
    rw [h]
    exact ⟨rfl, rfl, rfl, rfl, fun _ _ _ => rfl⟩
  rw [if_neg c4]
  have hd1 : 1 ≤ depth ∧ depth ≤ D := ⟨by omega, hd⟩
  by_cases c5 : do_null = true ∧ depth ≥ 3 ∧ board.in_check env.t board.side_to_move = false
  · rw [if_pos c5]
    simp only []
    have hr := hsub (depth - 3) (by omega) s
      (board.make_move env.z (Move.mk 0 0 0 0 0 false false)) (-beta) (-beta + 1) false
    by_cases c6 : -(sub (depth - 3) s (board.make_move env.z (Move.mk 0 0 0 0 0 false false))
        (-beta) (-beta + 1) false).value ≥ beta
    · rw [if_pos c6]
      exact hr
    · rw [if_neg c6]
      exact hr.trans (alphaBetaTail_frame env hsub hd1 _ _ _ _ _)
  · rw [if_neg c5]
    exact alphaBetaTail_frame env hsub hd1 _ _ _ _ _

theorem alphaBetaBody_frame (env : SearchEnv) {D : Int}
    {sub : Int → Searcher → Board → Int → Int → Bool → SearchResult}
    (hsub : ∀ d, d ≤ D → ∀ s b al be dn, SearchFrame D s (sub d s b al be dn).s)
    {depth : Int} (hd : depth ≤ D) (s : Searcher) (board : Board) (alpha beta : Int)
    (do_null : Bool) :
    SearchFrame D s (alphaBetaBody env sub depth s board alpha beta do_null).s := by
  rw [alphaBetaBody_eq]
  have hs1 : SearchFrame D s
      { s with stats := { s.stats with nodes := s.stats.nodes + 1,
                                       tthits := s.stats.tthits + 1 } } :=
    ⟨rfl, rfl, rfl, rfl, fun _ _ _ => rfl⟩
  have hs2 : SearchFrame D s
      { s with stats := { s.stats with nodes := s.stats.nodes + 1 } } :=
    ⟨rfl, rfl, rfl, rfl, fun _ _ _ => rfl⟩
  split
  · split
    · exact hs1
    · split
      · exact hs1
      · split
        · exact hs1
        · exact hs1.trans (alphaBetaRest_frame env hsub hd _ _ _ _ _ _)
  · exact hs2.trans (alphaBetaRest_frame env hsub hd _ _ _ _ _ _)

/-- Whatever the bound on the nesting, a call of `alpha_beta` with remaining depth at most
`D` keeps `stop_search`, the fields `depth`, `score` and `best_move` of `stats`, and every
entry of `killer_moves` outside the rows `1..D` and the columns `0..1`. -/
theorem alphaBetaFuel_frame (env : SearchEnv) (D : Int) : ∀ (fuel : Nat) (depth : Int),
    depth ≤ D → ∀ (s : Searcher) (b : Board) (al be : Int) (dn : Bool),
      SearchFrame D s (alphaBetaFuel env fuel depth s b al be dn).s
  | 0, _, _, s, _, _, _, _ => SearchFrame.of_same D s
  | fuel + 1, _, hd, s, b, al, be, dn =>
    alphaBetaBody_frame env (fun d hd2 => alphaBetaFuel_frame env D fuel d hd2) hd s b al be dn

theorem alpha_beta_frame (env : SearchEnv) (s : Searcher) (board : Board)
    (depth alpha beta : Int) (do_null : Bool) :
    SearchFrame depth s (Searcher.alpha_beta env s board depth alpha beta do_null).s :=
  alphaBetaFuel_frame env depth _ depth (le_refl _) s board alpha beta do_null

/-! ## The iterations of `search` -/

/-- What one iteration of `search` that starts does to `best_score`, `stats.score` and
`stats.best_move`. -/
theorem searchStep_spec (env : SearchEnv) (clock : Int → Int)
    (limits : SearchLimits) (st : SearchLoop) (depth : Int)
    (hrun : st.done = false ∧ st.s.stop_search = false) :
    ((Searcher.alpha_beta env { st.s with stats := { st.s.stats with depth := depth } } st.board
        depth (-1000000) 1000000 true).value ≤ st.best_score →
      (searchStep env clock limits st depth).s.stats.best_move = st.s.stats.best_move ∧
      (searchStep env clock limits st depth).s.stats.score = st.s.stats.score ∧
      (searchStep env clock limits st depth).best_score = st.best_score) ∧
    ((Searcher.alpha_beta env { st.s with stats := { st.s.stats with depth := depth } } st.board
        depth (-1000000) 1000000 true).value > st.best_score →
      (searchStep env clock limits st depth).best_score =
        (Searcher.alpha_beta env { st.s with stats := { st.s.stats with depth := depth } }
          st.board depth (-1000000) 1000000 true).value ∧
      (searchStep env clock limits st depth).s.stats.score =
        (Searcher.alpha_beta env { st.s with stats := { st.s.stats with depth := depth } }
          st.board depth (-1000000) 1000000 true).value ∧
      (searchStep env clock limits st depth).s.stats.best_move =
        if ((Searcher.alpha_beta env { st.s with stats := { st.s.stats with depth := depth } }
              st.board depth (-1000000) 1000000 true).s.tt.probe
            (Searcher.alpha_beta env { st.s with stats := { st.s.stats with depth := depth } }
              st.board depth (-1000000) 1000000 true).board.zobrist_key
            depth 0 TTFlag.TT_EXACT env.stale).hit = true
        then
          ((Searcher.alpha_beta env { st.s with stats := { st.s.stats with depth := depth } }
              st.board depth (-1000000) 1000000 true).s.tt.probe
            (Searcher.alpha_beta env { st.s with stats := { st.s.stats with depth := depth } }
              st.board depth (-1000000) 1000000 true).board.zobrist_key
            depth 0 TTFlag.TT_EXACT env.stale).best_move
        else st.s.stats.best_move) := by
  have hfr := alpha_beta_frame env { st.s with stats := { st.s.stats with depth := depth } }
    st.board depth (-1000000) 1000000 true
  have hstep : searchStep env clock limits st depth =
      { searchUpdate env st depth
          (Searcher.alpha_beta env { st.s with stats := { st.s.stats with depth := depth } }
            st.board depth (-1000000) 1000000 true) with
        done := Searcher.stop_condition (searchUpdate env st depth
          (Searcher.alpha_beta env { st.s with stats := { st.s.stats with depth := depth } }
            st.board depth (-1000000) 1000000 true)).s limits (clock depth) } := by
    unfold searchStep
    rw [if_neg (by simp [hrun.1, hrun.2])]
  rw [hstep]
  generalize Searcher.alpha_beta env { st.s with stats := { st.s.stats with depth := depth } }
    st.board depth (-1000000) 1000000 true = r at hfr ⊢
  obtain ⟨hstop, -, hscore, hbm, -⟩ := hfr
  have hstop2 : r.s.stop_search = false := hstop.trans hrun.2
  refine ⟨?_, ?_⟩
  · intro hle
    have hupd : searchUpdate env st depth r =
        { s := r.s, board := r.board, best_move := st.best_move, best_score := st.best_score,
          done := false } := by
      unfold searchUpdate
      simp only []
      rw [if_neg (by intro h; omega)]
    rw [hupd]
    exact ⟨hbm, hscore, rfl⟩
  · intro hgt
    by_cases hhit : (r.s.tt.probe r.board.zobrist_key depth 0 TTFlag.TT_EXACT env.stale).hit =
        true
    · have hupd : searchUpdate env st depth r =
          { s := { r.s with stats := { r.s.stats with
                score := r.value
                best_move := (r.s.tt.probe r.board.zobrist_key depth 0 TTFlag.TT_EXACT
                  env.stale).best_move } }
            board := r.board
            best_move := (r.s.tt.probe r.board.zobrist_key depth 0 TTFlag.TT_EXACT
              env.stale).best_move
            best_score := r.value, done := false } := by
        unfold searchUpdate
        simp only []
        rw [if_pos ⟨hstop2, hgt⟩, if_pos hhit]
      rw [hupd, if_pos hhit]
      exact ⟨rfl, rfl, rfl⟩
    · have hupd : searchUpdate env st depth r =
          { s := { r.s with stats := { r.s.stats with score := r.value } }
            board := r.board, best_move := st.best_move, best_score := r.value,
            done := false } := by
        unfold searchUpdate
        simp only []
        rw [if_pos ⟨hstop2, hgt⟩, if_neg hhit]
      rw [hupd, if_neg hhit]
      exact ⟨rfl, rfl, hbm⟩

theorem searchUpdate_stop (env : SearchEnv) (st : SearchLoop) (depth : Int)
    (r : SearchResult) : (searchUpdate env st depth r).s.stop_search = r.s.stop_search := by
  unfold searchUpdate
  simp only []
  split
  · split <;> rfl
  · rfl

/-- Nothing in `search` sets the stop flag. -/
theorem searchStep_stop (env : SearchEnv) (clock : Int → Int) (limits : SearchLimits)
    (st : SearchLoop) (depth : Int) :
    (searchStep env clock limits st depth).s.stop_search = st.s.stop_search := by
  unfold searchStep
  split
  · rfl
  · simp only []
    rw [searchUpdate_stop]
    exact (alpha_beta_frame env _ st.board depth (-1000000) 1000000 true).1

theorem searchDepths_succ (k : Nat) :
    searchDepths ((k + 1 : Nat) : Int) = searchDepths (k : Int) ++ [((k + 1 : Nat) : Int)] := by
  unfold searchDepths
  simp [List.range_succ]

theorem searchAfter_zero (env : SearchEnv) (clock : Int → Int) (limits : SearchLimits)
    (s : Searcher) (board : Board) :
    searchAfter env clock limits s board 0 = searchStart env s board := rfl

theorem searchAfter_succ (env : SearchEnv) (clock : Int → Int) (limits : SearchLimits)
    (s : Searcher) (board : Board) (k : Nat) :
    searchAfter env clock limits s board (k + 1) =
      searchStep env clock limits (searchAfter env clock limits s board k)
        ((k + 1 : Nat) : Int) := by
  unfold searchAfter
  rw [searchDepths_succ, List.foldl_append]
  rfl

theorem search_eq_searchAfter (env : SearchEnv) (clock : Int → Int) (limits : SearchLimits)
    (s : Searcher) (board : Board) :
    (Searcher.search env clock s board limits).stats =
      (searchAfter env clock limits s board limits.depth.toNat).s.stats := by
  have h : searchDepths ((limits.depth.toNat : Nat) : Int) = searchDepths limits.depth := by
    unfold searchDepths
    rw [Int.toNat_ofNat]
  unfold Searcher.search searchAfter
  rw [h]
  rfl

theorem searchAfter_stop (env : SearchEnv) (clock : Int → Int) (limits : SearchLimits)
    (s : Searcher) (board : Board) :
    ∀ k : Nat, (searchAfter env clock limits s board k).s.stop_search = false
  | 0 => rfl
  | k + 1 => by
    rw [searchAfter_succ, searchStep_stop]
    exact searchAfter_stop env clock limits s board k

/-- With no time limit and no node limit no iteration ends in a `break`. -/
theorem searchAfter_not_done (env : SearchEnv) (clock : Int → Int) (limits : SearchLimits)
    (s : Searcher) (board : Board) (hl : limits.movetime ≤ 0 ∧ limits.nodes ≤ 0) :
    ∀ k : Nat, (searchAfter env clock limits s board k).done = false
  | 0 => rfl
  | k + 1 => by
    have hd := searchAfter_not_done env clock limits s board hl k
    have hs := searchAfter_stop env clock limits s board (k + 1)
    rw [searchAfter_succ] at hs ⊢
    generalize ((k + 1 : Nat) : Int) = d at hs ⊢
    generalize searchAfter env clock limits s board k = st at hd hs ⊢
    have hs0 : st.s.stop_search = false := by
      rw [searchStep_stop] at hs
      exact hs
    unfold searchStep at hs ⊢
    rw [if_neg (by simp [hd, hs0])] at hs ⊢
    simp only [] at hs ⊢
    unfold Searcher.stop_condition
    rw [if_neg (by simp [hs]), if_neg (by intro h; omega), if_neg (by intro h; omega)]

/-- The iteration `d` of `search`, when the iterations before it ended without a `break`. -/
theorem iteration_spec (env : SearchEnv) (clock : Int → Int) (limits : SearchLimits)
    (s : Searcher) (board : Board) (d : Nat) (hd : 1 ≤ d)
    (hrun : (searchAfter env clock limits s board (d - 1)).done = false) :
    ((rootCall env clock limits s board d).value ≤
        (searchAfter env clock limits s board (d - 1)).best_score →
      (searchAfter env clock limits s board d).s.stats.best_move =
        (searchAfter env clock limits s board (d - 1)).s.stats.best_move ∧
      (searchAfter env clock limits s board d).s.stats.score =
        (searchAfter env clock limits s board (d - 1)).s.stats.score ∧
      (searchAfter env clock limits s board d).best_score =
        (searchAfter env clock limits s board (d - 1)).best_score) ∧
    ((rootCall env clock limits s board d).value >
        (searchAfter env clock limits s board (d - 1)).best_score →
      (searchAfter env clock limits s board d).best_score =
        (rootCall env clock limits s board d).value ∧
      (searchAfter env clock limits s board d).s.stats.score =
        (rootCall env clock limits s board d).value ∧
      (searchAfter env clock limits s board d).s.stats.best_move =
        if ((rootCall env clock limits s board d).s.tt.probe
            (rootCall env clock limits s board d).board.zobrist_key (d : Int) 0 TTFlag.TT_EXACT
            env.stale).hit = true
        then
          ((rootCall env clock limits s board d).s.tt.probe
            (rootCall env clock limits s board d).board.zobrist_key (d : Int) 0 TTFlag.TT_EXACT
            env.stale).best_move
        else (searchAfter env clock limits s board (d - 1)).s.stats.best_move) := by
  obtain ⟨k, rfl⟩ : ∃ k, d = k + 1 := ⟨d - 1, by omega⟩
  simp only [Nat.add_sub_cancel] at hrun ⊢
  have h := searchStep_spec env clock limits (searchAfter env clock limits s board k)
    ((k + 1 : Nat) : Int) ⟨hrun, searchAfter_stop env clock limits s board k⟩
  rw [searchAfter_succ]
  have hr : rootCall env clock limits s board (k + 1) =
      Searcher.alpha_beta env
        { (searchAfter env clock limits s board k).s with
          stats := { (searchAfter env clock limits s board k).s.stats with
            depth := ((k + 1 : Nat) : Int) } }
        (searchAfter env clock limits s board k).board ((k + 1 : Nat) : Int) (-1000000) 1000000
        true := by
    unfold rootCall
    simp only [Nat.add_sub_cancel]
  rw [hr]
  exact h

/-- The local `best_score` after the iterations `1..k` is the highest of -1000000 and the
scores of these iterations. -/
theorem best_score_spec (env : SearchEnv) (clock : Int → Int) (limits : SearchLimits)
    (s : Searcher) (board : Board) (D : Nat)
    (hrun : ∀ k, k < D → (searchAfter env clock limits s board k).done = false) :
    ∀ k, k ≤ D →
      -1000000 ≤ (searchAfter env clock limits s board k).best_score ∧
      (∀ d, 1 ≤ d → d ≤ k → (rootCall env clock limits s board d).value ≤
        (searchAfter env clock limits s board k).best_score) ∧
      ((searchAfter env clock limits s board k).best_score = -1000000 ∨
        ∃ d, 1 ≤ d ∧ d ≤ k ∧ (searchAfter env clock limits s board k).best_score =
          (rootCall env clock limits s board d).value) := by
  intro k
  induction k with
  | zero =>
    intro _
    refine ⟨by show (-1000000 : Int) ≤ -1000000; omega, ?_, Or.inl rfl⟩
    intro d h1 h2
    omega
  | succ k ih =>
    intro hk
    obtain ⟨h0, hall, hex⟩ := ih (by omega)
    have hit := iteration_spec env clock limits s board (k + 1) (by omega)
      (by simpa using hrun k (by omega))
    simp only [Nat.add_sub_cancel] at hit
    by_cases hgt : (rootCall env clock limits s board (k + 1)).value >
        (searchAfter env clock limits s board k).best_score
    · obtain ⟨hbs, -, -⟩ := hit.2 hgt
      rw [hbs]
      refine ⟨by omega, ?_, Or.inr ⟨k + 1, by omega, le_refl _, rfl⟩⟩
      intro d h1 h2
      by_cases hdk : d = k + 1
      · subst hdk
        exact le_refl _
      · have := hall d h1 (by omega)
        omega
    · obtain ⟨-, -, hbs⟩ := hit.1 (by omega)
      rw [hbs]
      refine ⟨h0, ?_, ?_⟩
      · intro d h1 h2
        by_cases hdk : d = k + 1
        · subst hdk
          omega
        · exact hall d h1 (by omega)
      · rcases hex with h | ⟨d, h1, h2, h3⟩
        · exact Or.inl h
        · exact Or.inr ⟨d, h1, by omega, h3⟩

/-- After an iteration `j` whose score exceeded `best_score`, iterations that do not score
above it leave `best_score`, `stats.score` and `stats.best_move` as iteration `j` left them. -/
theorem search_keeps_after (env : SearchEnv) (clock : Int → Int) (limits : SearchLimits)
    (s : Searcher) (board : Board) (D : Nat)
    (hrun : ∀ k, k < D → (searchAfter env clock limits s board k).done = false)
    (j : Nat) (hj1 : 1 ≤ j)
    (hgt : (rootCall env clock limits s board j).value >
      (searchAfter env clock limits s board (j - 1)).best_score)
    (hlater : ∀ d, j < d → d ≤ D → (rootCall env clock limits s board d).value ≤
      (rootCall env clock limits s board j).value) :
    ∀ d, j ≤ d → d ≤ D →
      (searchAfter env clock limits s board d).best_score =
        (rootCall env clock limits s board j).value ∧
      (searchAfter env clock limits s board d).s.stats.score =
        (rootCall env clock limits s board j).value ∧
      (searchAfter env clock limits s board d).s.stats.best_move =
        (searchAfter env clock limits s board j).s.stats.best_move := by
  intro d hjd
  induction d, hjd using Nat.le_induction with
  | base =>
    intro hjD
    obtain ⟨h1, h2, -⟩ := (iteration_spec env clock limits s board j hj1
      (hrun (j - 1) (by omega))).2 hgt
    exact ⟨h1, h2, rfl⟩
  | succ d hjd ih =>
    intro hdD
    obtain ⟨hbs, hsc, hbm⟩ := ih (by omega)
    have hit := iteration_spec env clock limits s board (d + 1) (by omega)
      (by simpa using hrun d (by omega))
    simp only [Nat.add_sub_cancel] at hit
    have hle := hlater (d + 1) (by omega) hdD
    obtain ⟨h1, h2, h3⟩ := hit.1 (by rw [hbs]; exact hle)
    exact ⟨h3.trans hbs, h2.trans hsc, h1.trans hbm⟩

/-- When no iteration scores above -1000000, `stats.best_move` and `stats.score` stay those
of `SearchStats()`. -/
theorem search_keeps_initial (env : SearchEnv) (clock : Int → Int) (limits : SearchLimits)
    (s : Searcher) (board : Board) (D : Nat)
    (hrun : ∀ k, k < D → (searchAfter env clock limits s board k).done = false)
    (hnone : ∀ d, 1 ≤ d → d ≤ D → (rootCall env clock limits s board d).value ≤ -1000000) :
    ∀ k, k ≤ D →
      (searchAfter env clock limits s board k).best_score = -1000000 ∧
      (searchAfter env clock limits s board k).s.stats.score = 0 ∧
      (searchAfter env clock limits s board k).s.stats.best_move =
        Move.mk 0 0 0 0 0 false false := by
  intro k
  induction k with
  | zero => intro _; exact ⟨rfl, rfl, rfl⟩
  | succ k ih =>
    intro hk
    obtain ⟨hbs, hsc, hbm⟩ := ih (by omega)
    have hit := iteration_spec env clock limits s board (k + 1) (by omega)
      (by simpa using hrun k (by omega))
    simp only [Nat.add_sub_cancel] at hit
    obtain ⟨h1, h2, h3⟩ := hit.1 (by rw [hbs]; exact hnone (k + 1) (by omega) hk)
    exact ⟨h3.trans hbs, h2.trans hsc, h1.trans hbm⟩

set_option maxHeartbeats 4000000 in
/-- C33, refuted as stated.  On 8/8/8/8/5K2/8/6k1/8 with White to move, a search with
`limits.depth == 2` and no other limit completes both iterations without a stop.  Iteration 1
scores -10 with the best move f4 -> f5 (29 -> 37); iteration 2 scores -40 and stores for the
root, at depth 2, the best move f4 -> g4 (29 -> 30).  As -40 is not above -10, `search`
returns the move of iteration 1, f4 -> f5, and the score -10, not the move f4 -> g4 of the
deepest completed iteration. -/
theorem C33_counterexample :
    ((Searcher.search envSample (fun _ => 0) Searcher.init
        (loadFen zSample "8/8/8/8/5K2/8/6k1/8 w - - 0 1")
        (SearchLimits.mk 1 0 0 false)).stats.best_move =
      Move.mk 29 37 WHITE_KING 0 0 false false ∧
    (Searcher.search envSample (fun _ => 0) Searcher.init
        (loadFen zSample "8/8/8/8/5K2/8/6k1/8 w - - 0 1")
        (SearchLimits.mk 1 0 0 false)).stats.score = -10) ∧
    ((Searcher.search envSample (fun _ => 0) Searcher.init
        (loadFen zSample "8/8/8/8/5K2/8/6k1/8 w - - 0 1")
        (SearchLimits.mk 2 0 0 false)).stats.depth = 2 ∧
    (Searcher.search envSample (fun _ => 0) Searcher.init
        (loadFen zSample "8/8/8/8/5K2/8/6k1/8 w - - 0 1")
        (SearchLimits.mk 2 0 0 false)).s.stop_search = false) ∧
    ((rootCall envSample (fun _ => 0) (SearchLimits.mk 2 0 0 false) Searcher.init
        (loadFen zSample "8/8/8/8/5K2/8/6k1/8 w - - 0 1") 1).value = -10 ∧
    (rootCall envSample (fun _ => 0) (SearchLimits.mk 2 0 0 false) Searcher.init
        (loadFen zSample "8/8/8/8/5K2/8/6k1/8 w - - 0 1") 2).value = -40) ∧
    ((Searcher.search envSample (fun _ => 0) Searcher.init
        (loadFen zSample "8/8/8/8/5K2/8/6k1/8 w - - 0 1")
        (SearchLimits.mk 2 0 0 false)).s.tt.probe
      (loadFen zSample "8/8/8/8/5K2/8/6k1/8 w - - 0 1").zobrist_key 2 0 TTFlag.TT_EXACT
        envSample.stale =
      { hit := true, value := -40, flag := TTFlag.TT_ALPHA,
        best_move := Move.mk 29 30 WHITE_KING 0 0 false false }) ∧
    ((Searcher.search envSample (fun _ => 0) Searcher.init
        (loadFen zSample "8/8/8/8/5K2/8/6k1/8 w - - 0 1")
        (SearchLimits.mk 2 0 0 false)).stats.best_move =
      Move.mk 29 37 WHITE_KING 0 0 false false ∧
    (Searcher.search envSample (fun _ => 0) Searcher.init
        (loadFen zSample "8/8/8/8/5K2/8/6k1/8 w - - 0 1")
        (SearchLimits.mk 2 0 0 false)).stats.score = -10) := by
  refine ⟨⟨?_, ?_⟩, ⟨?_, ?_⟩, ⟨?_, ?_⟩, ?_, ⟨?_, ?_⟩⟩
  · decide!
  · decide!
  · decide!
  · decide!
  · decide!
  · decide!
  · decide!
  · decide!
  · decide!

/-- C33, amended: when the iterations `1..D` of `search` (`D = limits.depth`) all start,
none before the last ending in a `break`, the returned `SearchStats` is the one the loop
holds after iteration `D`.  Each iteration `d` calls `alpha_beta` at the root with depth `d`
and the window (-1000000, 1000000); the local `best_score` is the highest of -1000000 and the
scores of the iterations so far.  An iteration whose score is not above `best_score` leaves
`stats.best_move`, `stats.score` and `best_score` as they were; one whose score is above it
sets `best_score` and `stats.score` to its score and `stats.best_move` to the best move of
the root entry of the transposition table if the probe at depth `d` hits.  Hence the returned
`best_move` and `score` are those left by the last iteration `j` whose score exceeded the
scores of all earlier iterations (every later iteration scoring at most as much), which need
not be iteration `D`; and when no iteration scores above -1000000 they are the all-zero Move
and 0 of `SearchStats()`. -/
theorem C33_search_keeps_best_scoring_iteration (env : SearchEnv) (clock : Int → Int)
    (limits : SearchLimits) (s : Searcher) (board : Board)
    (hrun : ∀ k, k < limits.depth.toNat →
      (searchAfter env clock limits s board k).done = false) :
    (Searcher.search env clock s board limits).stats =
      (searchAfter env clock limits s board limits.depth.toNat).s.stats ∧
    (∀ d, 1 ≤ d → d ≤ limits.depth.toNat →
      ((rootCall env clock limits s board d).value ≤
          (searchAfter env clock limits s board (d - 1)).best_score →
        (searchAfter env clock limits s board d).s.stats.best_move =
          (searchAfter env clock limits s board (d - 1)).s.stats.best_move ∧
        (searchAfter env clock limits s board d).s.stats.score =
          (searchAfter env clock limits s board (d - 1)).s.stats.score ∧
        (searchAfter env clock limits s board d).best_score =
          (searchAfter env clock limits s board (d - 1)).best_score) ∧
      ((rootCall env clock limits s board d).value >
          (searchAfter env clock limits s board (d - 1)).best_score →
        (searchAfter env clock limits s board d).best_score =
          (rootCall env clock limits s board d).value ∧
        (searchAfter env clock limits s board d).s.stats.score =
          (rootCall env clock limits s board d).value ∧
        (searchAfter env clock limits s board d).s.stats.best_move =
          if ((rootCall env clock limits s board d).s.tt.probe
              (rootCall env clock limits s board d).board.zobrist_key (d : Int) 0
              TTFlag.TT_EXACT env.stale).hit = true
          then
            ((rootCall env clock limits s board d).s.tt.probe
              (rootCall env clock limits s board d).board.zobrist_key (d : Int) 0
              TTFlag.TT_EXACT env.stale).best_move
          else (searchAfter env clock limits s board (d - 1)).s.stats.best_move)) ∧
    (∀ k, k ≤ limits.depth.toNat →
      -1000000 ≤ (searchAfter env clock limits s board k).best_score ∧
      (∀ d, 1 ≤ d → d ≤ k → (rootCall env clock limits s board d).value ≤
        (searchAfter env clock limits s board k).best_score) ∧
      ((searchAfter env clock limits s board k).best_score = -1000000 ∨
        ∃ d, 1 ≤ d ∧ d ≤ k ∧ (searchAfter env clock limits s board k).best_score =
          (rootCall env clock limits s board d).value)) ∧
    (∀ j, 1 ≤ j → j ≤ limits.depth.toNat →
      (rootCall env clock limits s board j).value >
        (searchAfter env clock limits s board (j - 1)).best_score →
      (∀ d, j < d → d ≤ limits.depth.toNat →
        (rootCall env clock limits s board d).value ≤
          (rootCall env clock limits s board j).value) →
      (Searcher.search env clock s board limits).stats.best_move =
        (searchAfter env clock limits s board j).s.stats.best_move ∧
      (Searcher.search env clock s board limits).stats.score =
        (rootCall env clock limits s board j).value) ∧
    ((∀ d, 1 ≤ d → d ≤ limits.depth.toNat →
        (rootCall env clock limits s board d).value ≤ -1000000) →
      (Searcher.search env clock s board limits).stats.best_move =
        Move.mk 0 0 0 0 0 false false ∧
      (Searcher.search env clock s board limits).stats.score = 0) := by
  have hs := search_eq_searchAfter env clock limits s board
  refine ⟨hs, ?_, best_score_spec env clock limits s board _ hrun, ?_, ?_⟩
  · intro d h1 h2
    exact iteration_spec env clock limits s board d h1 (hrun (d - 1) (by omega))
  · intro j h1 h2 hgt hlater
    obtain ⟨-, hsc, hbm⟩ := search_keeps_after env clock limits s board _ hrun j h1 hgt hlater
      limits.depth.toNat h2 (le_refl _)
    rw [hs]
    exact ⟨hbm, hsc⟩
  · intro hnone
    obtain ⟨-, hsc, hbm⟩ := search_keeps_initial env clock limits s board _ hrun hnone
      limits.depth.toNat (le_refl _)
    rw [hs]
    exact ⟨hbm, hsc⟩

set_option maxHeartbeats 4000000 in
theorem C33_search_keeps_best_scoring_iteration_witness :
    (Searcher.search envSample (fun _ => 0) Searcher.init
        (loadFen zSample "8/8/8/8/5K2/8/6k1/8 w - - 0 1")
        (SearchLimits.mk 2 0 0 false)).stats.best_move =
      (searchAfter envSample (fun _ => 0) (SearchLimits.mk 2 0 0 false) Searcher.init
        (loadFen zSample "8/8/8/8/5K2/8/6k1/8 w - - 0 1") 1).s.stats.best_move ∧
    (Searcher.search envSample (fun _ => 0) Searcher.init
        (loadFen zSample "8/8/8/8/5K2/8/6k1/8 w - - 0 1")
        (SearchLimits.mk 2 0 0 false)).stats.score =
      (rootCall envSample (fun _ => 0) (SearchLimits.mk 2 0 0 false) Searcher.init
        (loadFen zSample "8/8/8/8/5K2/8/6k1/8 w - - 0 1") 1).value :=
  (C33_search_keeps_best_scoring_iteration envSample (fun _ => 0) (SearchLimits.mk 2 0 0 false)
    Searcher.init (loadFen zSample "8/8/8/8/5K2/8/6k1/8 w - - 0 1")
    (fun k _ => searchAfter_not_done envSample (fun _ => 0) (SearchLimits.mk 2 0 0 false)
      Searcher.init (loadFen zSample "8/8/8/8/5K2/8/6k1/8 w - - 0 1")
      ⟨by decide, by decide⟩ k)).2.2.2.1 1 (by decide) (by decide) (by decide!)
    (fun d h1 h2 => by
      have h3 : d ≤ 2 := h2
      have h4 : d = 2 := by omega
      subst h4
      decide!)

/-! ## The entries of `killer_moves` a search reads -/

theorem AgreeOnSlots.of_equal (D : Int) (s : Searcher) : AgreeOnSlots D s s :=
  ⟨rfl, rfl, rfl, fun _ _ _ => rfl⟩

theorem score_move_agree {D : Int} {s1 s2 : Searcher} (h : AgreeOnSlots D s1 s2)
    {depth : Int} (hd : 1 ≤ depth ∧ depth ≤ D) (move tt_move : Move) :
    s1.score_move move tt_move depth = s2.score_move move tt_move depth := by
  unfold Searcher.score_move
  rw [h.2.2.2 depth 0 ⟨hd, Or.inl rfl⟩, h.2.2.2 depth 1 ⟨hd, Or.inr rfl⟩]

theorem order_moves_agree (env : SearchEnv) {D : Int} {s1 s2 : Searcher}
    (h : AgreeOnSlots D s1 s2) {depth : Int} (hd : 1 ≤ depth ∧ depth ≤ D) (moves : List Move)
    (tt_move : Move) :
    Searcher.order_moves env s1 moves tt_move depth =
      Searcher.order_moves env s2 moves tt_move depth := by
  unfold Searcher.order_moves
  have : (fun a b : Move =>
      decide (s1.score_move a tt_move depth > s1.score_move b tt_move depth)) =
      (fun a b : Move =>
        decide (s2.score_move a tt_move depth > s2.score_move b tt_move depth)) := by
    funext a b
    rw [score_move_agree h hd a, score_move_agree h hd b]
  rw [this]

theorem killerUpdate_agree {D depth : Int} (hd : 1 ≤ depth ∧ depth ≤ D)
    {k1 k2 : Int → Int → Move} (h : ∀ d i, KillerSlot D d i → k1 d i = k2 d i) (move : Move)
    (d i : Int) (hs : KillerSlot D d i) :
    killerUpdate k1 depth move d i = killerUpdate k2 depth move d i := by
  unfold killerUpdate
  rw [h depth 0 ⟨hd, Or.inl rfl⟩, h d i hs]

theorem alphaBetaScore_agree {D : Int}
    {sub : Int → Searcher → Board → Int → Int → Bool → SearchResult}
    (hsub : ∀ d, d ≤ D → ∀ s1 s2 b al be dn, AgreeOnSlots D s1 s2 →
      ResultsAgree D (sub d s1 b al be dn) (sub d s2 b al be dn))
    {depth : Int} (hd : depth ≤ D) (beta : Int) {st1 st2 : ABLoop} (h : LoopsAgree D st1 st2)
    (b1 : Board) :
    ResultsAgree D (alphaBetaScore sub depth beta st1 b1) (alphaBetaScore sub depth beta st2 b1) := by
  obtain ⟨s1, board1, alpha1, bv1, bm1, ms1, done1⟩ := st1
  obtain ⟨s2, board2, alpha2, bv2, bm2, ms2, done2⟩ := st2
  obtain ⟨hs, hb, ha, hbv, hbm, hms, hdone⟩ := h
  simp only at hs hb ha hbv hbm hms hdone
  subst hb ha hbv hbm hms hdone
  unfold alphaBetaScore
  simp only []
  by_cases h0 : ms1 = 0
  · rw [if_pos h0, if_pos h0]
    obtain ⟨hv, hbd, hss⟩ := hsub (depth - 1) (by omega) s1 s2 b1 (-beta) (-alpha1) true hs
    exact ⟨by show -_ = -_; rw [hv], hbd, hss⟩
  · rw [if_neg h0, if_neg h0]
    have hred : (0 : Int) ≤ (if depth ≥ 3 ∧ ms1 ≥ 4 then (1 : Int) else 0) := by
      split <;> omega
    generalize (if depth ≥ 3 ∧ ms1 ≥ 4 then (1 : Int) else 0) = red at hred
    obtain ⟨hv, hbd, hss⟩ := hsub (depth - 1 - red) (by omega) s1 s2 b1 (-alpha1 - 1) (-alpha1)
      true hs
    rw [← hv, ← hbd]
    by_cases hre : -(sub (depth - 1 - red) s1 b1 (-alpha1 - 1) (-alpha1) true).value > alpha1
    · rw [if_pos hre, if_pos hre]
      obtain ⟨hv2, hbd2, hss2⟩ := hsub (depth - 1) (by omega) _ _
        (sub (depth - 1 - red) s1 b1 (-alpha1 - 1) (-alpha1) true).board (-beta) (-alpha1)
        true hss
      exact ⟨by show -_ = -_; rw [hv2], hbd2, hss2⟩
    · rw [if_neg hre, if_neg hre]
      exact ⟨rfl, rfl, hss⟩

theorem alphaBetaUpdate_agree {D depth : Int} (hd : 1 ≤ depth ∧ depth ≤ D) (beta : Int)
    {st1 st2 : ABLoop} (h : LoopsAgree D st1 st2) (move : Move) (undo : UndoInfo)
    {r1 r2 : SearchResult} (hr : ResultsAgree D r1 r2) :
    LoopsAgree D (alphaBetaUpdate depth beta st1 move undo r1)
      (alphaBetaUpdate depth beta st2 move undo r2) := by
  obtain ⟨s1, board1, alpha1, bv1, bm1, ms1, done1⟩ := st1
  obtain ⟨s2, board2, alpha2, bv2, bm2, ms2, done2⟩ := st2
  obtain ⟨-, -, ha, hbv, hbm, hms, -⟩ := h
  simp only at ha hbv hbm hms
  subst ha hbv hbm hms
  obtain ⟨v1, rs1, rb1⟩ := r1
  obtain ⟨v2, rs2, rb2⟩ := r2
  obtain ⟨hv, hb, hs⟩ := hr
  simp only at hv hb hs
  subst hv hb
  unfold alphaBetaUpdate
  simp only []
  by_cases hcut : (if v1 > alpha1 then v1 else alpha1) ≥ beta
  · rw [if_pos hcut, if_pos hcut]
    refine ⟨?_, rfl, rfl, rfl, rfl, rfl, rfl⟩
    by_cases hcap : move.captured = 0
    · simp only [if_pos hcap]
      exact ⟨hs.1, hs.2.1, hs.2.2.1, fun d i hsl => killerUpdate_agree hd hs.2.2.2 move d i hsl⟩
    · simp only [if_neg hcap]
      exact hs
  · rw [if_neg hcut, if_neg hcut]
    exact ⟨hs, rfl, rfl, rfl, rfl, rfl, rfl⟩

theorem alphaBetaStep_agree (env : SearchEnv) {D : Int}
    {sub : Int → Searcher → Board → Int → Int → Bool → SearchResult}
    (hsub : ∀ d, d ≤ D → ∀ s1 s2 b al be dn, AgreeOnSlots D s1 s2 →
      ResultsAgree D (sub d s1 b al be dn) (sub d s2 b al be dn))
    {depth : Int} (hd : 1 ≤ depth ∧ depth ≤ D) (beta : Int) {st1 st2 : ABLoop}
    (h : LoopsAgree D st1 st2) (move : Move) :
    LoopsAgree D (alphaBetaStep env sub depth beta st1 move)
      (alphaBetaStep env sub depth beta st2 move) := by
  unfold alphaBetaStep
  have hdone := h.2.2.2.2.2.2
  have hboard := h.2.1
  rw [← hdone, ← hboard]
  by_cases hd1 : st1.done = true
  · rw [if_pos hd1, if_pos hd1]
    exact h
  · rw [if_neg hd1, if_neg hd1]
    simp only []
    by_cases hchk : (st1.board.make_move env.z move).in_check env.t
        (st1.board.make_move env.z move).side_to_move.other = true
    · rw [if_pos hchk, if_pos hchk]
      exact ⟨h.1, rfl, h.2.2.1, h.2.2.2.1, h.2.2.2.2.1, h.2.2.2.2.2.1, rfl⟩
    · rw [if_neg hchk, if_neg hchk]
      exact alphaBetaUpdate_agree hd beta h move _ (alphaBetaScore_agree hsub hd.2 beta h _)

theorem alphaBetaLoop_agree (env : SearchEnv) {D : Int}
    {sub : Int → Searcher → Board → Int → Int → Bool → SearchResult}
    (hsub : ∀ d, d ≤ D → ∀ s1 s2 b al be dn, AgreeOnSlots D s1 s2 →
      ResultsAgree D (sub d s1 b al be dn) (sub d s2 b al be dn))
    {depth : Int} (hd : 1 ≤ depth ∧ depth ≤ D) (beta : Int) :
    ∀ (moves : List Move) (st1 st2 : ABLoop), LoopsAgree D st1 st2 →
      LoopsAgree D (moves.foldl (alphaBetaStep env sub depth beta) st1)
        (moves.foldl (alphaBetaStep env sub depth beta) st2)
  | [], _, _, h => h
  | m :: ms, st1, st2, h => by
    rw [List.foldl_cons, List.foldl_cons]
    exact alphaBetaLoop_agree env hsub hd beta ms _ _ (alphaBetaStep_agree env hsub hd beta h m)

theorem alphaBetaTail_agree (env : SearchEnv) {D : Int}
    {sub : Int → Searcher → Board → Int → Int → Bool → SearchResult}
    (hsub : ∀ d, d ≤ D → ∀ s1 s2 b al be dn, AgreeOnSlots D s1 s2 →
      ResultsAgree D (sub d s1 b al be dn) (sub d s2 b al be dn))
    {depth : Int} (hd : 1 ≤ depth ∧ depth ≤ D) {s1 s2 : Searcher} (h : AgreeOnSlots D s1 s2)
    (board : Board) (alpha beta : Int) (tt_move : Move) :
    ResultsAgree D (alphaBetaTail env sub s1 board depth alpha beta tt_move)
      (alphaBetaTail env sub s2 board depth alpha beta tt_move) := by
  unfold alphaBetaTail
  simp only []
  by_cases hm : MoveGenerator.generate_moves env.t board = []
  · rw [if_pos hm, if_pos hm]
    by_cases hc : board.in_check env.t board.side_to_move = true
    · rw [if_pos hc, if_pos hc]
      exact ⟨rfl, rfl, h⟩
    · rw [if_neg hc, if_neg hc]
      exact ⟨rfl, rfl, h⟩
  · rw [if_neg hm, if_neg hm]
    unfold alphaBetaMoves
    simp only []
    rw [← order_moves_agree env h hd]
    have hl := alphaBetaLoop_agree env hsub hd beta
      (Searcher.order_moves env s1 (MoveGenerator.generate_moves env.t board) tt_move depth)
      { s := s1, board := board, alpha := alpha, best_value := -1000000,
        best_move := (Searcher.order_moves env s1 (MoveGenerator.generate_moves env.t board)
          tt_move depth).headD (Move.mk 0 0 0 0 0 false false),
        moves_searched := 0, done := false }
      { s := s2, board := board, alpha := alpha, best_value := -1000000,
        best_move := (Searcher.order_moves env s1 (MoveGenerator.generate_moves env.t board)
          tt_move depth).headD (Move.mk 0 0 0 0 0 false false),
        moves_searched := 0, done := false }
      ⟨h, rfl, rfl, rfl, rfl, rfl, rfl⟩
    obtain ⟨hs, hb, ha, hbv, hbm, -, -⟩ := hl
    refine ⟨hbv, hb, ?_, hs.2.1, hs.2.2.1, hs.2.2.2⟩
    show TranspositionTable.store _ _ _ _ _ _ = TranspositionTable.store _ _ _ _ _ _
    rw [hs.1, hb, ha, hbv, hbm]

theorem addQnodes_agree {D : Int} {s1 s2 : Searcher} (h : AgreeOnSlots D s1 s2) (n : Int) :
    AgreeOnSlots D (s1.addQnodes n) (s2.addQnodes n) := by
  unfold Searcher.addQnodes
  exact ⟨h.1, by rw [h.2.1], h.2.2.1, h.2.2.2⟩

theorem alphaBetaRest_agree (env : SearchEnv) {D : Int}
    {sub : Int → Searcher → Board → Int → Int → Bool → SearchResult}
    (hsub : ∀ d, d ≤ D → ∀ s1 s2 b al be dn, AgreeOnSlots D s1 s2 →
      ResultsAgree D (sub d s1 b al be dn) (sub d s2 b al be dn))
    {depth : Int} (hd : depth ≤ D) {s1 s2 : Searcher} (h : AgreeOnSlots D s1 s2)
    (board : Board) (alpha beta : Int) (do_null : Bool) (tt_move : Move) :
    ResultsAgree D (alphaBetaRest env sub depth s1 board alpha beta do_null tt_move)
      (alphaBetaRest env sub depth s2 board alpha beta do_null tt_move) := by
  unfold alphaBetaRest
  by_cases c4 : depth ≤ 0
  · rw [if_pos c4, if_pos c4]
    obtain ⟨v, n, b1, hq⟩ := quiescence_uniform env board alpha beta 0
    rw [hq, hq]
    exact ⟨rfl, rfl, addQnodes_agree h n⟩
  rw [if_neg c4, if_neg c4]
  have hd1 : 1 ≤ depth ∧ depth ≤ D := ⟨by omega, hd⟩
  by_cases c5 : do_null = true ∧ depth ≥ 3 ∧ board.in_check env.t board.side_to_move = false
  · rw [if_pos c5, if_pos c5]
    simp only []
    obtain ⟨hv, hb, hs⟩ := hsub (depth - 3) (by omega) s1 s2
      (board.make_move env.z (Move.mk 0 0 0 0 0 false false)) (-beta) (-beta + 1) false h
    rw [← hv, ← hb]
    by_cases c6 : -(sub (depth - 3) s1 (board.make_move env.z (Move.mk 0 0 0 0 0 false false))
        (-beta) (-beta + 1) false).value ≥ beta
    · rw [if_pos c6, if_pos c6]
      exact ⟨rfl, rfl, hs⟩
    · rw [if_neg c6, if_neg c6]
      exact alphaBetaTail_agree env hsub hd1 hs _ _ _ _
  · rw [if_neg c5, if_neg c5]
    exact alphaBetaTail_agree env hsub hd1 h _ _ _ _

theorem alphaBetaBody_agree (env : SearchEnv) {D : Int}
    {sub : Int → Searcher → Board → Int → Int → Bool → SearchResult}
    (hsub : ∀ d, d ≤ D → ∀ s1 s2 b al be dn, AgreeOnSlots D s1 s2 →
      ResultsAgree D (sub d s1 b al be dn) (sub d s2 b al be dn))
    {depth : Int} (hd : depth ≤ D) {s1 s2 : Searcher} (h : AgreeOnSlots D s1 s2)
    (board : Board) (alpha beta : Int) (do_null : Bool) :
    ResultsAgree D (alphaBetaBody env sub depth s1 board alpha beta do_null)
      (alphaBetaBody env sub depth s2 board alpha beta do_null) := by
  obtain ⟨tt1, stats1, k1, stop1⟩ := s1
  obtain ⟨tt2, stats2, k2, stop2⟩ := s2
  obtain ⟨htt, hstats, hstop, hk⟩ := h
  simp only at htt hstats hstop hk
  subst htt hstats hstop
  rw [alphaBetaBody_eq, alphaBetaBody_eq]
  simp only []
  have hs1 : AgreeOnSlots D
      { tt := tt1, stats := { stats1 with nodes := stats1.nodes + 1,
                                          tthits := stats1.tthits + 1 },
        killer_moves := k1, stop_search := stop1 }
      { tt := tt1, stats := { stats1 with nodes := stats1.nodes + 1,
                                          tthits := stats1.tthits + 1 },
        killer_moves := k2, stop_search := stop1 } :=
    ⟨rfl, rfl, rfl, hk⟩
  have hs2 : AgreeOnSlots D
      { tt := tt1, stats := { stats1 with nodes := stats1.nodes + 1 },
        killer_moves := k1, stop_search := stop1 }
      { tt := tt1, stats := { stats1 with nodes := stats1.nodes + 1 },
        killer_moves := k2, stop_search := stop1 } :=
    ⟨rfl, rfl, rfl, hk⟩
  generalize tt1.probe board.zobrist_key depth 0 TTFlag.TT_EXACT env.stale = pr
  by_cases hh : pr.hit = true
  · rw [if_pos hh, if_pos hh]
    by_cases c1 : pr.flag = TTFlag.TT_EXACT
    · rw [if_pos c1, if_pos c1]
      exact ⟨rfl, rfl, hs1⟩
    rw [if_neg c1, if_neg c1]
    by_cases c2 : pr.flag = TTFlag.TT_ALPHA ∧ pr.value ≤ alpha
    · rw [if_pos c2, if_pos c2]
      exact ⟨rfl, rfl, hs1⟩
    rw [if_neg c2, if_neg c2]
    by_cases c3 : pr.flag = TTFlag.TT_BETA ∧ pr.value ≥ beta
    · rw [if_pos c3, if_pos c3]
      exact ⟨rfl, rfl, hs1⟩
    rw [if_neg c3, if_neg c3]
    exact alphaBetaRest_agree env hsub hd hs1 _ _ _ _ _
  · rw [if_neg hh, if_neg hh]
    exact alphaBetaRest_agree env hsub hd hs2 _ _ _ _ _

/-- Whatever the bound on the nesting, two calls of `alpha_beta` with remaining depth at
most `D` on Searchers that agree on the rows `1..D` and the columns `0..1` of `killer_moves`
(and on the other fields) return the same value and leave the same Board and Searchers that
agree again. -/
theorem alphaBetaFuel_agree (env : SearchEnv) (D : Int) : ∀ (fuel : Nat) (depth : Int),
    depth ≤ D → ∀ (s1 s2 : Searcher) (b : Board) (al be : Int) (dn : Bool),
      AgreeOnSlots D s1 s2 →
      ResultsAgree D (alphaBetaFuel env fuel depth s1 b al be dn)
        (alphaBetaFuel env fuel depth s2 b al be dn)
  | 0, _, _, _, _, _, _, _, _, h => ⟨rfl, rfl, h⟩
  | fuel + 1, _, hd, _, _, b, al, be, dn, h =>
    alphaBetaBody_agree env (fun d hd2 => alphaBetaFuel_agree env D fuel d hd2) hd h b al be dn

theorem alpha_beta_agree (env : SearchEnv) {D : Int} {s1 s2 : Searcher}
    (h : AgreeOnSlots D s1 s2) (board : Board) {depth : Int} (hd : depth ≤ D)
    (alpha beta : Int) (do_null : Bool) :
    ResultsAgree D (Searcher.alpha_beta env s1 board depth alpha beta do_null)
      (Searcher.alpha_beta env s2 board depth alpha beta do_null) :=
  alphaBetaFuel_agree env D _ depth hd s1 s2 board alpha beta do_null h

theorem searchUpdate_killers (env : SearchEnv) (st : SearchLoop) (depth : Int)
    (r : SearchResult) : (searchUpdate env st depth r).s.killer_moves = r.s.killer_moves := by
  unfold searchUpdate
  simp only []
  split
  · split <;> rfl
  · rfl

theorem searchStep_killers (env : SearchEnv) (clock : Int → Int) (limits : SearchLimits)
    {D : Int} (st : SearchLoop) {depth : Int} (hd : depth ≤ D) (d i : Int)
    (h : ¬ KillerSlot D d i) :
    (searchStep env clock limits st depth).s.killer_moves d i = st.s.killer_moves d i := by
  unfold searchStep
  split
  · rfl
  · simp only []
    rw [searchUpdate_killers]
    exact ((alpha_beta_frame env _ st.board depth (-1000000) 1000000 true).mono hd).2.2.2.2 d i h

theorem mem_searchDepths {limit d : Int} (h : d ∈ searchDepths limit) : 1 ≤ d ∧ d ≤ limit := by
  unfold searchDepths at h
  simp only [List.mem_map, List.mem_range] at h
  obtain ⟨i, hi, rfl⟩ := h
  omega

theorem searchLoop_killers (env : SearchEnv) (clock : Int → Int) (limits : SearchLimits)
    {D : Int} (d i : Int) (h : ¬ KillerSlot D d i) :
    ∀ (depths : List Int), (∀ x ∈ depths, x ≤ D) → ∀ st : SearchLoop,
      (depths.foldl (searchStep env clock limits) st).s.killer_moves d i = st.s.killer_moves d i
  | [], _, _ => rfl
  | x :: xs, hx, st => by
    rw [List.foldl_cons,
      searchLoop_killers env clock limits d i h xs (fun y hy => hx y (List.mem_cons_of_mem _ hy)),
      searchStep_killers env clock limits st (hx x (List.mem_cons_self _ _)) d i h]

theorem searchUpdate_agree (env : SearchEnv) {D : Int} {st1 st2 : SearchLoop}
    (h : SearchLoopsAgree D st1 st2) (depth : Int) {r1 r2 : SearchResult}
    (hr : ResultsAgree D r1 r2) :
    SearchLoopsAgree D (searchUpdate env st1 depth r1) (searchUpdate env st2 depth r2) := by
  obtain ⟨v1, ⟨tt1, stats1, k1, stop1⟩, rb1⟩ := r1
  obtain ⟨v2, ⟨tt2, stats2, k2, stop2⟩, rb2⟩ := r2
  obtain ⟨hv, hb, htt, hstats, hstop, hk⟩ := hr
  simp only at hv hb htt hstats hstop hk
  subst hv hb htt hstats hstop
  obtain ⟨ls1, lb1, lbm1, lbs1, ld1⟩ := st1
  obtain ⟨ls2, lb2, lbm2, lbs2, ld2⟩ := st2
  obtain ⟨-, -, hbm, hbs, -⟩ := h
  simp only at hbm hbs
  subst hbm hbs
  unfold searchUpdate
  simp only []
  by_cases hc : stop1 = false ∧ v1 > lbs1
  · rw [if_pos hc, if_pos hc]
    by_cases hh : (tt1.probe rb1.zobrist_key depth 0 TTFlag.TT_EXACT env.stale).hit = true
    · rw [if_pos hh, if_pos hh]
      exact ⟨⟨rfl, rfl, rfl, hk⟩, rfl, rfl, rfl, rfl⟩
    · rw [if_neg hh, if_neg hh]
      exact ⟨⟨rfl, rfl, rfl, hk⟩, rfl, rfl, rfl, rfl⟩
  · rw [if_neg hc, if_neg hc]
    exact ⟨⟨rfl, rfl, rfl, hk⟩, rfl, rfl, rfl, rfl⟩

theorem stop_condition_agree {D : Int} {s1 s2 : Searcher} (h : AgreeOnSlots D s1 s2)
    (limits : SearchLimits) (elapsed : Int) :
    s1.stop_condition limits elapsed = s2.stop_condition limits elapsed := by
  unfold Searcher.stop_condition
  rw [h.2.2.1, h.2.1]

theorem searchStep_agree (env : SearchEnv) (clock : Int → Int) (limits : SearchLimits)
    {D : Int} {st1 st2 : SearchLoop} (h : SearchLoopsAgree D st1 st2) {depth : Int}
    (hd : depth ≤ D) :
    SearchLoopsAgree D (searchStep env clock limits st1 depth)
      (searchStep env clock limits st2 depth) := by
  unfold searchStep
  obtain ⟨hs, hb, hbm, hbs, hdone⟩ := h
  rw [← hdone, ← hs.2.2.1, ← hb]
  by_cases hc : st1.done = true ∨ st1.s.stop_search = true
  · rw [if_pos hc, if_pos hc]
    exact ⟨hs, rfl, hbm, hbs, rfl⟩
  · rw [if_neg hc, if_neg hc]
    simp only []
    have hs1 : AgreeOnSlots D { st1.s with stats := { st1.s.stats with depth := depth } }
        { st2.s with stats := { st2.s.stats with depth := depth } } :=
      ⟨hs.1, by rw [hs.2.1], hs.2.2.1, hs.2.2.2⟩
    have hu := searchUpdate_agree env ⟨hs, hb, hbm, hbs, hdone⟩ depth
      (alpha_beta_agree env hs1 st1.board hd (-1000000) 1000000 true)
    refine ⟨hu.1, hu.2.1, hu.2.2.1, hu.2.2.2.1, ?_⟩
    exact stop_condition_agree hu.1 limits (clock depth)

theorem searchLoop_agree (env : SearchEnv) (clock : Int → Int) (limits : SearchLimits)
    {D : Int} :
    ∀ (depths : List Int), (∀ x ∈ depths, x ≤ D) → ∀ st1 st2 : SearchLoop,
      SearchLoopsAgree D st1 st2 →
      SearchLoopsAgree D (depths.foldl (searchStep env clock limits) st1)
        (depths.foldl (searchStep env clock limits) st2)
  | [], _, _, _, h => h
  | x :: xs, hx, st1, st2, h => by
    rw [List.foldl_cons, List.foldl_cons]
    exact searchLoop_agree env clock limits xs (fun y hy => hx y (List.mem_cons_of_mem _ hy)) _ _
      (searchStep_agree env clock limits h (hx x (List.mem_cons_self _ _)))

/-- A call of `alpha_beta` with `depth <= 0` ends at the probe of the transposition table
or in `quiescence`. -/
theorem alpha_beta_leaf (env : SearchEnv) (s : Searcher) (board : Board)
    (depth alpha beta : Int) (do_null : Bool) (hd : depth ≤ 0) :
    Searcher.alpha_beta env s board depth alpha beta do_null =
      (if (s.tt.probe board.zobrist_key depth 0 TTFlag.TT_EXACT env.stale).hit = true then
        if (s.tt.probe board.zobrist_key depth 0 TTFlag.TT_EXACT env.stale).flag =
            TTFlag.TT_EXACT then
          { value := (s.tt.probe board.zobrist_key depth 0 TTFlag.TT_EXACT env.stale).value
            s := { s with stats := { s.stats with nodes := s.stats.nodes + 1,
                                                  tthits := s.stats.tthits + 1 } }
            board := board }
        else if (s.tt.probe board.zobrist_key depth 0 TTFlag.TT_EXACT env.stale).flag =
            TTFlag.TT_ALPHA ∧
            (s.tt.probe board.zobrist_key depth 0 TTFlag.TT_EXACT env.stale).value ≤ alpha then
          { value := alpha
            s := { s with stats := { s.stats with nodes := s.stats.nodes + 1,
                                                  tthits := s.stats.tthits + 1 } }
            board := board }
        else if (s.tt.probe board.zobrist_key depth 0 TTFlag.TT_EXACT env.stale).flag =
            TTFlag.TT_BETA ∧
            (s.tt.probe board.zobrist_key depth 0 TTFlag.TT_EXACT env.stale).value ≥ beta then
          { value := beta
            s := { s with stats := { s.stats with nodes := s.stats.nodes + 1,
                                                  tthits := s.stats.tthits + 1 } }
            board := board }
        else
          Searcher.quiescence env
            { s with stats := { s.stats with nodes := s.stats.nodes + 1,
                                             tthits := s.stats.tthits + 1 } }
            board alpha beta 0
       else
        Searcher.quiescence env
          { s with stats := { s.stats with nodes := s.stats.nodes + 1 } } board alpha beta 0) := by
  rw [alpha_beta_unfold, alphaBetaBody_eq]
  unfold alphaBetaRest
  simp only [if_pos hd]

/-- C40: in a search started by `Searcher::search` with `1 <= limits.depth <= 99`, the
accesses to `killer_moves[100][2]` stay in the rows `1..99` and the columns `0..1`.  Reads:
two Searchers that agree on those entries (and on the table, `stats` and `stop_search`) give
the same `SearchStats` and the same Board, and agree again afterwards, whatever the other
entries of the total map hold.  Writes: every other entry is left as it was.  The same holds
for each call of `alpha_beta` with the rows `1..depth`, `depth` being its remaining-depth
argument, which is the row `score_move` and the killer update index.  And a call of `alpha_beta`
with `depth <= 0` ends at the probe of the transposition table or in `quiescence`: it does
not reach the move loop. -/
theorem C40_killer_indices_in_bounds (env : SearchEnv) (clock : Int → Int) (board : Board)
    (limits : SearchLimits) (hlim : 1 ≤ limits.depth ∧ limits.depth ≤ 99) :
    (∀ s1 s2 : Searcher, AgreeOnSlots 99 s1 s2 →
      (Searcher.search env clock s1 board limits).stats =
        (Searcher.search env clock s2 board limits).stats ∧
      (Searcher.search env clock s1 board limits).board =
        (Searcher.search env clock s2 board limits).board ∧
      AgreeOnSlots 99 (Searcher.search env clock s1 board limits).s
        (Searcher.search env clock s2 board limits).s) ∧
    (∀ (s : Searcher) (d i : Int), ¬ KillerSlot 99 d i →
      (Searcher.search env clock s board limits).s.killer_moves d i = s.killer_moves d i) ∧
    (∀ (s1 s2 : Searcher) (b : Board) (depth alpha beta : Int) (do_null : Bool),
      AgreeOnSlots depth s1 s2 →
      ResultsAgree depth (Searcher.alpha_beta env s1 b depth alpha beta do_null)
        (Searcher.alpha_beta env s2 b depth alpha beta do_null)) ∧
    (∀ (s : Searcher) (b : Board) (depth alpha beta : Int) (do_null : Bool) (d i : Int),
      ¬ KillerSlot depth d i →
      (Searcher.alpha_beta env s b depth alpha beta do_null).s.killer_moves d i =
        s.killer_moves d i) ∧
    (∀ (s : Searcher) (b : Board) (depth alpha beta : Int) (do_null : Bool), depth ≤ 0 →
      Searcher.alpha_beta env s b depth alpha beta do_null =
        (if (s.tt.probe b.zobrist_key depth 0 TTFlag.TT_EXACT env.stale).hit = true then
          if (s.tt.probe b.zobrist_key depth 0 TTFlag.TT_EXACT env.stale).flag =
              TTFlag.TT_EXACT then
            { value := (s.tt.probe b.zobrist_key depth 0 TTFlag.TT_EXACT env.stale).value
              s := { s with stats := { s.stats with nodes := s.stats.nodes + 1,
                                                    tthits := s.stats.tthits + 1 } }
              board := b }
          else if (s.tt.probe b.zobrist_key depth 0 TTFlag.TT_EXACT env.stale).flag =
              TTFlag.TT_ALPHA ∧
              (s.tt.probe b.zobrist_key depth 0 TTFlag.TT_EXACT env.stale).value ≤ alpha then
            { value := alpha
              s := { s with stats := { s.stats with nodes := s.stats.nodes + 1,
                                                    tthits := s.stats.tthits + 1 } }
              board := b }
          else if (s.tt.probe b.zobrist_key depth 0 TTFlag.TT_EXACT env.stale).flag =
              TTFlag.TT_BETA ∧
              (s.tt.probe b.zobrist_key depth 0 TTFlag.TT_EXACT env.stale).value ≥ beta then
            { value := beta
              s := { s with stats := { s.stats with nodes := s.stats.nodes + 1,
                                                    tthits := s.stats.tthits + 1 } }
              board := b }
          else
            Searcher.quiescence env
              { s with stats := { s.stats with nodes := s.stats.nodes + 1,
                                               tthits := s.stats.tthits + 1 } }
              b alpha beta 0
         else
          Searcher.quiescence env
            { s with stats := { s.stats with nodes := s.stats.nodes + 1 } } b alpha beta 0)) := by
  have hdepths : ∀ x ∈ searchDepths limits.depth, x ≤ 99 := fun x hx =>
    le_trans (mem_searchDepths hx).2 hlim.2
  refine ⟨?_, ?_, ?_, ?_, ?_⟩
  · intro s1 s2 h
    have hl := searchLoop_agree env clock limits (searchDepths limits.depth) hdepths
      { s := { s1 with
          stats := SearchStats.init, stop_search := false,
          tt := { s1.tt with current_age := s1.tt.current_age + 1 } }
        board := board, best_move := env.stale, best_score := -1000000, done := false }
      { s := { s2 with
          stats := SearchStats.init, stop_search := false,
          tt := { s2.tt with current_age := s2.tt.current_age + 1 } }
        board := board, best_move := env.stale, best_score := -1000000, done := false }
      ⟨⟨by show TranspositionTable.mk _ _ = TranspositionTable.mk _ _; rw [h.1], rfl, rfl,
        h.2.2.2⟩, rfl, rfl, rfl, rfl⟩
    exact ⟨hl.1.2.1, hl.2.1, hl.1⟩
  · intro s d i h
    exact searchLoop_killers env clock limits d i h (searchDepths limits.depth) hdepths _
  · intro s1 s2 b depth alpha beta do_null h
    exact alpha_beta_agree env h b (le_refl depth) alpha beta do_null
  · intro s b depth alpha beta do_null d i h
    exact (alpha_beta_frame env s b depth alpha beta do_null).2.2.2.2 d i h
  · intro s b depth alpha beta do_null hd
    exact alpha_beta_leaf env s b depth alpha beta do_null hd

theorem C40_killer_indices_in_bounds_witness :
    (Searcher.search envSample (fun _ => 0) Searcher.init
        (Board.set_from_fen zSample Board.init startFen).board
        SearchLimits.init).s.killer_moves 100 0 =
      Searcher.init.killer_moves 100 0 :=
  (C40_killer_indices_in_bounds envSample (fun _ => 0)
    (Board.set_from_fen zSample Board.init startFen).board SearchLimits.init
    (by decide)).2.1 Searcher.init 100 0 (by unfold KillerSlot; decide)

end YM07
